import Mathlib

/-!
# UnityResolve: catalog queries and the entry-point resolver

A shallow embedding of `src/UnityResolve.hpp`.  Catalog entities are plain
records, a `std::vector<T*>` is the list of the objects it points to (in vector
order), a `void*` is a natural number with `0` for `nullptr`, and an
`std::int32_t` is an integer.  A lookup that returns a pointer returns
`Option`: `none` is `nullptr`.
-/

set_option autoImplicit false

namespace UnityResolve

/-! ## Data model (lines 96-136, 243-250, 312-327) -/

/-- The backend selector `enum class Mode`. -/
inductive Mode where
  | Il2Cpp
  | Mono
  deriving DecidableEq, Repr

/-- The record `struct Type`: host type handle, fully-qualified name, byte size. -/
structure Type_ where
  address : Nat := 0
  name : String := ""
  size : Int := 0
  deriving DecidableEq, Repr

/-- The record `struct Field`.  `klass` is the raw value of the back-pointer. -/
structure Field where
  address : Nat := 0
  name : String := ""
  type : Type_ := {}
  klass : Nat := 0
  offset : Int := 0
  static_field : Bool := false
  vTable : Nat := 0
  deriving DecidableEq, Repr

/-- The record `struct Method::Arg`: parameter name and the pointed-to `Type`. -/
structure Method.Arg where
  name : String := ""
  pType : Type_ := {}
  deriving DecidableEq, Repr

/-- The record `struct Method`.  `function` is the resolved native pointer. -/
structure Method where
  address : Nat := 0
  name : String := ""
  klass : Nat := 0
  return_type : Type_ := {}
  flags : Int := 0
  static_function : Bool := false
  function : Nat := 0
  args : List Method.Arg := []
  deriving DecidableEq, Repr

/-- The record `struct Class`.  `self` is not a member of the C++ struct: it is
the address of the catalog object itself, the value of a `Class*` that points
at it, which the `klass` back-pointers of its members hold. -/
structure Class where
  address : Nat := 0
  name : String := ""
  parent : String := ""
  namespaze : String := ""
  fields : List Field := []
  methods : List Method := []
  objType : Nat := 0
  self : Nat := 0
  deriving DecidableEq, Repr

/-- The record `struct Assembly`. -/
structure Assembly where
  address : Nat := 0
  name : String := ""
  file : String := ""
  classes : List Class := []
  deriving DecidableEq, Repr

/-- What a C++ evaluation can do besides returning: read a vector out of range,
let an exception leave the function (`thrown`), or assign a null `const char*`
to a `std::string` (`undefined`): that has undefined behaviour, the process
does not go on and no handler catches it. -/
inductive Fault where
  | outOfRange
  | thrown
  | undefined
  deriving DecidableEq, Repr

/-- What a `catch (...)` handler that ends its function leaves of a fault raised
in the guarded block: an exception is caught, anything else is not. -/
def Fault.afterCatch : Option Fault → Option Fault
  | some Fault.thrown => none
  | e => e

deriving instance DecidableEq for Except

/-! ## `Class::Get<Method>` (lines 150-170) -/

/-- The inner range-for of `Get<Method>` (lines 156-159), run on the remaining
requested names with the current values of the two counters `i` and `index`.
For a requested name that is `"*"` or empty the conditional yields `true`
without evaluating `pMethod->args[i++]`, so `i` stays; otherwise the parameter
at `i` is read, `i` is incremented, and `index` counts the comparison when it
succeeds.  The result is the final `index`; `none` is a read past the end of
`pMethod->args`. -/
def Class.matchLoop (margs : List Method.Arg) : List String → Nat → Nat → Option Nat
  | [], _, index => some index
  | typeName :: rest, i, index =>
    if typeName = "*" ∨ typeName = "" then
      Class.matchLoop margs rest i (index + 1)
    else
      match margs[i]? with
      | none => none
      | some arg =>
        if arg.pType.name = typeName then
          Class.matchLoop margs rest (i + 1) (index + 1)
        else
          Class.matchLoop margs rest (i + 1) index

/-- The second loop of `Get<Method>` (lines 166-168): the first method whose
name equals `name`. -/
def Class.nameLoop (name : String) : List Method → Option Method
  | [] => none
  | pMethod :: rest =>
    if pMethod.name = name then some pMethod else Class.nameLoop name rest

/-- The first loop of `Get<Method>` (lines 151-164) over the remaining methods.
`Except.ok none` means the loop ran to its end without returning. -/
def Class.overloadLoop (name : String) (args : List String) :
    List Method → Except Fault (Option Method)
  | [] => Except.ok none
  | pMethod :: rest =>
    if pMethod.name = name then
      if pMethod.args = [] ∧ args = [] then
        Except.ok (some pMethod)
      else if pMethod.args.length = args.length then
        match Class.matchLoop pMethod.args args 0 0 with
        | none => Except.error Fault.outOfRange
        | some index =>
          if index = pMethod.args.length then Except.ok (some pMethod)
          else Class.overloadLoop name args rest
      else Class.overloadLoop name args rest
    else Class.overloadLoop name args rest

/-- The member `Class::Get<Method>(name, args = {})`: the overload loop, then the
name-only loop, then `nullptr`. -/
def Class.GetMethod (c : Class) (name : String) (args : List String := []) :
    Except Fault (Option Method) :=
  match Class.overloadLoop name args c.methods with
  | Except.error e => Except.error e
  | Except.ok (some pMethod) => Except.ok (some pMethod)
  | Except.ok none => Except.ok (Class.nameLoop name c.methods)

/-! ## `Class::Get<Field>` (lines 142-145) -/

/-- The loop of `Get<Field>` (lines 143-145): the first field whose name equals
`name`. -/
def Class.fieldLoop (name : String) : List Field → Option Field
  | [] => none
  | pField :: rest =>
    if pField.name = name then some pField else Class.fieldLoop name rest

/-- The member `Class::Get<Field>(name, args = {})`.  With `RType = Field` only
the first `if constexpr` is compiled, then `return nullptr`; `args` is not read. -/
def Class.GetField (c : Class) (name : String) (_args : List String := []) : Option Field :=
  Class.fieldLoop name c.fields

/-! ## `Assembly::Get` (lines 107-113) -/

/-- The loop of `Assembly::Get` (lines 109-111) over the remaining classes. -/
def Assembly.classLoop (strClass strNamespace strParent : String) : List Class → Option Class
  | [] => none
  | pClass :: rest =>
    if strClass = pClass.name ∧ (strNamespace = "*" ∨ pClass.namespaze = strNamespace)
        ∧ (strParent = "*" ∨ pClass.parent = strParent) then
      some pClass
    else Assembly.classLoop strClass strNamespace strParent rest

/-- The member `Assembly::Get(strClass, strNamespace = "*", strParent = "*")`. -/
def Assembly.Get (a : Assembly) (strClass : String) (strNamespace : String := "*")
    (strParent : String := "*") : Option Class :=
  Assembly.classLoop strClass strNamespace strParent a.classes

/-! ## Process-wide state and the entry-point resolver (lines 703-742, 3174-3177) -/

/-- One interaction with the operating environment: a symbol lookup
(`GetProcAddress` / `dlsym`) or a call through a resolved address. -/
inductive Event where
  | lookup (hmodule : Nat) (funcName : String)
  | call (address : Nat) (args : List Nat)
  deriving DecidableEq, Repr

/-- The operating environment.  Its answers may depend on every interaction so
far (an export can appear once the host has finished starting up).
`GetProcAddress` is the symbol-lookup primitive, `0` being a null result;
`call` is what a call through an address yields, `none` when the callee throws. -/
structure Host where
  GetProcAddress : List Event → Nat → String → Nat
  call : List Event → Nat → List Nat → Option Nat

/-- The static data members of `UnityResolve` with their initial values
(`mode_{}` is the first enumerator), and two things the program itself does not
keep: the history of interactions with the host, and the number of `Class`
objects allocated so far, from which `new Class()` takes the next address. -/
structure State where
  mode_ : Mode := Mode.Il2Cpp
  hmodule_ : Nat := 0
  address_ : String → Option Nat := fun _ => none
  pDomain : Nat := 0
  assembly : List Assembly := []
  trace : List Event := []
  allocated : Nat := 0

/-- The state before any member has run: every static at its initial value. -/
def initialState : State := {}

/-- Assignment `m[key] = value` on a `std::unordered_map<std::string, void*>`. -/
def mapAssign (m : String → Option Nat) (key : String) (value : Nat) : String → Option Nat :=
  fun k => if k = key then some value else m k

/-- Reading `m[key]`: the stored value; a missing key is inserted with a null
value first. -/
def mapIndex (m : String → Option Nat) (key : String) : Nat × (String → Option Nat) :=
  match m key with
  | some value => (value, m)
  | none => (0, mapAssign m key 0)

/-- The first statement of `Invoke` (lines 707-708, and 711-713 on the other
platforms, which agree): when the key is missing or maps to null, the lookup
primitive is called on `hmodule_` and its answer is stored, whatever it is. -/
def resolve (host : Host) (s : State) (funcName : String) : State :=
  if s.address_ funcName = none ∨ s.address_ funcName = some 0 then
    { s with
      address_ := mapAssign s.address_ funcName
        (host.GetProcAddress s.trace s.hmodule_ funcName)
      trace := s.trace ++ [Event.lookup s.hmodule_ funcName] }
  else s

/-- The static `UnityResolve::Invoke<Return>(funcName, args...)` (lines 703-729).
Values crossing the boundary are raw words and `Return()` is the zero word.
After `resolve`, a non-null `address_[funcName]` is called; a callee that
throws is caught and gives `Return()`, as does a null address. -/
def Invoke (host : Host) (s : State) (funcName : String) (args : List Nat) : Nat × State :=
  let s1 : State := resolve host s funcName
  let r := mapIndex s1.address_ funcName
  let s2 : State := { s1 with address_ := r.2 }
  if r.1 ≠ 0 then
    match host.call s2.trace r.1 args with
    | some value => (value, { s2 with trace := s2.trace ++ [Event.call r.1 args] })
    | none => (0, { s2 with trace := s2.trace ++ [Event.call r.1 args] })
  else (0, s2)

/-- Calling `Invoke(funcName, ...)` once per argument list, one call after the
other; the state left by the last call. -/
def InvokeRepeat (host : Host) (funcName : String) : State → List (List Nat) → State
  | s, [] => s
  | s, args :: rest => InvokeRepeat host funcName (Invoke host s funcName args).2 rest

/-- Number of calls of the lookup primitive for `funcName` in a history. -/
def lookupCount (funcName : String) (trace : List Event) : Nat :=
  trace.countP (fun e =>
    match e with
    | Event.lookup _ n => decide (n = funcName)
    | Event.call _ _ => false)

/-- The loop of the static `UnityResolve::Get` (lines 737-739). -/
def assemblyLoop (strAssembly : String) : List Assembly → Option Assembly
  | [] => none
  | pAssembly :: rest =>
    if pAssembly.name = strAssembly then some pAssembly else assemblyLoop strAssembly rest

/-- The static `UnityResolve::Get(strAssembly)` on the catalog `assembly`. -/
def Get (s : State) (strAssembly : String) : Option Assembly :=
  assemblyLoop strAssembly s.assembly

/-- The member `Assembly::Get` as a step of the process: a `const` member that
reads the class list of its receiver and writes nothing. -/
def Assembly.GetStep (s : State) (a : Assembly) (strClass : String)
    (strNamespace : String := "*") (strParent : String := "*") : Option Class × State :=
  (a.Get strClass strNamespace strParent, s)

/-- Invariant of the name-to-address map: every non-null address it holds is an
answer of the lookup primitive for that very name.  The only writes to
`address_` are the assignments of lines 708 and 712. -/
def cacheFromHost (host : Host) (s : State) : Prop :=
  ∀ key value, s.address_ key = some value → value ≠ 0 →
    ∃ trace hmodule, host.GetProcAddress trace hmodule key = value

/-! ## Invocation: by address, and of a cataloged method (lines 330-401, 3162-3170) -/

/-- A run of `Invoke` calls on any names, one call after the other; the state
left by the last call. -/
def InvokeSeq (host : Host) : State → List (String × List Nat) → State
  | s, [] => s
  | s, call :: rest => InvokeSeq host (Invoke host s call.1 call.2).2 rest

/-- The static `UnityType::Invoke<Return>(address, args...)` (lines 3162-3170):
a non-null address is called, a null one gives `Return()`.  There is no
`try` around the call, so an exception of the callee leaves the function. -/
def UnityType.Invoke (host : Host) (s : State) (address : Nat) (args : List Nat) :
    Except Fault Nat × State :=
  if address ≠ 0 then
    match host.call s.trace address args with
    | some value => (Except.ok value, { s with trace := s.trace ++ [Event.call address args] })
    | none => (Except.error Fault.thrown, { s with trace := s.trace ++ [Event.call address args] })
  else (Except.ok 0, s)

/-- The member `Method::Compile()` (lines 338-340): the method after the call
and the state after it. -/
def Method.Compile (host : Host) (s : State) (m : Method) : Method × State :=
  if m.address ≠ 0 ∧ m.function = 0 ∧ s.mode_ = Mode.Mono then
    ({ m with function := (UnityResolve.Invoke host s "mono_compile_method" [m.address]).1 },
      (UnityResolve.Invoke host s "mono_compile_method" [m.address]).2)
  else (m, s)

/-- The member `Method::Invoke<Return>(args...)` (lines 330-335): `Compile()`,
then a call through a non-null `function`, else `Return()`.  No `try`
surrounds the call. -/
def Method.Invoke (host : Host) (s : State) (m : Method) (args : List Nat) :
    Except Fault Nat × Method × State :=
  let c := Method.Compile host s m
  if c.1.function ≠ 0 then
    match host.call c.2.trace c.1.function args with
    | some value =>
      (Except.ok value, c.1, { c.2 with trace := c.2.trace ++ [Event.call c.1.function args] })
    | none =>
      (Except.error Fault.thrown, c.1,
        { c.2 with trace := c.2.trace ++ [Event.call c.1.function args] })
  else (Except.ok 0, c.1, c.2)

/-- The member `Method::Cast<Return, Args...>()` (lines 363-368): `Compile()`,
then `function` itself, which is `nullptr` when it is not set. -/
def Method.Cast (host : Host) (s : State) (m : Method) : Nat × Method × State :=
  let c := Method.Compile host s m
  if c.1.function ≠ 0 then (c.1.function, c.1, c.2) else (0, c.1, c.2)

/-- The member `Method::Cast(MethodPointer<Return, Args...>& ptr)` (lines
371-379): `Compile()`, then a non-null `function` is stored in `ptr` and
returned; otherwise `ptr` keeps its value and `nullptr` is returned.  The
components are the returned pointer, `ptr` after the call, the method and the
state. -/
def Method.CastPointer (host : Host) (s : State) (m : Method) (ptr : Nat) :
    Nat × Nat × Method × State :=
  let c := Method.Compile host s m
  if c.1.function ≠ 0 then (c.1.function, c.1.function, c.1, c.2) else (0, ptr, c.1, c.2)

/-- The member `Method::Cast(std::function<Return(Args...)>& ptr)` (lines
382-390), a `std::function` being the pointer it wraps (`0` when empty): the
same steps as the form that takes a `MethodPointer&`. -/
def Method.CastFunction (host : Host) (s : State) (m : Method) (ptr : Nat) :
    Nat × Nat × Method × State :=
  let c := Method.Compile host s m
  if c.1.function ≠ 0 then (c.1.function, c.1.function, c.1, c.2) else (0, ptr, c.1, c.2)

/-- The member `Method::Unbox<T>(obj)` (lines 393-401).  The call
`Invoke<void*>("mono_object_unbox", obj)` is written without `UnityResolve::`
inside `struct Method`, where the name `Invoke` is the member template of lines
330-335: it is `this->Invoke<void*>(name, obj)`, a call through the method's
own `function` with the string literal as first argument.  `lit` gives the
address of a string literal; the names are the ones each branch has. -/
def Method.Unbox (lit : String → Nat) (host : Host) (s : State) (m : Method) (obj : Nat) :
    Except Fault Nat × Method × State :=
  if s.mode_ = Mode.Il2Cpp then Method.Invoke host s m [lit "mono_object_unbox", obj]
  else Method.Invoke host s m [lit "il2cpp_object_unbox", obj]

/-- The member `Method::RuntimeInvoke<Return>(obj, args...)` (lines 343-360).
`argArray` is the address of the local array of argument addresses, handed over
only when there are arguments.  With a `void` return the request goes to the
static `UnityResolve::Invoke` (lines 349, 356) and the result of the host is
dropped.  Otherwise (lines 352, 359) `Invoke<void*>(...)` is unqualified, so it
is the member `Method::Invoke` with the literal name as first argument, and its
result goes through `Unbox`; an exception of the callee leaves the function. -/
def Method.RuntimeInvoke (lit : String → Nat) (host : Host) (s : State) (m : Method)
    (returnsVoid : Bool) (obj argArray : Nat) (args : List Nat) :
    Except Fault Nat × Method × State :=
  if s.mode_ = Mode.Il2Cpp then
    if returnsVoid then
      (Except.ok 0, m, (UnityResolve.Invoke host s "il2cpp_runtime_invoke"
        [m.address, obj, if args.length ≠ 0 then argArray else 0, 0]).2)
    else
      match Method.Invoke host s m
        [lit "il2cpp_runtime_invoke", m.address, obj, if args.length ≠ 0 then argArray else 0, 0]
      with
      | (Except.ok boxed, m1, s1) => Method.Unbox lit host s1 m1 boxed
      | (Except.error fault, m1, s1) => (Except.error fault, m1, s1)
  else if returnsVoid then
    (Except.ok 0, m, (UnityResolve.Invoke host s "mono_runtime_invoke"
      [m.address, obj, if args.length ≠ 0 then argArray else 0, 0]).2)
  else
    match Method.Invoke host s m
      [lit "mono_runtime_invoke", m.address, obj, if args.length ≠ 0 then argArray else 0, 0]
    with
    | (Except.ok boxed, m1, s1) => Method.Unbox lit host s1 m1 boxed
    | (Except.error fault, m1, s1) => (Except.error fault, m1, s1)

/-- The names handed to the lookup primitive in a history, in order. -/
def lookupNames : List Event → List String
  | [] => []
  | Event.lookup _ funcName :: rest => funcName :: lookupNames rest
  | Event.call _ _ :: rest => lookupNames rest

/-- The argument lists of the calls made through one address in a history, in
order. -/
def callsThrough (address : Nat) : List Event → List (List Nat)
  | [] => []
  | Event.lookup _ _ :: rest => callsThrough address rest
  | Event.call target args :: rest =>
    if target = address then args :: callsThrough address rest else callsThrough address rest

/-! ## The metadata walk: what the host answers -/

/-- `Invoke<Return>(funcName, args...)` (lines 703-729) at a return type `R`
with default value `dflt`, for a callee whose answer is given at that type:
`none` is a callee that throws.  The steps are those of `Invoke`. -/
def InvokeAs {R : Type} (dflt : R) (host : Host) (s : State) (funcName : String)
    (args : List Nat) (answer : Option R) : R × State :=
  let s1 : State := resolve host s funcName
  let r := mapIndex s1.address_ funcName
  let s2 : State := { s1 with address_ := r.2 }
  if r.1 ≠ 0 then
    match answer with
    | some value => (value, { s2 with trace := s2.trace ++ [Event.call r.1 args] })
    | none => (dflt, { s2 with trace := s2.trace ++ [Event.call r.1 args] })
  else (dflt, s2)

/-- What the entry points of the host answer about its metadata, one function
per entry point of the walk; an entry point that both families have in the
same shape (`il2cpp_field_get_offset`, `mono_field_get_offset`) is one
function.  A `const char*` answer is `Option String`, `none` being a null
pointer.  An enumeration (an array with its count, or an iterator driven by a
cursor) is the list of the successive answers; the iterator loops of the walk
stop at the first null answer or at the end of the list. -/
structure Api where
  domain : Nat := 0
  assemblies : List Nat := []
  assembly_get_image : Nat → Nat := fun _ => 0
  image_get_filename : Nat → Option String := fun _ => none
  image_get_name : Nat → Option String := fun _ => none
  image_get_class_count : Nat → Int := fun _ => 0
  image_get_class : Nat → Nat → Nat := fun _ _ => 0
  image_get_table_info : Nat → Nat → Nat := fun _ _ => 0
  table_info_get_rows : Nat → Int := fun _ => 0
  class_get : Nat → Nat → Nat := fun _ _ => 0
  class_get_name : Nat → Option String := fun _ => none
  class_get_parent : Nat → Nat := fun _ => 0
  class_get_namespace : Nat → Option String := fun _ => none
  class_get_interfaces : Nat → List Nat := fun _ => []
  class_get_fields : Nat → List Nat := fun _ => []
  field_get_name : Nat → Option String := fun _ => none
  field_get_type : Nat → Nat := fun _ => 0
  field_get_offset : Nat → Int := fun _ => 0
  field_get_flags : Nat → Int := fun _ => 0
  type_get_name : Nat → Option String := fun _ => none
  type_size : Nat → Int := fun _ => 0
  class_get_methods : Nat → List Nat := fun _ => []
  method_get_name : Nat → Option String := fun _ => none
  method_get_return_type : Nat → Nat := fun _ => 0
  method_signature : Nat → Nat := fun _ => 0
  signature_get_return_type : Nat → Nat := fun _ => 0
  method_get_flags : Nat → Int := fun _ => 0
  method_get_param_count : Nat → Int := fun _ => 0
  method_get_param_name : Nat → Nat → Option String := fun _ _ => none
  method_get_param : Nat → Nat → Nat := fun _ _ => 0
  signature_get_param_count : Nat → Int := fun _ => 0
  method_get_param_names : Nat → List (Option String) := fun _ => []
  signature_get_params : Nat → List Nat := fun _ => []
  methodPointer : Nat → Nat := fun _ => 0

/-! ## `ForeachFields` (lines 889-955) -/

/-- One field in the Il2Cpp branch (lines 898-911): the `new Field{...}` with
its initializers in order, then the assignments to `static_field`, to the type
name and to the type size.  The first component is the field when it was made,
the third a fault that ends the body.  The member `name` is constructed from
the `const char*` of line 900: a null pointer there raises an exception
(`thrown`) and the later requests are not made.  The type name of line 910 is
assigned: a null pointer there is undefined behaviour (`undefined`). -/
def ForeachFields.newFieldIl2Cpp (host : Host) (api : Api) (s : State) (klass field : Nat) :
    Option Field × State × Option Fault :=
  let name := InvokeAs none host s "il2cpp_field_get_name" [field] (some (api.field_get_name field))
  match name.1 with
  | none => (none, name.2, some Fault.thrown)
  | some fieldName =>
    let type := InvokeAs 0 host name.2 "il2cpp_field_get_type" [field]
      (some (api.field_get_type field))
    let offset := InvokeAs (0 : Int) host type.2 "il2cpp_field_get_offset" [field]
      (some (api.field_get_offset field))
    let typeName := InvokeAs none host offset.2 "il2cpp_type_get_name" [type.1]
      (some (api.type_get_name type.1))
    match typeName.1 with
    | none => (none, typeName.2, some Fault.undefined)
    | some typeNameStr =>
      (some { address := field, name := fieldName,
              type := { address := type.1, name := typeNameStr, size := -1 },
              klass := klass, offset := offset.1, static_field := decide (offset.1 ≤ 0),
              vTable := 0 },
        typeName.2, none)

/-- The `do ... while (field)` loop of the Il2Cpp branch (lines 894-915) on the
answers `il2cpp_class_get_fields` still has to give.  A fault leaves the loop
and the function: the third component. -/
def ForeachFields.loopIl2Cpp (host : Host) (api : Api) (klass pKlass : Nat) :
    List Nat → Class → State → Class × State × Option Fault
  | [], c, s => (c, (InvokeAs 0 host s "il2cpp_class_get_fields" [pKlass] (some 0)).2, none)
  | answer :: rest, c, s =>
    let field := InvokeAs 0 host s "il2cpp_class_get_fields" [pKlass] (some answer)
    if field.1 = 0 then (c, field.2, none)
    else
      match ForeachFields.newFieldIl2Cpp host api field.2 klass field.1 with
      | (none, s1, none) => ForeachFields.loopIl2Cpp host api klass pKlass rest c s1
      | (none, s1, some e) => (c, s1, some e)
      | (some pField, s1, none) =>
        ForeachFields.loopIl2Cpp host api klass pKlass rest
          { c with fields := c.fields ++ [pField] } s1
      | (some pField, s1, some e) => ({ c with fields := c.fields ++ [pField] }, s1, some e)

/-- One field in the Mono branch (lines 925-945): as in the Il2Cpp branch, but
`static_field` is set from bit `0x10` of the field flags and the type size is
asked for.  A null field name (line 927, a construction) raises an exception;
a null type name (line 943, an assignment) is undefined behaviour. -/
def ForeachFields.newFieldMono (host : Host) (api : Api) (s : State) (klass field : Nat) :
    Option Field × State × Option Fault :=
  let name := InvokeAs none host s "mono_field_get_name" [field] (some (api.field_get_name field))
  match name.1 with
  | none => (none, name.2, some Fault.thrown)
  | some fieldName =>
    let type := InvokeAs 0 host name.2 "mono_field_get_type" [field]
      (some (api.field_get_type field))
    let offset := InvokeAs (0 : Int) host type.2 "mono_field_get_offset" [field]
      (some (api.field_get_offset field))
    let flags := InvokeAs (0 : Int) host offset.2 "mono_field_get_flags" [field]
      (some (api.field_get_flags field))
    let typeName := InvokeAs none host flags.2 "mono_type_get_name" [type.1]
      (some (api.type_get_name type.1))
    match typeName.1 with
    | none => (none, typeName.2, some Fault.undefined)
    | some typeNameStr =>
      let size := InvokeAs (0 : Int) host typeName.2 "mono_type_size" [type.1]
        (some (api.type_size type.1))
      (some { address := field, name := fieldName,
              type := { address := type.1, name := typeNameStr, size := size.1 },
              klass := klass, offset := offset.1,
              static_field := decide (Int.land flags.1 0x10 ≠ 0), vTable := 0 },
        size.2, none)

/-- The `do ... while (field)` loop of the Mono branch (lines 920-953) on the
answers `mono_class_get_fields` still has to give.  A fault ends the loop: the
third component, which `ForeachFields` hands to the handler of line 950. -/
def ForeachFields.loopMono (host : Host) (api : Api) (klass pKlass : Nat) :
    List Nat → Class → State → Class × State × Option Fault
  | [], c, s => (c, (InvokeAs 0 host s "mono_class_get_fields" [pKlass] (some 0)).2, none)
  | answer :: rest, c, s =>
    let field := InvokeAs 0 host s "mono_class_get_fields" [pKlass] (some answer)
    if field.1 = 0 then (c, field.2, none)
    else
      match ForeachFields.newFieldMono host api field.2 klass field.1 with
      | (none, s1, none) => ForeachFields.loopMono host api klass pKlass rest c s1
      | (none, s1, some e) => (c, s1, some e)
      | (some pField, s1, none) =>
        ForeachFields.loopMono host api klass pKlass rest
          { c with fields := c.fields ++ [pField] } s1
      | (some pField, s1, some e) => ({ c with fields := c.fields ++ [pField] }, s1, some e)

/-- The static `ForeachFields(klass, pKlass)`: the fields the host yields for
the handle `pKlass` are appended to the catalog class `c`, whose address is
`klass`.  In the Mono branch an exception is caught and the function returns
(lines 950-952). -/
def ForeachFields (host : Host) (api : Api) (s : State) (klass : Nat) (c : Class)
    (pKlass : Nat) : Class × State × Option Fault :=
  if s.mode_ = Mode.Il2Cpp then
    ForeachFields.loopIl2Cpp host api klass pKlass (api.class_get_fields pKlass) c s
  else
    ((ForeachFields.loopMono host api klass pKlass (api.class_get_fields pKlass) c s).1,
      (ForeachFields.loopMono host api klass pKlass (api.class_get_fields pKlass) c s).2.1,
      Fault.afterCatch
        (ForeachFields.loopMono host api klass pKlass (api.class_get_fields pKlass) c s).2.2)

/-! ## `ForeachMethod` (lines 957-1063) -/

/-- The parameter loop of the Il2Cpp branch (lines 980-986) on the indices still
to visit.  Each `new Method::Arg{...}` asks for the parameter name, then twice
for the parameter type handle, then for the type name; both names are
constructed from the `const char*`, so a null name raises an exception, which
leaves the function. -/
def ForeachMethod.argsIl2Cpp (host : Host) (api : Api) (method : Nat) :
    List Nat → List Method.Arg → State → List Method.Arg × State × Option Fault
  | [], args, s => (args, s, none)
  | index :: rest, args, s =>
    let name := InvokeAs none host s "il2cpp_method_get_param_name" [method, index]
      (some (api.method_get_param_name method index))
    match name.1 with
    | none => (args, name.2, some Fault.thrown)
    | some argName =>
      let param := InvokeAs 0 host name.2 "il2cpp_method_get_param" [method, index]
        (some (api.method_get_param method index))
      let again := InvokeAs 0 host param.2 "il2cpp_method_get_param" [method, index]
        (some (api.method_get_param method index))
      let typeName := InvokeAs none host again.2 "il2cpp_type_get_name" [again.1]
        (some (api.type_get_name again.1))
      match typeName.1 with
      | none => (args, typeName.2, some Fault.thrown)
      | some typeNameStr =>
        ForeachMethod.argsIl2Cpp host api method rest
          (args ++ [{ name := argName,
                      pType := { address := param.1, name := typeNameStr, size := -1 } }])
          typeName.2

/-- One method in the Il2Cpp branch (lines 965-986).  The first component is the
method as the class list holds it when the body is left (`none` when a fault
came before the `push_back` of line 977); the third is a fault that leaves the
function.  The method name (line 968) and the name of the return type (line
974) are assigned: a null pointer there is undefined behaviour.  `function` is
the word read at the method handle. -/
def ForeachMethod.newMethodIl2Cpp (host : Host) (api : Api) (s : State) (klass method : Nat) :
    Option Method × State × Option Fault :=
  let name := InvokeAs none host s "il2cpp_method_get_name" [method]
    (some (api.method_get_name method))
  match name.1 with
  | none => (none, name.2, some Fault.undefined)
  | some methodName =>
    let returnType := InvokeAs 0 host name.2 "il2cpp_method_get_return_type" [method]
      (some (api.method_get_return_type method))
    let flags := InvokeAs (0 : Int) host returnType.2 "il2cpp_method_get_flags" [method]
      (some (api.method_get_flags method))
    let returnName := InvokeAs none host flags.2 "il2cpp_type_get_name" [returnType.1]
      (some (api.type_get_name returnType.1))
    match returnName.1 with
    | none => (none, returnName.2, some Fault.undefined)
    | some returnNameStr =>
      let argCount := InvokeAs (0 : Int) host returnName.2 "il2cpp_method_get_param_count" [method]
        (some (api.method_get_param_count method))
      let args := ForeachMethod.argsIl2Cpp host api method (List.range argCount.1.toNat) []
        argCount.2
      (some { address := method, name := methodName, klass := klass,
              return_type := { address := returnType.1, name := returnNameStr, size := -1 },
              flags := flags.1, static_function := decide (Int.land flags.1 0x10 ≠ 0),
              function := api.methodPointer method, args := args.1 },
        args.2.1, args.2.2)

/-- The `do ... while (method)` loop of the Il2Cpp branch (lines 962-988). -/
def ForeachMethod.loopIl2Cpp (host : Host) (api : Api) (klass pKlass : Nat) :
    List Nat → Class → State → Class × State × Option Fault
  | [], c, s => (c, (InvokeAs 0 host s "il2cpp_class_get_methods" [pKlass] (some 0)).2, none)
  | answer :: rest, c, s =>
    let method := InvokeAs 0 host s "il2cpp_class_get_methods" [pKlass] (some answer)
    if method.1 = 0 then (c, method.2, none)
    else
      match ForeachMethod.newMethodIl2Cpp host api method.2 klass method.1 with
      | (none, s1, none) => ForeachMethod.loopIl2Cpp host api klass pKlass rest c s1
      | (none, s1, some e) => (c, s1, some e)
      | (some pMethod, s1, none) =>
        ForeachMethod.loopIl2Cpp host api klass pKlass rest
          { c with methods := c.methods ++ [pMethod] } s1
      | (some pMethod, s1, some e) => ({ c with methods := c.methods ++ [pMethod] }, s1, some e)

/-- The parameter loop of the Mono branch (lines 1033-1056) on the answers
`mono_signature_get_params` still has to give; `iname` indexes the array of
parameter names.  Inside the inner `try`, both names are constructed from a
`const char*`: a name that is null or lies outside what the host filled in, or
a null type name, raises an exception that the inner `catch` swallows: no
argument is added and the loop goes on. -/
def ForeachMethod.paramsMono (host : Host) (api : Api) (signature : Nat)
    (names : List (Option String)) :
    List Nat → Nat → List Method.Arg → State → List Method.Arg × State
  | [], _, args, s =>
    (args, (InvokeAs 0 host s "mono_signature_get_params" [signature] (some 0)).2)
  | answer :: rest, iname, args, s =>
    let mType := InvokeAs 0 host s "mono_signature_get_params" [signature] (some answer)
    if mType.1 = 0 then (args, mType.2)
    else
      match (names[iname]?).join with
      | none => ForeachMethod.paramsMono host api signature names rest (iname + 1) args mType.2
      | some argName =>
        let typeName := InvokeAs none host mType.2 "mono_type_get_name" [mType.1]
          (some (api.type_get_name mType.1))
        match typeName.1 with
        | none =>
          ForeachMethod.paramsMono host api signature names rest (iname + 1) args typeName.2
        | some typeNameStr =>
          let size := InvokeAs (0 : Int) host typeName.2 "mono_type_size" [mType.1]
            (some (api.type_size mType.1))
          ForeachMethod.paramsMono host api signature names rest (iname + 1)
            (args ++ [{ name := argName,
                        pType := { address := mType.1, name := typeNameStr, size := size.1 } }])
            size.2

/-- One method in the Mono branch (lines 997-1056), after a non-null method
handle.  The first component is the method as the class list holds it when the
body is left, the third a fault that ends the loop.  A null signature skips the
method (line 999).  The method name (line 1007) and the name of the return type
(line 1014) are assigned: a null pointer there is undefined behaviour, which no
handler catches.  A negative parameter count makes `new char*[param_count]`
throw after the `push_back` of line 1018; the handler of line 1024 catches that
and the loop continues with the method in the list. -/
def ForeachMethod.newMethodMono (host : Host) (api : Api) (s : State) (klass method : Nat) :
    Option Method × State × Option Fault :=
  let signature := InvokeAs 0 host s "mono_method_signature" [method]
    (some (api.method_signature method))
  if signature.1 = 0 then (none, signature.2, none)
  else
    let name := InvokeAs none host signature.2 "mono_method_get_name" [method]
      (some (api.method_get_name method))
    match name.1 with
    | none => (none, name.2, some Fault.undefined)
    | some methodName =>
      let returnType := InvokeAs 0 host name.2 "mono_signature_get_return_type" [signature.1]
        (some (api.signature_get_return_type signature.1))
      let flags := InvokeAs (0 : Int) host returnType.2 "mono_method_get_flags" [method]
        (some (api.method_get_flags method))
      let returnName := InvokeAs none host flags.2 "mono_type_get_name" [returnType.1]
        (some (api.type_get_name returnType.1))
      match returnName.1 with
      | none => (none, returnName.2, some Fault.undefined)
      | some returnNameStr =>
        let size := InvokeAs (0 : Int) host returnName.2 "mono_type_size" [returnType.1]
          (some (api.type_size returnType.1))
        let paramCount := InvokeAs (0 : Int) host size.2 "mono_signature_get_param_count"
          [signature.1] (some (api.signature_get_param_count signature.1))
        if paramCount.1 < 0 then
          (some { address := method, name := methodName, klass := klass,
                  return_type := { address := returnType.1, name := returnNameStr,
                                   size := size.1 },
                  flags := flags.1, static_function := decide (Int.land flags.1 0x10 ≠ 0),
                  function := 0, args := [] },
            paramCount.2, none)
        else
          let names := InvokeAs [] host paramCount.2 "mono_method_get_param_names" [method]
            (some ((api.method_get_param_names method).take paramCount.1.toNat))
          let args := ForeachMethod.paramsMono host api signature.1 names.1
            (api.signature_get_params signature.1) 0 [] names.2
          (some { address := method, name := methodName, klass := klass,
                  return_type := { address := returnType.1, name := returnNameStr,
                                   size := size.1 },
                  flags := flags.1, static_function := decide (Int.land flags.1 0x10 ≠ 0),
                  function := 0, args := args.1 },
            args.2, none)

/-- The `do ... while (method)` loop of the Mono branch (lines 994-1061).  A
fault ends the loop: the third component, which `ForeachMethod` hands to the
handler of line 1058. -/
def ForeachMethod.loopMono (host : Host) (api : Api) (klass pKlass : Nat) :
    List Nat → Class → State → Class × State × Option Fault
  | [], c, s => (c, (InvokeAs 0 host s "mono_class_get_methods" [pKlass] (some 0)).2, none)
  | answer :: rest, c, s =>
    let method := InvokeAs 0 host s "mono_class_get_methods" [pKlass] (some answer)
    if method.1 = 0 then (c, method.2, none)
    else
      match ForeachMethod.newMethodMono host api method.2 klass method.1 with
      | (none, s1, none) => ForeachMethod.loopMono host api klass pKlass rest c s1
      | (none, s1, some e) => (c, s1, some e)
      | (some pMethod, s1, none) =>
        ForeachMethod.loopMono host api klass pKlass rest
          { c with methods := c.methods ++ [pMethod] } s1
      | (some pMethod, s1, some e) => ({ c with methods := c.methods ++ [pMethod] }, s1, some e)

/-- The static `ForeachMethod(klass, pKlass)`: the methods the host yields for
the handle `pKlass` are appended to the catalog class `c`, whose address is
`klass`.  In the Mono branch an exception that reaches the outer handler is
caught and the function returns (lines 1058-1060). -/
def ForeachMethod (host : Host) (api : Api) (s : State) (klass : Nat) (c : Class)
    (pKlass : Nat) : Class × State × Option Fault :=
  if s.mode_ = Mode.Il2Cpp then
    ForeachMethod.loopIl2Cpp host api klass pKlass (api.class_get_methods pKlass) c s
  else
    ((ForeachMethod.loopMono host api klass pKlass (api.class_get_methods pKlass) c s).1,
      (ForeachMethod.loopMono host api klass pKlass (api.class_get_methods pKlass) c s).2.1,
      Fault.afterCatch
        (ForeachMethod.loopMono host api klass pKlass (api.class_get_methods pKlass) c s).2.2)

/-! ## `ForeachClass` (lines 799-887) -/

/-- The `do ... while (i_class)` loop over the interfaces of a class, Il2Cpp
branch (lines 828-834): the fields and methods of each interface the host
yields are appended to the class itself. -/
def ForeachClass.interfacesIl2Cpp (host : Host) (api : Api) (klass pClass : Nat) :
    List Nat → Class → State → Class × State × Option Fault
  | [], c, s => (c, (InvokeAs 0 host s "il2cpp_class_get_interfaces" [pClass] (some 0)).2, none)
  | answer :: rest, c, s =>
    let i_class := InvokeAs 0 host s "il2cpp_class_get_interfaces" [pClass] (some answer)
    if i_class.1 = 0 then (c, i_class.2, none)
    else
      match ForeachFields host api i_class.2 klass c i_class.1 with
      | (c1, s1, some e) => (c1, s1, some e)
      | (c1, s1, none) =>
        match ForeachMethod host api s1 klass c1 i_class.1 with
        | (c2, s2, some e) => (c2, s2, some e)
        | (c2, s2, none) => ForeachClass.interfacesIl2Cpp host api klass pClass rest c2 s2

/-- One class of the Il2Cpp branch (lines 810-834), after a non-null class
handle.  The first component is the class as the assembly holds it when the
body is left (`none` when a fault came before the `push_back` of line 820).
The name, the parent name and the namespace (lines 812, 816, 819) are
assigned: a null pointer there is undefined behaviour. -/
def ForeachClass.newClassIl2Cpp (host : Host) (api : Api) (s : State) (pClass : Nat) :
    Option Class × State × Option Fault :=
  let self := s.allocated + 1
  let name := InvokeAs none host { s with allocated := self } "il2cpp_class_get_name" [pClass]
    (some (api.class_get_name pClass))
  match name.1 with
  | none => (none, name.2, some Fault.undefined)
  | some className =>
    let pPClass := InvokeAs 0 host name.2 "il2cpp_class_get_parent" [pClass]
      (some (api.class_get_parent pClass))
    let parent : Option String × State :=
      if pPClass.1 ≠ 0 then
        InvokeAs none host pPClass.2 "il2cpp_class_get_name" [pPClass.1]
          (some (api.class_get_name pPClass.1))
      else (some "", pPClass.2)
    match parent.1 with
    | none => (none, parent.2, some Fault.undefined)
    | some parentName =>
      let namespaze := InvokeAs none host parent.2 "il2cpp_class_get_namespace" [pClass]
        (some (api.class_get_namespace pClass))
      match namespaze.1 with
      | none => (none, namespaze.2, some Fault.undefined)
      | some namespaceName =>
        match ForeachFields host api namespaze.2 self
            { address := pClass, name := className, parent := parentName,
              namespaze := namespaceName, self := self } pClass with
        | (c1, s1, some e) => (some c1, s1, some e)
        | (c1, s1, none) =>
          match ForeachMethod host api s1 self c1 pClass with
          | (c2, s2, some e) => (some c2, s2, some e)
          | (c2, s2, none) =>
            match ForeachClass.interfacesIl2Cpp host api self pClass
                (api.class_get_interfaces pClass) c2 s2 with
            | (c3, s3, e) => (some c3, s3, e)

/-- The `for` loop of the Il2Cpp branch (lines 804-835) on the indices still to
visit: a null class handle is skipped. -/
def ForeachClass.loopIl2Cpp (host : Host) (api : Api) (image : Nat) :
    List Nat → Assembly → State → Assembly × State × Option Fault
  | [], a, s => (a, s, none)
  | i :: rest, a, s =>
    let pClass := InvokeAs 0 host s "il2cpp_image_get_class" [image, i]
      (some (api.image_get_class image i))
    if pClass.1 = 0 then ForeachClass.loopIl2Cpp host api image rest a pClass.2
    else
      match ForeachClass.newClassIl2Cpp host api pClass.2 pClass.1 with
      | (none, s1, none) => ForeachClass.loopIl2Cpp host api image rest a s1
      | (none, s1, some e) => (a, s1, some e)
      | (some pAClass, s1, none) =>
        ForeachClass.loopIl2Cpp host api image rest
          { a with classes := a.classes ++ [pAClass] } s1
      | (some pAClass, s1, some e) => ({ a with classes := a.classes ++ [pAClass] }, s1, some e)

/-- The `do ... while (iClass)` loop over the interfaces of a class, Mono branch
(lines 871-882).  A fault ends the loop: the third component, which reaches the
handlers of `ForeachClass`. -/
def ForeachClass.interfacesMono (host : Host) (api : Api) (klass pClass : Nat) :
    List Nat → Class → State → Class × State × Option Fault
  | [], c, s => (c, (InvokeAs 0 host s "mono_class_get_interfaces" [pClass] (some 0)).2, none)
  | answer :: rest, c, s =>
    let iClass := InvokeAs 0 host s "mono_class_get_interfaces" [pClass] (some answer)
    if iClass.1 = 0 then (c, iClass.2, none)
    else
      match ForeachFields host api iClass.2 klass c iClass.1 with
      | (c1, s1, some e) => (c1, s1, some e)
      | (c1, s1, none) =>
        match ForeachMethod host api s1 klass c1 iClass.1 with
        | (c2, s2, some e) => (c2, s2, some e)
        | (c2, s2, none) => ForeachClass.interfacesMono host api klass pClass rest c2 s2

/-- One class of the Mono branch (lines 848-882), after a non-null class
handle.  The first component is the class as the assembly holds it when the
body is left; the third is a fault that ends the loop.  The name, the parent
name and the namespace (lines 852, 854, 857) are assigned: a null pointer there
is undefined behaviour, which the handler of line 860 does not catch. -/
def ForeachClass.newClassMono (host : Host) (api : Api) (s : State) (pClass : Nat) :
    Option Class × State × Option Fault :=
  let self := s.allocated + 1
  let name := InvokeAs none host { s with allocated := self } "mono_class_get_name" [pClass]
    (some (api.class_get_name pClass))
  match name.1 with
  | none => (none, name.2, some Fault.undefined)
  | some className =>
    let pPClass := InvokeAs 0 host name.2 "mono_class_get_parent" [pClass]
      (some (api.class_get_parent pClass))
    let parent : Option String × State :=
      if pPClass.1 ≠ 0 then
        InvokeAs none host pPClass.2 "mono_class_get_name" [pPClass.1]
          (some (api.class_get_name pPClass.1))
      else (some "", pPClass.2)
    match parent.1 with
    | none => (none, parent.2, some Fault.undefined)
    | some parentName =>
      let namespaze := InvokeAs none host parent.2 "mono_class_get_namespace" [pClass]
        (some (api.class_get_namespace pClass))
      match namespaze.1 with
      | none => (none, namespaze.2, some Fault.undefined)
      | some namespaceName =>
        match ForeachFields host api namespaze.2 self
            { address := pClass, name := className, parent := parentName,
              namespaze := namespaceName, self := self } pClass with
        | (c1, s1, some e) => (some c1, s1, some e)
        | (c1, s1, none) =>
          match ForeachMethod host api s1 self c1 pClass with
          | (c2, s2, some e) => (some c2, s2, some e)
          | (c2, s2, none) =>
            match ForeachClass.interfacesMono host api self pClass
                (api.class_get_interfaces pClass) c2 s2 with
            | (c3, s3, e) => (some c3, s3, e)

/-- The `for` loop of the Mono branch (lines 842-883) on the indices still to
visit.  The class handle of index `i` is asked for with the token
`0x02000000 | (i + 1)`; a null handle is skipped.  A fault ends the loop. -/
def ForeachClass.loopMono (host : Host) (api : Api) (image : Nat) :
    List Nat → Assembly → State → Assembly × State × Option Fault
  | [], a, s => (a, s, none)
  | i :: rest, a, s =>
    let pClass := InvokeAs 0 host s "mono_class_get" [image, 0x02000000 ||| (i + 1)]
      (some (api.class_get image (0x02000000 ||| (i + 1))))
    if pClass.1 = 0 then ForeachClass.loopMono host api image rest a pClass.2
    else
      match ForeachClass.newClassMono host api pClass.2 pClass.1 with
      | (none, s1, none) => ForeachClass.loopMono host api image rest a s1
      | (none, s1, some e) => (a, s1, some e)
      | (some pAClass, s1, none) =>
        ForeachClass.loopMono host api image rest
          { a with classes := a.classes ++ [pAClass] } s1
      | (some pAClass, s1, some e) => ({ a with classes := a.classes ++ [pAClass] }, s1, some e)

/-- The static `ForeachClass(assembly, image)`: the classes of the image are
appended to the catalog assembly `a`.  In the Mono branch every handler (lines
860, 879, 885) ends the function: an exception is caught there and
`ForeachClass` returns. -/
def ForeachClass (host : Host) (api : Api) (s : State) (a : Assembly) (image : Nat) :
    Assembly × State × Option Fault :=
  if s.mode_ = Mode.Il2Cpp then
    let count := InvokeAs (0 : Int) host s "il2cpp_image_get_class_count" [image]
      (some (api.image_get_class_count image))
    ForeachClass.loopIl2Cpp host api image (List.range count.1.toNat) a count.2
  else
    let table := InvokeAs 0 host s "mono_image_get_table_info" [image, 2]
      (some (api.image_get_table_info image 2))
    let count := InvokeAs (0 : Int) host table.2 "mono_table_info_get_rows" [table.1]
      (some (api.table_info_get_rows table.1))
    ((ForeachClass.loopMono host api image (List.range count.1.toNat) a count.2).1,
      (ForeachClass.loopMono host api image (List.range count.1.toNat) a count.2).2.1,
      Fault.afterCatch
        (ForeachClass.loopMono host api image (List.range count.1.toNat) a count.2).2.2)

/-! ## `ForeachAssembly` and `Init` (lines 449-465, 745-797) -/

/-- One array entry of the Il2Cpp branch of `ForeachAssembly` (lines 756-765),
after a non-null pointer: the assembly is in the catalog from line 763 on, with
the classes `ForeachClass` gives it.  The file name and the image name (lines
760-761) are assigned: a null pointer there is undefined behaviour. -/
def ForeachAssembly.newAssemblyIl2Cpp (host : Host) (api : Api) (s : State) (ptr : Nat) :
    State × Option Fault :=
  let image := InvokeAs 0 host s "il2cpp_assembly_get_image" [ptr]
    (some (api.assembly_get_image ptr))
  let file := InvokeAs none host image.2 "il2cpp_image_get_filename" [image.1]
    (some (api.image_get_filename image.1))
  match file.1 with
  | none => (file.2, some Fault.undefined)
  | some fileName =>
    let name := InvokeAs none host file.2 "il2cpp_image_get_name" [image.1]
      (some (api.image_get_name image.1))
    match name.1 with
    | none => (name.2, some Fault.undefined)
    | some assemblyName =>
      match ForeachClass host api name.2
          { address := ptr, name := assemblyName, file := fileName } image.1 with
      | (a, s1, e) => ({ s1 with assembly := s1.assembly ++ [a] }, e)

/-- The `for` loop of the Il2Cpp branch of `ForeachAssembly` (lines 751-766) on
the array entries still to visit: a null entry is skipped, a fault leaves the
loop and the function. -/
def ForeachAssembly.loopIl2Cpp (host : Host) (api : Api) :
    List Nat → State → State × Option Fault
  | [], s => (s, none)
  | ptr :: rest, s =>
    if ptr = 0 then ForeachAssembly.loopIl2Cpp host api rest s
    else
      match ForeachAssembly.newAssemblyIl2Cpp host api s ptr with
      | (s1, some e) => (s1, some e)
      | (s1, none) => ForeachAssembly.loopIl2Cpp host api rest s1

/-- One call of the callback handed to `mono_assembly_foreach` (lines 771-794)
with a non-null pointer.  The file name and the image name (lines 782-783) are
assigned: a null pointer there is undefined behaviour, which the handler of
line 788 does not catch.  The name gets `.dll` appended; the assembly is in the
catalog from line 786 on, with the classes `ForeachClass` gives it.  The second
component is a fault that leaves the callback. -/
def ForeachAssembly.newAssemblyMono (host : Host) (api : Api) (s : State) (ptr : Nat) :
    State × Option Fault :=
  let image := InvokeAs 0 host s "mono_assembly_get_image" [ptr]
    (some (api.assembly_get_image ptr))
  let file := InvokeAs none host image.2 "mono_image_get_filename" [image.1]
    (some (api.image_get_filename image.1))
  match file.1 with
  | none => (file.2, some Fault.undefined)
  | some fileName =>
    let name := InvokeAs none host file.2 "mono_image_get_name" [image.1]
      (some (api.image_get_name image.1))
    match name.1 with
    | none => (name.2, some Fault.undefined)
    | some assemblyName =>
      match ForeachClass host api name.2
          { address := ptr, name := assemblyName ++ ".dll", file := fileName } image.1 with
      | (a, s1, e) => ({ s1 with assembly := s1.assembly ++ [a] }, e)

/-- The calls of the callback, one per assembly the host still has to pass; a
null pointer returns at once (line 773), a fault ends the enumeration. -/
def ForeachAssembly.callbackMono (host : Host) (api : Api) :
    List Nat → State → State × Option Fault
  | [], s => (s, none)
  | ptr :: rest, s =>
    if ptr = 0 then ForeachAssembly.callbackMono host api rest s
    else
      match ForeachAssembly.newAssemblyMono host api s ptr with
      | (s1, some e) => (s1, some e)
      | (s1, none) => ForeachAssembly.callbackMono host api rest s1

/-- The static `ForeachAssembly()`.  In the Mono branch the host enumerates: when
`mono_assembly_foreach` resolves, it calls the callback once per assembly; an
exception that leaves the callback is caught inside `Invoke` (line 722). -/
def ForeachAssembly (host : Host) (api : Api) (s : State) : State × Option Fault :=
  if s.mode_ = Mode.Il2Cpp then
    let assemblies := InvokeAs [] host s "il2cpp_domain_get_assemblies" [s.pDomain]
      (some api.assemblies)
    ForeachAssembly.loopIl2Cpp host api assemblies.1 assemblies.2
  else
    let called := InvokeAs false host s "mono_assembly_foreach" [] (some true)
    if called.1 then
      ((ForeachAssembly.callbackMono host api api.assemblies called.2).1,
        Fault.afterCatch (ForeachAssembly.callbackMono host api api.assemblies called.2).2)
    else (called.2, none)

/-- The static `Init(hmodule, mode = Mode::Mono)` (lines 449-465).  The second
component is a fault that leaves `Init`; with `Fault.undefined` the first is
the state in which the process stops. -/
def Init (host : Host) (api : Api) (s : State) (hmodule : Nat) (mode : Mode := Mode.Mono) :
    State × Option Fault :=
  if mode = Mode.Il2Cpp then
    let domain := InvokeAs 0 host { s with mode_ := mode, hmodule_ := hmodule }
      "il2cpp_domain_get" [] (some api.domain)
    let attach := InvokeAs 0 host { domain.2 with pDomain := domain.1 }
      "il2cpp_thread_attach" [domain.1] (some 0)
    ForeachAssembly host api attach.2
  else
    let domain := InvokeAs 0 host { s with mode_ := mode, hmodule_ := hmodule }
      "mono_get_root_domain" [] (some api.domain)
    let attach := InvokeAs 0 host { domain.2 with pDomain := domain.1 }
      "mono_thread_attach" [domain.1] (some 0)
    let jit := InvokeAs 0 host attach.2 "mono_jit_thread_attach" [domain.1] (some 0)
    ForeachAssembly host api jit.2

/-! ## Entry points of the walk -/

/-- The entry-point names `Init` and the walk request in each mode. -/
def walkNames : Mode → List String
  | Mode.Il2Cpp =>
    ["il2cpp_domain_get", "il2cpp_thread_attach", "il2cpp_domain_get_assemblies",
     "il2cpp_assembly_get_image", "il2cpp_image_get_filename", "il2cpp_image_get_name",
     "il2cpp_image_get_class_count", "il2cpp_image_get_class", "il2cpp_class_get_name",
     "il2cpp_class_get_parent", "il2cpp_class_get_namespace", "il2cpp_class_get_interfaces",
     "il2cpp_class_get_fields", "il2cpp_field_get_name", "il2cpp_field_get_type",
     "il2cpp_field_get_offset", "il2cpp_type_get_name", "il2cpp_class_get_methods",
     "il2cpp_method_get_name", "il2cpp_method_get_return_type", "il2cpp_method_get_flags",
     "il2cpp_method_get_param_count", "il2cpp_method_get_param_name", "il2cpp_method_get_param"]
  | Mode.Mono =>
    ["mono_get_root_domain", "mono_thread_attach", "mono_jit_thread_attach",
     "mono_assembly_foreach", "mono_assembly_get_image", "mono_image_get_filename",
     "mono_image_get_name", "mono_image_get_table_info", "mono_table_info_get_rows",
     "mono_class_get", "mono_class_get_name", "mono_class_get_parent",
     "mono_class_get_namespace", "mono_class_get_interfaces", "mono_class_get_fields",
     "mono_field_get_name", "mono_field_get_type", "mono_field_get_offset",
     "mono_field_get_flags", "mono_type_get_name", "mono_type_size", "mono_class_get_methods",
     "mono_method_signature", "mono_method_get_name", "mono_signature_get_return_type",
     "mono_method_get_flags", "mono_signature_get_param_count", "mono_method_get_param_names",
     "mono_signature_get_params"]

/-- The host exports every entry point the walk requests in the given mode. -/
def exportsWalk (host : Host) (mode : Mode) : Prop :=
  ∀ name, name ∈ walkNames mode →
    ∀ trace hmodule, host.GetProcAddress trace hmodule name ≠ 0

/-! ## The specification's words -/

/-- The full match as the specification words it: same name, same arity, and at
every position the requested name is `"*"`, is empty, or equals the declared
type name of the parameter at that position. -/
def fullMatch (name : String) (types : List String) (m : Method) : Prop :=
  m.name = name ∧ m.args.length = types.length ∧
    ∀ i, i < types.length →
      (types[i]? = some "*" ∨ types[i]? = some "" ∨
        types[i]? = (m.args[i]?).map (fun a => a.pType.name))

instance (name : String) (types : List String) (m : Method) :
    Decidable (fullMatch name types m) := by
  unfold fullMatch; infer_instance

/-- The host of the end-to-end scenario, in the specification's words: exactly
one assembly, whose image is named `Fixture`; in it one class `Foo` with the
instance field `Bar` (offset 8, static attribute clear) and the method `Baz`
without parameters.  What the scenario leaves open is any valid value: the
handles are non-null and the other strings are non-null.  The class is
reachable by index (Il2Cpp) and by token (Mono). -/
structure FixtureHost (api : Api) (asm image cls fld mth : Nat) : Prop where
  assemblies : api.assemblies = [asm]
  asm_ne : asm ≠ 0
  image_eq : api.assembly_get_image asm = image
  image_name : api.image_get_name image = some "Fixture"
  image_file : api.image_get_filename image ≠ none
  class_count : api.image_get_class_count image = 1
  class_index : api.image_get_class image 0 = cls
  table_rows : api.table_info_get_rows (api.image_get_table_info image 2) = 1
  class_token : api.class_get image 0x02000001 = cls
  cls_ne : cls ≠ 0
  class_name : api.class_get_name cls = some "Foo"
  class_parent :
    api.class_get_parent cls ≠ 0 → api.class_get_name (api.class_get_parent cls) ≠ none
  class_namespace : api.class_get_namespace cls ≠ none
  class_interfaces : api.class_get_interfaces cls = []
  class_fields : api.class_get_fields cls = [fld]
  fld_ne : fld ≠ 0
  field_name : api.field_get_name fld = some "Bar"
  field_type : api.type_get_name (api.field_get_type fld) ≠ none
  field_offset : api.field_get_offset fld = 8
  field_not_static : Int.land (api.field_get_flags fld) 0x10 = 0
  class_methods : api.class_get_methods cls = [mth]
  mth_ne : mth ≠ 0
  method_name : api.method_get_name mth = some "Baz"
  method_return : api.type_get_name (api.method_get_return_type mth) ≠ none
  method_params : api.method_get_param_count mth = 0
  signature_ne : api.method_signature mth ≠ 0
  signature_return :
    api.type_get_name (api.signature_get_return_type (api.method_signature mth)) ≠ none
  signature_count : api.signature_get_param_count (api.method_signature mth) = 0
  signature_params : api.signature_get_params (api.method_signature mth) = []

/-- What a step of the walk leaves of the process state: the mode, the module
handle, the domain and the catalog are the same, every key of the
name-to-address map is still a key, a non-null entry keeps its value, and the
count of allocated class objects does not go down. -/
structure Keeps (s s1 : State) : Prop where
  mode_ : s1.mode_ = s.mode_
  hmodule_ : s1.hmodule_ = s.hmodule_
  pDomain : s1.pDomain = s.pDomain
  assembly : s1.assembly = s.assembly
  present : ∀ key, s.address_ key ≠ none → s1.address_ key ≠ none
  resolved : ∀ key address, s.address_ key = some address → address ≠ 0 →
    s1.address_ key = some address
  allocated : s.allocated ≤ s1.allocated

/-- What `Init` leaves of the process state: the catalog before is a prefix of
the catalog after, every key of the name-to-address map is still a key, a
non-null entry keeps its value, and the count of allocated class objects does
not go down. -/
structure Grows (s s1 : State) : Prop where
  assembly : ∃ added, s1.assembly = s.assembly ++ added
  present : ∀ key, s.address_ key ≠ none → s1.address_ key ≠ none
  resolved : ∀ key address, s.address_ key = some address → address ≠ 0 →
    s1.address_ key = some address
  allocated : s.allocated ≤ s1.allocated

/-- A host whose metadata is complete: no name it is asked for is null, every
method has a signature, and the enumerations of fields, methods and interfaces
hold no null handle before their end. -/
structure Healthy (api : Api) : Prop where
  image_file : ∀ image, api.image_get_filename image ≠ none
  image_name : ∀ image, api.image_get_name image ≠ none
  class_name : ∀ klass, api.class_get_name klass ≠ none
  class_namespace : ∀ klass, api.class_get_namespace klass ≠ none
  field_name : ∀ field, api.field_get_name field ≠ none
  type_name : ∀ type, api.type_get_name type ≠ none
  method_name : ∀ method, api.method_get_name method ≠ none
  param_name : ∀ method index, api.method_get_param_name method index ≠ none
  signature : ∀ method, api.method_signature method ≠ 0
  fields_ne : ∀ klass, 0 ∉ api.class_get_fields klass
  methods_ne : ∀ klass, 0 ∉ api.class_get_methods klass
  interfaces_ne : ∀ klass, 0 ∉ api.class_get_interfaces klass

/-- Interface merging as the specification words it, by handle and name: the
field list of the class holds the fields the host yields for the class handle,
in the order of the host, followed by the fields of each interface, interface
by interface in the order the host yields the interfaces; likewise the method
list. -/
def Merged (api : Api) (c : Class) : Prop :=
  c.fields.map (fun f => (f.address, some f.name)) =
      (api.class_get_fields c.address ++
        (api.class_get_interfaces c.address).flatMap api.class_get_fields).map
        (fun field => (field, api.field_get_name field)) ∧
    c.methods.map (fun m => (m.address, some m.name)) =
      (api.class_get_methods c.address ++
        (api.class_get_interfaces c.address).flatMap api.class_get_methods).map
        (fun method => (method, api.method_get_name method))

instance (api : Api) (c : Class) : Decidable (Merged api c) := by
  unfold Merged; infer_instance

/-- The class handles of an image as each backend enumerates them, null handles
left out: by index below the class count of the image (Il2Cpp), by token
`0x02000000 | (i + 1)` for `i` below the row count of table 2 (Mono). -/
def classHandles (api : Api) : Mode → Nat → List Nat
  | Mode.Il2Cpp, image =>
    ((List.range (api.image_get_class_count image).toNat).map
      (fun i => api.image_get_class image i)).filter (fun p => decide (p ≠ 0))
  | Mode.Mono, image =>
    ((List.range (api.table_info_get_rows (api.image_get_table_info image 2)).toNat).map
      (fun i => api.class_get image (0x02000000 ||| (i + 1)))).filter (fun p => decide (p ≠ 0))

/-- The name a catalog assembly gets from the name of its image: unchanged in
Il2Cpp mode, with `.dll` appended in Mono mode. -/
def assemblyName : Mode → String → String
  | Mode.Il2Cpp, imageName => imageName
  | Mode.Mono, imageName => imageName ++ ".dll"

/-- A catalog assembly that holds what the host reports for its handle: the
name of its image (as `assemblyName` gives it), the non-null classes of the
image in the order of the enumeration, each with its members merged. -/
def Cataloged (api : Api) (mode : Mode) (a : Assembly) : Prop :=
  some a.name =
      (api.image_get_name (api.assembly_get_image a.address)).map (assemblyName mode) ∧
    a.classes.map (fun c => c.address) =
      classHandles api mode (api.assembly_get_image a.address) ∧
    ∀ c ∈ a.classes, Merged api c

/-- The entry point `il2cpp_image_get_class` has an address of its own at the
host: the lookup primitive answers `address` for this name, whenever it is
asked, and for no other name. -/
def ClassEntry (host : Host) (address : Nat) : Prop :=
  ∀ trace hmodule name,
    host.GetProcAddress trace hmodule name = address ↔ name = "il2cpp_image_get_class"

/-- A state in which the name-to-address map agrees with `ClassEntry` (a
non-null entry is `address` exactly for `il2cpp_image_get_class`) and in which
the calls made so far through `address` have the argument lists `T`, in
order. -/
def Requests (address : Nat) (T : List (List Nat)) (s : State) : Prop :=
  (∀ name value, s.address_ name = some value → value ≠ 0 →
      (value = address ↔ name = "il2cpp_image_get_class")) ∧
    callsThrough address s.trace = T

/-! ## Where the entries of the catalog come from -/

/-- A field that one of the two branches of `ForeachFields` made for the class
object at `klass`. -/
def FieldMade (host : Host) (api : Api) (klass : Nat) (f : Field) : Prop :=
  ∃ s0 field, (ForeachFields.newFieldIl2Cpp host api s0 klass field).1 = some f ∨
    (ForeachFields.newFieldMono host api s0 klass field).1 = some f

/-- A method that one of the two branches of `ForeachMethod` made for the class
object at `klass`. -/
def MethodMade (host : Host) (api : Api) (klass : Nat) (m : Method) : Prop :=
  ∃ s0 method, (ForeachMethod.newMethodIl2Cpp host api s0 klass method).1 = some m ∨
    (ForeachMethod.newMethodMono host api s0 klass method).1 = some m

/-- A class all of whose members were made by the walk for this very class
object. -/
def ClassMade (host : Host) (api : Api) (c : Class) : Prop :=
  (∀ f ∈ c.fields, FieldMade host api c.self f) ∧
    ∀ m ∈ c.methods, MethodMade host api c.self m

/-- The entry point that gives the image of an assembly in each mode. -/
def imageEntry : Mode → String
  | Mode.Il2Cpp => "il2cpp_assembly_get_image"
  | Mode.Mono => "mono_assembly_get_image"

/-- An assembly as the walk of the given mode makes it: its classes are made by
the walk, and its name is the name the host reports for an image, as
`assemblyName` gives it; the image is the one of the assembly handle when the
host exports the entry point that gives it. -/
def AssemblyMade (host : Host) (api : Api) (mode : Mode) (a : Assembly) : Prop :=
  (∀ c ∈ a.classes, ClassMade host api c) ∧
    ∃ image imageName, api.image_get_name image = some imageName ∧
      a.name = assemblyName mode imageName ∧
      ((∀ trace hmodule, host.GetProcAddress trace hmodule (imageEntry mode) ≠ 0) →
        image = api.assembly_get_image a.address)

/-! ## Fixtures -/

/-- A one-parameter overload `F(A a)`. -/
def fixF1 : Method :=
  { name := "F", args := [{ name := "a", pType := { name := "A" } }] }

/-- A two-parameter overload `F(X x, Y y)`. -/
def fixF2 : Method :=
  { name := "F",
    args := [{ name := "x", pType := { name := "X" } }, { name := "y", pType := { name := "Y" } }] }

/-- A class whose methods are `F(A)` then `F(X, Y)`. -/
def fixOverloads : Class := { name := "K", methods := [fixF1, fixF2] }

/-- A one-parameter overload `F(System.Int32 a)`. -/
def fixInt : Method :=
  { name := "F", args := [{ name := "a", pType := { name := "System.Int32" } }] }

/-- A two-parameter overload `F(System.Int32 x, System.String y)`. -/
def fixIntStr : Method :=
  { name := "F",
    args := [{ name := "x", pType := { name := "System.Int32" } },
             { name := "y", pType := { name := "System.String" } }] }

/-- A class whose methods named `F` are `fixInt` then `fixIntStr`. -/
def fixPair : Class := { name := "P", methods := [fixInt, fixIntStr] }

/-- A class `Foo` in namespace `A` with parent `Object`. -/
def fixFooA : Class := { name := "Foo", namespaze := "A", parent := "Object" }

/-- A second class `Foo`, in namespace `B` with parent `Base`. -/
def fixFooB : Class := { name := "Foo", namespaze := "B", parent := "Base" }

/-- A class `Bar` in namespace `B`. -/
def fixBar : Class := { name := "Bar", namespaze := "B", parent := "Foo" }

/-- An assembly that holds two classes named `Foo`. -/
def fixTwoFoo : Assembly := { name := "Fixture", classes := [fixFooA, fixFooB] }

/-- An assembly whose class names are all different. -/
def fixDistinct : Assembly := { name := "Fixture", classes := [fixFooA, fixBar] }

/-- A host that exports `mono_get_root_domain` at address 4096 and nothing
else, and whose functions all return 7. -/
def fixMonoHost : Host :=
  { GetProcAddress := fun _ _ funcName => if funcName = "mono_get_root_domain" then 4096 else 0,
    call := fun _ _ _ => some 7 }

/-- A host of the Il2Cpp flavour: it exports `il2cpp_runtime_invoke` at 4096 and
`il2cpp_object_unbox` at 4104, no `mono_` name, and every call returns 7. -/
def fixIl2CppHost : Host :=
  { GetProcAddress := fun _ _ funcName =>
      if funcName = "il2cpp_runtime_invoke" then 4096
      else if funcName = "il2cpp_object_unbox" then 4104 else 0,
    call := fun _ _ _ => some 7 }

/-- A host that resolves every name to address 4096 and whose functions all
throw. -/
def fixThrowingHost : Host :=
  { GetProcAddress := fun _ _ _ => 4096, call := fun _ _ _ => none }

/-- A host that exports `mono_compile_method` at 4096; compiling yields 8192. -/
def fixJitHost : Host :=
  { GetProcAddress := fun _ _ funcName => if funcName = "mono_compile_method" then 4096 else 0,
    call := fun _ address _ => if address = 4096 then some 8192 else some 7 }

/-- A cataloged method `Baz()` with host handle 64 and no function pointer. -/
def fixBaz : Method := { address := 64, name := "Baz", return_type := { name := "System.Int32" } }

/-- The initial state switched to Mono mode. -/
def fixMonoState : State := { mode_ := Mode.Mono }

/-- The method `Baz` with its native code at 8192. -/
def fixBazNative : Method := { fixBaz with function := 8192 }

/-- Addresses of the four string literals of `RuntimeInvoke` and `Unbox`. -/
def fixLiteral (name : String) : Nat :=
  if name = "il2cpp_runtime_invoke" then 9001
  else if name = "mono_runtime_invoke" then 9002
  else if name = "mono_object_unbox" then 9003
  else if name = "il2cpp_object_unbox" then 9004 else 9000

/-- A host that exports every name, all at address 4096. -/
def fixFullHost : Host :=
  { GetProcAddress := fun _ _ _ => 4096, call := fun _ _ _ => some 0 }

/-- The metadata of the end-to-end fixture: one assembly (handle 100, image 200)
named `Fixture`, one class `Foo` (handle 300) with the instance field `Bar`
(handle 400, type `System.Int32`, offset 8, flags `0x06`) and the method `Baz`
(handle 600, no parameters, returns `System.Int32`). -/
def fixApi : Api :=
  { domain := 50,
    assemblies := [100],
    assembly_get_image := fun _ => 200,
    image_get_filename := fun _ => some "/host/Fixture.dll",
    image_get_name := fun _ => some "Fixture",
    image_get_class_count := fun _ => 1,
    image_get_class := fun _ _ => 300,
    image_get_table_info := fun _ _ => 250,
    table_info_get_rows := fun _ => 1,
    class_get := fun _ _ => 300,
    class_get_name := fun _ => some "Foo",
    class_get_namespace := fun _ => some "",
    class_get_fields := fun k => if k = 300 then [400] else [],
    field_get_name := fun _ => some "Bar",
    field_get_type := fun _ => 500,
    field_get_offset := fun _ => 8,
    field_get_flags := fun _ => 0x06,
    type_get_name := fun _ => some "System.Int32",
    type_size := fun _ => 4,
    class_get_methods := fun k => if k = 300 then [600] else [],
    method_get_name := fun _ => some "Baz",
    method_get_return_type := fun _ => 700,
    method_signature := fun _ => 650,
    signature_get_return_type := fun _ => 700,
    method_get_flags := fun _ => 0x86 }

/-- A host that exports every name at address 4096 except
`mono_field_get_offset`. -/
def fixNoOffsetHost : Host :=
  { GetProcAddress := fun _ _ funcName => if funcName = "mono_field_get_offset" then 0 else 4096,
    call := fun _ _ _ => some 0 }

/-- The metadata of the fixture with `Bar` turned into a static field that lies
at offset 8 of the static data: flags `0x16`. -/
def fixStaticApi : Api := { fixApi with field_get_flags := fun _ => 0x16 }

/-- The field `Bar` as the Il2Cpp branch catalogs it from `fixApi` for a class
at address 1. -/
def fixBarIl2Cpp : Field :=
  { address := 400, name := "Bar", type := { address := 500, name := "System.Int32", size := -1 },
    klass := 1, offset := 8, static_field := false, vTable := 0 }

/-- The field `Bar` as the Mono branch catalogs it from `fixApi` for a class at
address 1. -/
def fixBarMono : Field :=
  { address := 400, name := "Bar", type := { address := 500, name := "System.Int32", size := 4 },
    klass := 1, offset := 8, static_field := false, vTable := 0 }

/-- A healthy host with two assemblies (handles 100 and 101, a null entry
between them) whose images are 200 and 201.  Image 200 has three class slots:
the class `Foo` (handle 300), a null slot, and the class `IFoo` (handle 310).
`Foo` declares the field `Bar` (handle 400) and the method `Run` with one
parameter (handle 600), and implements `IFoo`, which declares a field `Bar`
(handle 410) and a method `Run` without parameters (handle 610).  Image 201 has
no class. -/
def fixMergeApi : Api :=
  { domain := 1,
    assemblies := [100, 0, 101],
    assembly_get_image := fun a => a + 100,
    image_get_filename := fun _ => some "fixture.bin",
    image_get_name := fun image => some (if image = 200 then "Fixture" else "Other"),
    image_get_class_count := fun image => if image = 200 then 3 else 0,
    image_get_class := fun image i =>
      if image = 200 ∧ i = 0 then 300 else if image = 200 ∧ i = 2 then 310 else 0,
    image_get_table_info := fun image _ => image + 1000,
    table_info_get_rows := fun table => if table = 1200 then 3 else 0,
    class_get := fun image token =>
      if image = 200 ∧ token = 0x02000001 then 300
      else if image = 200 ∧ token = 0x02000003 then 310 else 0,
    class_get_name := fun klass =>
      some (if klass = 300 then "Foo" else if klass = 310 then "IFoo" else "Object"),
    class_get_parent := fun _ => 0,
    class_get_namespace := fun _ => some "N",
    class_get_interfaces := fun klass => if klass = 300 then [310] else [],
    class_get_fields := fun klass =>
      if klass = 300 then [400] else if klass = 310 then [410] else [],
    field_get_name := fun _ => some "Bar",
    field_get_type := fun _ => 500,
    field_get_offset := fun field => if field = 400 then 8 else 16,
    field_get_flags := fun _ => 6,
    type_get_name := fun _ => some "System.Int32",
    type_size := fun _ => 4,
    class_get_methods := fun klass =>
      if klass = 300 then [600] else if klass = 310 then [610] else [],
    method_get_name := fun _ => some "Run",
    method_get_return_type := fun _ => 500,
    method_signature := fun method => method + 100,
    signature_get_return_type := fun _ => 500,
    method_get_flags := fun method => if method = 600 then 0x16 else 0x06,
    method_get_param_count := fun method => if method = 600 then 1 else 0,
    method_get_param_name := fun _ _ => some "x",
    method_get_param := fun _ _ => 500,
    signature_get_param_count := fun signature => if signature = 700 then 1 else 0,
    method_get_param_names := fun method => if method = 600 then [some "x"] else [],
    signature_get_params := fun signature => if signature = 700 then [500] else [],
    methodPointer := fun method => method + 4000 }

/-- The method `Run()` of the interface `IFoo` as the Il2Cpp walk catalogs it in
the class `Foo` of `fixMergeApi`. -/
def fixRunInterface : Method :=
  { address := 610, name := "Run", klass := 1,
    return_type := { address := 500, name := "System.Int32", size := -1 },
    flags := 6, static_function := false, function := 4610, args := [] }

/-- The host of `fixMergeApi` with a second field (handle 401) and a second
method (handle 601) in the class `Foo`. -/
def fixSiblingsApi : Api :=
  { fixMergeApi with
    class_get_fields := fun klass => if klass = 300 then [400, 401] else [],
    class_get_methods := fun klass => if klass = 300 then [600, 601] else [] }

/-- The host of `fixSiblingsApi` where the name of the field 400 is null. -/
def fixNullFieldApi : Api :=
  { fixSiblingsApi with field_get_name := fun field => if field = 400 then none else some "Bar" }

/-- The host of `fixMergeApi` where the method 600 of `Foo` has no signature. -/
def fixNoSignatureApi : Api :=
  { fixMergeApi with method_signature := fun method => if method = 600 then 0 else method + 100 }

/-- A host that exports every name at address 4096, but `mono_assembly_foreach`
only once it has seen seven interactions: before that the lookup of this name
answers null. -/
def fixLateHost : Host :=
  { GetProcAddress := fun trace _ funcName =>
      if funcName = "mono_assembly_foreach" ∧ trace.length < 7 then 0 else 4096,
    call := fun _ _ _ => some 0 }

/-- A host that exports every name at address 4096, except
`il2cpp_image_get_class`, which is at 5000. -/
def fixIndexHost : Host :=
  { GetProcAddress := fun _ _ funcName =>
      if funcName = "il2cpp_image_get_class" then 5000 else 4096,
    call := fun _ _ _ => some 0 }

/-- The method `Run(System.Int32 x)` of `Foo` as the Mono walk catalogs it for
the class object at 1 at the host of `fixMergeApi`. -/
def fixRunMono : Method :=
  { address := 600, name := "Run", klass := 1,
    return_type := { address := 500, name := "System.Int32", size := 4 },
    flags := 0x16, static_function := true, function := 0,
    args := [{ name := "x", pType := { address := 500, name := "System.Int32", size := 4 } }] }

/-- A state after earlier work: the catalog holds an assembly `Fixture` with
handle 7, and `il2cpp_domain_get` is resolved to 4096. -/
def fixWarmState : State :=
  { assembly := [{ address := 7, name := "Fixture" }],
    address_ := fun key => if key = "il2cpp_domain_get" then some 4096 else none }

/-! ## Lemmas on the loops -/

theorem find_first_iff {α : Type} (p : α → Prop) [DecidablePred p] (l : List α) (b : α) :
    l.find? (fun x => decide (p x)) = some b ↔
      ∃ pre post, l = pre ++ b :: post ∧ p b ∧ ∀ d ∈ pre, ¬ p d := by
  rw [List.find?_eq_some]
  constructor
  · rintro ⟨hb, pre, post, hl, hpre⟩
    refine ⟨pre, post, hl, by simpa using hb, ?_⟩
    intro d hd
    simpa using hpre d hd
  · rintro ⟨pre, post, hl, hb, hpre⟩
    refine ⟨by simpa using hb, pre, post, hl, ?_⟩
    intro d hd
    simpa using hpre d hd

theorem nameLoop_eq_find (name : String) (ms : List Method) :
    Class.nameLoop name ms = ms.find? (fun m => decide (m.name = name)) := by
  induction ms with
  | nil => rfl
  | cons m rest ih =>
    by_cases h : m.name = name
    · simp [Class.nameLoop, h]
    · simp [Class.nameLoop, h, ih]

theorem fieldLoop_eq_find (name : String) (fs : List Field) :
    Class.fieldLoop name fs = fs.find? (fun f => decide (f.name = name)) := by
  induction fs with
  | nil => rfl
  | cons f rest ih =>
    by_cases h : f.name = name
    · simp [Class.fieldLoop, h]
    · simp [Class.fieldLoop, h, ih]

theorem assemblyLoop_eq_find (name : String) (l : List Assembly) :
    assemblyLoop name l = l.find? (fun a => decide (a.name = name)) := by
  induction l with
  | nil => rfl
  | cons a rest ih =>
    by_cases h : a.name = name
    · simp [assemblyLoop, h]
    · simp [assemblyLoop, h, ih]

theorem classLoop_eq_find (strClass strNamespace strParent : String) (l : List Class) :
    Assembly.classLoop strClass strNamespace strParent l =
      l.find? (fun c => decide (strClass = c.name ∧ (strNamespace = "*" ∨ c.namespaze = strNamespace)
        ∧ (strParent = "*" ∨ c.parent = strParent))) := by
  induction l with
  | nil => rfl
  | cons c rest ih =>
    by_cases h : strClass = c.name ∧ (strNamespace = "*" ∨ c.namespaze = strNamespace)
        ∧ (strParent = "*" ∨ c.parent = strParent)
    · rw [Assembly.classLoop, if_pos h, List.find?_cons_of_pos _ (by simpa using h)]
    · rw [Assembly.classLoop, if_neg h, List.find?_cons_of_neg _ (by simpa using h), ih]

theorem Assembly_Get_eq_find (a : Assembly) (name ns parent : String) :
    a.Get name ns parent = a.classes.find? (fun c =>
      decide (c.name = name ∧ (ns = "*" ∨ c.namespaze = ns) ∧ (parent = "*" ∨ c.parent = parent))) := by
  unfold Assembly.Get
  rw [classLoop_eq_find]
  congr 1
  funext c
  simp only [eq_comm]

/-- The inner loop never reads past the end while the reads still to come fit
into the parameter list. -/
theorem matchLoop_in_range (margs : List Method.Arg) :
    ∀ (types : List String) (i index : Nat), i + types.length ≤ margs.length →
      ∃ n, Class.matchLoop margs types i index = some n := by
  intro types
  induction types with
  | nil => intro i index _; exact ⟨index, rfl⟩
  | cons t rest ih =>
    intro i index h
    simp only [List.length_cons] at h
    by_cases hw : t = "*" ∨ t = ""
    · rw [Class.matchLoop, if_pos hw]
      exact ih i (index + 1) (by omega)
    · rw [Class.matchLoop, if_neg hw]
      have hi : i < margs.length := by omega
      rw [List.getElem?_eq_getElem hi]
      by_cases hn : (margs[i]).pType.name = t
      · simp only [hn, if_true]
        exact ih (i + 1) (index + 1) (by omega)
      · simp only [hn, if_false]
        exact ih (i + 1) index (by omega)

/-- The overload loop returns normally, and only methods of the list that carry
the requested name. -/
theorem overloadLoop_ok (name : String) (args : List String) :
    ∀ ms : List Method, ∃ r, Class.overloadLoop name args ms = Except.ok r ∧
      ∀ m, r = some m → m ∈ ms ∧ m.name = name := by
  intro ms
  induction ms with
  | nil => exact ⟨none, rfl, by intro m h; cases h⟩
  | cons m rest ih =>
    obtain ⟨r, hr, hmem⟩ := ih
    have hrest : ∃ r, Class.overloadLoop name args rest = Except.ok r ∧
        ∀ x, r = some x → x ∈ m :: rest ∧ x.name = name :=
      ⟨r, hr, fun x hx => ⟨List.mem_cons_of_mem _ (hmem x hx).1, (hmem x hx).2⟩⟩
    have hhere : ∀ x, some m = some x → m.name = name → x ∈ m :: rest ∧ x.name = name := by
      intro x hx hn
      cases hx
      exact ⟨List.mem_cons_self _ _, hn⟩
    unfold Class.overloadLoop
    by_cases hn : m.name = name
    · rw [if_pos hn]
      by_cases he : m.args = [] ∧ args = []
      · rw [if_pos he]
        exact ⟨some m, rfl, fun x hx => hhere x hx hn⟩
      · rw [if_neg he]
        by_cases hl : m.args.length = args.length
        · rw [if_pos hl]
          obtain ⟨n, hnv⟩ := matchLoop_in_range m.args args 0 0 (by omega)
          rw [hnv]
          by_cases hi : n = m.args.length
          · simp only [hi, if_true]
            exact ⟨some m, rfl, fun x hx => hhere x hx hn⟩
          · simp only [hi, if_false]
            exact hrest
        · rw [if_neg hl]
          exact hrest
    · rw [if_neg hn]
      exact hrest

/-! ## Overload resolution -/

/-- C1, evaluated where it fails: in a class with `F(A)` then `F(X, Y)`, the
request `("F", ["*", "Y"])` is fully matched by `F(X, Y)` and by no other
method, yet `Get<Method>` returns `F(A)`: after the wildcard the counter `i` is
still 0, so `"Y"` is compared with the type of the first parameter, the exact
pass rejects `F(X, Y)`, and the name-only pass returns the first `F`. -/
theorem GetMethod_wildcard_then_name_misses :
    fullMatch "F" ["*", "Y"] fixF2 ∧
      fixOverloads.methods.find? (fun m => decide (fullMatch "F" ["*", "Y"] m)) = some fixF2 ∧
      Class.matchLoop fixF2.args ["*", "Y"] 0 0 = some 1 ∧
      fixOverloads.GetMethod "F" ["*", "Y"] = Except.ok (some fixF1) ∧
      fixF1 ≠ fixF2 := by
  decide

/-- C2, evaluated where it fails: the methods named `F` of the class are one of
arity 1 and one of arity 2, the request `["", "System.String"]` is empty at
position 0 and equal to the declared type name at position 1, and
`Get<Method>` returns the arity-1 method, not the arity-2 one.  The request
with one type name does select the arity-1 method. -/
theorem GetMethod_two_names_selects_arity_one :
    fixPair.methods.filter (fun m => decide (m.name = "F")) = [fixInt, fixIntStr] ∧
      fixInt.args.length = 1 ∧ fixIntStr.args.length = 2 ∧
      fullMatch "F" ["", "System.String"] fixIntStr ∧
      fixPair.GetMethod "F" ["", "System.String"] = Except.ok (some fixInt) ∧
      fixPair.GetMethod "F" ["System.Int32"] = Except.ok (some fixInt) := by
  decide

/-- C3, evaluated where it fails: no method of the class fully matches the
request `("F", ["*", "X"])`, the first method named `F` is `F(A)`, and
`Get<Method>` returns `F(X, Y)`: the exact pass compares `"X"` with the type of
the first parameter of `F(X, Y)` and accepts it. -/
theorem GetMethod_no_full_match_not_first_name :
    (∀ m ∈ fixOverloads.methods, ¬ fullMatch "F" ["*", "X"] m) ∧
      fixOverloads.methods.find? (fun m => decide (m.name = "F")) = some fixF1 ∧
      Class.matchLoop fixF2.args ["*", "X"] 0 0 = some 2 ∧
      fixOverloads.GetMethod "F" ["*", "X"] = Except.ok (some fixF2) ∧
      fixF2 ≠ fixF1 := by
  decide

/-- C4: `Get<Method>` never faults; it returns `nullptr` exactly when no method
of the class has the requested name, and a method it returns is an element of
the method list whose name equals the requested name. -/
theorem GetMethod_none_iff_no_name (c : Class) (name : String) (types : List String) :
    ∃ r, c.GetMethod name types = Except.ok r ∧
      (r = none ↔ ∀ m ∈ c.methods, m.name ≠ name) ∧
      ∀ m, r = some m → m ∈ c.methods ∧ m.name = name := by
  obtain ⟨r, hr, hmem⟩ := overloadLoop_ok name types c.methods
  unfold Class.GetMethod
  rw [hr]
  cases r with
  | none =>
    refine ⟨Class.nameLoop name c.methods, rfl, ?_, ?_⟩
    · rw [nameLoop_eq_find, List.find?_eq_none]
      simp
    · intro m hm
      rw [nameLoop_eq_find] at hm
      exact ⟨List.mem_of_find?_eq_some hm, by simpa using List.find?_some hm⟩
  | some m0 =>
    refine ⟨some m0, rfl, ?_, hmem⟩
    constructor
    · intro h; cases h
    · intro h
      exact absurd (hmem m0 rfl).2 (h m0 (hmem m0 rfl).1)

/-! ## Class, assembly and field lookup -/

/-- C5: `Assembly::Get` returns the first class of the list whose name equals
the requested name and whose namespace and parent pass their qualifier (a
qualifier `"*"` passes every class); it returns `nullptr` exactly when no class
of the list passes all three; omitted qualifiers are `"*"`. -/
theorem Assembly_Get_first_match (a : Assembly) (name ns parent : String) :
    (∀ c, a.Get name ns parent = some c ↔
      ∃ pre post, a.classes = pre ++ c :: post ∧
        (c.name = name ∧ (ns = "*" ∨ c.namespaze = ns) ∧ (parent = "*" ∨ c.parent = parent)) ∧
        ∀ d ∈ pre,
          ¬ (d.name = name ∧ (ns = "*" ∨ d.namespaze = ns) ∧ (parent = "*" ∨ d.parent = parent))) ∧
    (a.Get name ns parent = none ↔
      ∀ c ∈ a.classes,
        ¬ (c.name = name ∧ (ns = "*" ∨ c.namespaze = ns) ∧ (parent = "*" ∨ c.parent = parent))) ∧
    a.Get name = a.Get name "*" "*" ∧ a.Get name ns = a.Get name ns "*" := by
  have key := Assembly_Get_eq_find a name ns parent
  refine ⟨?_, ?_, rfl, rfl⟩
  · intro c
    rw [key]
    exact find_first_iff _ _ _
  · rw [key, List.find?_eq_none]
    simp

/-- C6 as stated fails: with two classes named `Foo` in one assembly, looking
up the name of the second returns the first, whose namespace and parent
differ. -/
theorem Assembly_Get_same_name_other_namespace :
    ¬ ∀ (a : Assembly) (C : Class), C ∈ a.classes →
      ∃ c, a.Get C.name = some c ∧ c.name = C.name ∧ c.namespaze = C.namespaze ∧
        c.parent = C.parent := by
  intro h
  obtain ⟨c, hc, _, hns, _⟩ := h fixTwoFoo fixFooB (by decide)
  have hget : fixTwoFoo.Get fixFooB.name = some fixFooA := by decide
  rw [hget] at hc
  cases hc
  revert hns
  decide

/-- C6, amended: for a class `C` of the list, `Get(C.name)` with the default
qualifiers returns a class of the list with the name of `C`, and its namespace
and parent are those of `C` when every class of the list with that name has
them (for one, when the name occurs once in the list). -/
theorem Assembly_Get_of_member (a : Assembly) (C : Class) (hC : C ∈ a.classes) :
    ∃ c, a.Get C.name = some c ∧ c ∈ a.classes ∧ c.name = C.name ∧
      ((∀ d ∈ a.classes, d.name = C.name → d.namespaze = C.namespaze ∧ d.parent = C.parent) →
        c.namespaze = C.namespaze ∧ c.parent = C.parent) := by
  cases hget : a.Get C.name with
  | none =>
    unfold Assembly.Get at hget
    rw [classLoop_eq_find, List.find?_eq_none] at hget
    exact absurd (by simp) (hget C hC)
  | some c =>
    unfold Assembly.Get at hget
    rw [classLoop_eq_find] at hget
    have hmem := List.mem_of_find?_eq_some hget
    have hp := List.find?_some hget
    simp only [true_or, and_true, decide_eq_true_eq] at hp
    exact ⟨c, rfl, hmem, hp.symm, fun hall => hall c hmem hp.symm⟩

/-- The amended C6 at the class `Bar` of an assembly with distinct class names. -/
theorem Assembly_Get_of_member_witness :
    fixBar ∈ fixDistinct.classes ∧
      ∃ c, fixDistinct.Get fixBar.name = some c ∧ c ∈ fixDistinct.classes ∧
        c.name = fixBar.name ∧
        ((∀ d ∈ fixDistinct.classes, d.name = fixBar.name →
            d.namespaze = fixBar.namespaze ∧ d.parent = fixBar.parent) →
          c.namespaze = fixBar.namespaze ∧ c.parent = fixBar.parent) :=
  ⟨by decide, Assembly_Get_of_member fixDistinct fixBar (by decide)⟩

/-- C7: the static `Get` returns the first assembly of the catalog whose name
equals the requested string, compared as a whole, and returns `nullptr` exactly
when no assembly of the catalog has that name. -/
theorem Get_first_exact_name (s : State) (name : String) :
    (∀ a, Get s name = some a ↔
      ∃ pre post, s.assembly = pre ++ a :: post ∧ a.name = name ∧ ∀ d ∈ pre, d.name ≠ name) ∧
    (Get s name = none ↔ ∀ a ∈ s.assembly, a.name ≠ name) := by
  unfold Get
  rw [assemblyLoop_eq_find]
  refine ⟨fun a => find_first_iff (fun x : Assembly => x.name = name) _ _, ?_⟩
  rw [List.find?_eq_none]
  simp

/-- C8: `Get<Field>` returns the first field of the class whose name equals the
requested string, returns `nullptr` exactly when no field has that name, and
does not depend on the list of requested type names. -/
theorem GetField_first_exact_name (c : Class) (name : String) (types : List String) :
    (∀ f, c.GetField name types = some f ↔
      ∃ pre post, c.fields = pre ++ f :: post ∧ f.name = name ∧ ∀ d ∈ pre, d.name ≠ name) ∧
    (c.GetField name types = none ↔ ∀ f ∈ c.fields, f.name ≠ name) ∧
    ∀ others : List String, c.GetField name others = c.GetField name types := by
  unfold Class.GetField
  rw [fieldLoop_eq_find]
  refine ⟨fun f => find_first_iff (fun x : Field => x.name = name) _ _, ?_, fun _ => rfl⟩
  rw [List.find?_eq_none]
  simp

/-- C9: two successive calls `A.Get(name, "*", "*")` return the same class, the
one at the first position of the class list whose name is `name`, and each
call leaves the whole process state as it found it. -/
theorem Assembly_Get_stable (s : State) (a : Assembly) (name : String) :
    (Assembly.GetStep (Assembly.GetStep s a name "*" "*").2 a name "*" "*").1 =
        (Assembly.GetStep s a name "*" "*").1 ∧
      (Assembly.GetStep s a name "*" "*").2 = s ∧
      (Assembly.GetStep (Assembly.GetStep s a name "*" "*").2 a name "*" "*").2 = s ∧
      ∀ c, (Assembly.GetStep s a name "*" "*").1 = some c →
        ∃ i, a.classes[i]? = some c ∧
          (Assembly.GetStep (Assembly.GetStep s a name "*" "*").2 a name "*" "*").1
            = a.classes[i]? ∧
          c.name = name ∧
          ∀ (j : Nat) (d : Class), j < i → a.classes[j]? = some d → d.name ≠ name := by
  refine ⟨rfl, rfl, rfl, ?_⟩
  intro c hc
  have hc2 : a.Get name "*" "*" = some c := hc
  have hfind := hc2
  rw [Assembly_Get_eq_find] at hfind
  obtain ⟨pre, post, hl, ⟨hn, _, _⟩, hpre⟩ := (find_first_iff _ _ _).1 hfind
  have hat : a.classes[pre.length]? = some c := by
    rw [hl, List.getElem?_append_right (Nat.le_refl _)]
    simp
  refine ⟨pre.length, hat, ?_, hn, ?_⟩
  · show a.Get name "*" "*" = _
    rw [hc2, hat]
  · intro j d hj hd
    rw [hl, List.getElem?_append_left hj] at hd
    have hmem : d ∈ pre := List.getElem?_mem hd
    intro hdn
    exact hpre d hmem ⟨hdn, Or.inl rfl, Or.inl rfl⟩

/-! ## The entry-point resolver -/

/-- One `Invoke` of a name whose cache entry is missing or null and whose
lookup answers null: one lookup, a null entry stored, no call, result 0. -/
theorem Invoke_of_null_lookup (host : Host) (s : State) (funcName : String) (args : List Nat)
    (hs : s.address_ funcName = none ∨ s.address_ funcName = some 0)
    (hnull : host.GetProcAddress s.trace s.hmodule_ funcName = 0) :
    Invoke host s funcName args =
      (0, { s with
            address_ := mapAssign s.address_ funcName 0
            trace := s.trace ++ [Event.lookup s.hmodule_ funcName] }) := by
  unfold Invoke resolve
  simp only [if_pos hs, hnull]
  have hidx : mapIndex (mapAssign s.address_ funcName 0) funcName
      = (0, mapAssign s.address_ funcName 0) := by
    simp [mapIndex, mapAssign]
  simp [hidx]

/-- The cache after `Invoke` is the cache after `resolve`, read once at the key. -/
theorem Invoke_address (host : Host) (s : State) (funcName : String) (args : List Nat) :
    (Invoke host s funcName args).2.address_ =
      (mapIndex (resolve host s funcName).address_ funcName).2 := by
  unfold Invoke
  simp only
  split
  · split <;> rfl
  · rfl

/-- The empty cache of the initial state satisfies the cache invariant. -/
theorem cacheFromHost_initial (host : Host) : cacheFromHost host initialState := by
  intro key value h
  cases h

/-- Reading `m[key]` leaves every non-null entry as it was and adds none. -/
theorem mapIndex_entry (m : String → Option Nat) (key k : String) (v : Nat)
    (h : (mapIndex m key).2 k = some v) (hv : v ≠ 0) : m k = some v := by
  unfold mapIndex at h
  cases hm : m key with
  | some value => rw [hm] at h; exact h
  | none =>
    rw [hm] at h
    simp only [mapAssign] at h
    by_cases hk : k = key
    · rw [if_pos hk] at h
      cases h
      exact absurd rfl hv
    · rw [if_neg hk] at h
      exact h

/-- Every `Invoke` keeps the cache invariant. -/
theorem cacheFromHost_Invoke (host : Host) (s : State) (funcName : String) (args : List Nat)
    (h : cacheFromHost host s) : cacheFromHost host (Invoke host s funcName args).2 := by
  intro key value hkv hv
  rw [Invoke_address] at hkv
  have hres := mapIndex_entry _ _ _ _ hkv hv
  unfold resolve at hres
  split at hres
  · simp only [mapAssign] at hres
    by_cases hk : key = funcName
    · rw [if_pos hk] at hres
      cases hres
      exact ⟨s.trace, s.hmodule_, by rw [hk]⟩
    · rw [if_neg hk] at hres
      exact h key value hres hv
  · exact h key value hres hv

/-- C10: for a name the lookup primitive never resolves, from any state whose
cache holds only answers of the lookup primitive, N successive calls of
`Invoke` on that name add exactly N lookups of that name to the history of host
interactions, and nothing else. -/
theorem Invoke_unresolved_lookup_each_call (host : Host) (funcName : String)
    (hnever : ∀ trace hmodule, host.GetProcAddress trace hmodule funcName = 0)
    (s : State) (hs : cacheFromHost host s) (argss : List (List Nat)) :
    (InvokeRepeat host funcName s argss).trace =
        s.trace ++ List.replicate argss.length (Event.lookup s.hmodule_ funcName) ∧
      lookupCount funcName (InvokeRepeat host funcName s argss).trace =
        lookupCount funcName s.trace + argss.length := by
  have hs0 : s.address_ funcName = none ∨ s.address_ funcName = some 0 := by
    cases hv : s.address_ funcName with
    | none => exact Or.inl rfl
    | some v =>
      right
      by_cases h0 : v = 0
      · rw [h0]
      · obtain ⟨tr, hm, hq⟩ := hs funcName v hv h0
        rw [hnever] at hq
        exact absurd hq.symm h0
  have main : ∀ (argss : List (List Nat)) (s : State),
      (s.address_ funcName = none ∨ s.address_ funcName = some 0) →
      (InvokeRepeat host funcName s argss).trace =
        s.trace ++ List.replicate argss.length (Event.lookup s.hmodule_ funcName) := by
    intro argss
    induction argss with
    | nil => intro s _; simp [InvokeRepeat]
    | cons args rest ih =>
      intro s h
      rw [InvokeRepeat, Invoke_of_null_lookup host s funcName args h (hnever _ _)]
      rw [ih _ (Or.inr (by simp [mapAssign]))]
      simp [List.replicate_succ]
  have htrace := main argss s hs0
  refine ⟨htrace, ?_⟩
  rw [htrace]
  simp [lookupCount, List.countP_append, List.countP_replicate]

/-- C10 at a host that exports only `mono_get_root_domain`: three calls of
`Invoke("il2cpp_domain_get")` from the initial state. -/
theorem Invoke_unresolved_lookup_each_call_witness :
    (∀ trace hmodule, fixMonoHost.GetProcAddress trace hmodule "il2cpp_domain_get" = 0) ∧
      cacheFromHost fixMonoHost initialState ∧
      (InvokeRepeat fixMonoHost "il2cpp_domain_get" initialState [[], [1], [2, 3]]).trace =
          initialState.trace ++
            List.replicate [[], [1], [2, 3]].length
              (Event.lookup initialState.hmodule_ "il2cpp_domain_get") ∧
      lookupCount "il2cpp_domain_get"
          (InvokeRepeat fixMonoHost "il2cpp_domain_get" initialState [[], [1], [2, 3]]).trace =
        lookupCount "il2cpp_domain_get" initialState.trace + [[], [1], [2, 3]].length :=
  ⟨fun _ _ => rfl, cacheFromHost_initial fixMonoHost,
    Invoke_unresolved_lookup_each_call fixMonoHost "il2cpp_domain_get" (fun _ _ => rfl)
      initialState (cacheFromHost_initial fixMonoHost) [[], [1], [2, 3]]⟩

/-! ## Memoization and the degraded results of `Invoke` -/

/-- One `Invoke` of a name whose cache entry is non-null: no lookup, one call
through the cached address, the cache untouched. -/
theorem Invoke_of_cached (host : Host) (s : State) (funcName : String) (args : List Nat)
    (address : Nat) (hs : s.address_ funcName = some address) (h0 : address ≠ 0) :
    Invoke host s funcName args =
      ((host.call s.trace address args).getD 0,
        { s with trace := s.trace ++ [Event.call address args] }) := by
  have hres : resolve host s funcName = s := by
    unfold resolve
    rw [if_neg]
    rw [hs]
    simp [h0]
  have hidx : mapIndex s.address_ funcName = (address, s.address_) := by
    simp [mapIndex, hs]
  unfold Invoke
  simp only [hres, hidx, ne_eq, h0, not_false_eq_true, if_true]
  cases host.call s.trace address args <;> rfl

/-- An `Invoke` of one name leaves the cache entry of every other name alone. -/
theorem Invoke_other_entry (host : Host) (s : State) (funcName key : String) (args : List Nat)
    (hk : key ≠ funcName) : (Invoke host s funcName args).2.address_ key = s.address_ key := by
  rw [Invoke_address]
  have hres : (resolve host s funcName).address_ key = s.address_ key := by
    unfold resolve
    split
    · simp [mapAssign, hk]
    · rfl
  unfold mapIndex
  cases hm : (resolve host s funcName).address_ funcName with
  | some value => exact hres
  | none => simp [mapAssign, hk, hres]

/-- A non-null cache entry survives every `Invoke`, of its own name or another. -/
theorem Invoke_keeps_resolved (host : Host) (s : State) (funcName key : String)
    (args : List Nat) (address : Nat) (hs : s.address_ key = some address) (h0 : address ≠ 0) :
    (Invoke host s funcName args).2.address_ key = some address := by
  by_cases hk : key = funcName
  · subst hk
    rw [Invoke_of_cached host s key args address hs h0]
    exact hs
  · rw [Invoke_other_entry host s funcName key args hk]
    exact hs

/-- A non-null cache entry survives every run of `Invoke` calls. -/
theorem InvokeSeq_keeps_resolved (host : Host) (key : String) (address : Nat) (h0 : address ≠ 0) :
    ∀ (calls : List (String × List Nat)) (s : State), s.address_ key = some address →
      (InvokeSeq host s calls).address_ key = some address := by
  intro calls
  induction calls with
  | nil => intro s hs; exact hs
  | cons call rest ih =>
    intro s hs
    rw [InvokeSeq]
    exact ih _ (Invoke_keeps_resolved host s call.1 key call.2 address hs h0)

/-- The `Invoke` in which the lookup answers a non-null address stores it. -/
theorem Invoke_stores_lookup (host : Host) (s : State) (funcName : String) (args : List Nat)
    (hs : s.address_ funcName = none ∨ s.address_ funcName = some 0) :
    (Invoke host s funcName args).2.address_ funcName =
      some (host.GetProcAddress s.trace s.hmodule_ funcName) := by
  rw [Invoke_address]
  unfold resolve
  rw [if_pos hs]
  simp [mapIndex, mapAssign]

/-- For a name the lookup primitive never resolves, a cache that holds only
lookup answers has no non-null entry. -/
theorem cache_null_of_never (host : Host) (s : State) (funcName : String)
    (hnever : ∀ trace hmodule, host.GetProcAddress trace hmodule funcName = 0)
    (hs : cacheFromHost host s) :
    s.address_ funcName = none ∨ s.address_ funcName = some 0 := by
  cases hv : s.address_ funcName with
  | none => exact Or.inl rfl
  | some v =>
    right
    by_cases h0 : v = 0
    · rw [h0]
    · obtain ⟨tr, hm, hq⟩ := hs funcName v hv h0
      rw [hnever] at hq
      exact absurd hq.symm h0

/-- An `Invoke` of a never-resolved name: the zero word, and one lookup. -/
theorem Invoke_of_never_resolved (host : Host) (s : State) (funcName : String)
    (args : List Nat)
    (hnever : ∀ trace hmodule, host.GetProcAddress trace hmodule funcName = 0)
    (hs : cacheFromHost host s) :
    (Invoke host s funcName args).1 = 0 ∧
      (Invoke host s funcName args).2.trace =
        s.trace ++ [Event.lookup s.hmodule_ funcName] := by
  rw [Invoke_of_null_lookup host s funcName args (cache_null_of_never host s funcName hnever hs)
    (hnever _ _)]
  exact ⟨rfl, rfl⟩

/-- C11: let the lookup primitive answer a non-null address in one `Invoke` of
a name.  After any later run of `Invoke` calls the cache still holds that
address for the name, and an `Invoke` of the name then performs no lookup and
one call through that address, leaving the whole cache as it was; and any
`Invoke`, resolved or not, leaves the entries of all other names unchanged. -/
theorem Invoke_memoizes_resolved (host : Host) (funcName : String) (s0 : State)
    (args0 : List Nat)
    (h0 : s0.address_ funcName = none ∨ s0.address_ funcName = some 0)
    (hfound : host.GetProcAddress s0.trace s0.hmodule_ funcName ≠ 0)
    (calls : List (String × List Nat)) (args : List Nat) :
    (InvokeSeq host (Invoke host s0 funcName args0).2 calls).address_ funcName =
        some (host.GetProcAddress s0.trace s0.hmodule_ funcName) ∧
      (Invoke host (InvokeSeq host (Invoke host s0 funcName args0).2 calls) funcName args).2.trace =
        (InvokeSeq host (Invoke host s0 funcName args0).2 calls).trace ++
          [Event.call (host.GetProcAddress s0.trace s0.hmodule_ funcName) args] ∧
      (Invoke host (InvokeSeq host (Invoke host s0 funcName args0).2 calls) funcName args).2.address_ =
        (InvokeSeq host (Invoke host s0 funcName args0).2 calls).address_ ∧
      ∀ (s : State) (other : String) (xs : List Nat), other ≠ funcName →
        (Invoke host s funcName xs).2.address_ other = s.address_ other := by
  have hkeep := InvokeSeq_keeps_resolved host funcName _ hfound calls
    (Invoke host s0 funcName args0).2 (Invoke_stores_lookup host s0 funcName args0 h0)
  refine ⟨hkeep, ?_, ?_, ?_⟩
  · rw [Invoke_of_cached host _ funcName args _ hkeep hfound]
  · rw [Invoke_of_cached host _ funcName args _ hkeep hfound]
  · intro s other xs hne
    exact Invoke_other_entry host s funcName other xs hne

/-- C11 at a host that exports `mono_compile_method`: resolved by the first
`Invoke` from the initial state, then two other calls, then one more. -/
theorem Invoke_memoizes_resolved_witness :
    (initialState.address_ "mono_compile_method" = none ∨
        initialState.address_ "mono_compile_method" = some 0) ∧
      fixJitHost.GetProcAddress initialState.trace initialState.hmodule_ "mono_compile_method" ≠ 0 ∧
      ((InvokeSeq fixJitHost (Invoke fixJitHost initialState "mono_compile_method" [64]).2
          [("il2cpp_domain_get", []), ("mono_compile_method", [1])]).address_
            "mono_compile_method" =
          some (fixJitHost.GetProcAddress initialState.trace initialState.hmodule_
            "mono_compile_method") ∧
        (Invoke fixJitHost
            (InvokeSeq fixJitHost (Invoke fixJitHost initialState "mono_compile_method" [64]).2
              [("il2cpp_domain_get", []), ("mono_compile_method", [1])])
            "mono_compile_method" [2]).2.trace =
          (InvokeSeq fixJitHost (Invoke fixJitHost initialState "mono_compile_method" [64]).2
              [("il2cpp_domain_get", []), ("mono_compile_method", [1])]).trace ++
            [Event.call (fixJitHost.GetProcAddress initialState.trace initialState.hmodule_
              "mono_compile_method") [2]] ∧
        (Invoke fixJitHost
            (InvokeSeq fixJitHost (Invoke fixJitHost initialState "mono_compile_method" [64]).2
              [("il2cpp_domain_get", []), ("mono_compile_method", [1])])
            "mono_compile_method" [2]).2.address_ =
          (InvokeSeq fixJitHost (Invoke fixJitHost initialState "mono_compile_method" [64]).2
              [("il2cpp_domain_get", []), ("mono_compile_method", [1])]).address_ ∧
        ∀ (s : State) (other : String) (xs : List Nat), other ≠ "mono_compile_method" →
          (Invoke fixJitHost s "mono_compile_method" xs).2.address_ other = s.address_ other) :=
  ⟨Or.inl rfl, by decide,
    Invoke_memoizes_resolved fixJitHost "mono_compile_method" initialState [64] (Or.inl rfl)
      (by decide) [("il2cpp_domain_get", []), ("mono_compile_method", [1])] [2]⟩

/-- C12: for a name the lookup primitive never resolves, from any state whose
cache holds only lookup answers, `Invoke` returns `Return()` (the zero word)
and its only interaction with the host is the one lookup: nothing is called. -/
theorem Invoke_unresolved_gives_default (host : Host) (funcName : String)
    (hnever : ∀ trace hmodule, host.GetProcAddress trace hmodule funcName = 0)
    (s : State) (hs : cacheFromHost host s) (args : List Nat) :
    (Invoke host s funcName args).1 = 0 ∧
      (Invoke host s funcName args).2.trace =
        s.trace ++ [Event.lookup s.hmodule_ funcName] := by
  rw [Invoke_of_null_lookup host s funcName args (cache_null_of_never host s funcName hnever hs)
    (hnever _ _)]
  exact ⟨rfl, rfl⟩

/-- C12 at a host that exports only `mono_get_root_domain`, asked for
`il2cpp_domain_get` in the initial state. -/
theorem Invoke_unresolved_gives_default_witness :
    (∀ trace hmodule, fixMonoHost.GetProcAddress trace hmodule "il2cpp_domain_get" = 0) ∧
      cacheFromHost fixMonoHost initialState ∧
      (Invoke fixMonoHost initialState "il2cpp_domain_get" [5]).1 = 0 ∧
      (Invoke fixMonoHost initialState "il2cpp_domain_get" [5]).2.trace =
        initialState.trace ++ [Event.lookup initialState.hmodule_ "il2cpp_domain_get"] :=
  ⟨fun _ _ => rfl, cacheFromHost_initial fixMonoHost,
    Invoke_unresolved_gives_default fixMonoHost "il2cpp_domain_get" (fun _ _ => rfl)
      initialState (cacheFromHost_initial fixMonoHost) [5]⟩

/-- C13, evaluated where it fails: at a host whose functions throw, the form of
`Invoke` that takes a name returns `Return()`, while the form that takes an
address lets the exception out; the latter returns `Return()` for a null
address. -/
theorem Invoke_by_address_lets_throw_escape :
    (Invoke fixThrowingHost initialState "il2cpp_domain_get" [1]).1 = 0 ∧
      (UnityType.Invoke fixThrowingHost initialState 4096 [1]).1 = Except.error Fault.thrown ∧
      (UnityType.Invoke fixThrowingHost initialState 0 [1]).1 = Except.ok 0 := by
  decide

/-- C14: for a method whose function pointer is null and stays null (in Mono
mode the compile request for a non-null handle returns null), `Method::Invoke`
returns `Return()` without an exception, the function pointer is still null,
and the state is the one `Compile` left: nothing is called through the
method.  In Il2Cpp mode, or with a null handle, the state is untouched; when
`mono_compile_method` never resolves, the only interaction is its lookup. -/
theorem Method_Invoke_unresolved_gives_default (host : Host) (s : State) (m : Method)
    (args : List Nat) (hf : m.function = 0)
    (hrem : s.mode_ = Mode.Mono → m.address ≠ 0 →
      (Invoke host s "mono_compile_method" [m.address]).1 = 0) :
    (Method.Invoke host s m args).1 = Except.ok 0 ∧
      (Method.Invoke host s m args).2.1.function = 0 ∧
      (Method.Invoke host s m args).2.2 = (Method.Compile host s m).2 ∧
      (s.mode_ = Mode.Il2Cpp ∨ m.address = 0 → (Method.Invoke host s m args).2.2 = s) ∧
      ((∀ trace hmodule, host.GetProcAddress trace hmodule "mono_compile_method" = 0) →
        cacheFromHost host s → s.mode_ = Mode.Mono → m.address ≠ 0 →
        (Method.Invoke host s m args).2.2.trace =
          s.trace ++ [Event.lookup s.hmodule_ "mono_compile_method"]) := by
  have hc : (Method.Compile host s m).1.function = 0 := by
    unfold Method.Compile
    split
    · next h => exact hrem h.2.2 h.1
    · exact hf
  have hinv : Method.Invoke host s m args =
      (Except.ok 0, (Method.Compile host s m).1, (Method.Compile host s m).2) := by
    unfold Method.Invoke
    simp [hc]
  rw [hinv]
  refine ⟨rfl, hc, rfl, ?_, ?_⟩
  · intro h
    show (Method.Compile host s m).2 = s
    unfold Method.Compile
    rw [if_neg]
    rintro ⟨ha, _, hm⟩
    rcases h with h | h
    · rw [hm] at h; cases h
    · exact ha h
  · intro hnever hs hm ha
    show (Method.Compile host s m).2.trace = _
    unfold Method.Compile
    rw [if_pos ⟨ha, hf, hm⟩]
    exact (Invoke_of_never_resolved host s "mono_compile_method" [m.address] hnever hs).2

/-- C14 in Mono mode at a host without `mono_compile_method`, on the method
`Baz` whose function pointer is null. -/
theorem Method_Invoke_unresolved_gives_default_witness :
    fixBaz.function = 0 ∧
      (fixMonoState.mode_ = Mode.Mono → fixBaz.address ≠ 0 →
        (Invoke fixMonoHost fixMonoState "mono_compile_method" [fixBaz.address]).1 = 0) ∧
      ((Method.Invoke fixMonoHost fixMonoState fixBaz [1, 2]).1 = Except.ok 0 ∧
        (Method.Invoke fixMonoHost fixMonoState fixBaz [1, 2]).2.1.function = 0 ∧
        (Method.Invoke fixMonoHost fixMonoState fixBaz [1, 2]).2.2 =
          (Method.Compile fixMonoHost fixMonoState fixBaz).2 ∧
        (fixMonoState.mode_ = Mode.Il2Cpp ∨ fixBaz.address = 0 →
          (Method.Invoke fixMonoHost fixMonoState fixBaz [1, 2]).2.2 = fixMonoState) ∧
        ((∀ trace hmodule, fixMonoHost.GetProcAddress trace hmodule "mono_compile_method" = 0) →
          cacheFromHost fixMonoHost fixMonoState → fixMonoState.mode_ = Mode.Mono →
          fixBaz.address ≠ 0 →
          (Method.Invoke fixMonoHost fixMonoState fixBaz [1, 2]).2.2.trace =
            fixMonoState.trace ++ [Event.lookup fixMonoState.hmodule_ "mono_compile_method"])) :=
  ⟨rfl, fun _ _ => by decide,
    Method_Invoke_unresolved_gives_default fixMonoHost fixMonoState fixBaz [1, 2] rfl
      (fun _ _ => by decide)⟩

/-! ## Host-mediated invoke and lazy compile -/

/-- C19, evaluated where it fails: in Il2Cpp mode, at a host that exports
`il2cpp_runtime_invoke` and `il2cpp_object_unbox`, a non-void `RuntimeInvoke`
asks the lookup primitive for no name at all.  On a method without native code
it returns the zero word with no interaction; on a method with native code at
8192 it calls that code twice, first with the literal `il2cpp_runtime_invoke`
and then with the literal `mono_object_unbox`, the name of the other family.
The `void` form does look up `il2cpp_runtime_invoke`.  In Mono mode the only
name looked up is `mono_compile_method`, and the literal handed to the second
call is `il2cpp_object_unbox`. -/
theorem RuntimeInvoke_nonvoid_bypasses_resolver :
    (Method.RuntimeInvoke fixLiteral fixIl2CppHost initialState fixBaz false 5 0 []).1 =
        Except.ok 0 ∧
      (Method.RuntimeInvoke fixLiteral fixIl2CppHost initialState fixBaz false 5 0 []).2.2.trace =
        [] ∧
      (Method.RuntimeInvoke fixLiteral fixIl2CppHost initialState fixBazNative false 5 0
          []).2.2.trace =
        [Event.call 8192 [9001, 64, 5, 0, 0], Event.call 8192 [9003, 7]] ∧
      lookupNames (Method.RuntimeInvoke fixLiteral fixIl2CppHost initialState fixBazNative true 5 0
          []).2.2.trace = ["il2cpp_runtime_invoke"] ∧
      (Method.RuntimeInvoke fixLiteral fixJitHost fixMonoState fixBaz false 5 0 []).2.2.trace =
        [Event.lookup 0 "mono_compile_method", Event.call 4096 [64],
          Event.call 8192 [9002, 64, 5, 0, 0], Event.call 8192 [9004, 7]] := by
  decide

/-- C20: in Mono mode, on a method with a non-null handle and a null function
pointer, `Compile` is exactly one `Invoke` of `mono_compile_method` on the
handle, whose result is stored as the function pointer; in Il2Cpp mode, with a
null handle, or with a non-null function pointer, `Compile` changes nothing.
`Cast` is `Compile` and a read of the function pointer; `Invoke` is `Compile`
followed by at most a call through the function pointer; and a method whose
function pointer is non-null is left as it is by all three, with no lookup. -/
theorem Method_Compile_lazy (host : Host) (s : State) (m : Method) (args : List Nat) :
    (s.mode_ = Mode.Mono → m.address ≠ 0 → m.function = 0 →
        Method.Compile host s m =
          ({ m with function := (Invoke host s "mono_compile_method" [m.address]).1 },
            (Invoke host s "mono_compile_method" [m.address]).2)) ∧
      (s.mode_ = Mode.Il2Cpp ∨ m.address = 0 ∨ m.function ≠ 0 →
        Method.Compile host s m = (m, s)) ∧
      (Method.Cast host s m).2 = Method.Compile host s m ∧
      (Method.Cast host s m).1 = (Method.Compile host s m).1.function ∧
      (Method.Invoke host s m args).2.1 = (Method.Compile host s m).1 ∧
      (Method.Invoke host s m args).2.2.trace =
        (Method.Compile host s m).2.trace ++
          (if (Method.Compile host s m).1.function ≠ 0 then
            [Event.call (Method.Compile host s m).1.function args] else []) ∧
      (m.function ≠ 0 →
        (Method.Invoke host s m args).2.1 = m ∧
        (Method.Invoke host s m args).2.2.trace = s.trace ++ [Event.call m.function args] ∧
        (Method.Cast host s m).2 = (m, s)) := by
  have hno : s.mode_ = Mode.Il2Cpp ∨ m.address = 0 ∨ m.function ≠ 0 →
      Method.Compile host s m = (m, s) := by
    intro h
    unfold Method.Compile
    rw [if_neg]
    rintro ⟨ha, hf, hm⟩
    rcases h with h | h | h
    · rw [hm] at h; cases h
    · exact ha h
    · exact h hf
  have hcast : (Method.Cast host s m).2 = Method.Compile host s m := by
    unfold Method.Cast
    simp only
    split <;> rfl
  have hcast1 : (Method.Cast host s m).1 = (Method.Compile host s m).1.function := by
    unfold Method.Cast
    simp only
    split
    · rfl
    · next h => simp only [ne_eq, not_not] at h; exact h.symm
  have hinv1 : (Method.Invoke host s m args).2.1 = (Method.Compile host s m).1 := by
    unfold Method.Invoke
    simp only
    split
    · split <;> rfl
    · rfl
  have hinv2 : (Method.Invoke host s m args).2.2.trace =
      (Method.Compile host s m).2.trace ++
        (if (Method.Compile host s m).1.function ≠ 0 then
          [Event.call (Method.Compile host s m).1.function args] else []) := by
    unfold Method.Invoke
    simp only
    split
    · split <;> rfl
    · simp
  refine ⟨?_, hno, hcast, hcast1, hinv1, hinv2, ?_⟩
  · intro hm ha hf
    unfold Method.Compile
    rw [if_pos ⟨ha, hf, hm⟩]
  · intro hf
    have hc := hno (Or.inr (Or.inr hf))
    refine ⟨by rw [hinv1, hc], ?_, by rw [hcast, hc]⟩
    rw [hinv2, hc]
    simp [hf]

/-! ## Lemmas on the typed request -/

/-- A request leaves the mode, the catalog and the allocation count alone. -/
theorem InvokeAs_frame {R : Type} (dflt : R) (host : Host) (s : State) (funcName : String)
    (args : List Nat) (answer : Option R) :
    (InvokeAs dflt host s funcName args answer).2.mode_ = s.mode_ ∧
      (InvokeAs dflt host s funcName args answer).2.assembly = s.assembly ∧
      (InvokeAs dflt host s funcName args answer).2.allocated = s.allocated ∧
      (InvokeAs dflt host s funcName args answer).2.hmodule_ = s.hmodule_ ∧
      (InvokeAs dflt host s funcName args answer).2.pDomain = s.pDomain := by
  have hres : (resolve host s funcName).mode_ = s.mode_ ∧
      (resolve host s funcName).assembly = s.assembly ∧
      (resolve host s funcName).allocated = s.allocated ∧
      (resolve host s funcName).hmodule_ = s.hmodule_ ∧
      (resolve host s funcName).pDomain = s.pDomain := by
    unfold resolve
    split <;> exact ⟨rfl, rfl, rfl, rfl, rfl⟩
  unfold InvokeAs
  simp only
  split
  · split <;> exact hres
  · exact hres

/-- After `resolve`, the cache entry of an exported name is non-null. -/
theorem resolve_exported (host : Host) (s : State) (funcName : String)
    (hexp : ∀ trace hmodule, host.GetProcAddress trace hmodule funcName ≠ 0) :
    ∃ address, address ≠ 0 ∧ (resolve host s funcName).address_ funcName = some address := by
  unfold resolve
  split
  · exact ⟨_, hexp s.trace s.hmodule_, by simp [mapAssign]⟩
  · next h =>
    cases hv : s.address_ funcName with
    | none => exact absurd (Or.inl hv) h
    | some v =>
      refine ⟨v, ?_, rfl⟩
      intro h0
      exact h (Or.inr (by rw [hv, h0]))

/-- A request for an exported name returns the answer of the host. -/
theorem InvokeAs_exported {R : Type} (dflt : R) (host : Host) (s : State) (funcName : String)
    (args : List Nat) (value : R)
    (hexp : ∀ trace hmodule, host.GetProcAddress trace hmodule funcName ≠ 0) :
    (InvokeAs dflt host s funcName args (some value)).1 = value := by
  obtain ⟨address, h0, hres⟩ := resolve_exported host s funcName hexp
  unfold InvokeAs
  simp [mapIndex, hres, h0]

/-- A request returns the answer of the host or the default value. -/
theorem InvokeAs_value {R : Type} (dflt : R) (host : Host) (s : State) (funcName : String)
    (args : List Nat) (value : R) :
    (InvokeAs dflt host s funcName args (some value)).1 = value ∨
      (InvokeAs dflt host s funcName args (some value)).1 = dflt := by
  unfold InvokeAs
  simp only
  split
  · exact Or.inl rfl
  · exact Or.inr rfl

/-- The requests of `Invoke` are those of `InvokeAs` at the zero word, for a
callee whose answer to these arguments does not depend on the history. -/
theorem Invoke_eq_InvokeAs (host : Host) (s : State) (funcName : String) (args : List Nat)
    (answer : Option Nat) (hans : ∀ trace address, host.call trace address args = answer) :
    Invoke host s funcName args = InvokeAs 0 host s funcName args answer := by
  unfold Invoke InvokeAs
  simp only [hans]
  cases answer <;> rfl

/-! ## The fields the walk catalogs -/

/-- A field made by the Il2Cpp branch: handle, back-pointer, the static flag
read off the offset, and the offset the host answers when the entry point is
exported. -/
theorem newFieldIl2Cpp_some (host : Host) (api : Api) (s : State) (klass field : Nat)
    (f : Field) (h : (ForeachFields.newFieldIl2Cpp host api s klass field).1 = some f) :
    f.address = field ∧ f.klass = klass ∧ f.static_field = decide (f.offset ≤ 0) ∧
      ((∀ trace hmodule, host.GetProcAddress trace hmodule "il2cpp_field_get_offset" ≠ 0) →
        f.offset = api.field_get_offset field) := by
  unfold ForeachFields.newFieldIl2Cpp at h
  simp only at h
  split at h
  · cases h
  · split at h
    · cases h
    · simp only [Option.some.injEq] at h
      subst h
      refine ⟨rfl, rfl, rfl, ?_⟩
      intro hexp
      exact InvokeAs_exported _ _ _ _ _ _ hexp

/-- A field made by the Mono branch: handle, back-pointer, and, when the entry
points are exported, the static flag read off bit `0x10` of the flags the host
answers and the offset the host answers. -/
theorem newFieldMono_some (host : Host) (api : Api) (s : State) (klass field : Nat)
    (f : Field) (h : (ForeachFields.newFieldMono host api s klass field).1 = some f) :
    f.address = field ∧ f.klass = klass ∧
      ((∀ trace hmodule, host.GetProcAddress trace hmodule "mono_field_get_flags" ≠ 0) →
        f.static_field = decide (Int.land (api.field_get_flags field) 0x10 ≠ 0)) ∧
      ((∀ trace hmodule, host.GetProcAddress trace hmodule "mono_field_get_offset" ≠ 0) →
        f.offset = api.field_get_offset field) := by
  unfold ForeachFields.newFieldMono at h
  simp only at h
  split at h
  · cases h
  · split at h
    · cases h
    · simp only [Option.some.injEq] at h
      subst h
      refine ⟨rfl, rfl, ?_, ?_⟩
      · intro hexp
        simp only [InvokeAs_exported _ _ _ _ _ _ hexp]
      · intro hexp
        exact InvokeAs_exported _ _ _ _ _ _ hexp

/-- Every field in the list after the Il2Cpp loop was there before or was made
by `newFieldIl2Cpp` for this class. -/
theorem loopIl2Cpp_fields (host : Host) (api : Api) (klass pKlass : Nat) :
    ∀ (answers : List Nat) (c : Class) (s : State) (f : Field),
      f ∈ (ForeachFields.loopIl2Cpp host api klass pKlass answers c s).1.fields →
      f ∈ c.fields ∨
        ∃ s0 field, (ForeachFields.newFieldIl2Cpp host api s0 klass field).1 = some f := by
  intro answers
  induction answers with
  | nil => intro c s f h; exact Or.inl h
  | cons answer rest ih =>
    intro c s f h
    unfold ForeachFields.loopIl2Cpp at h
    simp only at h
    split at h
    · exact Or.inl h
    · split at h
      · exact ih _ _ f h
      · exact Or.inl h
      · next pField s1 hnew =>
        rcases ih _ _ f h with hmem | hex
        · simp only [List.mem_append, List.mem_singleton] at hmem
          rcases hmem with hmem | hmem
          · exact Or.inl hmem
          · exact Or.inr ⟨_, _, by rw [hnew, hmem]⟩
        · exact Or.inr hex
      · next pField s1 e hnew =>
        simp only [List.mem_append, List.mem_singleton] at h
        rcases h with hmem | hmem
        · exact Or.inl hmem
        · exact Or.inr ⟨_, _, by rw [hnew, hmem]⟩

/-- Every field in the list after the Mono loop was there before or was made
by `newFieldMono` for this class. -/
theorem loopMono_fields (host : Host) (api : Api) (klass pKlass : Nat) :
    ∀ (answers : List Nat) (c : Class) (s : State) (f : Field),
      f ∈ (ForeachFields.loopMono host api klass pKlass answers c s).1.fields →
      f ∈ c.fields ∨
        ∃ s0 field, (ForeachFields.newFieldMono host api s0 klass field).1 = some f := by
  intro answers
  induction answers with
  | nil => intro c s f h; exact Or.inl h
  | cons answer rest ih =>
    intro c s f h
    unfold ForeachFields.loopMono at h
    simp only at h
    split at h
    · exact Or.inl h
    · split at h
      · exact ih _ _ f h
      · exact Or.inl h
      · next pField s1 hnew =>
        rcases ih _ _ f h with hmem | hex
        · simp only [List.mem_append, List.mem_singleton] at hmem
          rcases hmem with hmem | hmem
          · exact Or.inl hmem
          · exact Or.inr ⟨_, _, by rw [hnew, hmem]⟩
        · exact Or.inr hex
      · next pField s1 e hnew =>
        simp only [List.mem_append, List.mem_singleton] at h
        rcases h with hmem | hmem
        · exact Or.inl hmem
        · exact Or.inr ⟨_, _, by rw [hnew, hmem]⟩

/-- C15 as stated fails in the Mono branch: at a host that does not export
`mono_field_get_offset`, the request degrades to 0 and the instance field `Bar`
is cataloged non-static with offset 0. -/
theorem ForeachFields_Mono_instance_offset_zero :
    ¬ ∀ (host : Host) (api : Api) (s : State) (klass : Nat) (c : Class) (pKlass : Nat)
        (f : Field), f ∈ (ForeachFields host api s klass c pKlass).1.fields → f ∉ c.fields →
        f.static_field = false → 0 < f.offset := by
  intro h
  have hx := h fixNoOffsetHost fixApi fixMonoState 1 {} 300 { fixBarMono with offset := 0 }
    (by decide) (by decide) rfl
  revert hx
  decide

/-- C15, amended to the Il2Cpp branch: a field the walk appends there with
`static_field` false has a strictly positive offset. -/
theorem ForeachFields_Il2Cpp_instance_offset_positive (host : Host) (api : Api) (s : State)
    (klass : Nat) (c : Class) (pKlass : Nat) (hmode : s.mode_ = Mode.Il2Cpp) (f : Field)
    (hf : f ∈ (ForeachFields host api s klass c pKlass).1.fields) (hnew : f ∉ c.fields)
    (hstatic : f.static_field = false) : 0 < f.offset := by
  unfold ForeachFields at hf
  rw [if_pos hmode] at hf
  rcases loopIl2Cpp_fields host api klass pKlass _ c s f hf with hold | ⟨s0, field, hmade⟩
  · exact absurd hold hnew
  · have hs := (newFieldIl2Cpp_some host api s0 klass field f hmade).2.2.1
    rw [hstatic] at hs
    have hnot : ¬ f.offset ≤ 0 := by
      intro hle
      rw [decide_eq_true hle] at hs
      cases hs
    omega

/-- The amended C15 at the end-to-end fixture: the field `Bar` of the class with
handle 300, walked in Il2Cpp mode into an empty class. -/
theorem ForeachFields_Il2Cpp_instance_offset_positive_witness :
    initialState.mode_ = Mode.Il2Cpp ∧
      fixBarIl2Cpp ∈ (ForeachFields fixFullHost fixApi initialState 1 {} 300).1.fields ∧
      fixBarIl2Cpp ∉ ({} : Class).fields ∧ fixBarIl2Cpp.static_field = false ∧
      0 < fixBarIl2Cpp.offset :=
  ⟨rfl, by decide, by decide, rfl,
    ForeachFields_Il2Cpp_instance_offset_positive fixFullHost fixApi initialState 1 {} 300 rfl
      fixBarIl2Cpp (by decide) (by decide) rfl⟩

/-- The state a request leaves does not depend on what the callee answers. -/
theorem InvokeAs_state_answer {R : Type} (dflt : R) (host : Host) (s : State)
    (funcName : String) (args : List Nat) (value other : R) :
    (InvokeAs dflt host s funcName args (some value)).2 =
      (InvokeAs dflt host s funcName args (some other)).2 := by
  unfold InvokeAs
  simp only
  split <;> rfl

/-- The Il2Cpp loop never asks for the field flags. -/
theorem loopIl2Cpp_flags_unread (host : Host) (api : Api) (klass pKlass : Nat)
    (g : Nat → Int) :
    ∀ (answers : List Nat) (c : Class) (s : State),
      ForeachFields.loopIl2Cpp host { api with field_get_flags := g } klass pKlass answers c s =
        ForeachFields.loopIl2Cpp host api klass pKlass answers c s := by
  intro answers
  induction answers with
  | nil => intro c s; rfl
  | cons answer rest ih =>
    intro c s
    unfold ForeachFields.loopIl2Cpp
    have hnew : ∀ s0 field,
        ForeachFields.newFieldIl2Cpp host { api with field_get_flags := g } s0 klass field =
          ForeachFields.newFieldIl2Cpp host api s0 klass field := fun _ _ => rfl
    simp only [hnew, ih]

/-- In the Mono branch, the state after a field and its static flag do not
depend on the offsets the host answers. -/
theorem newFieldMono_offset_unread (host : Host) (api : Api) (s : State) (klass field : Nat)
    (g : Nat → Int) :
    (ForeachFields.newFieldMono host { api with field_get_offset := g } s klass field).2 =
        (ForeachFields.newFieldMono host api s klass field).2 ∧
      (ForeachFields.newFieldMono host { api with field_get_offset := g } s klass field).1.map
          (fun f => f.static_field) =
        (ForeachFields.newFieldMono host api s klass field).1.map (fun f => f.static_field) := by
  unfold ForeachFields.newFieldMono
  simp only
  split
  · exact ⟨rfl, rfl⟩
  · rw [InvokeAs_state_answer (0 : Int) host _ "mono_field_get_offset" [field] (g field)
      (api.field_get_offset field)]
    split
    · exact ⟨rfl, rfl⟩
    · exact ⟨rfl, rfl⟩

/-- C16: a field the walk appends has, in Il2Cpp mode, `static_field` equal to
`offset <= 0`, whatever the flags are (the walk is the same for any flags the
host may hold); in Mono mode, at a host that exports `mono_field_get_flags`,
`static_field` equal to bit `0x10` of the flags the host answers, whatever the
offset is.  In both modes, at a host that exports the offset entry point, the
cataloged offset is the one the host answers for the field handle. -/
theorem ForeachFields_static_per_backend (host : Host) (api : Api) (s : State) (klass : Nat)
    (c : Class) (pKlass : Nat) (f : Field)
    (hf : f ∈ (ForeachFields host api s klass c pKlass).1.fields) (hnew : f ∉ c.fields) :
    (s.mode_ = Mode.Il2Cpp →
        f.static_field = decide (f.offset ≤ 0) ∧
        ((∀ trace hmodule, host.GetProcAddress trace hmodule "il2cpp_field_get_offset" ≠ 0) →
          f.offset = api.field_get_offset f.address) ∧
        ∀ g : Nat → Int,
          ForeachFields host { api with field_get_flags := g } s klass c pKlass =
            ForeachFields host api s klass c pKlass) ∧
      (s.mode_ = Mode.Mono →
        ((∀ trace hmodule, host.GetProcAddress trace hmodule "mono_field_get_flags" ≠ 0) →
          f.static_field = decide (Int.land (api.field_get_flags f.address) 0x10 ≠ 0)) ∧
        ((∀ trace hmodule, host.GetProcAddress trace hmodule "mono_field_get_offset" ≠ 0) →
          f.offset = api.field_get_offset f.address) ∧
        ∀ (g : Nat → Int) (s0 : State) (field : Nat),
          (ForeachFields.newFieldMono host { api with field_get_offset := g } s0 klass field).1.map
              (fun x => x.static_field) =
            (ForeachFields.newFieldMono host api s0 klass field).1.map
              (fun x => x.static_field)) := by
  constructor
  · intro hmode
    unfold ForeachFields at hf
    rw [if_pos hmode] at hf
    rcases loopIl2Cpp_fields host api klass pKlass _ c s f hf with hold | ⟨s0, field, hmade⟩
    · exact absurd hold hnew
    · obtain ⟨ha, _, hs, ho⟩ := newFieldIl2Cpp_some host api s0 klass field f hmade
      refine ⟨hs, ?_, ?_⟩
      · intro hexp; rw [ha]; exact ho hexp
      · intro g
        unfold ForeachFields
        rw [if_pos hmode, if_pos hmode]
        exact loopIl2Cpp_flags_unread host api klass pKlass g _ c s
  · intro hmode
    have hne : ¬ s.mode_ = Mode.Il2Cpp := by rw [hmode]; decide
    unfold ForeachFields at hf
    rw [if_neg hne] at hf
    rcases loopMono_fields host api klass pKlass _ c s f hf with hold | ⟨s0, field, hmade⟩
    · exact absurd hold hnew
    · obtain ⟨ha, _, hs, ho⟩ := newFieldMono_some host api s0 klass field f hmade
      refine ⟨?_, ?_, ?_⟩
      · intro hexp; rw [ha]; exact hs hexp
      · intro hexp; rw [ha]; exact ho hexp
      · intro g s0 field
        exact (newFieldMono_offset_unread host api s0 klass field g).2

/-- The host `fixFullHost` exports every name. -/
theorem fixFullHost_exports (trace : List Event) (hmodule : Nat) (name : String) :
    fixFullHost.GetProcAddress trace hmodule name ≠ 0 := by
  show (4096 : Nat) ≠ 0
  decide

/-- C16 at the end-to-end fixture: the field `Bar`, walked in Mono mode into an
empty class. -/
theorem ForeachFields_static_per_backend_witness :
    fixBarMono ∈ (ForeachFields fixFullHost fixApi fixMonoState 1 {} 300).1.fields ∧
      fixBarMono ∉ ({} : Class).fields ∧
      ((fixMonoState.mode_ = Mode.Il2Cpp →
          fixBarMono.static_field = decide (fixBarMono.offset ≤ 0) ∧
          ((∀ trace hmodule,
              fixFullHost.GetProcAddress trace hmodule "il2cpp_field_get_offset" ≠ 0) →
            fixBarMono.offset = fixApi.field_get_offset fixBarMono.address) ∧
          ∀ g : Nat → Int,
            ForeachFields fixFullHost { fixApi with field_get_flags := g } fixMonoState 1 {} 300 =
              ForeachFields fixFullHost fixApi fixMonoState 1 {} 300) ∧
        (fixMonoState.mode_ = Mode.Mono →
          ((∀ trace hmodule,
              fixFullHost.GetProcAddress trace hmodule "mono_field_get_flags" ≠ 0) →
            fixBarMono.static_field =
              decide (Int.land (fixApi.field_get_flags fixBarMono.address) 0x10 ≠ 0)) ∧
          ((∀ trace hmodule,
              fixFullHost.GetProcAddress trace hmodule "mono_field_get_offset" ≠ 0) →
            fixBarMono.offset = fixApi.field_get_offset fixBarMono.address) ∧
          ∀ (g : Nat → Int) (s0 : State) (field : Nat),
            (ForeachFields.newFieldMono fixFullHost { fixApi with field_get_offset := g } s0 1
                field).1.map (fun x => x.static_field) =
              (ForeachFields.newFieldMono fixFullHost fixApi s0 1 field).1.map
                (fun x => x.static_field))) :=
  ⟨by decide, by decide,
    ForeachFields_static_per_backend fixFullHost fixApi fixMonoState 1 {} 300 fixBarMono
      (by decide) (by decide)⟩

/-- C17 as stated fails: for a static field that lies at offset 8 of the static
data (flags `0x16`), the same offset and flags under both backends, the Il2Cpp
walk catalogs `static_field` false and the Mono walk catalogs it true. -/
theorem ForeachFields_backends_disagree :
    ¬ ∀ (host : Host) (api : Api) (s1 s2 : State) (klass : Nat) (c : Class) (pKlass : Nat)
        (f1 f2 : Field), s1.mode_ = Mode.Il2Cpp → s2.mode_ = Mode.Mono →
        (∀ trace hmodule name, host.GetProcAddress trace hmodule name ≠ 0) →
        f1 ∈ (ForeachFields host api s1 klass c pKlass).1.fields → f1 ∉ c.fields →
        f2 ∈ (ForeachFields host api s2 klass c pKlass).1.fields → f2 ∉ c.fields →
        f1.address = f2.address → f1.static_field = f2.static_field := by
  intro h
  have hx := h fixFullHost fixStaticApi initialState fixMonoState 1 {} 300 fixBarIl2Cpp
    { fixBarMono with static_field := true } rfl rfl fixFullHost_exports
    (by decide) (by decide) (by decide) (by decide) rfl
  revert hx
  decide

/-- C17, amended: at a host that exports the offset and flags entry points, a
field cataloged by the Il2Cpp walk and by the Mono walk gets the same
`static_field` exactly when `offset <= 0` holds if and only if bit `0x10` of its
flags is set; for an instance field (bit clear) that is exactly when the offset
is strictly positive. -/
theorem ForeachFields_backends_agree_iff (host : Host) (api : Api) (s1 s2 : State)
    (klass1 klass2 : Nat) (c1 c2 : Class) (pKlass1 pKlass2 : Nat) (f1 f2 : Field)
    (hm1 : s1.mode_ = Mode.Il2Cpp) (hm2 : s2.mode_ = Mode.Mono)
    (hoff : ∀ trace hmodule, host.GetProcAddress trace hmodule "il2cpp_field_get_offset" ≠ 0)
    (hflags : ∀ trace hmodule, host.GetProcAddress trace hmodule "mono_field_get_flags" ≠ 0)
    (h1 : f1 ∈ (ForeachFields host api s1 klass1 c1 pKlass1).1.fields) (hn1 : f1 ∉ c1.fields)
    (h2 : f2 ∈ (ForeachFields host api s2 klass2 c2 pKlass2).1.fields) (hn2 : f2 ∉ c2.fields)
    (hsame : f1.address = f2.address) :
    (f1.static_field = f2.static_field ↔
        (api.field_get_offset f1.address ≤ 0 ↔
          Int.land (api.field_get_flags f1.address) 0x10 ≠ 0)) ∧
      (Int.land (api.field_get_flags f1.address) 0x10 = 0 →
        (f1.static_field = f2.static_field ↔ 0 < api.field_get_offset f1.address)) := by
  have hne : ¬ s2.mode_ = Mode.Il2Cpp := by rw [hm2]; decide
  unfold ForeachFields at h1 h2
  rw [if_pos hm1] at h1
  rw [if_neg hne] at h2
  rcases loopIl2Cpp_fields host api klass1 pKlass1 _ c1 s1 f1 h1 with hold | ⟨sa, fa, hmade1⟩
  · exact absurd hold hn1
  rcases loopMono_fields host api klass2 pKlass2 _ c2 s2 f2 h2 with hold | ⟨sb, fb, hmade2⟩
  · exact absurd hold hn2
  obtain ⟨ha1, _, hs1, ho1⟩ := newFieldIl2Cpp_some host api sa klass1 fa f1 hmade1
  obtain ⟨ha2, _, hs2, _⟩ := newFieldMono_some host api sb klass2 fb f2 hmade2
  have e1 : f1.static_field = decide (api.field_get_offset f1.address ≤ 0) := by
    rw [hs1, ha1, ho1 hoff]
  have e2 : f2.static_field = decide (Int.land (api.field_get_flags f1.address) 0x10 ≠ 0) := by
    rw [hsame, ha2]
    exact hs2 hflags
  have key : f1.static_field = f2.static_field ↔
      (api.field_get_offset f1.address ≤ 0 ↔
        Int.land (api.field_get_flags f1.address) 0x10 ≠ 0) := by
    rw [e1, e2]
    exact decide_eq_decide
  refine ⟨key, ?_⟩
  intro hclear
  rw [key]
  constructor
  · intro hiff
    by_contra hle
    exact (hiff.1 (by omega)) hclear
  · intro hpos
    constructor
    · intro hle; omega
    · intro hset; exact absurd hclear hset

/-- The amended C17 at the end-to-end fixture: `Bar` as each backend catalogs
it. -/
theorem ForeachFields_backends_agree_iff_witness :
    initialState.mode_ = Mode.Il2Cpp ∧ fixMonoState.mode_ = Mode.Mono ∧
      (∀ trace hmodule,
        fixFullHost.GetProcAddress trace hmodule "il2cpp_field_get_offset" ≠ 0) ∧
      (∀ trace hmodule, fixFullHost.GetProcAddress trace hmodule "mono_field_get_flags" ≠ 0) ∧
      fixBarIl2Cpp ∈ (ForeachFields fixFullHost fixApi initialState 1 {} 300).1.fields ∧
      fixBarIl2Cpp ∉ ({} : Class).fields ∧
      fixBarMono ∈ (ForeachFields fixFullHost fixApi fixMonoState 1 {} 300).1.fields ∧
      fixBarMono ∉ ({} : Class).fields ∧ fixBarIl2Cpp.address = fixBarMono.address ∧
      ((fixBarIl2Cpp.static_field = fixBarMono.static_field ↔
          (fixApi.field_get_offset fixBarIl2Cpp.address ≤ 0 ↔
            Int.land (fixApi.field_get_flags fixBarIl2Cpp.address) 0x10 ≠ 0)) ∧
        (Int.land (fixApi.field_get_flags fixBarIl2Cpp.address) 0x10 = 0 →
          (fixBarIl2Cpp.static_field = fixBarMono.static_field ↔
            0 < fixApi.field_get_offset fixBarIl2Cpp.address))) :=
  ⟨rfl, rfl, fun _ _ => fixFullHost_exports _ _ _, fun _ _ => fixFullHost_exports _ _ _,
    by decide, by decide, by decide, by decide, rfl,
    ForeachFields_backends_agree_iff fixFullHost fixApi initialState fixMonoState 1 1 {} {} 300
      300 fixBarIl2Cpp fixBarMono rfl rfl (fun _ _ => fixFullHost_exports _ _ _)
      (fun _ _ => fixFullHost_exports _ _ _) (by decide) (by decide) (by decide) (by decide)
      rfl⟩

/-! ## The walk at a host that exports its entry points -/

/-- A request for an entry point of the walk returns the answer of the host. -/
theorem InvokeAs_walk {R : Type} (dflt : R) (host : Host) (mode : Mode) (s : State)
    (funcName : String) (args : List Nat) (value : R) (hexp : exportsWalk host mode)
    (hname : funcName ∈ walkNames mode) :
    (InvokeAs dflt host s funcName args (some value)).1 = value :=
  InvokeAs_exported dflt host s funcName args value (hexp funcName hname)

theorem InvokeAs_mode {R : Type} (dflt : R) (host : Host) (s : State) (funcName : String)
    (args : List Nat) (answer : Option R) :
    (InvokeAs dflt host s funcName args answer).2.mode_ = s.mode_ :=
  (InvokeAs_frame dflt host s funcName args answer).1

theorem InvokeAs_assembly {R : Type} (dflt : R) (host : Host) (s : State) (funcName : String)
    (args : List Nat) (answer : Option R) :
    (InvokeAs dflt host s funcName args answer).2.assembly = s.assembly :=
  (InvokeAs_frame dflt host s funcName args answer).2.1

/-- The Il2Cpp branch of `ForeachFields` on a class for which the host yields
one field, at a host that exports the walk. -/
theorem ForeachFields_Il2Cpp_one (host : Host) (api : Api) (s : State) (klass : Nat) (c : Class)
    (pKlass fld : Nat) (fieldName typeName : String)
    (hexp : exportsWalk host Mode.Il2Cpp) (hmode : s.mode_ = Mode.Il2Cpp)
    (hfields : api.class_get_fields pKlass = [fld]) (hfld : fld ≠ 0)
    (hname : api.field_get_name fld = some fieldName)
    (htype : api.type_get_name (api.field_get_type fld) = some typeName) :
    ∃ s1, s1.mode_ = s.mode_ ∧ s1.assembly = s.assembly ∧
      ForeachFields host api s klass c pKlass =
        ({ c with fields := c.fields ++
            [{ address := fld, name := fieldName,
               type := { address := api.field_get_type fld, name := typeName, size := -1 },
               klass := klass, offset := api.field_get_offset fld,
               static_field := decide (api.field_get_offset fld ≤ 0), vTable := 0 }] },
          s1, none) := by
  unfold ForeachFields
  rw [if_pos hmode, hfields]
  simp only [ForeachFields.loopIl2Cpp, ForeachFields.newFieldIl2Cpp,
    InvokeAs_walk _ host Mode.Il2Cpp _ _ _ _ hexp, walkNames, List.mem_cons,
    List.mem_singleton, String.reduceEq, or_true, true_or, or_false, false_or,
    hfld, hname, htype, if_false]
  exact ⟨_, by simp only [InvokeAs_mode], by simp only [InvokeAs_assembly], rfl⟩

/-- The Mono branch of `ForeachFields` on a class for which the host yields one
field, at a host that exports the walk. -/
theorem ForeachFields_Mono_one (host : Host) (api : Api) (s : State) (klass : Nat) (c : Class)
    (pKlass fld : Nat) (fieldName typeName : String)
    (hexp : exportsWalk host Mode.Mono) (hmode : s.mode_ = Mode.Mono)
    (hfields : api.class_get_fields pKlass = [fld]) (hfld : fld ≠ 0)
    (hname : api.field_get_name fld = some fieldName)
    (htype : api.type_get_name (api.field_get_type fld) = some typeName) :
    ∃ s1, s1.mode_ = s.mode_ ∧ s1.assembly = s.assembly ∧
      ForeachFields host api s klass c pKlass =
        ({ c with fields := c.fields ++
            [{ address := fld, name := fieldName,
               type := { address := api.field_get_type fld, name := typeName,
                         size := api.type_size (api.field_get_type fld) },
               klass := klass, offset := api.field_get_offset fld,
               static_field := decide (Int.land (api.field_get_flags fld) 0x10 ≠ 0),
               vTable := 0 }] },
          s1, none) := by
  have hne : ¬ s.mode_ = Mode.Il2Cpp := by rw [hmode]; decide
  unfold ForeachFields
  rw [if_neg hne, hfields]
  simp only [ForeachFields.loopMono, ForeachFields.newFieldMono,
    InvokeAs_walk _ host Mode.Mono _ _ _ _ hexp, walkNames, List.mem_cons,
    List.mem_singleton, String.reduceEq, or_true, true_or, or_false, false_or,
    hfld, hname, htype, if_false, Fault.afterCatch]
  exact ⟨_, by simp only [InvokeAs_mode], by simp only [InvokeAs_assembly], rfl⟩

theorem argsIl2Cpp_nil (host : Host) (api : Api) (method : Nat) (args : List Method.Arg)
    (s : State) : ForeachMethod.argsIl2Cpp host api method [] args s = (args, s, none) := rfl

theorem paramsMono_nil (host : Host) (api : Api) (signature : Nat)
    (names : List (Option String)) (iname : Nat) (args : List Method.Arg) (s : State) :
    ForeachMethod.paramsMono host api signature names [] iname args s =
      (args, (InvokeAs 0 host s "mono_signature_get_params" [signature] (some 0)).2) := rfl

/-- One method without parameters in the Il2Cpp branch, at a host that exports
the walk. -/
theorem newMethodIl2Cpp_no_params (host : Host) (api : Api) (s : State) (klass mth : Nat)
    (methodName returnName : String) (hexp : exportsWalk host Mode.Il2Cpp)
    (hname : api.method_get_name mth = some methodName)
    (hret : api.type_get_name (api.method_get_return_type mth) = some returnName)
    (hcount : api.method_get_param_count mth = 0) :
    ∃ s1, s1.mode_ = s.mode_ ∧ s1.assembly = s.assembly ∧
      ForeachMethod.newMethodIl2Cpp host api s klass mth =
        (some { address := mth, name := methodName, klass := klass,
                return_type := { address := api.method_get_return_type mth, name := returnName,
                                 size := -1 },
                flags := api.method_get_flags mth,
                static_function := decide (Int.land (api.method_get_flags mth) 0x10 ≠ 0),
                function := api.methodPointer mth, args := [] },
          s1, none) := by
  unfold ForeachMethod.newMethodIl2Cpp
  simp only [InvokeAs_walk _ host Mode.Il2Cpp _ _ _ _ hexp, walkNames, List.mem_cons,
    List.mem_singleton, String.reduceEq, or_true, true_or, or_false, false_or,
    hname, hret, hcount, Int.toNat_zero, List.range_zero, argsIl2Cpp_nil]
  exact ⟨_, by simp only [InvokeAs_mode], by simp only [InvokeAs_assembly], rfl⟩

/-- One method without parameters in the Mono branch, at a host that exports
the walk. -/
theorem newMethodMono_no_params (host : Host) (api : Api) (s : State) (klass mth : Nat)
    (methodName returnName : String) (hexp : exportsWalk host Mode.Mono)
    (hsig : api.method_signature mth ≠ 0)
    (hname : api.method_get_name mth = some methodName)
    (hret : api.type_get_name (api.signature_get_return_type (api.method_signature mth)) =
      some returnName)
    (hcount : api.signature_get_param_count (api.method_signature mth) = 0)
    (hparams : api.signature_get_params (api.method_signature mth) = []) :
    ∃ s1, s1.mode_ = s.mode_ ∧ s1.assembly = s.assembly ∧
      ForeachMethod.newMethodMono host api s klass mth =
        (some { address := mth, name := methodName, klass := klass,
                return_type :=
                  { address := api.signature_get_return_type (api.method_signature mth),
                    name := returnName,
                    size := api.type_size
                      (api.signature_get_return_type (api.method_signature mth)) },
                flags := api.method_get_flags mth,
                static_function := decide (Int.land (api.method_get_flags mth) 0x10 ≠ 0),
                function := 0, args := [] },
          s1, none) := by
  unfold ForeachMethod.newMethodMono
  simp only [InvokeAs_walk _ host Mode.Mono _ _ _ _ hexp, walkNames, List.mem_cons,
    List.mem_singleton, String.reduceEq, or_true, true_or, or_false, false_or]
  simp only [hsig, if_false, hname, hret]
  simp only [hcount, lt_self_iff_false, if_false]
  rw [hparams]
  simp only [paramsMono_nil]
  exact ⟨_, by simp only [InvokeAs_mode], by simp only [InvokeAs_assembly], rfl⟩

/-- The Il2Cpp branch of `ForeachMethod` on a class for which the host yields
one method without parameters, at a host that exports the walk. -/
theorem ForeachMethod_Il2Cpp_one (host : Host) (api : Api) (s : State) (klass : Nat) (c : Class)
    (pKlass mth : Nat) (methodName returnName : String)
    (hexp : exportsWalk host Mode.Il2Cpp) (hmode : s.mode_ = Mode.Il2Cpp)
    (hmethods : api.class_get_methods pKlass = [mth]) (hmth : mth ≠ 0)
    (hname : api.method_get_name mth = some methodName)
    (hret : api.type_get_name (api.method_get_return_type mth) = some returnName)
    (hcount : api.method_get_param_count mth = 0) :
    ∃ s1, s1.mode_ = s.mode_ ∧ s1.assembly = s.assembly ∧
      ForeachMethod host api s klass c pKlass =
        ({ c with methods := c.methods ++
            [{ address := mth, name := methodName, klass := klass,
               return_type := { address := api.method_get_return_type mth, name := returnName,
                                size := -1 },
               flags := api.method_get_flags mth,
               static_function := decide (Int.land (api.method_get_flags mth) 0x10 ≠ 0),
               function := api.methodPointer mth, args := [] }] },
          s1, none) := by
  obtain ⟨s1, hm1, ha1, he1⟩ := newMethodIl2Cpp_no_params host api
    (InvokeAs 0 host s "il2cpp_class_get_methods" [pKlass] (some mth)).2 klass mth methodName
    returnName hexp hname hret hcount
  unfold ForeachMethod
  rw [if_pos hmode, hmethods]
  simp only [ForeachMethod.loopIl2Cpp,
    InvokeAs_walk _ host Mode.Il2Cpp _ _ _ _ hexp, walkNames, List.mem_cons,
    List.mem_singleton, String.reduceEq, or_true, true_or, or_false, false_or,
    hmth, if_false, he1]
  refine ⟨_, ?_, ?_, rfl⟩
  · simp only [InvokeAs_mode, hm1]
  · simp only [InvokeAs_assembly, ha1]

/-- The Mono branch of `ForeachMethod` on a class for which the host yields one
method without parameters, at a host that exports the walk. -/
theorem ForeachMethod_Mono_one (host : Host) (api : Api) (s : State) (klass : Nat) (c : Class)
    (pKlass mth : Nat) (methodName returnName : String)
    (hexp : exportsWalk host Mode.Mono) (hmode : s.mode_ = Mode.Mono)
    (hmethods : api.class_get_methods pKlass = [mth]) (hmth : mth ≠ 0)
    (hsig : api.method_signature mth ≠ 0)
    (hname : api.method_get_name mth = some methodName)
    (hret : api.type_get_name (api.signature_get_return_type (api.method_signature mth)) =
      some returnName)
    (hcount : api.signature_get_param_count (api.method_signature mth) = 0)
    (hparams : api.signature_get_params (api.method_signature mth) = []) :
    ∃ s1, s1.mode_ = s.mode_ ∧ s1.assembly = s.assembly ∧
      ForeachMethod host api s klass c pKlass =
        ({ c with methods := c.methods ++
            [{ address := mth, name := methodName, klass := klass,
               return_type :=
                 { address := api.signature_get_return_type (api.method_signature mth),
                   name := returnName,
                   size := api.type_size
                     (api.signature_get_return_type (api.method_signature mth)) },
               flags := api.method_get_flags mth,
               static_function := decide (Int.land (api.method_get_flags mth) 0x10 ≠ 0),
               function := 0, args := [] }] },
          s1, none) := by
  have hne : ¬ s.mode_ = Mode.Il2Cpp := by rw [hmode]; decide
  obtain ⟨s1, hm1, ha1, he1⟩ := newMethodMono_no_params host api
    (InvokeAs 0 host s "mono_class_get_methods" [pKlass] (some mth)).2 klass mth methodName
    returnName hexp hsig hname hret hcount hparams
  unfold ForeachMethod
  rw [if_neg hne, hmethods]
  simp only [ForeachMethod.loopMono,
    InvokeAs_walk _ host Mode.Mono _ _ _ _ hexp, walkNames, List.mem_cons,
    List.mem_singleton, String.reduceEq, or_true, true_or, or_false, false_or,
    hmth, if_false, he1, Fault.afterCatch]
  refine ⟨_, ?_, ?_, rfl⟩
  · simp only [InvokeAs_mode, hm1]
  · simp only [InvokeAs_assembly, ha1]

theorem interfacesIl2Cpp_nil (host : Host) (api : Api) (klass pClass : Nat) (c : Class)
    (s : State) :
    ForeachClass.interfacesIl2Cpp host api klass pClass [] c s =
      (c, (InvokeAs 0 host s "il2cpp_class_get_interfaces" [pClass] (some 0)).2, none) := rfl

theorem interfacesMono_nil (host : Host) (api : Api) (klass pClass : Nat) (c : Class)
    (s : State) :
    ForeachClass.interfacesMono host api klass pClass [] c s =
      (c, (InvokeAs 0 host s "mono_class_get_interfaces" [pClass] (some 0)).2, none) := rfl

/-- One class with one field, one method without parameters and no interface in
the Il2Cpp branch, at a host that exports the walk. -/
theorem newClassIl2Cpp_one (host : Host) (api : Api) (s : State) (cls fld mth : Nat)
    (className parentName namespaceName fieldName typeName methodName returnName : String)
    (hexp : exportsWalk host Mode.Il2Cpp) (hmode : s.mode_ = Mode.Il2Cpp)
    (hcn : api.class_get_name cls = some className)
    (hparent : (api.class_get_parent cls = 0 ∧ parentName = "") ∨
      (api.class_get_parent cls ≠ 0 ∧
        api.class_get_name (api.class_get_parent cls) = some parentName))
    (hns : api.class_get_namespace cls = some namespaceName)
    (hintf : api.class_get_interfaces cls = [])
    (hfields : api.class_get_fields cls = [fld]) (hfld : fld ≠ 0)
    (hfn : api.field_get_name fld = some fieldName)
    (htn : api.type_get_name (api.field_get_type fld) = some typeName)
    (hmethods : api.class_get_methods cls = [mth]) (hmth : mth ≠ 0)
    (hmn : api.method_get_name mth = some methodName)
    (hrn : api.type_get_name (api.method_get_return_type mth) = some returnName)
    (hcount : api.method_get_param_count mth = 0) :
    ∃ s1, s1.mode_ = s.mode_ ∧ s1.assembly = s.assembly ∧
      ForeachClass.newClassIl2Cpp host api s cls =
        (some
          { address := cls, name := className, parent := parentName,
            namespaze := namespaceName,
            fields :=
              [{ address := fld, name := fieldName,
                 type := { address := api.field_get_type fld, name := typeName, size := -1 },
                 klass := s.allocated + 1, offset := api.field_get_offset fld,
                 static_field := decide (api.field_get_offset fld ≤ 0), vTable := 0 }],
            methods :=
              [{ address := mth, name := methodName, klass := s.allocated + 1,
                 return_type := { address := api.method_get_return_type mth,
                                  name := returnName, size := -1 },
                 flags := api.method_get_flags mth,
                 static_function := decide (Int.land (api.method_get_flags mth) 0x10 ≠ 0),
                 function := api.methodPointer mth, args := [] }],
            self := s.allocated + 1 },
          s1, none) := by
  unfold ForeachClass.newClassIl2Cpp
  simp only [InvokeAs_walk _ host Mode.Il2Cpp _ _ _ _ hexp, walkNames, List.mem_cons,
    List.mem_singleton, String.reduceEq, or_true, true_or, or_false, false_or, hcn]
  rcases hparent with ⟨hp, hpn⟩ | ⟨hp, hpn⟩
  · simp only [hp, ne_eq, not_true_eq_false, if_false, hns, hpn]
    generalize hS : (InvokeAs none host _ "il2cpp_class_get_namespace" [cls] _).2 = S
    have hSm : S.mode_ = s.mode_ := by rw [← hS]; simp only [InvokeAs_mode]
    have hSa : S.assembly = s.assembly := by rw [← hS]; simp only [InvokeAs_assembly]
    obtain ⟨S2, hm2, ha2, he2⟩ := ForeachFields_Il2Cpp_one host api S (s.allocated + 1)
      { address := cls, name := className, parent := "", namespaze := namespaceName,
        self := s.allocated + 1 } cls fld fieldName typeName hexp (by rw [hSm, hmode])
      hfields hfld hfn htn
    rw [he2]
    simp only
    obtain ⟨S3, hm3, ha3, he3⟩ := ForeachMethod_Il2Cpp_one host api S2 (s.allocated + 1)
      { address := cls, name := className, parent := "", namespaze := namespaceName,
        fields := [] ++
          [{ address := fld, name := fieldName,
             type := { address := api.field_get_type fld, name := typeName, size := -1 },
             klass := s.allocated + 1, offset := api.field_get_offset fld,
             static_field := decide (api.field_get_offset fld ≤ 0), vTable := 0 }],
        self := s.allocated + 1 } cls mth methodName returnName hexp
      (by rw [hm2, hSm, hmode]) hmethods hmth hmn hrn hcount
    rw [he3]
    simp only [hintf, interfacesIl2Cpp_nil, List.nil_append]
    refine ⟨_, ?_, ?_, rfl⟩
    · simp only [InvokeAs_mode, hm3, hm2, hSm]
    · simp only [InvokeAs_assembly, ha3, ha2, hSa]
  · simp only [hp, ne_eq, not_false_eq_true, if_true, hns, hpn,
      InvokeAs_walk _ host Mode.Il2Cpp _ _ _ _ hexp, walkNames, List.mem_cons,
      List.mem_singleton, String.reduceEq, or_true, true_or, or_false, false_or]
    generalize hS : (InvokeAs none host _ "il2cpp_class_get_namespace" [cls] _).2 = S
    have hSm : S.mode_ = s.mode_ := by rw [← hS]; simp only [InvokeAs_mode]
    have hSa : S.assembly = s.assembly := by rw [← hS]; simp only [InvokeAs_assembly]
    obtain ⟨S2, hm2, ha2, he2⟩ := ForeachFields_Il2Cpp_one host api S (s.allocated + 1)
      { address := cls, name := className, parent := parentName, namespaze := namespaceName,
        self := s.allocated + 1 } cls fld fieldName typeName hexp (by rw [hSm, hmode])
      hfields hfld hfn htn
    rw [he2]
    simp only
    obtain ⟨S3, hm3, ha3, he3⟩ := ForeachMethod_Il2Cpp_one host api S2 (s.allocated + 1)
      { address := cls, name := className, parent := parentName, namespaze := namespaceName,
        fields := [] ++
          [{ address := fld, name := fieldName,
             type := { address := api.field_get_type fld, name := typeName, size := -1 },
             klass := s.allocated + 1, offset := api.field_get_offset fld,
             static_field := decide (api.field_get_offset fld ≤ 0), vTable := 0 }],
        self := s.allocated + 1 } cls mth methodName returnName hexp
      (by rw [hm2, hSm, hmode]) hmethods hmth hmn hrn hcount
    rw [he3]
    simp only [hintf, interfacesIl2Cpp_nil, List.nil_append]
    refine ⟨_, ?_, ?_, rfl⟩
    · simp only [InvokeAs_mode, hm3, hm2, hSm]
    · simp only [InvokeAs_assembly, ha3, ha2, hSa]

/-- One class with one field, one method without parameters and no interface in
the Mono branch, at a host that exports the walk. -/
theorem newClassMono_one (host : Host) (api : Api) (s : State) (cls fld mth : Nat)
    (className parentName namespaceName fieldName typeName methodName returnName : String)
    (hexp : exportsWalk host Mode.Mono) (hmode : s.mode_ = Mode.Mono)
    (hcn : api.class_get_name cls = some className)
    (hparent : (api.class_get_parent cls = 0 ∧ parentName = "") ∨
      (api.class_get_parent cls ≠ 0 ∧
        api.class_get_name (api.class_get_parent cls) = some parentName))
    (hns : api.class_get_namespace cls = some namespaceName)
    (hintf : api.class_get_interfaces cls = [])
    (hfields : api.class_get_fields cls = [fld]) (hfld : fld ≠ 0)
    (hfn : api.field_get_name fld = some fieldName)
    (htn : api.type_get_name (api.field_get_type fld) = some typeName)
    (hmethods : api.class_get_methods cls = [mth]) (hmth : mth ≠ 0)
    (hmn : api.method_get_name mth = some methodName)
    (hsig : api.method_signature mth ≠ 0)
    (hrn : api.type_get_name (api.signature_get_return_type (api.method_signature mth)) =
      some returnName)
    (hcount : api.signature_get_param_count (api.method_signature mth) = 0)
    (hparams : api.signature_get_params (api.method_signature mth) = []) :
    ∃ s1, s1.mode_ = s.mode_ ∧ s1.assembly = s.assembly ∧
      ForeachClass.newClassMono host api s cls =
        (some
          { address := cls, name := className, parent := parentName,
            namespaze := namespaceName,
            fields :=
              [{ address := fld, name := fieldName,
                 type := { address := api.field_get_type fld, name := typeName,
                           size := api.type_size (api.field_get_type fld) },
                 klass := s.allocated + 1, offset := api.field_get_offset fld,
                 static_field := decide (Int.land (api.field_get_flags fld) 0x10 ≠ 0),
                 vTable := 0 }],
            methods :=
              [{ address := mth, name := methodName, klass := s.allocated + 1,
                 return_type :=
                   { address := api.signature_get_return_type (api.method_signature mth),
                     name := returnName,
                     size := api.type_size
                       (api.signature_get_return_type (api.method_signature mth)) },
                 flags := api.method_get_flags mth,
                 static_function := decide (Int.land (api.method_get_flags mth) 0x10 ≠ 0),
                 function := 0, args := [] }],
            self := s.allocated + 1 },
          s1, none) := by
  unfold ForeachClass.newClassMono
  simp only [InvokeAs_walk _ host Mode.Mono _ _ _ _ hexp, walkNames, List.mem_cons,
    List.mem_singleton, String.reduceEq, or_true, true_or, or_false, false_or, hcn]
  rcases hparent with ⟨hp, hpn⟩ | ⟨hp, hpn⟩
  · simp only [hp, ne_eq, not_true_eq_false, if_false, hns, hpn]
    generalize hS : (InvokeAs none host _ "mono_class_get_namespace" [cls] _).2 = S
    have hSm : S.mode_ = s.mode_ := by rw [← hS]; simp only [InvokeAs_mode]
    have hSa : S.assembly = s.assembly := by rw [← hS]; simp only [InvokeAs_assembly]
    obtain ⟨S2, hm2, ha2, he2⟩ := ForeachFields_Mono_one host api S (s.allocated + 1)
      { address := cls, name := className, parent := "", namespaze := namespaceName,
        self := s.allocated + 1 } cls fld fieldName typeName hexp (by rw [hSm, hmode])
      hfields hfld hfn htn
    rw [he2]
    simp only
    obtain ⟨S3, hm3, ha3, he3⟩ := ForeachMethod_Mono_one host api S2 (s.allocated + 1)
      { address := cls, name := className, parent := "", namespaze := namespaceName,
        fields := [] ++
          [{ address := fld, name := fieldName,
             type := { address := api.field_get_type fld, name := typeName,
                       size := api.type_size (api.field_get_type fld) },
             klass := s.allocated + 1, offset := api.field_get_offset fld,
             static_field := decide (Int.land (api.field_get_flags fld) 0x10 ≠ 0),
             vTable := 0 }],
        self := s.allocated + 1 } cls mth methodName returnName hexp
      (by rw [hm2, hSm, hmode]) hmethods hmth hsig hmn hrn hcount hparams
    rw [he3]
    simp only [hintf, interfacesMono_nil, List.nil_append]
    refine ⟨_, ?_, ?_, rfl⟩
    · simp only [InvokeAs_mode, hm3, hm2, hSm]
    · simp only [InvokeAs_assembly, ha3, ha2, hSa]
  · simp only [hp, ne_eq, not_false_eq_true, if_true, hns, hpn,
      InvokeAs_walk _ host Mode.Mono _ _ _ _ hexp, walkNames, List.mem_cons,
      List.mem_singleton, String.reduceEq, or_true, true_or, or_false, false_or]
    generalize hS : (InvokeAs none host _ "mono_class_get_namespace" [cls] _).2 = S
    have hSm : S.mode_ = s.mode_ := by rw [← hS]; simp only [InvokeAs_mode]
    have hSa : S.assembly = s.assembly := by rw [← hS]; simp only [InvokeAs_assembly]
    obtain ⟨S2, hm2, ha2, he2⟩ := ForeachFields_Mono_one host api S (s.allocated + 1)
      { address := cls, name := className, parent := parentName, namespaze := namespaceName,
        self := s.allocated + 1 } cls fld fieldName typeName hexp (by rw [hSm, hmode])
      hfields hfld hfn htn
    rw [he2]
    simp only
    obtain ⟨S3, hm3, ha3, he3⟩ := ForeachMethod_Mono_one host api S2 (s.allocated + 1)
      { address := cls, name := className, parent := parentName, namespaze := namespaceName,
        fields := [] ++
          [{ address := fld, name := fieldName,
             type := { address := api.field_get_type fld, name := typeName,
                       size := api.type_size (api.field_get_type fld) },
             klass := s.allocated + 1, offset := api.field_get_offset fld,
             static_field := decide (Int.land (api.field_get_flags fld) 0x10 ≠ 0),
             vTable := 0 }],
        self := s.allocated + 1 } cls mth methodName returnName hexp
      (by rw [hm2, hSm, hmode]) hmethods hmth hsig hmn hrn hcount hparams
    rw [he3]
    simp only [hintf, interfacesMono_nil, List.nil_append]
    refine ⟨_, ?_, ?_, rfl⟩
    · simp only [InvokeAs_mode, hm3, hm2, hSm]
    · simp only [InvokeAs_assembly, ha3, ha2, hSa]


/-- The Il2Cpp branch of `ForeachClass` on an image with one class, which has
one field, one method without parameters and no interface, at a host that
exports the walk. -/
theorem ForeachClass_Il2Cpp_one (host : Host) (api : Api) (s : State) (a : Assembly)
    (image cls fld mth : Nat)
    (className parentName namespaceName fieldName typeName methodName returnName : String)
    (hexp : exportsWalk host Mode.Il2Cpp) (hmode : s.mode_ = Mode.Il2Cpp)
    (hclasses : api.image_get_class_count image = 1)
    (hclass : api.image_get_class image 0 = cls) (hcls : cls ≠ 0)
    (hcn : api.class_get_name cls = some className)
    (hparent : (api.class_get_parent cls = 0 ∧ parentName = "") ∨
      (api.class_get_parent cls ≠ 0 ∧
        api.class_get_name (api.class_get_parent cls) = some parentName))
    (hns : api.class_get_namespace cls = some namespaceName)
    (hintf : api.class_get_interfaces cls = [])
    (hfields : api.class_get_fields cls = [fld]) (hfld : fld ≠ 0)
    (hfn : api.field_get_name fld = some fieldName)
    (htn : api.type_get_name (api.field_get_type fld) = some typeName)
    (hmethods : api.class_get_methods cls = [mth]) (hmth : mth ≠ 0)
    (hmn : api.method_get_name mth = some methodName)
    (hrn : api.type_get_name (api.method_get_return_type mth) = some returnName)
    (hcount : api.method_get_param_count mth = 0) :
    ∃ s1 c f m, s1.mode_ = s.mode_ ∧ s1.assembly = s.assembly ∧
      ForeachClass host api s a image = ({ a with classes := a.classes ++ [c] }, s1, none) ∧
      c.name = className ∧ c.fields = [f] ∧ c.methods = [m] ∧
      f.name = fieldName ∧ f.offset = api.field_get_offset fld ∧
      f.static_field = decide (api.field_get_offset fld ≤ 0) ∧
      m.name = methodName ∧ m.args = [] := by
  unfold ForeachClass
  rw [if_pos hmode]
  simp only [InvokeAs_walk _ host Mode.Il2Cpp _ _ _ _ hexp, walkNames, List.mem_cons,
    List.mem_singleton, String.reduceEq, or_true, true_or, or_false, false_or, hclasses]
  rw [show Int.toNat 1 = 1 from rfl, show List.range 1 = [0] from rfl]
  generalize hS : (InvokeAs (0 : Int) host s "il2cpp_image_get_class_count" _ _).2 = S
  have hSm : S.mode_ = s.mode_ := by rw [← hS]; simp only [InvokeAs_mode]
  have hSa : S.assembly = s.assembly := by rw [← hS]; simp only [InvokeAs_assembly]
  obtain ⟨S2, hm2, ha2, he2⟩ := newClassIl2Cpp_one host api
    (InvokeAs 0 host S "il2cpp_image_get_class" [image, 0] (some cls)).2 cls fld mth className
    parentName namespaceName fieldName typeName methodName returnName hexp
    (by simp only [InvokeAs_mode, hSm, hmode]) hcn hparent hns hintf hfields hfld hfn htn
    hmethods hmth hmn hrn hcount
  unfold ForeachClass.loopIl2Cpp
  simp only [InvokeAs_walk _ host Mode.Il2Cpp _ _ _ _ hexp, walkNames, List.mem_cons,
    List.mem_singleton, String.reduceEq, or_true, true_or, or_false, false_or, hclass, hcls,
    if_false, he2]
  unfold ForeachClass.loopIl2Cpp
  refine ⟨S2, _, _, _, ?_, ?_, rfl, rfl, rfl, rfl, rfl, rfl, rfl, rfl, rfl⟩
  · simp only [hm2, InvokeAs_mode, hSm]
  · simp only [ha2, InvokeAs_assembly, hSa]

/-- The Mono branch of `ForeachClass` on an image with one class, which has one
field, one method without parameters and no interface, at a host that exports
the walk. -/
theorem ForeachClass_Mono_one (host : Host) (api : Api) (s : State) (a : Assembly)
    (image cls fld mth : Nat)
    (className parentName namespaceName fieldName typeName methodName returnName : String)
    (hexp : exportsWalk host Mode.Mono) (hmode : s.mode_ = Mode.Mono)
    (hrows : api.table_info_get_rows (api.image_get_table_info image 2) = 1)
    (hclass : api.class_get image 0x02000001 = cls) (hcls : cls ≠ 0)
    (hcn : api.class_get_name cls = some className)
    (hparent : (api.class_get_parent cls = 0 ∧ parentName = "") ∨
      (api.class_get_parent cls ≠ 0 ∧
        api.class_get_name (api.class_get_parent cls) = some parentName))
    (hns : api.class_get_namespace cls = some namespaceName)
    (hintf : api.class_get_interfaces cls = [])
    (hfields : api.class_get_fields cls = [fld]) (hfld : fld ≠ 0)
    (hfn : api.field_get_name fld = some fieldName)
    (htn : api.type_get_name (api.field_get_type fld) = some typeName)
    (hmethods : api.class_get_methods cls = [mth]) (hmth : mth ≠ 0)
    (hmn : api.method_get_name mth = some methodName)
    (hsig : api.method_signature mth ≠ 0)
    (hrn : api.type_get_name (api.signature_get_return_type (api.method_signature mth)) =
      some returnName)
    (hcount : api.signature_get_param_count (api.method_signature mth) = 0)
    (hparams : api.signature_get_params (api.method_signature mth) = []) :
    ∃ s1 c f m, s1.mode_ = s.mode_ ∧ s1.assembly = s.assembly ∧
      ForeachClass host api s a image = ({ a with classes := a.classes ++ [c] }, s1, none) ∧
      c.name = className ∧ c.fields = [f] ∧ c.methods = [m] ∧
      f.name = fieldName ∧ f.offset = api.field_get_offset fld ∧
      f.static_field = decide (Int.land (api.field_get_flags fld) 0x10 ≠ 0) ∧
      m.name = methodName ∧ m.args = [] := by
  have hne : ¬ s.mode_ = Mode.Il2Cpp := by rw [hmode]; decide
  have hclass1 : api.class_get image (0x02000000 ||| (0 + 1)) = cls := hclass
  unfold ForeachClass
  rw [if_neg hne]
  simp only [InvokeAs_walk _ host Mode.Mono _ _ _ _ hexp, walkNames, List.mem_cons,
    List.mem_singleton, String.reduceEq, or_true, true_or, or_false, false_or, hrows]
  rw [show Int.toNat 1 = 1 from rfl, show List.range 1 = [0] from rfl]
  generalize hS : (InvokeAs (0 : Int) host _ "mono_table_info_get_rows" _ _).2 = S
  have hSm : S.mode_ = s.mode_ := by rw [← hS]; simp only [InvokeAs_mode]
  have hSa : S.assembly = s.assembly := by rw [← hS]; simp only [InvokeAs_assembly]
  obtain ⟨S2, hm2, ha2, he2⟩ := newClassMono_one host api
    (InvokeAs 0 host S "mono_class_get" [image, 0x02000000 ||| (0 + 1)] (some cls)).2 cls fld
    mth className parentName namespaceName fieldName typeName methodName returnName hexp
    (by simp only [InvokeAs_mode, hSm, hmode]) hcn hparent hns hintf hfields hfld hfn htn
    hmethods hmth hmn hsig hrn hcount hparams
  unfold ForeachClass.loopMono
  simp only [InvokeAs_walk _ host Mode.Mono _ _ _ _ hexp, walkNames, List.mem_cons,
    List.mem_singleton, String.reduceEq, or_true, true_or, or_false, false_or, hclass1, hcls,
    if_false, he2, Fault.afterCatch]
  unfold ForeachClass.loopMono
  refine ⟨S2, _, _, _, ?_, ?_, rfl, rfl, rfl, rfl, rfl, rfl, rfl, rfl, rfl⟩
  · simp only [hm2, InvokeAs_mode, hSm]
  · simp only [ha2, InvokeAs_assembly, hSa]

/-- The parent name a class header ends up with: empty without a parent. -/
theorem parent_cases (api : Api) (cls : Nat)
    (h : api.class_get_parent cls ≠ 0 → api.class_get_name (api.class_get_parent cls) ≠ none) :
    ∃ parentName, (api.class_get_parent cls = 0 ∧ parentName = "") ∨
      (api.class_get_parent cls ≠ 0 ∧
        api.class_get_name (api.class_get_parent cls) = some parentName) := by
  by_cases hp : api.class_get_parent cls = 0
  · exact ⟨"", Or.inl ⟨hp, rfl⟩⟩
  · obtain ⟨pn, hpn⟩ := Option.ne_none_iff_exists'.1 (h hp)
    exact ⟨pn, Or.inr ⟨hp, hpn⟩⟩

/-- `Init` in Il2Cpp mode at the end-to-end host: no fault, and one assembly
appended, named as the image, with the one class, field and method. -/
theorem Init_Il2Cpp_fixture (host : Host) (api : Api) (asm image cls fld mth : Nat)
    (hfix : FixtureHost api asm image cls fld mth) (hexp : exportsWalk host Mode.Il2Cpp)
    (s : State) (hmodule : Nat) :
    ∃ a c f m, (Init host api s hmodule Mode.Il2Cpp).2 = none ∧
      (Init host api s hmodule Mode.Il2Cpp).1.assembly = s.assembly ++ [a] ∧
      a.name = "Fixture" ∧ a.classes = [c] ∧ c.name = "Foo" ∧ c.fields = [f] ∧
      c.methods = [m] ∧ f.name = "Bar" ∧ f.offset = 8 ∧ f.static_field = false ∧
      m.name = "Baz" ∧ m.args = [] := by
  obtain ⟨file, hfile⟩ := Option.ne_none_iff_exists'.1 hfix.image_file
  obtain ⟨ns, hns⟩ := Option.ne_none_iff_exists'.1 hfix.class_namespace
  obtain ⟨tn, htn⟩ := Option.ne_none_iff_exists'.1 hfix.field_type
  obtain ⟨rn, hrn⟩ := Option.ne_none_iff_exists'.1 hfix.method_return
  obtain ⟨pn, hpn⟩ := parent_cases api cls hfix.class_parent
  unfold Init
  simp only [if_true]
  generalize hS : (InvokeAs 0 host _ "il2cpp_thread_attach" _ _).2 = S
  have hSm : S.mode_ = Mode.Il2Cpp := by rw [← hS]; simp only [InvokeAs_mode]
  have hSa : S.assembly = s.assembly := by rw [← hS]; simp only [InvokeAs_assembly]
  unfold ForeachAssembly
  rw [if_pos hSm]
  simp only [InvokeAs_walk _ host Mode.Il2Cpp _ _ _ _ hexp, walkNames, List.mem_cons,
    List.mem_singleton, String.reduceEq, or_true, true_or, or_false, false_or, hfix.assemblies]
  unfold ForeachAssembly.loopIl2Cpp
  simp only [hfix.asm_ne, if_false]
  unfold ForeachAssembly.newAssemblyIl2Cpp
  simp only [InvokeAs_walk _ host Mode.Il2Cpp _ _ _ _ hexp, walkNames,
    List.mem_cons, List.mem_singleton, String.reduceEq, or_true, true_or, or_false, false_or,
    hfix.image_eq, hfile, hfix.image_name]
  generalize hT : (InvokeAs none host _ "il2cpp_image_get_name" _ _).2 = T
  have hTm : T.mode_ = Mode.Il2Cpp := by rw [← hT]; simp only [InvokeAs_mode, hSm]
  have hTa : T.assembly = s.assembly := by rw [← hT]; simp only [InvokeAs_assembly, hSa]
  obtain ⟨T2, c, f, m, hm2, ha2, he2, hc, hcf, hcm, hf, hfo, hfs, hmn, hma⟩ :=
    ForeachClass_Il2Cpp_one host api T { address := asm, name := "Fixture", file := file }
      image cls fld mth "Foo" pn ns "Bar" tn "Baz" rn hexp hTm hfix.class_count
      hfix.class_index hfix.cls_ne hfix.class_name hpn hns hfix.class_interfaces
      hfix.class_fields hfix.fld_ne hfix.field_name htn hfix.class_methods hfix.mth_ne
      hfix.method_name hrn hfix.method_params
  rw [he2]
  simp only
  unfold ForeachAssembly.loopIl2Cpp
  refine ⟨{ address := asm, name := "Fixture", file := file, classes := [] ++ [c] }, c, f, m,
    rfl, ?_, rfl, rfl, hc, hcf, hcm, hf, ?_, ?_, hmn, hma⟩
  · simp only [ha2, hTa]
  · rw [hfo, hfix.field_offset]
  · rw [hfs, hfix.field_offset]; decide

/-- `Init` in Mono mode at the end-to-end host: no fault, and one assembly
appended, named as the image with `.dll` appended, with the one class, field
and method. -/
theorem Init_Mono_fixture (host : Host) (api : Api) (asm image cls fld mth : Nat)
    (hfix : FixtureHost api asm image cls fld mth) (hexp : exportsWalk host Mode.Mono)
    (s : State) (hmodule : Nat) :
    ∃ a c f m, (Init host api s hmodule Mode.Mono).2 = none ∧
      (Init host api s hmodule Mode.Mono).1.assembly = s.assembly ++ [a] ∧
      a.name = "Fixture.dll" ∧ a.classes = [c] ∧ c.name = "Foo" ∧ c.fields = [f] ∧
      c.methods = [m] ∧ f.name = "Bar" ∧ f.offset = 8 ∧ f.static_field = false ∧
      m.name = "Baz" ∧ m.args = [] := by
  obtain ⟨file, hfile⟩ := Option.ne_none_iff_exists'.1 hfix.image_file
  obtain ⟨ns, hns⟩ := Option.ne_none_iff_exists'.1 hfix.class_namespace
  obtain ⟨tn, htn⟩ := Option.ne_none_iff_exists'.1 hfix.field_type
  obtain ⟨rn, hrn⟩ := Option.ne_none_iff_exists'.1 hfix.signature_return
  obtain ⟨pn, hpn⟩ := parent_cases api cls hfix.class_parent
  have hmono : ¬ Mode.Mono = Mode.Il2Cpp := by decide
  unfold Init
  simp only [hmono, if_false]
  generalize hS : (InvokeAs 0 host _ "mono_jit_thread_attach" _ _).2 = S
  have hSm : S.mode_ = Mode.Mono := by rw [← hS]; simp only [InvokeAs_mode]
  have hSa : S.assembly = s.assembly := by rw [← hS]; simp only [InvokeAs_assembly]
  have hSne : ¬ S.mode_ = Mode.Il2Cpp := by rw [hSm]; decide
  unfold ForeachAssembly
  rw [if_neg hSne]
  simp only [InvokeAs_walk _ host Mode.Mono _ _ _ _ hexp, walkNames, List.mem_cons,
    List.mem_singleton, String.reduceEq, or_true, true_or, or_false, false_or, if_true,
    hfix.assemblies]
  unfold ForeachAssembly.callbackMono
  simp only [hfix.asm_ne, if_false]
  unfold ForeachAssembly.newAssemblyMono
  simp only [InvokeAs_walk _ host Mode.Mono _ _ _ _ hexp, walkNames,
    List.mem_cons, List.mem_singleton, String.reduceEq, or_true, true_or, or_false, false_or,
    hfix.image_eq, hfile, hfix.image_name]
  generalize hT : (InvokeAs none host _ "mono_image_get_name" _ _).2 = T
  have hTm : T.mode_ = Mode.Mono := by rw [← hT]; simp only [InvokeAs_mode, hSm]
  have hTa : T.assembly = s.assembly := by rw [← hT]; simp only [InvokeAs_assembly, hSa]
  obtain ⟨T2, c, f, m, hm2, ha2, he2, hc, hcf, hcm, hf, hfo, hfs, hmn, hma⟩ :=
    ForeachClass_Mono_one host api T
      { address := asm, name := "Fixture" ++ ".dll", file := file }
      image cls fld mth "Foo" pn ns "Bar" tn "Baz" rn hexp hTm hfix.table_rows
      hfix.class_token hfix.cls_ne hfix.class_name hpn hns hfix.class_interfaces
      hfix.class_fields hfix.fld_ne hfix.field_name htn hfix.class_methods hfix.mth_ne
      hfix.method_name hfix.signature_ne hrn hfix.signature_count hfix.signature_params
  rw [he2]
  simp only
  unfold ForeachAssembly.callbackMono
  refine ⟨{ address := asm, name := "Fixture" ++ ".dll", file := file, classes := [] ++ [c] },
    c, f, m, rfl, ?_, ?_, rfl, hc, hcf, hcm, hf, ?_, ?_, hmn, hma⟩
  · simp only [ha2, hTa]
  · show "Fixture" ++ ".dll" = "Fixture.dll"
    decide
  · rw [hfo, hfix.field_offset]
  · rw [hfs, hfix.field_not_static]; decide

/-- The queries of the end-to-end scenario on a catalog that holds one assembly
with the one class, field and method. -/
theorem fixture_queries (s : State) (name : String) (a : Assembly) (c : Class) (f : Field)
    (m : Method) (hs : s.assembly = [a]) (ha : a.name = name) (hac : a.classes = [c])
    (hc : c.name = "Foo") (hcf : c.fields = [f]) (hcm : c.methods = [m])
    (hf : f.name = "Bar") (hm : m.name = "Baz") (hma : m.args = []) :
    Get s name = some a ∧ a.Get "Foo" = some c ∧ c.GetField "Bar" = some f ∧
      c.GetMethod "Baz" = Except.ok (some m) := by
  refine ⟨?_, ?_, ?_, ?_⟩
  · simp [Get, hs, assemblyLoop, ha]
  · simp [Assembly.Get, hac, Assembly.classLoop, hc]
  · simp [Class.GetField, hcf, Class.fieldLoop, hf]
  · simp [Class.GetMethod, hcm, Class.overloadLoop, hm, hma]

/-- The metadata `fixApi` is a host of the end-to-end scenario. -/
theorem fixApi_fixture : FixtureHost fixApi 100 200 300 400 600 where
  assemblies := rfl
  asm_ne := by decide
  image_eq := rfl
  image_name := rfl
  image_file := by decide
  class_count := rfl
  class_index := rfl
  table_rows := rfl
  class_token := rfl
  cls_ne := by decide
  class_name := rfl
  class_parent := by decide
  class_namespace := by decide
  class_interfaces := rfl
  class_fields := rfl
  fld_ne := by decide
  field_name := rfl
  field_type := by decide
  field_offset := rfl
  field_not_static := by decide
  class_methods := rfl
  mth_ne := by decide
  method_name := rfl
  method_return := by decide
  method_params := rfl
  signature_ne := by decide
  signature_return := by decide
  signature_count := rfl
  signature_params := rfl

/-- The host `fixFullHost` exports the walk in either mode. -/
theorem fixFullHost_exportsWalk (mode : Mode) : exportsWalk fixFullHost mode :=
  fun name _ trace hmodule => fixFullHost_exports trace hmodule name

/-- C18 as stated fails in Mono mode: at a host of the scenario that exports the
walk, after `Init` on the empty catalog, `Get("Fixture")` is `nullptr`, the
assembly being cataloged under the name `Fixture.dll`. -/
theorem Init_Mono_fixture_not_found :
    ¬ ∀ (host : Host) (api : Api) (asm image cls fld mth : Nat) (mode : Mode) (s : State)
        (hmodule : Nat), FixtureHost api asm image cls fld mth → exportsWalk host mode →
        s.assembly = [] → Get (Init host api s hmodule mode).1 "Fixture" ≠ none := by
  intro h
  exact h fixFullHost fixApi 100 200 300 400 600 Mode.Mono initialState 1 fixApi_fixture
    (fixFullHost_exportsWalk Mode.Mono) rfl (by decide)

/-- C18, amended: at a host of the scenario, after `Init` on an empty catalog
no fault leaves `Init`, and: in Il2Cpp mode, at a host that exports the Il2Cpp
entry points, `Get("Fixture")` finds the assembly; in Mono mode, at a host that
exports the Mono entry points, `Get("Fixture")` is `nullptr` and
`Get("Fixture.dll")` finds the assembly; in both modes, on that assembly
`Get("Foo")` finds a class, on which `Get<Field>("Bar")` is a field with
offset 8 and `static_field` false and `Get<Method>("Baz")` finds a method. -/
theorem Init_fixture_end_to_end (host : Host) (api : Api) (asm image cls fld mth : Nat)
    (hfix : FixtureHost api asm image cls fld mth) (s : State) (hs : s.assembly = [])
    (hmodule : Nat) :
    (exportsWalk host Mode.Il2Cpp →
        (Init host api s hmodule Mode.Il2Cpp).2 = none ∧
        ∃ a c f m, Get (Init host api s hmodule Mode.Il2Cpp).1 "Fixture" = some a ∧
          a.Get "Foo" = some c ∧ c.GetField "Bar" = some f ∧ f.offset = 8 ∧
          f.static_field = false ∧ c.GetMethod "Baz" = Except.ok (some m)) ∧
      (exportsWalk host Mode.Mono →
        (Init host api s hmodule Mode.Mono).2 = none ∧
        Get (Init host api s hmodule Mode.Mono).1 "Fixture" = none ∧
        ∃ a c f m, Get (Init host api s hmodule Mode.Mono).1 "Fixture.dll" = some a ∧
          a.Get "Foo" = some c ∧ c.GetField "Bar" = some f ∧ f.offset = 8 ∧
          f.static_field = false ∧ c.GetMethod "Baz" = Except.ok (some m)) := by
  constructor
  · intro hexp
    obtain ⟨a, c, f, m, hnone, hasm, ha, hac, hc, hcf, hcm, hf, hfo, hfs, hm, hma⟩ :=
      Init_Il2Cpp_fixture host api asm image cls fld mth hfix hexp s hmodule
    rw [hs, List.nil_append] at hasm
    obtain ⟨q1, q2, q3, q4⟩ := fixture_queries _ "Fixture" a c f m hasm ha hac hc hcf hcm hf hm hma
    exact ⟨hnone, a, c, f, m, q1, q2, q3, hfo, hfs, q4⟩
  · intro hexp
    obtain ⟨a, c, f, m, hnone, hasm, ha, hac, hc, hcf, hcm, hf, hfo, hfs, hm, hma⟩ :=
      Init_Mono_fixture host api asm image cls fld mth hfix hexp s hmodule
    rw [hs, List.nil_append] at hasm
    obtain ⟨q1, q2, q3, q4⟩ :=
      fixture_queries _ "Fixture.dll" a c f m hasm ha hac hc hcf hcm hf hm hma
    refine ⟨hnone, ?_, a, c, f, m, q1, q2, q3, hfo, hfs, q4⟩
    simp [Get, hasm, assemblyLoop, ha]

/-- The amended C18 at the fixture metadata and a host that exports every
name, from the initial state. -/
theorem Init_fixture_end_to_end_witness :
    FixtureHost fixApi 100 200 300 400 600 ∧ initialState.assembly = [] ∧
      ((exportsWalk fixFullHost Mode.Il2Cpp →
          (Init fixFullHost fixApi initialState 1 Mode.Il2Cpp).2 = none ∧
          ∃ a c f m, Get (Init fixFullHost fixApi initialState 1 Mode.Il2Cpp).1 "Fixture" = some a ∧
            a.Get "Foo" = some c ∧ c.GetField "Bar" = some f ∧ f.offset = 8 ∧
            f.static_field = false ∧ c.GetMethod "Baz" = Except.ok (some m)) ∧
        (exportsWalk fixFullHost Mode.Mono →
          (Init fixFullHost fixApi initialState 1 Mode.Mono).2 = none ∧
          Get (Init fixFullHost fixApi initialState 1 Mode.Mono).1 "Fixture" = none ∧
          ∃ a c f m, Get (Init fixFullHost fixApi initialState 1 Mode.Mono).1 "Fixture.dll" = some a ∧
            a.Get "Foo" = some c ∧ c.GetField "Bar" = some f ∧ f.offset = 8 ∧
            f.static_field = false ∧ c.GetMethod "Baz" = Except.ok (some m))) :=
  ⟨fixApi_fixture, rfl,
    Init_fixture_end_to_end fixFullHost fixApi 100 200 300 400 600 fixApi_fixture initialState
      rfl 1⟩

/-! ## The function pointer of a method -/

/-- `Compile` on a method whose function pointer is set does nothing. -/
theorem Compile_of_function (host : Host) (s : State) (m : Method) (hf : m.function ≠ 0) :
    Method.Compile host s m = (m, s) := by
  unfold Method.Compile
  rw [if_neg]
  rintro ⟨_, h, _⟩
  exact hf h

/-- The method `Method::Invoke` leaves is the one `Compile` leaves. -/
theorem Method_Invoke_method (host : Host) (s : State) (m : Method) (args : List Nat) :
    (Method.Invoke host s m args).2.1 = (Method.Compile host s m).1 := by
  unfold Method.Invoke
  simp only
  split
  · split <;> rfl
  · rfl

/-- `Unbox` leaves the method `Compile` leaves. -/
theorem Method_Unbox_method (lit : String → Nat) (host : Host) (s : State) (m : Method)
    (obj : Nat) : (Method.Unbox lit host s m obj).2.1 = (Method.Compile host s m).1 := by
  unfold Method.Unbox
  split <;> exact Method_Invoke_method _ _ _ _

/-- C21: on a method whose function pointer is non-null, `Compile`, `Invoke`,
the three forms of `Cast`, `RuntimeInvoke` (with or without a result) and
`Unbox` all leave the function pointer equal to its previous value, in either
mode and whatever the host looks up, answers or throws. -/
theorem Method_function_immutable (lit : String → Nat) (host : Host) (s : State) (m : Method)
    (returnsVoid : Bool) (obj argArray ptr : Nat) (args : List Nat) (hf : m.function ≠ 0) :
    (Method.Compile host s m).1.function = m.function ∧
      (Method.Invoke host s m args).2.1.function = m.function ∧
      (Method.Cast host s m).2.1.function = m.function ∧
      (Method.CastPointer host s m ptr).2.2.1.function = m.function ∧
      (Method.CastFunction host s m ptr).2.2.1.function = m.function ∧
      (Method.RuntimeInvoke lit host s m returnsVoid obj argArray args).2.1.function =
        m.function ∧
      (Method.Unbox lit host s m obj).2.1.function = m.function := by
  have hc : ∀ s0 : State, Method.Compile host s0 m = (m, s0) :=
    fun s0 => Compile_of_function host s0 m hf
  have hinv : ∀ (s0 : State) (a : List Nat), (Method.Invoke host s0 m a).2.1 = m := by
    intro s0 a
    rw [Method_Invoke_method, hc]
  have hunbox : ∀ (s0 : State) (o : Nat), (Method.Unbox lit host s0 m o).2.1 = m := by
    intro s0 o
    rw [Method_Unbox_method, hc]
  have hrun : ∀ name : String,
      (match Method.Invoke host s m
          [lit name, m.address, obj, if args.length ≠ 0 then argArray else 0, 0] with
        | (Except.ok boxed, m1, s1) => Method.Unbox lit host s1 m1 boxed
        | (Except.error fault, m1, s1) => (Except.error fault, m1, s1)).2.1 = m := by
    intro name
    have h1 := hinv s [lit name, m.address, obj, if args.length ≠ 0 then argArray else 0, 0]
    rcases hres : Method.Invoke host s m
        [lit name, m.address, obj, if args.length ≠ 0 then argArray else 0, 0]
      with ⟨r, m1, s1⟩
    rw [hres] at h1
    simp only at h1
    subst h1
    cases r with
    | error fault => rfl
    | ok boxed => exact hunbox s1 boxed
  refine ⟨by rw [hc], by rw [hinv], ?_, ?_, ?_, ?_, by rw [hunbox]⟩
  · unfold Method.Cast
    simp only [hc]
    split <;> rfl
  · unfold Method.CastPointer
    simp only [hc]
    split <;> rfl
  · unfold Method.CastFunction
    simp only [hc]
    split <;> rfl
  · unfold Method.RuntimeInvoke
    split
    · split
      · rfl
      · rw [hrun]
    · split
      · rfl
      · rw [hrun]

/-- C21 in Mono mode, at a host that exports `mono_compile_method`, on the
method `Baz` whose native code is at 8192. -/
theorem Method_function_immutable_witness :
    fixBazNative.function ≠ 0 ∧
      ((Method.Compile fixJitHost fixMonoState fixBazNative).1.function = fixBazNative.function ∧
        (Method.Invoke fixJitHost fixMonoState fixBazNative [1]).2.1.function =
          fixBazNative.function ∧
        (Method.Cast fixJitHost fixMonoState fixBazNative).2.1.function =
          fixBazNative.function ∧
        (Method.CastPointer fixJitHost fixMonoState fixBazNative 3).2.2.1.function =
          fixBazNative.function ∧
        (Method.CastFunction fixJitHost fixMonoState fixBazNative 3).2.2.1.function =
          fixBazNative.function ∧
        (Method.RuntimeInvoke fixLiteral fixJitHost fixMonoState fixBazNative false 5 0
            [1]).2.1.function = fixBazNative.function ∧
        (Method.Unbox fixLiteral fixJitHost fixMonoState fixBazNative 5).2.1.function =
          fixBazNative.function) :=
  ⟨by decide,
    Method_function_immutable fixLiteral fixJitHost fixMonoState fixBazNative false 5 0 3 [1]
      (by decide)⟩

/-! ## Requests without wildcards -/

/-- Without wildcards the inner loop reads one parameter per requested name:
its result counts the positions that agree, and all agree exactly when the
declared type names from `i` on are the requested ones. -/
theorem matchLoop_exact (margs : List Method.Arg) :
    ∀ (types : List String) (i index : Nat),
      (∀ t ∈ types, t ≠ "*" ∧ t ≠ "") → i + types.length = margs.length →
      ∃ k, Class.matchLoop margs types i index = some (index + k) ∧ k ≤ types.length ∧
        (k = types.length ↔ (margs.drop i).map (fun a => a.pType.name) = types) := by
  intro types
  induction types with
  | nil =>
    intro i index _ h
    refine ⟨0, rfl, le_refl _, ?_⟩
    simp only [List.length_nil, add_zero] at h
    simp [h]
  | cons t rest ih =>
    intro i index hw h
    simp only [List.length_cons] at h
    have ht := hw t (List.mem_cons_self _ _)
    have hrest : ∀ x ∈ rest, x ≠ "*" ∧ x ≠ "" := fun x hx => hw x (List.mem_cons_of_mem _ hx)
    have hi : i < margs.length := by omega
    rw [Class.matchLoop, if_neg (by rintro (h1 | h1); exact ht.1 h1; exact ht.2 h1),
      List.getElem?_eq_getElem hi]
    have hdrop : margs.drop i = margs[i] :: margs.drop (i + 1) := List.drop_eq_getElem_cons hi
    by_cases hn : (margs[i]).pType.name = t
    · simp only [hn, if_true]
      obtain ⟨k, hk, hle, hiff⟩ := ih (i + 1) (index + 1) hrest (by omega)
      refine ⟨k + 1, by rw [hk]; congr 1; omega, by simp only [List.length_cons]; omega, ?_⟩
      rw [hdrop]
      simp only [List.length_cons, List.map_cons, hn, List.cons.injEq, true_and,
        add_left_inj]
      exact hiff
    · simp only [hn, if_false]
      obtain ⟨k, hk, hle, hiff⟩ := ih (i + 1) index hrest (by omega)
      refine ⟨k, hk, by simp only [List.length_cons]; omega, ?_⟩
      rw [hdrop]
      simp only [List.length_cons, List.map_cons, List.cons.injEq, hn, false_and, iff_false]
      omega

/-- For a request without wildcards, the overload loop is the search for the
first method with the requested name whose declared type names are the
requested ones. -/
theorem overloadLoop_exact (name : String) (types : List String) (hne : types ≠ [])
    (hw : ∀ t ∈ types, t ≠ "*" ∧ t ≠ "") :
    ∀ ms : List Method, Class.overloadLoop name types ms =
      Except.ok (ms.find? (fun m =>
        decide (m.name = name ∧ m.args.map (fun a => a.pType.name) = types))) := by
  intro ms
  induction ms with
  | nil => rfl
  | cons m rest ih =>
    unfold Class.overloadLoop
    by_cases hn : m.name = name
    · rw [if_pos hn, if_neg (fun h => hne h.2)]
      by_cases hl : m.args.length = types.length
      · rw [if_pos hl]
        obtain ⟨k, hk, _, hiff⟩ := matchLoop_exact m.args types 0 0 hw (by omega)
        rw [hk]
        simp only [zero_add, List.drop_zero] at hiff ⊢
        by_cases hi : k = m.args.length
        · have hmap : m.args.map (fun a => a.pType.name) = types := hiff.1 (by omega)
          rw [if_pos hi, List.find?_cons_of_pos _ (by simp [hn, hmap])]
        · have hmap : ¬ m.args.map (fun a => a.pType.name) = types :=
            fun h => hi (by have := hiff.2 h; omega)
          rw [if_neg hi, List.find?_cons_of_neg _ (by simp [hmap]), ih]
      · have hmap : ¬ m.args.map (fun a => a.pType.name) = types := by
          intro h
          apply hl
          rw [← h, List.length_map]
        rw [if_neg hl, List.find?_cons_of_neg _ (by simp [hmap]), ih]
    · rw [if_neg hn, List.find?_cons_of_neg _ (by simp [hn]), ih]

/-- C27: for a non-empty request in which no entry is `"*"` or empty, the exact
pass of `Get<Method>` returns the first method of the list that has the
requested name and whose declared parameter type names are the requested ones
position by position (hence the same arity), so a method that differs in arity
or at any position is never returned by it; `Get<Method>` returns that method
when there is one, and the result of the name-only pass otherwise. -/
theorem GetMethod_exact_request (c : Class) (name : String) (types : List String)
    (hne : types ≠ []) (hw : ∀ t ∈ types, t ≠ "*" ∧ t ≠ "") :
    Class.overloadLoop name types c.methods =
        Except.ok (c.methods.find? (fun m =>
          decide (m.name = name ∧ m.args.map (fun a => a.pType.name) = types))) ∧
      (∀ m, Class.overloadLoop name types c.methods = Except.ok (some m) →
        m.name = name ∧ m.args.length = types.length ∧
          ∀ i : Nat, (m.args[i]?).map (fun (a : Method.Arg) => a.pType.name) = types[i]?) ∧
      (∀ m, c.methods.find? (fun m =>
          decide (m.name = name ∧ m.args.map (fun a => a.pType.name) = types)) = some m →
        c.GetMethod name types = Except.ok (some m)) ∧
      (c.methods.find? (fun m =>
          decide (m.name = name ∧ m.args.map (fun a => a.pType.name) = types)) = none →
        c.GetMethod name types = Except.ok (Class.nameLoop name c.methods)) := by
  have hloop := overloadLoop_exact name types hne hw c.methods
  refine ⟨hloop, ?_, ?_, ?_⟩
  · intro m hm
    rw [hloop] at hm
    have hfound : c.methods.find? (fun m =>
        decide (m.name = name ∧ m.args.map (fun a => a.pType.name) = types)) = some m := by
      injection hm
    have hp := List.find?_some hfound
    simp only [decide_eq_true_eq] at hp
    refine ⟨hp.1, by rw [← hp.2, List.length_map], ?_⟩
    intro i
    have h2 := hp.2
    subst h2
    rw [List.getElem?_map]
  · intro m hm
    unfold Class.GetMethod
    rw [hloop, hm]
  · intro hnone
    unfold Class.GetMethod
    rw [hloop, hnone]

/-- C27 on the class with `F(System.Int32)` then `F(System.Int32, System.String)`. -/
theorem GetMethod_exact_request_witness :
    ["System.Int32", "System.String"] ≠ [] ∧
      (∀ t ∈ ["System.Int32", "System.String"], t ≠ "*" ∧ t ≠ "") ∧
      fixPair.GetMethod "F" ["System.Int32", "System.String"] = Except.ok (some fixIntStr) :=
  ⟨by decide, by decide,
    (GetMethod_exact_request fixPair "F" ["System.Int32", "System.String"] (by decide)
      (by decide)).2.2.1 fixIntStr (by decide)⟩

/-! ## What the walk leaves of the process state -/

theorem Keeps.keeps_refl (s : State) : Keeps s s :=
  ⟨rfl, rfl, rfl, rfl, fun _ h => h, fun _ _ h _ => h, le_refl _⟩

theorem Keeps.keeps_trans {s s1 s2 : State} (h1 : Keeps s s1) (h2 : Keeps s1 s2) : Keeps s s2 :=
  ⟨h2.mode_.trans h1.mode_, h2.hmodule_.trans h1.hmodule_, h2.pDomain.trans h1.pDomain,
    h2.assembly.trans h1.assembly, fun key h => h2.present key (h1.present key h),
    fun key address h h0 => h2.resolved key address (h1.resolved key address h h0) h0,
    le_trans h1.allocated h2.allocated⟩

/-- The name-to-address map after a request, entry by entry. -/
theorem InvokeAs_address {R : Type} (dflt : R) (host : Host) (s : State) (funcName : String)
    (args : List Nat) (answer : Option R) :
    (InvokeAs dflt host s funcName args answer).2.address_ =
      (mapIndex (resolve host s funcName).address_ funcName).2 := by
  unfold InvokeAs
  simp only
  split
  · split <;> rfl
  · rfl

/-- The lookup step removes no key and changes no non-null entry. -/
theorem resolve_entry (host : Host) (s : State) (funcName key : String) :
    (s.address_ key ≠ none → (resolve host s funcName).address_ key ≠ none) ∧
      ∀ address, s.address_ key = some address → address ≠ 0 →
        (resolve host s funcName).address_ key = some address := by
  unfold resolve
  by_cases hc : s.address_ funcName = none ∨ s.address_ funcName = some 0
  · rw [if_pos hc]
    by_cases hk : key = funcName
    · subst hk
      refine ⟨fun _ => by simp [mapAssign], ?_⟩
      intro address hkey h0
      rw [hkey] at hc
      rcases hc with hc | hc
      · cases hc
      · injection hc with hc
        exact absurd hc h0
    · simp only [mapAssign, hk, if_false]
      exact ⟨fun h => h, fun _ h _ => h⟩
  · rw [if_neg hc]
    exact ⟨fun h => h, fun _ h _ => h⟩

/-- Reading the map removes no key and changes no entry. -/
theorem mapIndex_keeps (m : String → Option Nat) (funcName key : String) :
    (m key ≠ none → (mapIndex m funcName).2 key ≠ none) ∧
      ∀ address, m key = some address → (mapIndex m funcName).2 key = some address := by
  unfold mapIndex
  cases hm : m funcName with
  | some value => exact ⟨fun h => h, fun _ h => h⟩
  | none =>
    by_cases hk : key = funcName
    · subst hk
      simp [mapAssign, hm]
    · simp [mapAssign, hk]

/-- One request keeps the state in the sense of `Keeps`. -/
theorem InvokeAs_keeps_self {R : Type} (dflt : R) (host : Host) (s : State) (funcName : String)
    (args : List Nat) (answer : Option R) :
    Keeps s (InvokeAs dflt host s funcName args answer).2 := by
  obtain ⟨h1, h2, h3, h4, h5⟩ := InvokeAs_frame dflt host s funcName args answer
  refine ⟨h1, h4, h5, h2, ?_, ?_, le_of_eq h3.symm⟩
  · intro key hkey
    rw [InvokeAs_address]
    exact (mapIndex_keeps _ funcName key).1 ((resolve_entry host s funcName key).1 hkey)
  · intro key address hkey h0
    rw [InvokeAs_address]
    exact (mapIndex_keeps _ funcName key).2 address
      ((resolve_entry host s funcName key).2 address hkey h0)

theorem InvokeAs_keeps {R : Type} {s0 : State} (dflt : R) (host : Host) (s : State)
    (funcName : String) (args : List Nat) (answer : Option R) (h : Keeps s0 s) :
    Keeps s0 (InvokeAs dflt host s funcName args answer).2 :=
  h.keeps_trans (InvokeAs_keeps_self dflt host s funcName args answer)

theorem newFieldIl2Cpp_keeps {s0 : State} (host : Host) (api : Api) (s : State)
    (klass field : Nat) (h : Keeps s0 s) :
    Keeps s0 (ForeachFields.newFieldIl2Cpp host api s klass field).2.1 := by
  unfold ForeachFields.newFieldIl2Cpp
  simp only
  split
  · (repeat apply InvokeAs_keeps); exact h
  · split
    · (repeat apply InvokeAs_keeps); exact h
    · (repeat apply InvokeAs_keeps); exact h

theorem newFieldMono_keeps {s0 : State} (host : Host) (api : Api) (s : State)
    (klass field : Nat) (h : Keeps s0 s) :
    Keeps s0 (ForeachFields.newFieldMono host api s klass field).2.1 := by
  unfold ForeachFields.newFieldMono
  simp only
  split
  · (repeat apply InvokeAs_keeps); exact h
  · split
    · (repeat apply InvokeAs_keeps); exact h
    · (repeat apply InvokeAs_keeps); exact h


theorem fieldLoopIl2Cpp_keeps {s0 : State} (host : Host) (api : Api) (klass pKlass : Nat) :
    ∀ (answers : List Nat) (c : Class) (s : State), Keeps s0 s →
      Keeps s0 (ForeachFields.loopIl2Cpp host api klass pKlass answers c s).2.1 := by
  intro answers
  induction answers with
  | nil => intro c s h; exact InvokeAs_keeps _ _ _ _ _ _ h
  | cons answer rest ih =>
    intro c s h
    have hf := InvokeAs_keeps 0 host s "il2cpp_class_get_fields" [pKlass] (some answer) h
    unfold ForeachFields.loopIl2Cpp
    simp only
    split
    · exact hf
    · have hnew := newFieldIl2Cpp_keeps host api _ klass
        (InvokeAs 0 host s "il2cpp_class_get_fields" [pKlass] (some answer)).1 hf
      split
      · next s1 heq => rw [heq] at hnew; exact ih _ _ hnew
      · next s1 e heq => rw [heq] at hnew; exact hnew
      · next pField s1 heq => rw [heq] at hnew; exact ih _ _ hnew
      · next pField s1 e heq => rw [heq] at hnew; exact hnew

theorem fieldLoopMono_keeps {s0 : State} (host : Host) (api : Api) (klass pKlass : Nat) :
    ∀ (answers : List Nat) (c : Class) (s : State), Keeps s0 s →
      Keeps s0 (ForeachFields.loopMono host api klass pKlass answers c s).2.1 := by
  intro answers
  induction answers with
  | nil => intro c s h; exact InvokeAs_keeps _ _ _ _ _ _ h
  | cons answer rest ih =>
    intro c s h
    have hf := InvokeAs_keeps 0 host s "mono_class_get_fields" [pKlass] (some answer) h
    unfold ForeachFields.loopMono
    simp only
    split
    · exact hf
    · have hnew := newFieldMono_keeps host api _ klass
        (InvokeAs 0 host s "mono_class_get_fields" [pKlass] (some answer)).1 hf
      split
      · next s1 heq => rw [heq] at hnew; exact ih _ _ hnew
      · next s1 e heq => rw [heq] at hnew; exact hnew
      · next pField s1 heq => rw [heq] at hnew; exact ih _ _ hnew
      · next pField s1 e heq => rw [heq] at hnew; exact hnew

theorem ForeachFields_keeps {s0 : State} (host : Host) (api : Api) (s : State) (klass : Nat)
    (c : Class) (pKlass : Nat) (h : Keeps s0 s) :
    Keeps s0 (ForeachFields host api s klass c pKlass).2.1 := by
  unfold ForeachFields
  split
  · exact fieldLoopIl2Cpp_keeps host api klass pKlass _ c s h
  · exact fieldLoopMono_keeps host api klass pKlass _ c s h

theorem argsIl2Cpp_cons (host : Host) (api : Api) (method index : Nat) (rest : List Nat)
    (args : List Method.Arg) (s : State) :
    ForeachMethod.argsIl2Cpp host api method (index :: rest) args s =
      match (InvokeAs none host s "il2cpp_method_get_param_name" [method, index]
        (some (api.method_get_param_name method index))).1 with
      | none =>
        (args, (InvokeAs none host s "il2cpp_method_get_param_name" [method, index]
          (some (api.method_get_param_name method index))).2, some Fault.thrown)
      | some argName =>
        let name := InvokeAs none host s "il2cpp_method_get_param_name" [method, index]
          (some (api.method_get_param_name method index))
        let param := InvokeAs 0 host name.2 "il2cpp_method_get_param" [method, index]
          (some (api.method_get_param method index))
        let again := InvokeAs 0 host param.2 "il2cpp_method_get_param" [method, index]
          (some (api.method_get_param method index))
        let typeName := InvokeAs none host again.2 "il2cpp_type_get_name" [again.1]
          (some (api.type_get_name again.1))
        match typeName.1 with
        | none => (args, typeName.2, some Fault.thrown)
        | some typeNameStr =>
          ForeachMethod.argsIl2Cpp host api method rest
            (args ++ [{ name := argName,
                        pType := { address := param.1, name := typeNameStr, size := -1 } }])
            typeName.2 := rfl

theorem paramsMono_cons (host : Host) (api : Api) (signature : Nat)
    (names : List (Option String)) (answer : Nat) (rest : List Nat) (iname : Nat)
    (args : List Method.Arg) (s : State) :
    ForeachMethod.paramsMono host api signature names (answer :: rest) iname args s =
      let mType := InvokeAs 0 host s "mono_signature_get_params" [signature] (some answer)
      if mType.1 = 0 then (args, mType.2)
      else
        match (names[iname]?).join with
        | none => ForeachMethod.paramsMono host api signature names rest (iname + 1) args mType.2
        | some argName =>
          let typeName := InvokeAs none host mType.2 "mono_type_get_name" [mType.1]
            (some (api.type_get_name mType.1))
          match typeName.1 with
          | none =>
            ForeachMethod.paramsMono host api signature names rest (iname + 1) args typeName.2
          | some typeNameStr =>
            let size := InvokeAs (0 : Int) host typeName.2 "mono_type_size" [mType.1]
              (some (api.type_size mType.1))
            ForeachMethod.paramsMono host api signature names rest (iname + 1)
              (args ++ [{ name := argName,
                          pType := { address := mType.1, name := typeNameStr,
                                     size := size.1 } }])
              size.2 := rfl

theorem argsIl2Cpp_keeps {s0 : State} (host : Host) (api : Api) (method : Nat) :
    ∀ (indices : List Nat) (args : List Method.Arg) (s : State), Keeps s0 s →
      Keeps s0 (ForeachMethod.argsIl2Cpp host api method indices args s).2.1 := by
  intro indices
  induction indices with
  | nil => intro args s h; exact h
  | cons index rest ih =>
    intro args s h
    rw [argsIl2Cpp_cons]
    simp only
    split
    · (repeat apply InvokeAs_keeps); exact h
    · split
      · (repeat apply InvokeAs_keeps); exact h
      · apply ih
        (repeat apply InvokeAs_keeps); exact h

theorem newMethodIl2Cpp_keeps {s0 : State} (host : Host) (api : Api) (s : State)
    (klass method : Nat) (h : Keeps s0 s) :
    Keeps s0 (ForeachMethod.newMethodIl2Cpp host api s klass method).2.1 := by
  unfold ForeachMethod.newMethodIl2Cpp
  simp only
  split
  · (repeat apply InvokeAs_keeps); exact h
  · split
    · (repeat apply InvokeAs_keeps); exact h
    · apply argsIl2Cpp_keeps
      (repeat apply InvokeAs_keeps); exact h

theorem methodLoopIl2Cpp_keeps {s0 : State} (host : Host) (api : Api) (klass pKlass : Nat) :
    ∀ (answers : List Nat) (c : Class) (s : State), Keeps s0 s →
      Keeps s0 (ForeachMethod.loopIl2Cpp host api klass pKlass answers c s).2.1 := by
  intro answers
  induction answers with
  | nil => intro c s h; exact InvokeAs_keeps _ _ _ _ _ _ h
  | cons answer rest ih =>
    intro c s h
    have hf := InvokeAs_keeps 0 host s "il2cpp_class_get_methods" [pKlass] (some answer) h
    unfold ForeachMethod.loopIl2Cpp
    simp only
    split
    · exact hf
    · have hnew := newMethodIl2Cpp_keeps host api _ klass
        (InvokeAs 0 host s "il2cpp_class_get_methods" [pKlass] (some answer)).1 hf
      split
      · next s1 heq => rw [heq] at hnew; exact ih _ _ hnew
      · next s1 e heq => rw [heq] at hnew; exact hnew
      · next pMethod s1 heq => rw [heq] at hnew; exact ih _ _ hnew
      · next pMethod s1 e heq => rw [heq] at hnew; exact hnew

theorem paramsMono_keeps {s0 : State} (host : Host) (api : Api) (signature : Nat)
    (names : List (Option String)) :
    ∀ (answers : List Nat) (iname : Nat) (args : List Method.Arg) (s : State), Keeps s0 s →
      Keeps s0 (ForeachMethod.paramsMono host api signature names answers iname args s).2 := by
  intro answers
  induction answers with
  | nil =>
    intro iname args s h
    rw [paramsMono_nil]
    exact InvokeAs_keeps _ _ _ _ _ _ h
  | cons answer rest ih =>
    intro iname args s h
    rw [paramsMono_cons]
    simp only
    split
    · (repeat apply InvokeAs_keeps); exact h
    · split
      · apply ih
        (repeat apply InvokeAs_keeps); exact h
      · split
        · apply ih
          (repeat apply InvokeAs_keeps); exact h
        · apply ih
          (repeat apply InvokeAs_keeps); exact h

theorem newMethodMono_keeps {s0 : State} (host : Host) (api : Api) (s : State)
    (klass method : Nat) (h : Keeps s0 s) :
    Keeps s0 (ForeachMethod.newMethodMono host api s klass method).2.1 := by
  unfold ForeachMethod.newMethodMono
  simp only
  split
  · (repeat apply InvokeAs_keeps); exact h
  · split
    · (repeat apply InvokeAs_keeps); exact h
    · split
      · (repeat apply InvokeAs_keeps); exact h
      · split
        · (repeat apply InvokeAs_keeps); exact h
        · apply paramsMono_keeps
          (repeat apply InvokeAs_keeps); exact h

theorem methodLoopMono_keeps {s0 : State} (host : Host) (api : Api) (klass pKlass : Nat) :
    ∀ (answers : List Nat) (c : Class) (s : State), Keeps s0 s →
      Keeps s0 (ForeachMethod.loopMono host api klass pKlass answers c s).2.1 := by
  intro answers
  induction answers with
  | nil => intro c s h; exact InvokeAs_keeps _ _ _ _ _ _ h
  | cons answer rest ih =>
    intro c s h
    have hf := InvokeAs_keeps 0 host s "mono_class_get_methods" [pKlass] (some answer) h
    unfold ForeachMethod.loopMono
    simp only
    split
    · exact hf
    · have hnew := newMethodMono_keeps host api _ klass
        (InvokeAs 0 host s "mono_class_get_methods" [pKlass] (some answer)).1 hf
      split
      · next s1 heq => rw [heq] at hnew; exact ih _ _ hnew
      · next s1 e heq => rw [heq] at hnew; exact hnew
      · next pMethod s1 heq => rw [heq] at hnew; exact ih _ _ hnew
      · next pMethod s1 e heq => rw [heq] at hnew; exact hnew

theorem ForeachMethod_keeps {s0 : State} (host : Host) (api : Api) (s : State) (klass : Nat)
    (c : Class) (pKlass : Nat) (h : Keeps s0 s) :
    Keeps s0 (ForeachMethod host api s klass c pKlass).2.1 := by
  unfold ForeachMethod
  split
  · exact methodLoopIl2Cpp_keeps host api klass pKlass _ c s h
  · exact methodLoopMono_keeps host api klass pKlass _ c s h


theorem interfacesIl2Cpp_keeps {s0 : State} (host : Host) (api : Api) (klass pClass : Nat) :
    ∀ (answers : List Nat) (c : Class) (s : State), Keeps s0 s →
      Keeps s0 (ForeachClass.interfacesIl2Cpp host api klass pClass answers c s).2.1 := by
  intro answers
  induction answers with
  | nil =>
    intro c s h
    rw [interfacesIl2Cpp_nil]
    exact InvokeAs_keeps _ _ _ _ _ _ h
  | cons answer rest ih =>
    intro c s h
    have hi := InvokeAs_keeps 0 host s "il2cpp_class_get_interfaces" [pClass] (some answer) h
    unfold ForeachClass.interfacesIl2Cpp
    simp only
    split
    · exact hi
    · have hf := ForeachFields_keeps host api _ klass c
        (InvokeAs 0 host s "il2cpp_class_get_interfaces" [pClass] (some answer)).1 hi
      split
      · next c1 s1 e heq => rw [heq] at hf; exact hf
      · next c1 s1 heq =>
        rw [heq] at hf
        have hm := ForeachMethod_keeps host api s1 klass c1
          (InvokeAs 0 host s "il2cpp_class_get_interfaces" [pClass] (some answer)).1 hf
        split
        · next c2 s2 e heq2 => rw [heq2] at hm; exact hm
        · next c2 s2 heq2 => rw [heq2] at hm; exact ih _ _ hm

theorem interfacesMono_keeps {s0 : State} (host : Host) (api : Api) (klass pClass : Nat) :
    ∀ (answers : List Nat) (c : Class) (s : State), Keeps s0 s →
      Keeps s0 (ForeachClass.interfacesMono host api klass pClass answers c s).2.1 := by
  intro answers
  induction answers with
  | nil =>
    intro c s h
    rw [interfacesMono_nil]
    exact InvokeAs_keeps _ _ _ _ _ _ h
  | cons answer rest ih =>
    intro c s h
    have hi := InvokeAs_keeps 0 host s "mono_class_get_interfaces" [pClass] (some answer) h
    unfold ForeachClass.interfacesMono
    simp only
    split
    · exact hi
    · have hf := ForeachFields_keeps host api _ klass c
        (InvokeAs 0 host s "mono_class_get_interfaces" [pClass] (some answer)).1 hi
      split
      · next c1 s1 e heq => rw [heq] at hf; exact hf
      · next c1 s1 heq =>
        rw [heq] at hf
        have hm := ForeachMethod_keeps host api s1 klass c1
          (InvokeAs 0 host s "mono_class_get_interfaces" [pClass] (some answer)).1 hf
        split
        · next c2 s2 e heq2 => rw [heq2] at hm; exact hm
        · next c2 s2 heq2 => rw [heq2] at hm; exact ih _ _ hm


theorem allocated_keeps {s0 : State} (s : State) (h : Keeps s0 s) :
    Keeps s0 { s with allocated := s.allocated + 1 } :=
  ⟨h.mode_, h.hmodule_, h.pDomain, h.assembly, h.present, h.resolved,
    le_trans h.allocated (Nat.le_succ _)⟩

theorem ForeachFields_keeps_eq {s0 : State} (host : Host) (api : Api) {s : State} {klass : Nat}
    {c : Class} {pKlass : Nat} {c1 : Class} {s1 : State} {e : Option Fault}
    (heq : ForeachFields host api s klass c pKlass = (c1, s1, e)) (h : Keeps s0 s) :
    Keeps s0 s1 := by
  have hf := ForeachFields_keeps host api s klass c pKlass h
  rw [heq] at hf
  exact hf

theorem ForeachMethod_keeps_eq {s0 : State} (host : Host) (api : Api) {s : State} {klass : Nat}
    {c : Class} {pKlass : Nat} {c1 : Class} {s1 : State} {e : Option Fault}
    (heq : ForeachMethod host api s klass c pKlass = (c1, s1, e)) (h : Keeps s0 s) :
    Keeps s0 s1 := by
  have hf := ForeachMethod_keeps host api s klass c pKlass h
  rw [heq] at hf
  exact hf

theorem newClassIl2Cpp_keeps {s0 : State} (host : Host) (api : Api) (s : State)
    (pClass : Nat) (h : Keeps s0 s) :
    Keeps s0 (ForeachClass.newClassIl2Cpp host api s pClass).2.1 := by
  unfold ForeachClass.newClassIl2Cpp
  simp only
  split
  · repeat' (first | with_reducible exact h | with_reducible apply InvokeAs_keeps | split)
    all_goals exact allocated_keeps s h
  · split
    · repeat' (first | with_reducible exact h | with_reducible apply InvokeAs_keeps | split)
      all_goals exact allocated_keeps s h
    · split
      · repeat' (first | with_reducible exact h | with_reducible apply InvokeAs_keeps | split)
        all_goals exact allocated_keeps s h
      · split
        · next heq =>
          refine ForeachFields_keeps_eq host api heq ?_
          repeat' (first | with_reducible exact h | with_reducible apply InvokeAs_keeps | split)
          all_goals exact allocated_keeps s h
        · next heq =>
          have hf : Keeps s0 _ := ForeachFields_keeps_eq host api heq (by
            repeat' (first | with_reducible exact h | with_reducible apply InvokeAs_keeps | split)
            all_goals exact allocated_keeps s h)
          split
          · next heq2 => exact ForeachMethod_keeps_eq host api heq2 hf
          · next heq2 =>
            exact interfacesIl2Cpp_keeps host api _ _ _ _ _
              (ForeachMethod_keeps_eq host api heq2 hf)

theorem newClassMono_keeps {s0 : State} (host : Host) (api : Api) (s : State)
    (pClass : Nat) (h : Keeps s0 s) :
    Keeps s0 (ForeachClass.newClassMono host api s pClass).2.1 := by
  unfold ForeachClass.newClassMono
  simp only
  split
  · repeat' (first | with_reducible exact h | with_reducible apply InvokeAs_keeps | split)
    all_goals exact allocated_keeps s h
  · split
    · repeat' (first | with_reducible exact h | with_reducible apply InvokeAs_keeps | split)
      all_goals exact allocated_keeps s h
    · split
      · repeat' (first | with_reducible exact h | with_reducible apply InvokeAs_keeps | split)
        all_goals exact allocated_keeps s h
      · split
        · next heq =>
          refine ForeachFields_keeps_eq host api heq ?_
          repeat' (first | with_reducible exact h | with_reducible apply InvokeAs_keeps | split)
          all_goals exact allocated_keeps s h
        · next heq =>
          have hf : Keeps s0 _ := ForeachFields_keeps_eq host api heq (by
            repeat' (first | with_reducible exact h | with_reducible apply InvokeAs_keeps | split)
            all_goals exact allocated_keeps s h)
          split
          · next heq2 => exact ForeachMethod_keeps_eq host api heq2 hf
          · next heq2 =>
            exact interfacesMono_keeps host api _ _ _ _ _
              (ForeachMethod_keeps_eq host api heq2 hf)

theorem classLoopIl2Cpp_keeps {s0 : State} (host : Host) (api : Api) (image : Nat) :
    ∀ (indices : List Nat) (a : Assembly) (s : State), Keeps s0 s →
      Keeps s0 (ForeachClass.loopIl2Cpp host api image indices a s).2.1 := by
  intro indices
  induction indices with
  | nil => intro a s h; exact h
  | cons i rest ih =>
    intro a s h
    have hc := InvokeAs_keeps 0 host s "il2cpp_image_get_class" [image, i]
      (some (api.image_get_class image i)) h
    unfold ForeachClass.loopIl2Cpp
    simp only
    split
    · exact ih _ _ hc
    · have hnew := newClassIl2Cpp_keeps host api _
        (InvokeAs 0 host s "il2cpp_image_get_class" [image, i]
          (some (api.image_get_class image i))).1 hc
      split
      · next s1 heq => rw [heq] at hnew; exact ih _ _ hnew
      · next s1 e heq => rw [heq] at hnew; exact hnew
      · next pAClass s1 heq => rw [heq] at hnew; exact ih _ _ hnew
      · next pAClass s1 e heq => rw [heq] at hnew; exact hnew

theorem classLoopMono_keeps {s0 : State} (host : Host) (api : Api) (image : Nat) :
    ∀ (indices : List Nat) (a : Assembly) (s : State), Keeps s0 s →
      Keeps s0 (ForeachClass.loopMono host api image indices a s).2.1 := by
  intro indices
  induction indices with
  | nil => intro a s h; exact h
  | cons i rest ih =>
    intro a s h
    have hc := InvokeAs_keeps 0 host s "mono_class_get" [image, 0x02000000 ||| (i + 1)]
      (some (api.class_get image (0x02000000 ||| (i + 1)))) h
    unfold ForeachClass.loopMono
    simp only
    split
    · exact ih _ _ hc
    · have hnew := newClassMono_keeps host api _
        (InvokeAs 0 host s "mono_class_get" [image, 0x02000000 ||| (i + 1)]
          (some (api.class_get image (0x02000000 ||| (i + 1))))).1 hc
      split
      · next s1 heq => rw [heq] at hnew; exact ih _ _ hnew
      · next s1 e heq => rw [heq] at hnew; exact hnew
      · next pAClass s1 heq => rw [heq] at hnew; exact ih _ _ hnew
      · next pAClass s1 e heq => rw [heq] at hnew; exact hnew

theorem ForeachClass_keeps {s0 : State} (host : Host) (api : Api) (s : State) (a : Assembly)
    (image : Nat) (h : Keeps s0 s) : Keeps s0 (ForeachClass host api s a image).2.1 := by
  unfold ForeachClass
  split
  · exact classLoopIl2Cpp_keeps host api image _ a _ (InvokeAs_keeps _ _ _ _ _ _ h)
  · exact classLoopMono_keeps host api image _ a _
      (InvokeAs_keeps _ _ _ _ _ _ (InvokeAs_keeps _ _ _ _ _ _ h))


theorem ForeachClass_keeps_eq {s0 : State} (host : Host) (api : Api) {s : State} {a : Assembly}
    {image : Nat} {a1 : Assembly} {s1 : State} {e : Option Fault}
    (heq : ForeachClass host api s a image = (a1, s1, e)) (h : Keeps s0 s) : Keeps s0 s1 := by
  have hf := ForeachClass_keeps host api s a image h
  rw [heq] at hf
  exact hf

theorem Keeps.grows {s s1 : State} (h : Keeps s s1) : Grows s s1 :=
  ⟨⟨[], by rw [h.assembly, List.append_nil]⟩, h.present, h.resolved, h.allocated⟩

theorem Grows.grows_refl (s : State) : Grows s s := (Keeps.keeps_refl s).grows

theorem Grows.grows_trans {s s1 s2 : State} (h1 : Grows s s1) (h2 : Grows s1 s2) : Grows s s2 := by
  obtain ⟨a1, e1⟩ := h1.assembly
  obtain ⟨a2, e2⟩ := h2.assembly
  exact ⟨⟨a1 ++ a2, by rw [e2, e1, List.append_assoc]⟩,
    fun key h => h2.present key (h1.present key h),
    fun key address h h0 => h2.resolved key address (h1.resolved key address h h0) h0,
    le_trans h1.allocated h2.allocated⟩

theorem InvokeAs_grows {R : Type} {s0 : State} (dflt : R) (host : Host) (s : State)
    (funcName : String) (args : List Nat) (answer : Option R) (h : Grows s0 s) :
    Grows s0 (InvokeAs dflt host s funcName args answer).2 :=
  h.grows_trans (InvokeAs_keeps_self dflt host s funcName args answer).grows

/-- Appending an assembly to the catalog of a state that kept everything. -/
theorem push_grows {s s1 : State} (a : Assembly) (h : Keeps s s1) :
    Grows s { s1 with assembly := s1.assembly ++ [a] } :=
  ⟨⟨[a], by rw [h.assembly]⟩, h.present, h.resolved, h.allocated⟩

theorem newAssemblyIl2Cpp_grows (host : Host) (api : Api) (s : State) (ptr : Nat) :
    Grows s (ForeachAssembly.newAssemblyIl2Cpp host api s ptr).1 := by
  have h := Keeps.keeps_refl s
  unfold ForeachAssembly.newAssemblyIl2Cpp
  simp only
  split
  · apply Keeps.grows
    repeat' (first | with_reducible exact h | with_reducible apply InvokeAs_keeps)
  · split
    · apply Keeps.grows
      repeat' (first | with_reducible exact h | with_reducible apply InvokeAs_keeps)
    · apply push_grows
      apply ForeachClass_keeps
      repeat' (first | with_reducible exact h | with_reducible apply InvokeAs_keeps)

theorem assemblyLoopIl2Cpp_grows {s0 : State} (host : Host) (api : Api) :
    ∀ (ptrs : List Nat) (s : State), Grows s0 s →
      Grows s0 (ForeachAssembly.loopIl2Cpp host api ptrs s).1 := by
  intro ptrs
  induction ptrs with
  | nil => intro s h; exact h
  | cons ptr rest ih =>
    intro s h
    have hnew := h.grows_trans (newAssemblyIl2Cpp_grows host api s ptr)
    unfold ForeachAssembly.loopIl2Cpp
    split
    · exact ih _ h
    · split
      · next s1 e heq => rw [heq] at hnew; exact hnew
      · next s1 heq => rw [heq] at hnew; exact ih _ hnew

theorem newAssemblyMono_grows (host : Host) (api : Api) (s : State) (ptr : Nat) :
    Grows s (ForeachAssembly.newAssemblyMono host api s ptr).1 := by
  have h := Keeps.keeps_refl s
  unfold ForeachAssembly.newAssemblyMono
  simp only
  split
  · apply Keeps.grows
    repeat' (first | with_reducible exact h | with_reducible apply InvokeAs_keeps)
  · split
    · apply Keeps.grows
      repeat' (first | with_reducible exact h | with_reducible apply InvokeAs_keeps)
    · apply push_grows
      apply ForeachClass_keeps
      repeat' (first | with_reducible exact h | with_reducible apply InvokeAs_keeps)

theorem callbackMono_grows {s0 : State} (host : Host) (api : Api) :
    ∀ (ptrs : List Nat) (s : State), Grows s0 s →
      Grows s0 (ForeachAssembly.callbackMono host api ptrs s).1 := by
  intro ptrs
  induction ptrs with
  | nil => intro s h; exact h
  | cons ptr rest ih =>
    intro s h
    have hnew := h.grows_trans (newAssemblyMono_grows host api s ptr)
    unfold ForeachAssembly.callbackMono
    split
    · exact ih _ h
    · split
      · next s1 e heq => rw [heq] at hnew; exact hnew
      · next s1 heq => rw [heq] at hnew; exact ih _ hnew

theorem ForeachAssembly_grows {s0 : State} (host : Host) (api : Api) (s : State)
    (h : Grows s0 s) : Grows s0 (ForeachAssembly host api s).1 := by
  unfold ForeachAssembly
  simp only
  split
  · exact assemblyLoopIl2Cpp_grows host api _ _ (InvokeAs_grows _ _ _ _ _ _ h)
  · split
    · exact callbackMono_grows host api _ _ (InvokeAs_grows _ _ _ _ _ _ h)
    · exact InvokeAs_grows _ _ _ _ _ _ h

theorem Init_grows (host : Host) (api : Api) (s : State) (hmodule : Nat) (mode : Mode) :
    Grows s (Init host api s hmodule mode).1 := by
  have h0 : Grows s { s with mode_ := mode, hmodule_ := hmodule } :=
    ⟨⟨[], by simp⟩, fun _ h => h, fun _ _ h _ => h, le_refl _⟩
  have hd : ∀ (S : State) (v : Nat), Grows s S → Grows s { S with pDomain := v } :=
    fun S v hS => ⟨hS.assembly, hS.present, hS.resolved, hS.allocated⟩
  unfold Init
  simp only
  split
  · apply ForeachAssembly_grows
    apply InvokeAs_grows
    apply hd
    apply InvokeAs_grows
    exact h0
  · apply ForeachAssembly_grows
    apply InvokeAs_grows
    apply InvokeAs_grows
    apply hd
    apply InvokeAs_grows
    exact h0

/-! ## The walk at a healthy host -/

/-- At a healthy host that exports the walk, the Il2Cpp branch makes a field
for every handle and raises no fault: its address is the handle and its name
the one the host answers. -/
theorem newFieldIl2Cpp_healthy (host : Host) (api : Api) (s : State) (klass field : Nat)
    (hexp : exportsWalk host Mode.Il2Cpp) (hh : Healthy api) :
    ∃ f, (ForeachFields.newFieldIl2Cpp host api s klass field).1 = some f ∧
      (ForeachFields.newFieldIl2Cpp host api s klass field).2.2 = none ∧
      (f.address, some f.name) = (field, api.field_get_name field) := by
  obtain ⟨n, hn⟩ := Option.ne_none_iff_exists'.1 (hh.field_name field)
  obtain ⟨tn, htn⟩ := Option.ne_none_iff_exists'.1 (hh.type_name (api.field_get_type field))
  unfold ForeachFields.newFieldIl2Cpp
  simp only [InvokeAs_walk _ host Mode.Il2Cpp _ _ _ _ hexp, walkNames, List.mem_cons,
    List.mem_singleton, String.reduceEq, or_true, true_or, or_false, false_or, hn, htn]
  exact ⟨_, rfl, trivial, rfl⟩

/-- At a healthy host that exports the walk, the Mono branch makes a field
for every handle and raises no fault: its address is the handle and its name
the one the host answers. -/
theorem newFieldMono_healthy (host : Host) (api : Api) (s : State) (klass field : Nat)
    (hexp : exportsWalk host Mode.Mono) (hh : Healthy api) :
    ∃ f, (ForeachFields.newFieldMono host api s klass field).1 = some f ∧
      (ForeachFields.newFieldMono host api s klass field).2.2 = none ∧
      (f.address, some f.name) = (field, api.field_get_name field) := by
  obtain ⟨n, hn⟩ := Option.ne_none_iff_exists'.1 (hh.field_name field)
  obtain ⟨tn, htn⟩ := Option.ne_none_iff_exists'.1 (hh.type_name (api.field_get_type field))
  unfold ForeachFields.newFieldMono
  simp only [InvokeAs_walk _ host Mode.Mono _ _ _ _ hexp, walkNames, List.mem_cons,
    List.mem_singleton, String.reduceEq, or_true, true_or, or_false, false_or, hn, htn]
  exact ⟨_, rfl, trivial, rfl⟩

/-- At a healthy host that exports the walk, the Il2Cpp loop appends one field
per handle, in the order of the handles, and ends without a fault. -/
theorem fieldLoopIl2Cpp_healthy (host : Host) (api : Api) (klass pKlass : Nat)
    (hexp : exportsWalk host Mode.Il2Cpp) (hh : Healthy api) :
    ∀ (answers : List Nat) (c : Class) (s : State), 0 ∉ answers →
      ∃ added, (ForeachFields.loopIl2Cpp host api klass pKlass answers c s).1 =
          { c with fields := c.fields ++ added } ∧
        (ForeachFields.loopIl2Cpp host api klass pKlass answers c s).2.2 = none ∧
        added.map (fun f => (f.address, some f.name)) =
          answers.map (fun field => (field, api.field_get_name field)) := by
  intro answers
  induction answers with
  | nil =>
    intro c s _
    exact ⟨[], by simp [ForeachFields.loopIl2Cpp], rfl, rfl⟩
  | cons answer rest ih =>
    intro c s h0
    have hne : answer ≠ 0 := fun h => h0 (by simp [h])
    have hrest : 0 ∉ rest := fun h => h0 (List.mem_cons_of_mem _ h)
    have hans : (InvokeAs 0 host s "il2cpp_class_get_fields" [pKlass] (some answer)).1 =
        answer := InvokeAs_walk _ host Mode.Il2Cpp _ _ _ _ hexp (by simp [walkNames])
    obtain ⟨m, hm, hfault, hkey⟩ := newFieldIl2Cpp_healthy host api
      (InvokeAs 0 host s "il2cpp_class_get_fields" [pKlass] (some answer)).2 klass answer
      hexp hh
    unfold ForeachFields.loopIl2Cpp
    simp only [hans, hne, if_false]
    rcases hnew : ForeachFields.newFieldIl2Cpp host api
      (InvokeAs 0 host s "il2cpp_class_get_fields" [pKlass] (some answer)).2 klass answer
      with ⟨o, s1, e⟩
    rw [hnew] at hm hfault
    simp only at hm hfault
    subst hm hfault
    simp only
    obtain ⟨added, h1, h2, h3⟩ := ih { c with fields := c.fields ++ [m] } s1 hrest
    refine ⟨m :: added, ?_, h2, ?_⟩
    · rw [h1]
      simp
    · simp only [List.map_cons, h3, hkey]


theorem fieldLoopMono_healthy (host : Host) (api : Api) (klass pKlass : Nat)
    (hexp : exportsWalk host Mode.Mono) (hh : Healthy api) :
    ∀ (answers : List Nat) (c : Class) (s : State), 0 ∉ answers →
      ∃ added, (ForeachFields.loopMono host api klass pKlass answers c s).1 =
          { c with fields := c.fields ++ added } ∧
        (ForeachFields.loopMono host api klass pKlass answers c s).2.2 = none ∧
        added.map (fun f => (f.address, some f.name)) =
          answers.map (fun field => (field, api.field_get_name field)) := by
  intro answers
  induction answers with
  | nil =>
    intro c s _
    exact ⟨[], by simp [ForeachFields.loopMono], rfl, rfl⟩
  | cons answer rest ih =>
    intro c s h0
    have hne : answer ≠ 0 := fun h => h0 (by simp [h])
    have hrest : 0 ∉ rest := fun h => h0 (List.mem_cons_of_mem _ h)
    have hans : (InvokeAs 0 host s "mono_class_get_fields" [pKlass] (some answer)).1 =
        answer := InvokeAs_walk _ host Mode.Mono _ _ _ _ hexp (by simp [walkNames])
    obtain ⟨m, hm, hfault, hkey⟩ := newFieldMono_healthy host api
      (InvokeAs 0 host s "mono_class_get_fields" [pKlass] (some answer)).2 klass answer
      hexp hh
    unfold ForeachFields.loopMono
    simp only [hans, hne, if_false]
    rcases hnew : ForeachFields.newFieldMono host api
      (InvokeAs 0 host s "mono_class_get_fields" [pKlass] (some answer)).2 klass answer
      with ⟨o, s1, e⟩
    rw [hnew] at hm hfault
    simp only at hm hfault
    subst hm hfault
    simp only
    obtain ⟨added, h1, h2, h3⟩ := ih { c with fields := c.fields ++ [m] } s1 hrest
    refine ⟨m :: added, ?_, h2, ?_⟩
    · rw [h1]
      simp
    · simp only [List.map_cons, h3, hkey]

/-- At a healthy host that exports the walk of the current mode, `ForeachFields`
appends to the class one field per handle the host yields for `pKlass`, in the
order of the host, touches nothing else of the class and raises no fault. -/
theorem ForeachFields_healthy (host : Host) (api : Api) (s : State) (klass : Nat) (c : Class)
    (pKlass : Nat) (hexp : exportsWalk host s.mode_) (hh : Healthy api) :
    ∃ added, (ForeachFields host api s klass c pKlass).1 =
        { c with fields := c.fields ++ added } ∧
      (ForeachFields host api s klass c pKlass).2.2 = none ∧
      added.map (fun f => (f.address, some f.name)) =
        (api.class_get_fields pKlass).map (fun field => (field, api.field_get_name field)) := by
  unfold ForeachFields
  cases hm : s.mode_ with
  | Il2Cpp =>
    rw [hm] at hexp
    simp only [if_true]
    exact fieldLoopIl2Cpp_healthy host api klass pKlass hexp hh _ c s (hh.fields_ne pKlass)
  | Mono =>
    rw [hm] at hexp
    simp only [reduceCtorEq, if_false]
    obtain ⟨added, h1, h2, h3⟩ :=
      fieldLoopMono_healthy host api klass pKlass hexp hh _ c s (hh.fields_ne pKlass)
    exact ⟨added, h1, by rw [h2]; rfl, h3⟩

theorem argsIl2Cpp_healthy (host : Host) (api : Api) (method : Nat)
    (hexp : exportsWalk host Mode.Il2Cpp) (hh : Healthy api) :
    ∀ (indices : List Nat) (args : List Method.Arg) (s : State),
      (ForeachMethod.argsIl2Cpp host api method indices args s).2.2 = none := by
  intro indices
  induction indices with
  | nil => intro args s; rfl
  | cons index rest ih =>
    intro args s
    obtain ⟨n, hn⟩ := Option.ne_none_iff_exists'.1 (hh.param_name method index)
    obtain ⟨tn, htn⟩ := Option.ne_none_iff_exists'.1
      (hh.type_name (api.method_get_param method index))
    rw [argsIl2Cpp_cons]
    simp only [InvokeAs_walk _ host Mode.Il2Cpp _ _ _ _ hexp, walkNames, List.mem_cons,
      List.mem_singleton, String.reduceEq, or_true, true_or, or_false, false_or, hn, htn]
    exact ih _ _

theorem newMethodIl2Cpp_healthy (host : Host) (api : Api) (s : State) (klass method : Nat)
    (hexp : exportsWalk host Mode.Il2Cpp) (hh : Healthy api) :
    ∃ m, (ForeachMethod.newMethodIl2Cpp host api s klass method).1 = some m ∧
      (ForeachMethod.newMethodIl2Cpp host api s klass method).2.2 = none ∧
      (m.address, some m.name) = (method, api.method_get_name method) := by
  obtain ⟨n, hn⟩ := Option.ne_none_iff_exists'.1 (hh.method_name method)
  obtain ⟨tn, htn⟩ := Option.ne_none_iff_exists'.1
    (hh.type_name (api.method_get_return_type method))
  unfold ForeachMethod.newMethodIl2Cpp
  simp only [InvokeAs_walk _ host Mode.Il2Cpp _ _ _ _ hexp, walkNames, List.mem_cons,
    List.mem_singleton, String.reduceEq, or_true, true_or, or_false, false_or, hn, htn]
  exact ⟨_, rfl, argsIl2Cpp_healthy host api method hexp hh _ _ _, rfl⟩

theorem newMethodMono_healthy (host : Host) (api : Api) (s : State) (klass method : Nat)
    (hexp : exportsWalk host Mode.Mono) (hh : Healthy api) :
    ∃ m, (ForeachMethod.newMethodMono host api s klass method).1 = some m ∧
      (ForeachMethod.newMethodMono host api s klass method).2.2 = none ∧
      (m.address, some m.name) = (method, api.method_get_name method) := by
  obtain ⟨n, hn⟩ := Option.ne_none_iff_exists'.1 (hh.method_name method)
  obtain ⟨tn, htn⟩ := Option.ne_none_iff_exists'.1
    (hh.type_name (api.signature_get_return_type (api.method_signature method)))
  unfold ForeachMethod.newMethodMono
  simp only [InvokeAs_walk _ host Mode.Mono _ _ _ _ hexp, walkNames, List.mem_cons,
    List.mem_singleton, String.reduceEq, or_true, true_or, or_false, false_or, hn, htn,
    hh.signature method, if_false]
  split
  · exact ⟨_, rfl, rfl, rfl⟩
  · exact ⟨_, rfl, rfl, rfl⟩


theorem methodLoopIl2Cpp_healthy (host : Host) (api : Api) (klass pKlass : Nat)
    (hexp : exportsWalk host Mode.Il2Cpp) (hh : Healthy api) :
    ∀ (answers : List Nat) (c : Class) (s : State), 0 ∉ answers →
      ∃ added, (ForeachMethod.loopIl2Cpp host api klass pKlass answers c s).1 =
          { c with methods := c.methods ++ added } ∧
        (ForeachMethod.loopIl2Cpp host api klass pKlass answers c s).2.2 = none ∧
        added.map (fun m => (m.address, some m.name)) =
          answers.map (fun method => (method, api.method_get_name method)) := by
  intro answers
  induction answers with
  | nil =>
    intro c s _
    exact ⟨[], by simp [ForeachMethod.loopIl2Cpp], rfl, rfl⟩
  | cons answer rest ih =>
    intro c s h0
    have hne : answer ≠ 0 := fun h => h0 (by simp [h])
    have hrest : 0 ∉ rest := fun h => h0 (List.mem_cons_of_mem _ h)
    have hans : (InvokeAs 0 host s "il2cpp_class_get_methods" [pKlass] (some answer)).1 =
        answer := InvokeAs_walk _ host Mode.Il2Cpp _ _ _ _ hexp (by simp [walkNames])
    obtain ⟨m, hm, hfault, hkey⟩ := newMethodIl2Cpp_healthy host api
      (InvokeAs 0 host s "il2cpp_class_get_methods" [pKlass] (some answer)).2 klass answer
      hexp hh
    unfold ForeachMethod.loopIl2Cpp
    simp only [hans, hne, if_false]
    rcases hnew : ForeachMethod.newMethodIl2Cpp host api
      (InvokeAs 0 host s "il2cpp_class_get_methods" [pKlass] (some answer)).2 klass answer
      with ⟨o, s1, e⟩
    rw [hnew] at hm hfault
    simp only at hm hfault
    subst hm hfault
    simp only
    obtain ⟨added, h1, h2, h3⟩ := ih { c with methods := c.methods ++ [m] } s1 hrest
    refine ⟨m :: added, ?_, h2, ?_⟩
    · rw [h1]
      simp
    · simp only [List.map_cons, h3, hkey]

theorem methodLoopMono_healthy (host : Host) (api : Api) (klass pKlass : Nat)
    (hexp : exportsWalk host Mode.Mono) (hh : Healthy api) :
    ∀ (answers : List Nat) (c : Class) (s : State), 0 ∉ answers →
      ∃ added, (ForeachMethod.loopMono host api klass pKlass answers c s).1 =
          { c with methods := c.methods ++ added } ∧
        (ForeachMethod.loopMono host api klass pKlass answers c s).2.2 = none ∧
        added.map (fun m => (m.address, some m.name)) =
          answers.map (fun method => (method, api.method_get_name method)) := by
  intro answers
  induction answers with
  | nil =>
    intro c s _
    exact ⟨[], by simp [ForeachMethod.loopMono], rfl, rfl⟩
  | cons answer rest ih =>
    intro c s h0
    have hne : answer ≠ 0 := fun h => h0 (by simp [h])
    have hrest : 0 ∉ rest := fun h => h0 (List.mem_cons_of_mem _ h)
    have hans : (InvokeAs 0 host s "mono_class_get_methods" [pKlass] (some answer)).1 =
        answer := InvokeAs_walk _ host Mode.Mono _ _ _ _ hexp (by simp [walkNames])
    obtain ⟨m, hm, hfault, hkey⟩ := newMethodMono_healthy host api
      (InvokeAs 0 host s "mono_class_get_methods" [pKlass] (some answer)).2 klass answer
      hexp hh
    unfold ForeachMethod.loopMono
    simp only [hans, hne, if_false]
    rcases hnew : ForeachMethod.newMethodMono host api
      (InvokeAs 0 host s "mono_class_get_methods" [pKlass] (some answer)).2 klass answer
      with ⟨o, s1, e⟩
    rw [hnew] at hm hfault
    simp only at hm hfault
    subst hm hfault
    simp only
    obtain ⟨added, h1, h2, h3⟩ := ih { c with methods := c.methods ++ [m] } s1 hrest
    refine ⟨m :: added, ?_, h2, ?_⟩
    · rw [h1]
      simp
    · simp only [List.map_cons, h3, hkey]

/-- At a healthy host that exports the walk of the current mode, `ForeachMethod`
appends to the class one method per handle the host yields for `pKlass`, in the
order of the host, touches nothing else of the class and raises no fault. -/
theorem ForeachMethod_healthy (host : Host) (api : Api) (s : State) (klass : Nat) (c : Class)
    (pKlass : Nat) (hexp : exportsWalk host s.mode_) (hh : Healthy api) :
    ∃ added, (ForeachMethod host api s klass c pKlass).1 =
        { c with methods := c.methods ++ added } ∧
      (ForeachMethod host api s klass c pKlass).2.2 = none ∧
      added.map (fun m => (m.address, some m.name)) =
        (api.class_get_methods pKlass).map
          (fun method => (method, api.method_get_name method)) := by
  unfold ForeachMethod
  cases hm : s.mode_ with
  | Il2Cpp =>
    rw [hm] at hexp
    simp only [if_true]
    exact methodLoopIl2Cpp_healthy host api klass pKlass hexp hh _ c s (hh.methods_ne pKlass)
  | Mono =>
    rw [hm] at hexp
    simp only [reduceCtorEq, if_false]
    obtain ⟨added, h1, h2, h3⟩ :=
      methodLoopMono_healthy host api klass pKlass hexp hh _ c s (hh.methods_ne pKlass)
    exact ⟨added, h1, by rw [h2]; rfl, h3⟩

/-- One interface of a class at a healthy host: its fields, then its methods,
are appended to the class. -/
theorem interface_healthy (host : Host) (api : Api) (s : State) (klass : Nat) (c : Class)
    (iClass : Nat) (hexp : exportsWalk host s.mode_) (hh : Healthy api) :
    ∃ fs ms s1 s2,
      ForeachFields host api s klass c iClass = ({ c with fields := c.fields ++ fs }, s1, none) ∧
      ForeachMethod host api s1 klass { c with fields := c.fields ++ fs } iClass =
        ({ c with fields := c.fields ++ fs, methods := c.methods ++ ms }, s2, none) ∧
      s2.mode_ = s.mode_ ∧
      fs.map (fun f => (f.address, some f.name)) =
        (api.class_get_fields iClass).map (fun field => (field, api.field_get_name field)) ∧
      ms.map (fun m => (m.address, some m.name)) =
        (api.class_get_methods iClass).map
          (fun method => (method, api.method_get_name method)) := by
  obtain ⟨fs, hf1, hf2, hf3⟩ := ForeachFields_healthy host api s klass c iClass hexp hh
  have hk1 := ForeachFields_keeps host api s klass c iClass (Keeps.keeps_refl s)
  rcases hF : ForeachFields host api s klass c iClass with ⟨c1, s1, e1⟩
  rw [hF] at hf1 hf2 hk1
  simp only at hf1 hf2 hk1
  subst hf1 hf2
  have hexp1 : exportsWalk host s1.mode_ := by rw [hk1.mode_]; exact hexp
  obtain ⟨ms, hm1, hm2, hm3⟩ :=
    ForeachMethod_healthy host api s1 klass { c with fields := c.fields ++ fs } iClass hexp1 hh
  have hk2 := ForeachMethod_keeps host api s1 klass { c with fields := c.fields ++ fs } iClass hk1
  rcases hM : ForeachMethod host api s1 klass { c with fields := c.fields ++ fs } iClass
    with ⟨c2, s2, e2⟩
  rw [hM] at hm1 hm2 hk2
  simp only at hm1 hm2 hk2
  subst hm1 hm2
  exact ⟨fs, ms, s1, s2, rfl, hM, hk2.mode_, hf3, hm3⟩


theorem interfacesIl2Cpp_healthy (host : Host) (api : Api) (klass pClass : Nat)
    (hexp : exportsWalk host Mode.Il2Cpp) (hh : Healthy api) :
    ∀ (answers : List Nat) (c : Class) (s : State), 0 ∉ answers → s.mode_ = Mode.Il2Cpp →
      ∃ fs ms, (ForeachClass.interfacesIl2Cpp host api klass pClass answers c s).1 =
          { c with fields := c.fields ++ fs, methods := c.methods ++ ms } ∧
        (ForeachClass.interfacesIl2Cpp host api klass pClass answers c s).2.2 = none ∧
        fs.map (fun f => (f.address, some f.name)) =
          (answers.flatMap api.class_get_fields).map
            (fun field => (field, api.field_get_name field)) ∧
        ms.map (fun m => (m.address, some m.name)) =
          (answers.flatMap api.class_get_methods).map
            (fun method => (method, api.method_get_name method)) := by
  intro answers
  induction answers with
  | nil =>
    intro c s _ _
    exact ⟨[], [], by simp [interfacesIl2Cpp_nil], rfl, rfl, rfl⟩
  | cons answer rest ih =>
    intro c s h0 hmode
    have hne : answer ≠ 0 := fun h => h0 (by simp [h])
    have hrest : 0 ∉ rest := fun h => h0 (List.mem_cons_of_mem _ h)
    have hans : (InvokeAs 0 host s "il2cpp_class_get_interfaces" [pClass] (some answer)).1 =
        answer := InvokeAs_walk _ host Mode.Il2Cpp _ _ _ _ hexp (by simp [walkNames])
    have hmode1 : (InvokeAs 0 host s "il2cpp_class_get_interfaces" [pClass]
        (some answer)).2.mode_ = Mode.Il2Cpp := by rw [InvokeAs_mode]; exact hmode
    obtain ⟨fs, ms, s1, s2, hF, hM, hmode2, hfs, hms⟩ := interface_healthy host api
      (InvokeAs 0 host s "il2cpp_class_get_interfaces" [pClass] (some answer)).2 klass c answer
      (by rw [hmode1]; exact hexp) hh
    obtain ⟨fs1, ms1, h1, h2, h3, h4⟩ :=
      ih { c with fields := c.fields ++ fs, methods := c.methods ++ ms } s2 hrest
        (by rw [hmode2, hmode1])
    unfold ForeachClass.interfacesIl2Cpp
    simp only [hans, hne, if_false, hF, hM]
    refine ⟨fs ++ fs1, ms ++ ms1, ?_, h2, ?_, ?_⟩
    · rw [h1]
      simp
    · simp only [List.map_append, List.flatMap_cons, hfs, h3]
    · simp only [List.map_append, List.flatMap_cons, hms, h4]

theorem interfacesMono_healthy (host : Host) (api : Api) (klass pClass : Nat)
    (hexp : exportsWalk host Mode.Mono) (hh : Healthy api) :
    ∀ (answers : List Nat) (c : Class) (s : State), 0 ∉ answers → s.mode_ = Mode.Mono →
      ∃ fs ms, (ForeachClass.interfacesMono host api klass pClass answers c s).1 =
          { c with fields := c.fields ++ fs, methods := c.methods ++ ms } ∧
        (ForeachClass.interfacesMono host api klass pClass answers c s).2.2 = none ∧
        fs.map (fun f => (f.address, some f.name)) =
          (answers.flatMap api.class_get_fields).map
            (fun field => (field, api.field_get_name field)) ∧
        ms.map (fun m => (m.address, some m.name)) =
          (answers.flatMap api.class_get_methods).map
            (fun method => (method, api.method_get_name method)) := by
  intro answers
  induction answers with
  | nil =>
    intro c s _ _
    exact ⟨[], [], by simp [interfacesMono_nil], rfl, rfl, rfl⟩
  | cons answer rest ih =>
    intro c s h0 hmode
    have hne : answer ≠ 0 := fun h => h0 (by simp [h])
    have hrest : 0 ∉ rest := fun h => h0 (List.mem_cons_of_mem _ h)
    have hans : (InvokeAs 0 host s "mono_class_get_interfaces" [pClass] (some answer)).1 =
        answer := InvokeAs_walk _ host Mode.Mono _ _ _ _ hexp (by simp [walkNames])
    have hmode1 : (InvokeAs 0 host s "mono_class_get_interfaces" [pClass]
        (some answer)).2.mode_ = Mode.Mono := by rw [InvokeAs_mode]; exact hmode
    obtain ⟨fs, ms, s1, s2, hF, hM, hmode2, hfs, hms⟩ := interface_healthy host api
      (InvokeAs 0 host s "mono_class_get_interfaces" [pClass] (some answer)).2 klass c answer
      (by rw [hmode1]; exact hexp) hh
    obtain ⟨fs1, ms1, h1, h2, h3, h4⟩ :=
      ih { c with fields := c.fields ++ fs, methods := c.methods ++ ms } s2 hrest
        (by rw [hmode2, hmode1])
    unfold ForeachClass.interfacesMono
    simp only [hans, hne, if_false, hF, hM]
    refine ⟨fs ++ fs1, ms ++ ms1, ?_, h2, ?_, ?_⟩
    · rw [h1]
      simp
    · simp only [List.map_append, List.flatMap_cons, hfs, h3]
    · simp only [List.map_append, List.flatMap_cons, hms, h4]


/-- One class at a healthy host that exports the walk (Il2Cpp branch): the class
is made, no fault is raised, and its field and method lists hold the members of
the class handle followed by those of each interface, in the order of the
host. -/
theorem newClassIl2Cpp_healthy (host : Host) (api : Api) (s : State) (pClass : Nat)
    (hexp : exportsWalk host Mode.Il2Cpp) (hh : Healthy api) (hmode : s.mode_ = Mode.Il2Cpp) :
    ∃ c, (ForeachClass.newClassIl2Cpp host api s pClass).1 = some c ∧
      (ForeachClass.newClassIl2Cpp host api s pClass).2.2 = none ∧
      c.address = pClass ∧ some c.name = api.class_get_name pClass ∧
      c.self = s.allocated + 1 ∧
      c.fields.map (fun f => (f.address, some f.name)) =
        ((pClass :: api.class_get_interfaces pClass).flatMap api.class_get_fields).map
          (fun field => (field, api.field_get_name field)) ∧
      c.methods.map (fun m => (m.address, some m.name)) =
        ((pClass :: api.class_get_interfaces pClass).flatMap api.class_get_methods).map
          (fun method => (method, api.method_get_name method)) := by
  obtain ⟨n, hn⟩ := Option.ne_none_iff_exists'.1 (hh.class_name pClass)
  obtain ⟨ns, hns⟩ := Option.ne_none_iff_exists'.1 (hh.class_namespace pClass)
  obtain ⟨pn, hpn⟩ := Option.ne_none_iff_exists'.1
    (hh.class_name (api.class_get_parent pClass))
  unfold ForeachClass.newClassIl2Cpp
  simp only [InvokeAs_walk _ host Mode.Il2Cpp _ _ _ _ hexp, walkNames, List.mem_cons,
    List.mem_singleton, String.reduceEq, or_true, true_or, or_false, false_or, hn]
  by_cases hp : api.class_get_parent pClass = 0
  · simp only [hp, ne_eq, not_true_eq_false, if_false, hns]
    generalize hS : (InvokeAs none host _ "il2cpp_class_get_namespace" [pClass] _).2 = S
    have hSm : S.mode_ = Mode.Il2Cpp := by rw [← hS]; simp only [InvokeAs_mode]; exact hmode
    obtain ⟨fs, ms, s1, s2, hF, hM, hmode2, hfs, hms⟩ := interface_healthy host api S
      (s.allocated + 1)
      { address := pClass, name := n, parent := "", namespaze := ns,
        self := s.allocated + 1 } pClass (by rw [hSm]; exact hexp) hh
    rw [hF]
    simp only
    rw [hM]
    simp only
    obtain ⟨fs1, ms1, h1, h2, h3, h4⟩ := interfacesIl2Cpp_healthy host api (s.allocated + 1)
      pClass hexp hh (api.class_get_interfaces pClass)
      { address := pClass, name := n, parent := "", namespaze := ns,
        fields := [] ++ fs, methods := [] ++ ms, self := s.allocated + 1 } s2
      (hh.interfaces_ne pClass) (by rw [hmode2, hSm])
    refine ⟨_, rfl, h2, ?_, ?_, ?_, ?_, ?_⟩
    · rw [h1]
    · rw [h1]
    · rw [h1]
    · rw [h1]
      simp only [List.nil_append, List.map_append, List.flatMap_cons, hfs, h3]
    · rw [h1]
      simp only [List.nil_append, List.map_append, List.flatMap_cons, hms, h4]
  · simp only [hp, ne_eq, not_false_eq_true, if_true, hns, hpn,
      InvokeAs_walk _ host Mode.Il2Cpp _ _ _ _ hexp, walkNames, List.mem_cons,
      List.mem_singleton, String.reduceEq, or_true, true_or, or_false, false_or]
    generalize hS : (InvokeAs none host _ "il2cpp_class_get_namespace" [pClass] _).2 = S
    have hSm : S.mode_ = Mode.Il2Cpp := by rw [← hS]; simp only [InvokeAs_mode]; exact hmode
    obtain ⟨fs, ms, s1, s2, hF, hM, hmode2, hfs, hms⟩ := interface_healthy host api S
      (s.allocated + 1)
      { address := pClass, name := n, parent := pn, namespaze := ns,
        self := s.allocated + 1 } pClass (by rw [hSm]; exact hexp) hh
    rw [hF]
    simp only
    rw [hM]
    simp only
    obtain ⟨fs1, ms1, h1, h2, h3, h4⟩ := interfacesIl2Cpp_healthy host api (s.allocated + 1)
      pClass hexp hh (api.class_get_interfaces pClass)
      { address := pClass, name := n, parent := pn, namespaze := ns,
        fields := [] ++ fs, methods := [] ++ ms, self := s.allocated + 1 } s2
      (hh.interfaces_ne pClass) (by rw [hmode2, hSm])
    refine ⟨_, rfl, h2, ?_, ?_, ?_, ?_, ?_⟩
    · rw [h1]
    · rw [h1]
    · rw [h1]
    · rw [h1]
      simp only [List.nil_append, List.map_append, List.flatMap_cons, hfs, h3]
    · rw [h1]
      simp only [List.nil_append, List.map_append, List.flatMap_cons, hms, h4]

/-- One class at a healthy host that exports the walk (Mono branch): the class
is made, no fault is raised, and its field and method lists hold the members of
the class handle followed by those of each interface, in the order of the
host. -/
theorem newClassMono_healthy (host : Host) (api : Api) (s : State) (pClass : Nat)
    (hexp : exportsWalk host Mode.Mono) (hh : Healthy api) (hmode : s.mode_ = Mode.Mono) :
    ∃ c, (ForeachClass.newClassMono host api s pClass).1 = some c ∧
      (ForeachClass.newClassMono host api s pClass).2.2 = none ∧
      c.address = pClass ∧ some c.name = api.class_get_name pClass ∧
      c.self = s.allocated + 1 ∧
      c.fields.map (fun f => (f.address, some f.name)) =
        ((pClass :: api.class_get_interfaces pClass).flatMap api.class_get_fields).map
          (fun field => (field, api.field_get_name field)) ∧
      c.methods.map (fun m => (m.address, some m.name)) =
        ((pClass :: api.class_get_interfaces pClass).flatMap api.class_get_methods).map
          (fun method => (method, api.method_get_name method)) := by
  obtain ⟨n, hn⟩ := Option.ne_none_iff_exists'.1 (hh.class_name pClass)
  obtain ⟨ns, hns⟩ := Option.ne_none_iff_exists'.1 (hh.class_namespace pClass)
  obtain ⟨pn, hpn⟩ := Option.ne_none_iff_exists'.1
    (hh.class_name (api.class_get_parent pClass))
  unfold ForeachClass.newClassMono
  simp only [InvokeAs_walk _ host Mode.Mono _ _ _ _ hexp, walkNames, List.mem_cons,
    List.mem_singleton, String.reduceEq, or_true, true_or, or_false, false_or, hn]
  by_cases hp : api.class_get_parent pClass = 0
  · simp only [hp, ne_eq, not_true_eq_false, if_false, hns]
    generalize hS : (InvokeAs none host _ "mono_class_get_namespace" [pClass] _).2 = S
    have hSm : S.mode_ = Mode.Mono := by rw [← hS]; simp only [InvokeAs_mode]; exact hmode
    obtain ⟨fs, ms, s1, s2, hF, hM, hmode2, hfs, hms⟩ := interface_healthy host api S
      (s.allocated + 1)
      { address := pClass, name := n, parent := "", namespaze := ns,
        self := s.allocated + 1 } pClass (by rw [hSm]; exact hexp) hh
    rw [hF]
    simp only
    rw [hM]
    simp only
    obtain ⟨fs1, ms1, h1, h2, h3, h4⟩ := interfacesMono_healthy host api (s.allocated + 1)
      pClass hexp hh (api.class_get_interfaces pClass)
      { address := pClass, name := n, parent := "", namespaze := ns,
        fields := [] ++ fs, methods := [] ++ ms, self := s.allocated + 1 } s2
      (hh.interfaces_ne pClass) (by rw [hmode2, hSm])
    refine ⟨_, rfl, h2, ?_, ?_, ?_, ?_, ?_⟩
    · rw [h1]
    · rw [h1]
    · rw [h1]
    · rw [h1]
      simp only [List.nil_append, List.map_append, List.flatMap_cons, hfs, h3]
    · rw [h1]
      simp only [List.nil_append, List.map_append, List.flatMap_cons, hms, h4]
  · simp only [hp, ne_eq, not_false_eq_true, if_true, hns, hpn,
      InvokeAs_walk _ host Mode.Mono _ _ _ _ hexp, walkNames, List.mem_cons,
      List.mem_singleton, String.reduceEq, or_true, true_or, or_false, false_or]
    generalize hS : (InvokeAs none host _ "mono_class_get_namespace" [pClass] _).2 = S
    have hSm : S.mode_ = Mode.Mono := by rw [← hS]; simp only [InvokeAs_mode]; exact hmode
    obtain ⟨fs, ms, s1, s2, hF, hM, hmode2, hfs, hms⟩ := interface_healthy host api S
      (s.allocated + 1)
      { address := pClass, name := n, parent := pn, namespaze := ns,
        self := s.allocated + 1 } pClass (by rw [hSm]; exact hexp) hh
    rw [hF]
    simp only
    rw [hM]
    simp only
    obtain ⟨fs1, ms1, h1, h2, h3, h4⟩ := interfacesMono_healthy host api (s.allocated + 1)
      pClass hexp hh (api.class_get_interfaces pClass)
      { address := pClass, name := n, parent := pn, namespaze := ns,
        fields := [] ++ fs, methods := [] ++ ms, self := s.allocated + 1 } s2
      (hh.interfaces_ne pClass) (by rw [hmode2, hSm])
    refine ⟨_, rfl, h2, ?_, ?_, ?_, ?_, ?_⟩
    · rw [h1]
    · rw [h1]
    · rw [h1]
    · rw [h1]
      simp only [List.nil_append, List.map_append, List.flatMap_cons, hfs, h3]
    · rw [h1]
      simp only [List.nil_append, List.map_append, List.flatMap_cons, hms, h4]


theorem classLoopIl2Cpp_healthy (host : Host) (api : Api) (image : Nat)
    (hexp : exportsWalk host Mode.Il2Cpp) (hh : Healthy api) :
    ∀ (indices : List Nat) (a : Assembly) (s : State), s.mode_ = Mode.Il2Cpp →
      ∃ added, (ForeachClass.loopIl2Cpp host api image indices a s).1 =
          { a with classes := a.classes ++ added } ∧
        (ForeachClass.loopIl2Cpp host api image indices a s).2.2 = none ∧
        added.map (fun c => c.address) =
          (indices.map (fun i => api.image_get_class image i)).filter (fun p => decide (p ≠ 0)) ∧
        ∀ c ∈ added, Merged api c := by
  intro indices
  induction indices with
  | nil =>
    intro a s _
    exact ⟨[], by simp [ForeachClass.loopIl2Cpp], rfl, rfl, fun _ h => nomatch h⟩
  | cons i rest ih =>
    intro a s hmode
    have hans : (InvokeAs 0 host s "il2cpp_image_get_class" [image, i]
        (some (api.image_get_class image i))).1 = api.image_get_class image i :=
      InvokeAs_walk _ host Mode.Il2Cpp _ _ _ _ hexp (by simp [walkNames])
    have hmode1 : (InvokeAs 0 host s "il2cpp_image_get_class" [image, i]
        (some (api.image_get_class image i))).2.mode_ = Mode.Il2Cpp := by
      rw [InvokeAs_mode]; exact hmode
    unfold ForeachClass.loopIl2Cpp
    simp only [hans]
    by_cases hp : api.image_get_class image i = 0
    · rw [if_pos hp]
      obtain ⟨added, h1, h2, h3, h4⟩ := ih a _ hmode1
      refine ⟨added, h1, h2, ?_, h4⟩
      rw [h3]
      simp [hp]
    · rw [if_neg hp]
      obtain ⟨c, hc, hfault, haddr, _, _, hfs, hms⟩ := newClassIl2Cpp_healthy host api
        (InvokeAs 0 host s "il2cpp_image_get_class" [image, i] (some (api.image_get_class image i))).2
        (api.image_get_class image i) hexp hh hmode1
      have hk := newClassIl2Cpp_keeps host api
        (InvokeAs 0 host s "il2cpp_image_get_class" [image, i] (some (api.image_get_class image i))).2
        (api.image_get_class image i) (Keeps.keeps_refl _)
      rcases hnew : ForeachClass.newClassIl2Cpp host api
        (InvokeAs 0 host s "il2cpp_image_get_class" [image, i] (some (api.image_get_class image i))).2
        (api.image_get_class image i) with ⟨o, s1, e⟩
      rw [hnew] at hc hfault hk
      simp only at hc hfault hk
      subst hc hfault
      simp only
      obtain ⟨added, h1, h2, h3, h4⟩ := ih { a with classes := a.classes ++ [c] } s1
        (by rw [hk.mode_]; exact hmode1)
      refine ⟨c :: added, ?_, h2, ?_, ?_⟩
      · rw [h1]
        simp
      · simp only [List.map_cons, h3, haddr]
        rw [List.filter_cons_of_pos (by simpa using hp)]
      · intro x hx
        rcases List.mem_cons.1 hx with hx | hx
        · subst hx
          refine ⟨?_, ?_⟩
          · rw [hfs, haddr, List.flatMap_cons]
          · rw [hms, haddr, List.flatMap_cons]
        · exact h4 x hx

theorem classLoopMono_healthy (host : Host) (api : Api) (image : Nat)
    (hexp : exportsWalk host Mode.Mono) (hh : Healthy api) :
    ∀ (indices : List Nat) (a : Assembly) (s : State), s.mode_ = Mode.Mono →
      ∃ added, (ForeachClass.loopMono host api image indices a s).1 =
          { a with classes := a.classes ++ added } ∧
        (ForeachClass.loopMono host api image indices a s).2.2 = none ∧
        added.map (fun c => c.address) =
          (indices.map (fun i => api.class_get image (0x02000000 ||| (i + 1)))).filter (fun p => decide (p ≠ 0)) ∧
        ∀ c ∈ added, Merged api c := by
  intro indices
  induction indices with
  | nil =>
    intro a s _
    exact ⟨[], by simp [ForeachClass.loopMono], rfl, rfl, fun _ h => nomatch h⟩
  | cons i rest ih =>
    intro a s hmode
    have hans : (InvokeAs 0 host s "mono_class_get" [image, 0x02000000 ||| (i + 1)]
        (some (api.class_get image (0x02000000 ||| (i + 1))))).1 = api.class_get image (0x02000000 ||| (i + 1)) :=
      InvokeAs_walk _ host Mode.Mono _ _ _ _ hexp (by simp [walkNames])
    have hmode1 : (InvokeAs 0 host s "mono_class_get" [image, 0x02000000 ||| (i + 1)]
        (some (api.class_get image (0x02000000 ||| (i + 1))))).2.mode_ = Mode.Mono := by
      rw [InvokeAs_mode]; exact hmode
    unfold ForeachClass.loopMono
    simp only [hans]
    by_cases hp : api.class_get image (0x02000000 ||| (i + 1)) = 0
    · rw [if_pos hp]
      obtain ⟨added, h1, h2, h3, h4⟩ := ih a _ hmode1
      refine ⟨added, h1, h2, ?_, h4⟩
      rw [h3]
      simp [hp]
    · rw [if_neg hp]
      obtain ⟨c, hc, hfault, haddr, _, _, hfs, hms⟩ := newClassMono_healthy host api
        (InvokeAs 0 host s "mono_class_get" [image, 0x02000000 ||| (i + 1)] (some (api.class_get image (0x02000000 ||| (i + 1))))).2
        (api.class_get image (0x02000000 ||| (i + 1))) hexp hh hmode1
      have hk := newClassMono_keeps host api
        (InvokeAs 0 host s "mono_class_get" [image, 0x02000000 ||| (i + 1)] (some (api.class_get image (0x02000000 ||| (i + 1))))).2
        (api.class_get image (0x02000000 ||| (i + 1))) (Keeps.keeps_refl _)
      rcases hnew : ForeachClass.newClassMono host api
        (InvokeAs 0 host s "mono_class_get" [image, 0x02000000 ||| (i + 1)] (some (api.class_get image (0x02000000 ||| (i + 1))))).2
        (api.class_get image (0x02000000 ||| (i + 1))) with ⟨o, s1, e⟩
      rw [hnew] at hc hfault hk
      simp only at hc hfault hk
      subst hc hfault
      simp only
      obtain ⟨added, h1, h2, h3, h4⟩ := ih { a with classes := a.classes ++ [c] } s1
        (by rw [hk.mode_]; exact hmode1)
      refine ⟨c :: added, ?_, h2, ?_, ?_⟩
      · rw [h1]
        simp
      · simp only [List.map_cons, h3, haddr]
        rw [List.filter_cons_of_pos (by simpa using hp)]
      · intro x hx
        rcases List.mem_cons.1 hx with hx | hx
        · subst hx
          refine ⟨?_, ?_⟩
          · rw [hfs, haddr, List.flatMap_cons]
          · rw [hms, haddr, List.flatMap_cons]
        · exact h4 x hx


/-- At a healthy host that exports the walk of the current mode, `ForeachClass`
appends to the assembly the non-null classes of the image in the order of the
enumeration, each with its members merged, and raises no fault. -/
theorem ForeachClass_healthy (host : Host) (api : Api) (s : State) (a : Assembly) (image : Nat)
    (hexp : exportsWalk host s.mode_) (hh : Healthy api) :
    ∃ added, (ForeachClass host api s a image).1 = { a with classes := a.classes ++ added } ∧
      (ForeachClass host api s a image).2.2 = none ∧
      added.map (fun c => c.address) = classHandles api s.mode_ image ∧
      ∀ c ∈ added, Merged api c := by
  unfold ForeachClass
  cases hm : s.mode_ with
  | Il2Cpp =>
    rw [hm] at hexp
    simp only [if_true, InvokeAs_walk _ host Mode.Il2Cpp _ _ _ _ hexp, walkNames, List.mem_cons,
      List.mem_singleton, String.reduceEq, or_true, true_or, or_false, false_or]
    exact classLoopIl2Cpp_healthy host api image hexp hh _ a _
      (by rw [InvokeAs_mode]; exact hm)
  | Mono =>
    rw [hm] at hexp
    simp only [reduceCtorEq, if_false, InvokeAs_walk _ host Mode.Mono _ _ _ _ hexp, walkNames,
      List.mem_cons, List.mem_singleton, String.reduceEq, or_true, true_or, or_false, false_or]
    obtain ⟨added, h1, h2, h3, h4⟩ := classLoopMono_healthy host api image hexp hh
      (List.range (api.table_info_get_rows (api.image_get_table_info image 2)).toNat) a
      (InvokeAs (0 : Int) host
        (InvokeAs 0 host s "mono_image_get_table_info" [image, 2]
          (some (api.image_get_table_info image 2))).2
        "mono_table_info_get_rows" [api.image_get_table_info image 2]
        (some (api.table_info_get_rows (api.image_get_table_info image 2)))).2
      (by simp only [InvokeAs_mode]; exact hm)
    exact ⟨added, h1, by rw [h2]; rfl, h3, h4⟩


/-- One assembly at a healthy host that exports the walk (Il2Cpp branch): it is
appended to the catalog with what the host reports for it, and no fault is
raised. -/
theorem newAssemblyIl2Cpp_healthy (host : Host) (api : Api) (s : State) (ptr : Nat)
    (hexp : exportsWalk host Mode.Il2Cpp) (hh : Healthy api) (hmode : s.mode_ = Mode.Il2Cpp) :
    ∃ a, (ForeachAssembly.newAssemblyIl2Cpp host api s ptr).1.assembly = s.assembly ++ [a] ∧
      (ForeachAssembly.newAssemblyIl2Cpp host api s ptr).2 = none ∧
      (ForeachAssembly.newAssemblyIl2Cpp host api s ptr).1.mode_ = Mode.Il2Cpp ∧
      a.address = ptr ∧ Cataloged api Mode.Il2Cpp a := by
  obtain ⟨fn, hfn⟩ := Option.ne_none_iff_exists'.1
    (hh.image_file (api.assembly_get_image ptr))
  obtain ⟨n, hn⟩ := Option.ne_none_iff_exists'.1 (hh.image_name (api.assembly_get_image ptr))
  unfold ForeachAssembly.newAssemblyIl2Cpp
  simp only [InvokeAs_walk _ host Mode.Il2Cpp _ _ _ _ hexp, walkNames, List.mem_cons,
    List.mem_singleton, String.reduceEq, or_true, true_or, or_false, false_or, hfn, hn]
  generalize hS : (InvokeAs none host _ "il2cpp_image_get_name" _ _).2 = S
  have hSk : Keeps s S := by
    rw [← hS]
    exact InvokeAs_keeps _ _ _ _ _ _
      (InvokeAs_keeps _ _ _ _ _ _ (InvokeAs_keeps _ _ _ _ _ _ (Keeps.keeps_refl s)))
  have hSm : S.mode_ = Mode.Il2Cpp := by rw [hSk.mode_]; exact hmode
  obtain ⟨added, h1, h2, h3, h4⟩ := ForeachClass_healthy host api S
    { address := ptr, name := n, file := fn } (api.assembly_get_image ptr)
    (by rw [hSm]; exact hexp) hh
  have hk := ForeachClass_keeps host api S
    { address := ptr, name := n, file := fn } (api.assembly_get_image ptr) hSk
  rcases hFC : ForeachClass host api S
    { address := ptr, name := n, file := fn } (api.assembly_get_image ptr)
    with ⟨a1, s1, e⟩
  rw [hFC] at h1 h2 hk
  simp only at h1 h2 hk
  subst h1 h2
  simp only
  refine ⟨_, by rw [hk.assembly], trivial, by rw [hk.mode_]; exact hmode, rfl, ?_, ?_, ?_⟩
  · simp only [hn, Option.map_some', assemblyName]
  · simp only [List.nil_append, h3, hSm]
  · intro c hc
    simp only [List.nil_append] at hc
    exact h4 c hc

/-- One assembly at a healthy host that exports the walk (Mono branch): it is
appended to the catalog with what the host reports for it, and no fault is
raised. -/
theorem newAssemblyMono_healthy (host : Host) (api : Api) (s : State) (ptr : Nat)
    (hexp : exportsWalk host Mode.Mono) (hh : Healthy api) (hmode : s.mode_ = Mode.Mono) :
    ∃ a, (ForeachAssembly.newAssemblyMono host api s ptr).1.assembly = s.assembly ++ [a] ∧
      (ForeachAssembly.newAssemblyMono host api s ptr).2 = none ∧
      (ForeachAssembly.newAssemblyMono host api s ptr).1.mode_ = Mode.Mono ∧
      a.address = ptr ∧ Cataloged api Mode.Mono a := by
  obtain ⟨fn, hfn⟩ := Option.ne_none_iff_exists'.1
    (hh.image_file (api.assembly_get_image ptr))
  obtain ⟨n, hn⟩ := Option.ne_none_iff_exists'.1 (hh.image_name (api.assembly_get_image ptr))
  unfold ForeachAssembly.newAssemblyMono
  simp only [InvokeAs_walk _ host Mode.Mono _ _ _ _ hexp, walkNames, List.mem_cons,
    List.mem_singleton, String.reduceEq, or_true, true_or, or_false, false_or, hfn, hn]
  generalize hS : (InvokeAs none host _ "mono_image_get_name" _ _).2 = S
  have hSk : Keeps s S := by
    rw [← hS]
    exact InvokeAs_keeps _ _ _ _ _ _
      (InvokeAs_keeps _ _ _ _ _ _ (InvokeAs_keeps _ _ _ _ _ _ (Keeps.keeps_refl s)))
  have hSm : S.mode_ = Mode.Mono := by rw [hSk.mode_]; exact hmode
  obtain ⟨added, h1, h2, h3, h4⟩ := ForeachClass_healthy host api S
    { address := ptr, name := n ++ ".dll", file := fn } (api.assembly_get_image ptr)
    (by rw [hSm]; exact hexp) hh
  have hk := ForeachClass_keeps host api S
    { address := ptr, name := n ++ ".dll", file := fn } (api.assembly_get_image ptr) hSk
  rcases hFC : ForeachClass host api S
    { address := ptr, name := n ++ ".dll", file := fn } (api.assembly_get_image ptr)
    with ⟨a1, s1, e⟩
  rw [hFC] at h1 h2 hk
  simp only at h1 h2 hk
  subst h1 h2
  simp only
  refine ⟨_, by rw [hk.assembly], trivial, by rw [hk.mode_]; exact hmode, rfl, ?_, ?_, ?_⟩
  · simp only [hn, Option.map_some', assemblyName]
  · simp only [List.nil_append, h3, hSm]
  · intro c hc
    simp only [List.nil_append] at hc
    exact h4 c hc

theorem assemblyLoopIl2Cpp_healthy (host : Host) (api : Api)
    (hexp : exportsWalk host Mode.Il2Cpp) (hh : Healthy api) :
    ∀ (ptrs : List Nat) (s : State), s.mode_ = Mode.Il2Cpp →
      ∃ added, (ForeachAssembly.loopIl2Cpp host api ptrs s).1.assembly = s.assembly ++ added ∧
        (ForeachAssembly.loopIl2Cpp host api ptrs s).2 = none ∧
        added.map (fun a => a.address) = ptrs.filter (fun p => decide (p ≠ 0)) ∧
        ∀ a ∈ added, Cataloged api Mode.Il2Cpp a := by
  intro ptrs
  induction ptrs with
  | nil =>
    intro s _
    exact ⟨[], by simp [ForeachAssembly.loopIl2Cpp], rfl, rfl, fun _ h => nomatch h⟩
  | cons ptr rest ih =>
    intro s hmode
    unfold ForeachAssembly.loopIl2Cpp
    by_cases hp : ptr = 0
    · rw [if_pos hp]
      obtain ⟨added, h1, h2, h3, h4⟩ := ih s hmode
      refine ⟨added, h1, h2, ?_, h4⟩
      rw [h3]
      simp [hp]
    · rw [if_neg hp]
      obtain ⟨a, ha, hfault, hm, haddr, hcat⟩ :=
        newAssemblyIl2Cpp_healthy host api s ptr hexp hh hmode
      rcases hnew : ForeachAssembly.newAssemblyIl2Cpp host api s ptr with ⟨s1, e⟩
      rw [hnew] at ha hfault hm
      simp only at ha hfault hm
      subst hfault
      simp only
      obtain ⟨added, h1, h2, h3, h4⟩ := ih s1 hm
      refine ⟨a :: added, ?_, h2, ?_, ?_⟩
      · rw [h1, ha]
        simp
      · simp only [List.map_cons, h3, haddr]
        rw [List.filter_cons_of_pos (by simpa using hp)]
      · intro x hx
        rcases List.mem_cons.1 hx with hx | hx
        · subst hx
          exact hcat
        · exact h4 x hx

theorem callbackMono_healthy (host : Host) (api : Api)
    (hexp : exportsWalk host Mode.Mono) (hh : Healthy api) :
    ∀ (ptrs : List Nat) (s : State), s.mode_ = Mode.Mono →
      ∃ added, (ForeachAssembly.callbackMono host api ptrs s).1.assembly = s.assembly ++ added ∧
        (ForeachAssembly.callbackMono host api ptrs s).2 = none ∧
        added.map (fun a => a.address) = ptrs.filter (fun p => decide (p ≠ 0)) ∧
        ∀ a ∈ added, Cataloged api Mode.Mono a := by
  intro ptrs
  induction ptrs with
  | nil =>
    intro s _
    exact ⟨[], by simp [ForeachAssembly.callbackMono], rfl, rfl, fun _ h => nomatch h⟩
  | cons ptr rest ih =>
    intro s hmode
    unfold ForeachAssembly.callbackMono
    by_cases hp : ptr = 0
    · rw [if_pos hp]
      obtain ⟨added, h1, h2, h3, h4⟩ := ih s hmode
      refine ⟨added, h1, h2, ?_, h4⟩
      rw [h3]
      simp [hp]
    · rw [if_neg hp]
      obtain ⟨a, ha, hfault, hm, haddr, hcat⟩ :=
        newAssemblyMono_healthy host api s ptr hexp hh hmode
      rcases hnew : ForeachAssembly.newAssemblyMono host api s ptr with ⟨s1, e⟩
      rw [hnew] at ha hfault hm
      simp only at ha hfault hm
      subst hfault
      simp only
      obtain ⟨added, h1, h2, h3, h4⟩ := ih s1 hm
      refine ⟨a :: added, ?_, h2, ?_, ?_⟩
      · rw [h1, ha]
        simp
      · simp only [List.map_cons, h3, haddr]
        rw [List.filter_cons_of_pos (by simpa using hp)]
      · intro x hx
        rcases List.mem_cons.1 hx with hx | hx
        · subst hx
          exact hcat
        · exact h4 x hx

/-- At a healthy host that exports the walk of the current mode,
`ForeachAssembly` appends to the catalog the non-null assemblies of the host in
their order, each holding what the host reports for it, and raises no fault. -/
theorem ForeachAssembly_healthy (host : Host) (api : Api) (s : State)
    (hexp : exportsWalk host s.mode_) (hh : Healthy api) :
    ∃ added, (ForeachAssembly host api s).1.assembly = s.assembly ++ added ∧
      (ForeachAssembly host api s).2 = none ∧
      added.map (fun a => a.address) = api.assemblies.filter (fun p => decide (p ≠ 0)) ∧
      ∀ a ∈ added, Cataloged api s.mode_ a := by
  unfold ForeachAssembly
  cases hm : s.mode_ with
  | Il2Cpp =>
    rw [hm] at hexp
    simp only [if_true, InvokeAs_walk _ host Mode.Il2Cpp _ _ _ _ hexp, walkNames, List.mem_cons,
      List.mem_singleton, String.reduceEq, or_true, true_or, or_false, false_or]
    obtain ⟨added, h1, h2, h3, h4⟩ := assemblyLoopIl2Cpp_healthy host api hexp hh api.assemblies
      (InvokeAs [] host s "il2cpp_domain_get_assemblies" [s.pDomain] (some api.assemblies)).2
      (by rw [InvokeAs_mode]; exact hm)
    rw [InvokeAs_assembly] at h1
    exact ⟨added, h1, h2, h3, h4⟩
  | Mono =>
    rw [hm] at hexp
    simp only [reduceCtorEq, if_false, InvokeAs_walk _ host Mode.Mono _ _ _ _ hexp, walkNames,
      List.mem_cons, List.mem_singleton, String.reduceEq, or_true, true_or, or_false, false_or,
      if_true]
    obtain ⟨added, h1, h2, h3, h4⟩ := callbackMono_healthy host api hexp hh api.assemblies
      (InvokeAs false host s "mono_assembly_foreach" [] (some true)).2
      (by rw [InvokeAs_mode]; exact hm)
    rw [InvokeAs_assembly] at h1
    exact ⟨added, h1, by rw [h2]; rfl, h3, h4⟩

/-- At a healthy host that exports the walk of the requested mode, `Init`
appends to the catalog the non-null assemblies of the host in their order, each
holding what the host reports for it, and raises no fault. -/
theorem Init_healthy (host : Host) (api : Api) (s : State) (hmodule : Nat) (mode : Mode)
    (hexp : exportsWalk host mode) (hh : Healthy api) :
    ∃ added, (Init host api s hmodule mode).1.assembly = s.assembly ++ added ∧
      (Init host api s hmodule mode).2 = none ∧
      added.map (fun a => a.address) = api.assemblies.filter (fun p => decide (p ≠ 0)) ∧
      ∀ a ∈ added, Cataloged api mode a := by
  unfold Init
  cases mode with
  | Il2Cpp =>
    simp only [if_true]
    generalize hS : (InvokeAs 0 host _ "il2cpp_thread_attach" _ _).2 = S
    have hSm : S.mode_ = Mode.Il2Cpp := by rw [← hS]; simp only [InvokeAs_mode]
    have hSa : S.assembly = s.assembly := by rw [← hS]; simp only [InvokeAs_assembly]
    obtain ⟨added, h1, h2, h3, h4⟩ := ForeachAssembly_healthy host api S
      (by rw [hSm]; exact hexp) hh
    rw [hSa] at h1
    rw [hSm] at h4
    exact ⟨added, h1, h2, h3, h4⟩
  | Mono =>
    simp only [reduceCtorEq, if_false]
    generalize hS : (InvokeAs 0 host _ "mono_jit_thread_attach" _ _).2 = S
    have hSm : S.mode_ = Mode.Mono := by rw [← hS]; simp only [InvokeAs_mode]
    have hSa : S.assembly = s.assembly := by rw [← hS]; simp only [InvokeAs_assembly]
    obtain ⟨added, h1, h2, h3, h4⟩ := ForeachAssembly_healthy host api S
      (by rw [hSm]; exact hexp) hh
    rw [hSa] at h1
    rw [hSm] at h4
    exact ⟨added, h1, h2, h3, h4⟩

/-! ## Provenance of the catalog -/

theorem Class.fields_append_nil (c : Class) : { c with fields := c.fields ++ [] } = c := by
  cases c; simp

theorem Class.methods_append_nil (c : Class) : { c with methods := c.methods ++ [] } = c := by
  cases c; simp

theorem Assembly.classes_append_nil (a : Assembly) :
    { a with classes := a.classes ++ [] } = a := by
  cases a; simp

/-- The Il2Cpp loop of `ForeachFields` only appends fields it made. -/
theorem fieldLoopIl2Cpp_made (host : Host) (api : Api) (klass pKlass : Nat) :
    ∀ (answers : List Nat) (c : Class) (s : State),
      ∃ added, (ForeachFields.loopIl2Cpp host api klass pKlass answers c s).1 =
          { c with fields := c.fields ++ added } ∧
        ∀ f ∈ added, FieldMade host api klass f := by
  intro answers
  induction answers with
  | nil =>
    intro c s
    exact ⟨[], (Class.fields_append_nil c).symm, fun _ h => nomatch h⟩
  | cons answer rest ih =>
    intro c s
    unfold ForeachFields.loopIl2Cpp
    simp only
    split
    · exact ⟨[], (Class.fields_append_nil c).symm, fun _ h => nomatch h⟩
    · split
      · exact ih c _
      · exact ⟨[], (Class.fields_append_nil c).symm, fun _ h => nomatch h⟩
      · next pField s1 heq =>
        obtain ⟨added, h1, h2⟩ := ih { c with fields := c.fields ++ [pField] } s1
        refine ⟨pField :: added, ?_, ?_⟩
        · rw [h1]
          simp
        · intro m hm
          rcases List.mem_cons.1 hm with hm | hm
          · subst hm
            exact ⟨_, _, Or.inl (by rw [heq])⟩
          · exact h2 m hm
      · next pField s1 e heq =>
        refine ⟨[pField], rfl, ?_⟩
        intro m hm
        rw [List.mem_singleton] at hm
        subst hm
        exact ⟨_, _, Or.inl (by rw [heq])⟩

/-- The Mono loop of `ForeachFields` only appends fields it made. -/
theorem fieldLoopMono_made (host : Host) (api : Api) (klass pKlass : Nat) :
    ∀ (answers : List Nat) (c : Class) (s : State),
      ∃ added, (ForeachFields.loopMono host api klass pKlass answers c s).1 =
          { c with fields := c.fields ++ added } ∧
        ∀ f ∈ added, FieldMade host api klass f := by
  intro answers
  induction answers with
  | nil =>
    intro c s
    exact ⟨[], (Class.fields_append_nil c).symm, fun _ h => nomatch h⟩
  | cons answer rest ih =>
    intro c s
    unfold ForeachFields.loopMono
    simp only
    split
    · exact ⟨[], (Class.fields_append_nil c).symm, fun _ h => nomatch h⟩
    · split
      · exact ih c _
      · exact ⟨[], (Class.fields_append_nil c).symm, fun _ h => nomatch h⟩
      · next pField s1 heq =>
        obtain ⟨added, h1, h2⟩ := ih { c with fields := c.fields ++ [pField] } s1
        refine ⟨pField :: added, ?_, ?_⟩
        · rw [h1]
          simp
        · intro m hm
          rcases List.mem_cons.1 hm with hm | hm
          · subst hm
            exact ⟨_, _, Or.inr (by rw [heq])⟩
          · exact h2 m hm
      · next pField s1 e heq =>
        refine ⟨[pField], rfl, ?_⟩
        intro m hm
        rw [List.mem_singleton] at hm
        subst hm
        exact ⟨_, _, Or.inr (by rw [heq])⟩

theorem ForeachFields_made (host : Host) (api : Api) (s : State) (klass : Nat) (c : Class)
    (pKlass : Nat) :
    ∃ added, (ForeachFields host api s klass c pKlass).1 =
        { c with fields := c.fields ++ added } ∧
      ∀ f ∈ added, FieldMade host api klass f := by
  unfold ForeachFields
  split
  · exact fieldLoopIl2Cpp_made host api klass pKlass _ c s
  · exact fieldLoopMono_made host api klass pKlass _ c s

/-- The Il2Cpp loop of `ForeachMethod` only appends methods it made. -/
theorem methodLoopIl2Cpp_made (host : Host) (api : Api) (klass pKlass : Nat) :
    ∀ (answers : List Nat) (c : Class) (s : State),
      ∃ added, (ForeachMethod.loopIl2Cpp host api klass pKlass answers c s).1 =
          { c with methods := c.methods ++ added } ∧
        ∀ m ∈ added, MethodMade host api klass m := by
  intro answers
  induction answers with
  | nil =>
    intro c s
    exact ⟨[], (Class.methods_append_nil c).symm, fun _ h => nomatch h⟩
  | cons answer rest ih =>
    intro c s
    unfold ForeachMethod.loopIl2Cpp
    simp only
    split
    · exact ⟨[], (Class.methods_append_nil c).symm, fun _ h => nomatch h⟩
    · split
      · exact ih c _
      · exact ⟨[], (Class.methods_append_nil c).symm, fun _ h => nomatch h⟩
      · next pMethod s1 heq =>
        obtain ⟨added, h1, h2⟩ := ih { c with methods := c.methods ++ [pMethod] } s1
        refine ⟨pMethod :: added, ?_, ?_⟩
        · rw [h1]
          simp
        · intro m hm
          rcases List.mem_cons.1 hm with hm | hm
          · subst hm
            exact ⟨_, _, Or.inl (by rw [heq])⟩
          · exact h2 m hm
      · next pMethod s1 e heq =>
        refine ⟨[pMethod], rfl, ?_⟩
        intro m hm
        rw [List.mem_singleton] at hm
        subst hm
        exact ⟨_, _, Or.inl (by rw [heq])⟩

/-- The Mono loop of `ForeachMethod` only appends methods it made. -/
theorem methodLoopMono_made (host : Host) (api : Api) (klass pKlass : Nat) :
    ∀ (answers : List Nat) (c : Class) (s : State),
      ∃ added, (ForeachMethod.loopMono host api klass pKlass answers c s).1 =
          { c with methods := c.methods ++ added } ∧
        ∀ m ∈ added, MethodMade host api klass m := by
  intro answers
  induction answers with
  | nil =>
    intro c s
    exact ⟨[], (Class.methods_append_nil c).symm, fun _ h => nomatch h⟩
  | cons answer rest ih =>
    intro c s
    unfold ForeachMethod.loopMono
    simp only
    split
    · exact ⟨[], (Class.methods_append_nil c).symm, fun _ h => nomatch h⟩
    · split
      · exact ih c _
      · exact ⟨[], (Class.methods_append_nil c).symm, fun _ h => nomatch h⟩
      · next pMethod s1 heq =>
        obtain ⟨added, h1, h2⟩ := ih { c with methods := c.methods ++ [pMethod] } s1
        refine ⟨pMethod :: added, ?_, ?_⟩
        · rw [h1]
          simp
        · intro m hm
          rcases List.mem_cons.1 hm with hm | hm
          · subst hm
            exact ⟨_, _, Or.inr (by rw [heq])⟩
          · exact h2 m hm
      · next pMethod s1 e heq =>
        refine ⟨[pMethod], rfl, ?_⟩
        intro m hm
        rw [List.mem_singleton] at hm
        subst hm
        exact ⟨_, _, Or.inr (by rw [heq])⟩

theorem ForeachMethod_made (host : Host) (api : Api) (s : State) (klass : Nat) (c : Class)
    (pKlass : Nat) :
    ∃ added, (ForeachMethod host api s klass c pKlass).1 =
        { c with methods := c.methods ++ added } ∧
      ∀ m ∈ added, MethodMade host api klass m := by
  unfold ForeachMethod
  split
  · exact methodLoopIl2Cpp_made host api klass pKlass _ c s
  · exact methodLoopMono_made host api klass pKlass _ c s


/-- The interface loop of the Il2Cpp branch only appends members it made for
the class object at `klass`. -/
theorem interfacesIl2Cpp_made (host : Host) (api : Api) (klass pClass : Nat) :
    ∀ (answers : List Nat) (c : Class) (s : State),
      ∃ fs ms, (ForeachClass.interfacesIl2Cpp host api klass pClass answers c s).1 =
          { c with fields := c.fields ++ fs, methods := c.methods ++ ms } ∧
        (∀ f ∈ fs, FieldMade host api klass f) ∧ ∀ m ∈ ms, MethodMade host api klass m := by
  intro answers
  induction answers with
  | nil =>
    intro c s
    exact ⟨[], [], (by rw [interfacesIl2Cpp_nil]; cases c; simp), fun _ h => (nomatch h),
      fun _ h => nomatch h⟩
  | cons answer rest ih =>
    intro c s
    unfold ForeachClass.interfacesIl2Cpp
    simp only
    split
    · exact ⟨[], [], (by cases c; simp), fun _ h => (nomatch h), fun _ h => nomatch h⟩
    · obtain ⟨fs, hf1, hf2⟩ := ForeachFields_made host api
        (InvokeAs 0 host s "il2cpp_class_get_interfaces" [pClass] (some answer)).2 klass c
        (InvokeAs 0 host s "il2cpp_class_get_interfaces" [pClass] (some answer)).1
      split
      · next c1 s1 e heq =>
        rw [heq] at hf1
        simp only at hf1
        exact ⟨fs, [], (by rw [hf1]; simp), hf2, fun _ h => nomatch h⟩
      · next c1 s1 heq =>
        rw [heq] at hf1
        simp only at hf1
        obtain ⟨ms, hm1, hm2⟩ := ForeachMethod_made host api s1 klass c1
          (InvokeAs 0 host s "il2cpp_class_get_interfaces" [pClass] (some answer)).1
        split
        · next c2 s2 e heq2 =>
          rw [heq2] at hm1
          simp only at hm1
          exact ⟨fs, ms, (by rw [hm1, hf1]), hf2, hm2⟩
        · next c2 s2 heq2 =>
          rw [heq2] at hm1
          simp only at hm1
          obtain ⟨fs1, ms1, h1, h2, h3⟩ := ih c2 s2
          refine ⟨fs ++ fs1, ms ++ ms1, ?_, ?_, ?_⟩
          · rw [h1, hm1, hf1]
            simp
          · intro f hf
            rcases List.mem_append.1 hf with hf | hf
            · exact hf2 f hf
            · exact h2 f hf
          · intro m hm
            rcases List.mem_append.1 hm with hm | hm
            · exact hm2 m hm
            · exact h3 m hm

/-- The interface loop of the Mono branch only appends members it made for
the class object at `klass`. -/
theorem interfacesMono_made (host : Host) (api : Api) (klass pClass : Nat) :
    ∀ (answers : List Nat) (c : Class) (s : State),
      ∃ fs ms, (ForeachClass.interfacesMono host api klass pClass answers c s).1 =
          { c with fields := c.fields ++ fs, methods := c.methods ++ ms } ∧
        (∀ f ∈ fs, FieldMade host api klass f) ∧ ∀ m ∈ ms, MethodMade host api klass m := by
  intro answers
  induction answers with
  | nil =>
    intro c s
    exact ⟨[], [], (by rw [interfacesMono_nil]; cases c; simp), fun _ h => (nomatch h),
      fun _ h => nomatch h⟩
  | cons answer rest ih =>
    intro c s
    unfold ForeachClass.interfacesMono
    simp only
    split
    · exact ⟨[], [], (by cases c; simp), fun _ h => (nomatch h), fun _ h => nomatch h⟩
    · obtain ⟨fs, hf1, hf2⟩ := ForeachFields_made host api
        (InvokeAs 0 host s "mono_class_get_interfaces" [pClass] (some answer)).2 klass c
        (InvokeAs 0 host s "mono_class_get_interfaces" [pClass] (some answer)).1
      split
      · next c1 s1 e heq =>
        rw [heq] at hf1
        simp only at hf1
        exact ⟨fs, [], (by rw [hf1]; simp), hf2, fun _ h => nomatch h⟩
      · next c1 s1 heq =>
        rw [heq] at hf1
        simp only at hf1
        obtain ⟨ms, hm1, hm2⟩ := ForeachMethod_made host api s1 klass c1
          (InvokeAs 0 host s "mono_class_get_interfaces" [pClass] (some answer)).1
        split
        · next c2 s2 e heq2 =>
          rw [heq2] at hm1
          simp only at hm1
          exact ⟨fs, ms, (by rw [hm1, hf1]), hf2, hm2⟩
        · next c2 s2 heq2 =>
          rw [heq2] at hm1
          simp only at hm1
          obtain ⟨fs1, ms1, h1, h2, h3⟩ := ih c2 s2
          refine ⟨fs ++ fs1, ms ++ ms1, ?_, ?_, ?_⟩
          · rw [h1, hm1, hf1]
            simp
          · intro f hf
            rcases List.mem_append.1 hf with hf | hf
            · exact hf2 f hf
            · exact h2 f hf
          · intro m hm
            rcases List.mem_append.1 hm with hm | hm
            · exact hm2 m hm
            · exact h3 m hm

/-- A class the Il2Cpp branch makes has the address of its catalog object in
`self`, and all its members were made for that object. -/
theorem newClassIl2Cpp_made (host : Host) (api : Api) (s : State) (pClass : Nat) (c : Class)
    (h : (ForeachClass.newClassIl2Cpp host api s pClass).1 = some c) :
    c.self = s.allocated + 1 ∧ c.address = pClass ∧ ClassMade host api c := by
  have key : ∀ (S : State) (c0 : Class), c0.fields = [] → c0.methods = [] →
      c0.self = s.allocated + 1 → c0.address = pClass →
      (∀ c1 s1 e, ForeachFields host api S (s.allocated + 1) c0 pClass = (c1, s1, e) →
        c1.self = s.allocated + 1 ∧ c1.address = pClass ∧ ClassMade host api c1) ∧
      (∀ c1 s1 e c2 s2 e2, ForeachFields host api S (s.allocated + 1) c0 pClass = (c1, s1, e) →
        ForeachMethod host api s1 (s.allocated + 1) c1 pClass = (c2, s2, e2) →
        (c2.self = s.allocated + 1 ∧ c2.address = pClass ∧ ClassMade host api c2) ∧
        ∀ answers, (ForeachClass.interfacesIl2Cpp host api (s.allocated + 1) pClass answers
            c2 s2).1.self = s.allocated + 1 ∧
          (ForeachClass.interfacesIl2Cpp host api (s.allocated + 1) pClass answers
            c2 s2).1.address = pClass ∧
          ClassMade host api (ForeachClass.interfacesIl2Cpp host api (s.allocated + 1) pClass
            answers c2 s2).1) := by
    intro S c0 hf0 hm0 hself haddr
    obtain ⟨fs, hf1, hf2⟩ := ForeachFields_made host api S (s.allocated + 1) c0 pClass
    have first : ∀ c1 s1 e, ForeachFields host api S (s.allocated + 1) c0 pClass = (c1, s1, e) →
        c1 = { c0 with fields := fs } := by
      intro c1 s1 e heq
      rw [heq] at hf1
      simp only at hf1
      rw [hf1, hf0, List.nil_append]
    refine ⟨?_, ?_⟩
    · intro c1 s1 e heq
      rw [first c1 s1 e heq]
      refine ⟨hself, haddr, ?_, ?_⟩
      · intro f hf
        exact hself ▸ hf2 f hf
      · intro m hm
        simp only [hm0] at hm
        cases hm
    · intro c1 s1 e c2 s2 e2 heq heq2
      obtain ⟨ms, hm1, hm2⟩ := ForeachMethod_made host api s1 (s.allocated + 1) c1 pClass
      rw [heq2] at hm1
      simp only at hm1
      have hc1 := first c1 s1 e heq
      subst hc1
      simp only [hm0, List.nil_append] at hm1
      subst hm1
      have hmade2 : ClassMade host api { c0 with fields := fs, methods := ms } :=
        ⟨fun f hf => hself ▸ hf2 f hf, fun m hm => hself ▸ hm2 m hm⟩
      refine ⟨⟨hself, haddr, hmade2⟩, ?_⟩
      intro answers
      obtain ⟨fs1, ms1, h1, h2, h3⟩ := interfacesIl2Cpp_made host api (s.allocated + 1) pClass
        answers { c0 with fields := fs, methods := ms } s2
      rw [h1]
      refine ⟨hself, haddr, ?_, ?_⟩
      · intro f hf
        simp only [List.mem_append] at hf
        rcases hf with hf | hf
        · exact hself ▸ hf2 f hf
        · exact hself ▸ h2 f hf
      · intro m hm
        simp only [List.mem_append] at hm
        rcases hm with hm | hm
        · exact hself ▸ hm2 m hm
        · exact hself ▸ h3 m hm
  unfold ForeachClass.newClassIl2Cpp at h
  simp only at h
  split at h
  · cases h
  · split at h
    · cases h
    · split at h
      · cases h
      · next className _ parentName _ _ namespaceName _ =>
        split at h
        · next c1 s1 e heq =>
          simp only [Option.some.injEq] at h
          subst h
          exact (key _ _ rfl rfl rfl rfl).1 c1 s1 _ heq
        · next c1 s1 heq =>
          split at h
          · next c2 s2 e heq2 =>
            simp only [Option.some.injEq] at h
            subst h
            exact ((key _ _ rfl rfl rfl rfl).2 c1 s1 _ c2 s2 _ heq heq2).1
          · next c2 s2 heq2 =>
            simp only [Option.some.injEq] at h
            subst h
            exact ((key _ _ rfl rfl rfl rfl).2 c1 s1 _ c2 s2 _ heq heq2).2 _

/-- A class the Mono branch makes has the address of its catalog object in
`self`, and all its members were made for that object. -/
theorem newClassMono_made (host : Host) (api : Api) (s : State) (pClass : Nat) (c : Class)
    (h : (ForeachClass.newClassMono host api s pClass).1 = some c) :
    c.self = s.allocated + 1 ∧ c.address = pClass ∧ ClassMade host api c := by
  have key : ∀ (S : State) (c0 : Class), c0.fields = [] → c0.methods = [] →
      c0.self = s.allocated + 1 → c0.address = pClass →
      (∀ c1 s1 e, ForeachFields host api S (s.allocated + 1) c0 pClass = (c1, s1, e) →
        c1.self = s.allocated + 1 ∧ c1.address = pClass ∧ ClassMade host api c1) ∧
      (∀ c1 s1 e c2 s2 e2, ForeachFields host api S (s.allocated + 1) c0 pClass = (c1, s1, e) →
        ForeachMethod host api s1 (s.allocated + 1) c1 pClass = (c2, s2, e2) →
        (c2.self = s.allocated + 1 ∧ c2.address = pClass ∧ ClassMade host api c2) ∧
        ∀ answers, (ForeachClass.interfacesMono host api (s.allocated + 1) pClass answers
            c2 s2).1.self = s.allocated + 1 ∧
          (ForeachClass.interfacesMono host api (s.allocated + 1) pClass answers
            c2 s2).1.address = pClass ∧
          ClassMade host api (ForeachClass.interfacesMono host api (s.allocated + 1) pClass
            answers c2 s2).1) := by
    intro S c0 hf0 hm0 hself haddr
    obtain ⟨fs, hf1, hf2⟩ := ForeachFields_made host api S (s.allocated + 1) c0 pClass
    have first : ∀ c1 s1 e, ForeachFields host api S (s.allocated + 1) c0 pClass = (c1, s1, e) →
        c1 = { c0 with fields := fs } := by
      intro c1 s1 e heq
      rw [heq] at hf1
      simp only at hf1
      rw [hf1, hf0, List.nil_append]
    refine ⟨?_, ?_⟩
    · intro c1 s1 e heq
      rw [first c1 s1 e heq]
      refine ⟨hself, haddr, ?_, ?_⟩
      · intro f hf
        exact hself ▸ hf2 f hf
      · intro m hm
        simp only [hm0] at hm
        cases hm
    · intro c1 s1 e c2 s2 e2 heq heq2
      obtain ⟨ms, hm1, hm2⟩ := ForeachMethod_made host api s1 (s.allocated + 1) c1 pClass
      rw [heq2] at hm1
      simp only at hm1
      have hc1 := first c1 s1 e heq
      subst hc1
      simp only [hm0, List.nil_append] at hm1
      subst hm1
      have hmade2 : ClassMade host api { c0 with fields := fs, methods := ms } :=
        ⟨fun f hf => hself ▸ hf2 f hf, fun m hm => hself ▸ hm2 m hm⟩
      refine ⟨⟨hself, haddr, hmade2⟩, ?_⟩
      intro answers
      obtain ⟨fs1, ms1, h1, h2, h3⟩ := interfacesMono_made host api (s.allocated + 1) pClass
        answers { c0 with fields := fs, methods := ms } s2
      rw [h1]
      refine ⟨hself, haddr, ?_, ?_⟩
      · intro f hf
        simp only [List.mem_append] at hf
        rcases hf with hf | hf
        · exact hself ▸ hf2 f hf
        · exact hself ▸ h2 f hf
      · intro m hm
        simp only [List.mem_append] at hm
        rcases hm with hm | hm
        · exact hself ▸ hm2 m hm
        · exact hself ▸ h3 m hm
  unfold ForeachClass.newClassMono at h
  simp only at h
  split at h
  · cases h
  · split at h
    · cases h
    · split at h
      · cases h
      · next className _ parentName _ _ namespaceName _ =>
        split at h
        · next c1 s1 e heq =>
          simp only [Option.some.injEq] at h
          subst h
          exact (key _ _ rfl rfl rfl rfl).1 c1 s1 _ heq
        · next c1 s1 heq =>
          split at h
          · next c2 s2 e heq2 =>
            simp only [Option.some.injEq] at h
            subst h
            exact ((key _ _ rfl rfl rfl rfl).2 c1 s1 _ c2 s2 _ heq heq2).1
          · next c2 s2 heq2 =>
            simp only [Option.some.injEq] at h
            subst h
            exact ((key _ _ rfl rfl rfl rfl).2 c1 s1 _ c2 s2 _ heq heq2).2 _


/-- The class loop of the Il2Cpp branch only appends classes it made. -/
theorem classLoopIl2Cpp_made (host : Host) (api : Api) (image : Nat) :
    ∀ (indices : List Nat) (a : Assembly) (s : State),
      ∃ added, (ForeachClass.loopIl2Cpp host api image indices a s).1 =
          { a with classes := a.classes ++ added } ∧
        ∀ c ∈ added, ClassMade host api c := by
  intro indices
  induction indices with
  | nil =>
    intro a s
    exact ⟨[], (by unfold ForeachClass.loopIl2Cpp; exact (Assembly.classes_append_nil a).symm),
      fun _ h => nomatch h⟩
  | cons i rest ih =>
    intro a s
    unfold ForeachClass.loopIl2Cpp
    simp only
    split
    · exact ih a _
    · split
      · exact ih a _
      · exact ⟨[], (Assembly.classes_append_nil a).symm, fun _ h => nomatch h⟩
      · next pAClass s1 heq =>
        have hmade := (newClassIl2Cpp_made host api _ _ pAClass (by rw [heq])).2.2
        obtain ⟨added, h1, h2⟩ := ih { a with classes := a.classes ++ [pAClass] } s1
        refine ⟨pAClass :: added, ?_, ?_⟩
        · rw [h1]
          simp
        · intro c hc
          rcases List.mem_cons.1 hc with hc | hc
          · subst hc
            exact hmade
          · exact h2 c hc
      · next pAClass s1 e heq =>
        have hmade := (newClassIl2Cpp_made host api _ _ pAClass (by rw [heq])).2.2
        refine ⟨[pAClass], rfl, ?_⟩
        intro c hc
        rw [List.mem_singleton] at hc
        subst hc
        exact hmade

/-- The class loop of the Mono branch only appends classes it made. -/
theorem classLoopMono_made (host : Host) (api : Api) (image : Nat) :
    ∀ (indices : List Nat) (a : Assembly) (s : State),
      ∃ added, (ForeachClass.loopMono host api image indices a s).1 =
          { a with classes := a.classes ++ added } ∧
        ∀ c ∈ added, ClassMade host api c := by
  intro indices
  induction indices with
  | nil =>
    intro a s
    exact ⟨[], (by unfold ForeachClass.loopMono; exact (Assembly.classes_append_nil a).symm),
      fun _ h => nomatch h⟩
  | cons i rest ih =>
    intro a s
    unfold ForeachClass.loopMono
    simp only
    split
    · exact ih a _
    · split
      · exact ih a _
      · exact ⟨[], (Assembly.classes_append_nil a).symm, fun _ h => nomatch h⟩
      · next pAClass s1 heq =>
        have hmade := (newClassMono_made host api _ _ pAClass (by rw [heq])).2.2
        obtain ⟨added, h1, h2⟩ := ih { a with classes := a.classes ++ [pAClass] } s1
        refine ⟨pAClass :: added, ?_, ?_⟩
        · rw [h1]
          simp
        · intro c hc
          rcases List.mem_cons.1 hc with hc | hc
          · subst hc
            exact hmade
          · exact h2 c hc
      · next pAClass s1 e heq =>
        have hmade := (newClassMono_made host api _ _ pAClass (by rw [heq])).2.2
        refine ⟨[pAClass], rfl, ?_⟩
        intro c hc
        rw [List.mem_singleton] at hc
        subst hc
        exact hmade

theorem ForeachClass_made (host : Host) (api : Api) (s : State) (a : Assembly) (image : Nat) :
    ∃ added, (ForeachClass host api s a image).1 = { a with classes := a.classes ++ added } ∧
      ∀ c ∈ added, ClassMade host api c := by
  unfold ForeachClass
  split
  · exact classLoopIl2Cpp_made host api image _ a _
  · exact classLoopMono_made host api image _ a _


/-- A non-null string answer that reaches the caller is the answer of the
host. -/
theorem InvokeAs_option_some {R : Type} (host : Host) (s : State) (funcName : String)
    (args : List Nat) (answer : Option R) (value : R)
    (h : (InvokeAs none host s funcName args (some answer)).1 = some value) :
    answer = some value := by
  rcases InvokeAs_value none host s funcName args answer with hv | hv
  · rw [← hv]; exact h
  · rw [hv] at h; cases h

/-- What one assembly of the Il2Cpp branch adds to the catalog: nothing, or one
assembly made by the walk for the handle `ptr`. -/
theorem newAssemblyIl2Cpp_made (host : Host) (api : Api) (s : State) (ptr : Nat) :
    ∃ added, (ForeachAssembly.newAssemblyIl2Cpp host api s ptr).1.assembly =
        s.assembly ++ added ∧
      (ForeachAssembly.newAssemblyIl2Cpp host api s ptr).1.mode_ = s.mode_ ∧
      ∀ a ∈ added, a.address = ptr ∧ AssemblyMade host api Mode.Il2Cpp a := by
  unfold ForeachAssembly.newAssemblyIl2Cpp
  simp only
  split
  · exact ⟨[], (by simp only [InvokeAs_assembly, List.append_nil]),
      (by simp only [InvokeAs_mode]), fun _ h => nomatch h⟩
  · next fileName hfile =>
    split
    · exact ⟨[], (by simp only [InvokeAs_assembly, List.append_nil]),
        (by simp only [InvokeAs_mode]), fun _ h => nomatch h⟩
    · next imageName hname =>
      have himage : api.image_get_name
          (InvokeAs 0 host s "il2cpp_assembly_get_image" [ptr]
            (some (api.assembly_get_image ptr))).1 = some imageName := by
        exact InvokeAs_option_some host _ _ _ _ _ hname
      generalize hS : (InvokeAs none host _ "il2cpp_image_get_name" _ _).2 = S
      have hSk : Keeps s S := by
        rw [← hS]
        exact InvokeAs_keeps _ _ _ _ _ _
          (InvokeAs_keeps _ _ _ _ _ _ (InvokeAs_keeps _ _ _ _ _ _ (Keeps.keeps_refl s)))
      obtain ⟨classes, h1, h2⟩ := ForeachClass_made host api S
        { address := ptr, name := imageName, file := fileName }
        (InvokeAs 0 host s "il2cpp_assembly_get_image" [ptr]
          (some (api.assembly_get_image ptr))).1
      have hk := ForeachClass_keeps host api S
        { address := ptr, name := imageName, file := fileName }
        (InvokeAs 0 host s "il2cpp_assembly_get_image" [ptr]
          (some (api.assembly_get_image ptr))).1 hSk
      rcases hFC : ForeachClass host api S
        { address := ptr, name := imageName, file := fileName }
        (InvokeAs 0 host s "il2cpp_assembly_get_image" [ptr]
          (some (api.assembly_get_image ptr))).1 with ⟨a1, s1, e⟩
      rw [hFC] at h1 hk
      simp only at h1 hk
      subst h1
      simp only
      refine ⟨[_], (by rw [hk.assembly]), hk.mode_, ?_⟩
      intro a ha
      rw [List.mem_singleton] at ha
      subst ha
      refine ⟨rfl, ?_, _, imageName, himage, rfl, ?_⟩
      · intro c hc
        simp only [List.nil_append] at hc
        exact h2 c hc
      · intro hexp
        exact InvokeAs_exported 0 host s "il2cpp_assembly_get_image" [ptr]
          (api.assembly_get_image ptr) hexp

/-- What one assembly of the Mono branch adds to the catalog: nothing, or one
assembly made by the walk for the handle `ptr`. -/
theorem newAssemblyMono_made (host : Host) (api : Api) (s : State) (ptr : Nat) :
    ∃ added, (ForeachAssembly.newAssemblyMono host api s ptr).1.assembly =
        s.assembly ++ added ∧
      (ForeachAssembly.newAssemblyMono host api s ptr).1.mode_ = s.mode_ ∧
      ∀ a ∈ added, a.address = ptr ∧ AssemblyMade host api Mode.Mono a := by
  unfold ForeachAssembly.newAssemblyMono
  simp only
  split
  · exact ⟨[], (by simp only [InvokeAs_assembly, List.append_nil]),
      (by simp only [InvokeAs_mode]), fun _ h => nomatch h⟩
  · next fileName hfile =>
    split
    · exact ⟨[], (by simp only [InvokeAs_assembly, List.append_nil]),
        (by simp only [InvokeAs_mode]), fun _ h => nomatch h⟩
    · next imageName hname =>
      have himage : api.image_get_name
          (InvokeAs 0 host s "mono_assembly_get_image" [ptr]
            (some (api.assembly_get_image ptr))).1 = some imageName := by
        exact InvokeAs_option_some host _ _ _ _ _ hname
      generalize hS : (InvokeAs none host _ "mono_image_get_name" _ _).2 = S
      have hSk : Keeps s S := by
        rw [← hS]
        exact InvokeAs_keeps _ _ _ _ _ _
          (InvokeAs_keeps _ _ _ _ _ _ (InvokeAs_keeps _ _ _ _ _ _ (Keeps.keeps_refl s)))
      obtain ⟨classes, h1, h2⟩ := ForeachClass_made host api S
        { address := ptr, name := imageName ++ ".dll", file := fileName }
        (InvokeAs 0 host s "mono_assembly_get_image" [ptr]
          (some (api.assembly_get_image ptr))).1
      have hk := ForeachClass_keeps host api S
        { address := ptr, name := imageName ++ ".dll", file := fileName }
        (InvokeAs 0 host s "mono_assembly_get_image" [ptr]
          (some (api.assembly_get_image ptr))).1 hSk
      rcases hFC : ForeachClass host api S
        { address := ptr, name := imageName ++ ".dll", file := fileName }
        (InvokeAs 0 host s "mono_assembly_get_image" [ptr]
          (some (api.assembly_get_image ptr))).1 with ⟨a1, s1, e⟩
      rw [hFC] at h1 hk
      simp only at h1 hk
      subst h1
      simp only
      refine ⟨[_], (by rw [hk.assembly]), hk.mode_, ?_⟩
      intro a ha
      rw [List.mem_singleton] at ha
      subst ha
      refine ⟨rfl, ?_, _, imageName, himage, rfl, ?_⟩
      · intro c hc
        simp only [List.nil_append] at hc
        exact h2 c hc
      · intro hexp
        exact InvokeAs_exported 0 host s "mono_assembly_get_image" [ptr]
          (api.assembly_get_image ptr) hexp


theorem assemblyLoopIl2Cpp_made (host : Host) (api : Api) :
    ∀ (ptrs : List Nat) (s : State),
      ∃ added, (ForeachAssembly.loopIl2Cpp host api ptrs s).1.assembly = s.assembly ++ added ∧
        ∀ a ∈ added, AssemblyMade host api Mode.Il2Cpp a := by
  intro ptrs
  induction ptrs with
  | nil =>
    intro s
    exact ⟨[], (by simp [ForeachAssembly.loopIl2Cpp]), fun _ h => nomatch h⟩
  | cons ptr rest ih =>
    intro s
    unfold ForeachAssembly.loopIl2Cpp
    split
    · exact ih s
    · obtain ⟨added, h1, _, h3⟩ := newAssemblyIl2Cpp_made host api s ptr
      split
      · next s1 e heq =>
        rw [heq] at h1
        exact ⟨added, h1, fun a ha => (h3 a ha).2⟩
      · next s1 heq =>
        rw [heq] at h1
        simp only at h1
        obtain ⟨added1, h4, h5⟩ := ih s1
        refine ⟨added ++ added1, (by rw [h4, h1, List.append_assoc]), ?_⟩
        intro a ha
        rcases List.mem_append.1 ha with ha | ha
        · exact (h3 a ha).2
        · exact h5 a ha

theorem callbackMono_made (host : Host) (api : Api) :
    ∀ (ptrs : List Nat) (s : State),
      ∃ added, (ForeachAssembly.callbackMono host api ptrs s).1.assembly = s.assembly ++ added ∧
        ∀ a ∈ added, AssemblyMade host api Mode.Mono a := by
  intro ptrs
  induction ptrs with
  | nil =>
    intro s
    exact ⟨[], (by simp [ForeachAssembly.callbackMono]), fun _ h => nomatch h⟩
  | cons ptr rest ih =>
    intro s
    unfold ForeachAssembly.callbackMono
    split
    · exact ih s
    · obtain ⟨added, h1, _, h3⟩ := newAssemblyMono_made host api s ptr
      split
      · next s1 e heq =>
        rw [heq] at h1
        exact ⟨added, h1, fun a ha => (h3 a ha).2⟩
      · next s1 heq =>
        rw [heq] at h1
        simp only at h1
        obtain ⟨added1, h4, h5⟩ := ih s1
        refine ⟨added ++ added1, (by rw [h4, h1, List.append_assoc]), ?_⟩
        intro a ha
        rcases List.mem_append.1 ha with ha | ha
        · exact (h3 a ha).2
        · exact h5 a ha

theorem ForeachAssembly_made (host : Host) (api : Api) (s : State) :
    ∃ added, (ForeachAssembly host api s).1.assembly = s.assembly ++ added ∧
      ∀ a ∈ added, AssemblyMade host api s.mode_ a := by
  unfold ForeachAssembly
  cases hm : s.mode_ with
  | Il2Cpp =>
    simp only [if_true]
    obtain ⟨added, h1, h2⟩ := assemblyLoopIl2Cpp_made host api
      (InvokeAs [] host s "il2cpp_domain_get_assemblies" [s.pDomain] (some api.assemblies)).1
      (InvokeAs [] host s "il2cpp_domain_get_assemblies" [s.pDomain] (some api.assemblies)).2
    rw [InvokeAs_assembly] at h1
    exact ⟨added, h1, h2⟩
  | Mono =>
    simp only [reduceCtorEq, if_false]
    split
    · obtain ⟨added, h1, h2⟩ := callbackMono_made host api api.assemblies
        (InvokeAs false host s "mono_assembly_foreach" [] (some true)).2
      rw [InvokeAs_assembly] at h1
      exact ⟨added, h1, h2⟩
    · exact ⟨[], (by simp only [InvokeAs_assembly, List.append_nil]), fun _ h => nomatch h⟩

/-- Whatever the host does, `Init` only appends to the catalog, and what it
appends are assemblies the walk of the requested mode made. -/
theorem Init_made (host : Host) (api : Api) (s : State) (hmodule : Nat) (mode : Mode) :
    ∃ added, (Init host api s hmodule mode).1.assembly = s.assembly ++ added ∧
      ∀ a ∈ added, AssemblyMade host api mode a := by
  unfold Init
  cases mode with
  | Il2Cpp =>
    simp only [if_true]
    generalize hS : (InvokeAs 0 host _ "il2cpp_thread_attach" _ _).2 = S
    have hSm : S.mode_ = Mode.Il2Cpp := by rw [← hS]; simp only [InvokeAs_mode]
    have hSa : S.assembly = s.assembly := by rw [← hS]; simp only [InvokeAs_assembly]
    obtain ⟨added, h1, h2⟩ := ForeachAssembly_made host api S
    rw [hSa] at h1
    rw [hSm] at h2
    exact ⟨added, h1, h2⟩
  | Mono =>
    simp only [reduceCtorEq, if_false]
    generalize hS : (InvokeAs 0 host _ "mono_jit_thread_attach" _ _).2 = S
    have hSm : S.mode_ = Mode.Mono := by rw [← hS]; simp only [InvokeAs_mode]
    have hSa : S.assembly = s.assembly := by rw [← hS]; simp only [InvokeAs_assembly]
    obtain ⟨added, h1, h2⟩ := ForeachAssembly_made host api S
    rw [hSa] at h1
    rw [hSm] at h2
    exact ⟨added, h1, h2⟩


/-- A method made by the Il2Cpp branch: handle, back-pointer, the flags as
stored, the static flag read off bit `0x10` of the stored flags, and the flags
the host answers when the entry point is exported. -/
theorem newMethodIl2Cpp_some (host : Host) (api : Api) (s : State) (klass method : Nat)
    (m : Method) (h : (ForeachMethod.newMethodIl2Cpp host api s klass method).1 = some m) :
    m.address = method ∧ m.klass = klass ∧
      m.static_function = decide (Int.land m.flags 0x10 ≠ 0) ∧
      ((∀ trace hmodule, host.GetProcAddress trace hmodule "il2cpp_method_get_flags" ≠ 0) →
        m.flags = api.method_get_flags method) := by
  unfold ForeachMethod.newMethodIl2Cpp at h
  simp only at h
  split at h
  · cases h
  · split at h
    · cases h
    · simp only [Option.some.injEq] at h
      subst h
      refine ⟨rfl, rfl, rfl, ?_⟩
      intro hexp
      exact InvokeAs_exported _ _ _ _ _ _ hexp

/-- A method made by the Mono branch: handle, back-pointer, the static flag
read off bit `0x10` of the stored flags, and the flags the host answers when
the entry point is exported. -/
theorem newMethodMono_some (host : Host) (api : Api) (s : State) (klass method : Nat)
    (m : Method) (h : (ForeachMethod.newMethodMono host api s klass method).1 = some m) :
    m.address = method ∧ m.klass = klass ∧
      m.static_function = decide (Int.land m.flags 0x10 ≠ 0) ∧
      ((∀ trace hmodule, host.GetProcAddress trace hmodule "mono_method_get_flags" ≠ 0) →
        m.flags = api.method_get_flags method) := by
  unfold ForeachMethod.newMethodMono at h
  simp only at h
  split at h
  · cases h
  · split at h
    · cases h
    · split at h
      · cases h
      · split at h
        · simp only [Option.some.injEq] at h
          subst h
          refine ⟨rfl, rfl, rfl, ?_⟩
          intro hexp
          exact InvokeAs_exported _ _ _ _ _ _ hexp
        · simp only [Option.some.injEq] at h
          subst h
          refine ⟨rfl, rfl, rfl, ?_⟩
          intro hexp
          exact InvokeAs_exported _ _ _ _ _ _ hexp

theorem FieldMade.field_klass_eq {host : Host} {api : Api} {klass : Nat} {f : Field}
    (h : FieldMade host api klass f) : f.klass = klass := by
  obtain ⟨s0, field, h | h⟩ := h
  · exact (newFieldIl2Cpp_some host api s0 klass field f h).2.1
  · exact (newFieldMono_some host api s0 klass field f h).2.1

theorem MethodMade.method_klass_eq {host : Host} {api : Api} {klass : Nat} {m : Method}
    (h : MethodMade host api klass m) : m.klass = klass := by
  obtain ⟨s0, method, h | h⟩ := h
  · exact (newMethodIl2Cpp_some host api s0 klass method m h).2.1
  · exact (newMethodMono_some host api s0 klass method m h).2.1

/-! ## Interface members -/

/-- The host of `fixMergeApi` is healthy. -/
theorem fixMergeApi_healthy : Healthy fixMergeApi where
  image_file := fun _ => Option.some_ne_none _
  image_name := fun _ => Option.some_ne_none _
  class_name := fun _ => Option.some_ne_none _
  class_namespace := fun _ => Option.some_ne_none _
  field_name := fun _ => Option.some_ne_none _
  type_name := fun _ => Option.some_ne_none _
  method_name := fun _ => Option.some_ne_none _
  param_name := fun _ _ => Option.some_ne_none _
  signature := fun method => Nat.succ_ne_zero (method + 99)
  fields_ne := by
    intro klass
    show 0 ∉ (if klass = 300 then [400] else if klass = 310 then [410] else [])
    split
    · decide
    · split <;> decide
  methods_ne := by
    intro klass
    show 0 ∉ (if klass = 300 then [600] else if klass = 310 then [610] else [])
    split
    · decide
    · split <;> decide
  interfaces_ne := by
    intro klass
    show 0 ∉ (if klass = 300 then [310] else [])
    split <;> decide

/-- C22 as stated fails in Mono mode: at a host that exports every name, the
method 600 of `Foo` has no signature, so line 999 skips it.  The host yields
the method 600 for the class and the method 610 for its interface, and the
method list of `Foo` after `Init` holds 610 alone: it is not the own methods
followed by those of the interface, and its length is not the sum of the
counts. -/
theorem Init_Mono_skips_method_without_signature :
    fixNoSignatureApi.class_get_methods 300 = [600] ∧
      fixNoSignatureApi.method_get_name 600 = some "Run" ∧
      fixNoSignatureApi.method_signature 600 = 0 ∧
      fixNoSignatureApi.class_get_interfaces 300 = [310] ∧
      fixNoSignatureApi.class_get_methods 310 = [610] ∧
      (Init fixFullHost fixNoSignatureApi initialState 1 Mode.Mono).2 = none ∧
      (Init fixFullHost fixNoSignatureApi initialState 1 Mode.Mono).1.assembly.flatMap
          (fun a => a.classes.map (fun c => (c.address, c.methods.map (fun m => m.address)))) =
        [(300, [610]), (310, [610])] ∧
      ¬ ∀ a ∈ (Init fixFullHost fixNoSignatureApi initialState 1 Mode.Mono).1.assembly,
          ∀ c ∈ a.classes, Merged fixNoSignatureApi c := by
  decide

/-- C22, amended: at a healthy host that exports the walk of the requested
mode, every class of every assembly `Init` appends has its members merged: the
field list holds, by handle and name, the fields of the class handle in the
order of the host followed by the fields of each interface, interface by
interface, and likewise the method list; the lengths are the sums of the
counts, so nothing is dropped or merged on a name collision. -/
theorem Init_merges_interface_members (host : Host) (api : Api) (s : State) (hmodule : Nat)
    (mode : Mode) (hexp : exportsWalk host mode) (hh : Healthy api) :
    ∃ added, (Init host api s hmodule mode).1.assembly = s.assembly ++ added ∧
      ∀ a ∈ added, ∀ c ∈ a.classes, Merged api c ∧
        c.fields.length = (api.class_get_fields c.address).length +
          ((api.class_get_interfaces c.address).map
            (fun i => (api.class_get_fields i).length)).sum ∧
        c.methods.length = (api.class_get_methods c.address).length +
          ((api.class_get_interfaces c.address).map
            (fun i => (api.class_get_methods i).length)).sum := by
  obtain ⟨added, h1, _, _, h4⟩ := Init_healthy host api s hmodule mode hexp hh
  refine ⟨added, h1, ?_⟩
  intro a ha c hc
  have hm := (h4 a ha).2.2 c hc
  refine ⟨hm, ?_, ?_⟩
  · have := congrArg List.length hm.1
    simpa [List.length_flatMap] using this
  · have := congrArg List.length hm.2
    simpa [List.length_flatMap] using this

/-- The amended C22 in Mono mode at the host of `fixMergeApi`, where the field
`Bar` and the method `Run` of the interface collide with the members of `Foo`:
both are in the lists of `Foo`, the own member first. -/
theorem Init_merges_interface_members_witness :
    exportsWalk fixFullHost Mode.Mono ∧ Healthy fixMergeApi ∧
      (∃ added, (Init fixFullHost fixMergeApi initialState 1 Mode.Mono).1.assembly =
          initialState.assembly ++ added ∧
        ∀ a ∈ added, ∀ c ∈ a.classes, Merged fixMergeApi c ∧
          c.fields.length = (fixMergeApi.class_get_fields c.address).length +
            ((fixMergeApi.class_get_interfaces c.address).map
              (fun i => (fixMergeApi.class_get_fields i).length)).sum ∧
          c.methods.length = (fixMergeApi.class_get_methods c.address).length +
            ((fixMergeApi.class_get_interfaces c.address).map
              (fun i => (fixMergeApi.class_get_methods i).length)).sum) ∧
      (Init fixFullHost fixMergeApi initialState 1 Mode.Mono).1.assembly.flatMap
          (fun a => a.classes.map (fun c =>
            (c.name, c.fields.map (fun f => (f.address, f.name)),
              c.methods.map (fun m => (m.address, m.name))))) =
        [("Foo", [(400, "Bar"), (410, "Bar")], [(600, "Run"), (610, "Run")]),
          ("IFoo", [(410, "Bar")], [(610, "Run")])] :=
  ⟨fixFullHost_exportsWalk Mode.Mono, fixMergeApi_healthy,
    Init_merges_interface_members fixFullHost fixMergeApi initialState 1 Mode.Mono
      (fixFullHost_exportsWalk Mode.Mono) fixMergeApi_healthy,
    by decide⟩

/-! ## Lookup through interfaces -/

/-- Searching a list by name when its entries carry, position by position, the
handles of `handles` and the names the host gives them: the handle of the entry
found is the first handle whose name is the requested one. -/
theorem find_by_key {α : Type} (key : α → Nat × Option String) (g : Nat → Option String)
    (n : String) :
    ∀ (entries : List α) (handles : List Nat),
      entries.map key = handles.map (fun h => (h, g h)) →
      (entries.find? (fun x => decide ((key x).2 = some n))).map (fun x => (key x).1) =
        handles.find? (fun h => decide (g h = some n)) := by
  intro entries
  induction entries with
  | nil =>
    intro handles h
    cases handles with
    | nil => rfl
    | cons _ _ => cases h
  | cons x rest ih =>
    intro handles h
    cases handles with
    | nil => cases h
    | cons h0 hrest =>
      simp only [List.map_cons, List.cons.injEq] at h
      obtain ⟨hx, hr⟩ := h
      have h1 : (key x).1 = h0 := by rw [hx]
      have h2 : (key x).2 = g h0 := by rw [hx]
      by_cases hn : g h0 = some n
      · rw [List.find?_cons_of_pos _ (by simp [h2, hn]), List.find?_cons_of_pos _ (by simp [hn])]
        simp [h1]
      · rw [List.find?_cons_of_neg _ (by simp [h2, hn]), List.find?_cons_of_neg _ (by simp [hn])]
        exact ih hrest hr

/-- With an empty request, the overload loop is the search for the first
method of the requested name that has no parameters. -/
theorem overloadLoop_nil_request (name : String) :
    ∀ ms : List Method, Class.overloadLoop name [] ms =
      Except.ok (ms.find? (fun m => decide (m.name = name ∧ m.args = []))) := by
  intro ms
  induction ms with
  | nil => rfl
  | cons m rest ih =>
    unfold Class.overloadLoop
    by_cases hn : m.name = name
    · rw [if_pos hn]
      by_cases he : m.args = []
      · rw [if_pos ⟨he, rfl⟩, List.find?_cons_of_pos _ (by simp [hn, he])]
      · have hl : ¬ m.args.length = ([] : List String).length := by
          intro h
          exact he (List.length_eq_zero.1 h)
        rw [if_neg (fun h => he h.1), if_neg hl, List.find?_cons_of_neg _ (by simp [he]), ih]
    · rw [if_neg hn, List.find?_cons_of_neg _ (by simp [hn]), ih]

/-- `Get<Method>` by name only: the first method of that name without
parameters when there is one, else the first method of that name. -/
theorem GetMethod_name_only (c : Class) (name : String) :
    c.GetMethod name =
      Except.ok ((c.methods.find? (fun m => decide (m.name = name ∧ m.args = []))).or
        (c.methods.find? (fun m => decide (m.name = name)))) := by
  unfold Class.GetMethod
  rw [overloadLoop_nil_request, nameLoop_eq_find]
  cases c.methods.find? (fun m => decide (m.name = name ∧ m.args = [])) <;> rfl

theorem Merged.fields_find {api : Api} {c : Class} (h : Merged api c) (n : String) :
    (c.GetField n).map (fun f => f.address) =
      (api.class_get_fields c.address ++
        (api.class_get_interfaces c.address).flatMap api.class_get_fields).find?
        (fun field => decide (api.field_get_name field = some n)) := by
  have hk := find_by_key (fun f : Field => (f.address, some f.name)) api.field_get_name n
    c.fields _ h.1
  simp only [Option.some.injEq] at hk
  unfold Class.GetField
  rw [fieldLoop_eq_find]
  exact hk

theorem Merged.methods_find {api : Api} {c : Class} (h : Merged api c) (n : String) :
    (c.methods.find? (fun m => decide (m.name = n))).map (fun m => m.address) =
      (api.class_get_methods c.address ++
        (api.class_get_interfaces c.address).flatMap api.class_get_methods).find?
        (fun method => decide (api.method_get_name method = some n)) := by
  have hk := find_by_key (fun m : Method => (m.address, some m.name)) api.method_get_name n
    c.methods _ h.2
  simp only [Option.some.injEq] at hk
  exact hk


/-- C23 as stated fails for methods: in the class `Foo` of `fixMergeApi`, which
itself declares `Run` (handle 600, one parameter) and implements `IFoo` with
`Run()` (handle 610), `Get<Method>("Run")` returns the method of the interface:
the exact pass prefers the first method named `Run` without parameters.  The
field lookup `Get<Field>("Bar")` does return the own field (handle 400). -/
theorem GetMethod_name_only_prefers_interface :
    fixMergeApi.class_get_methods 300 = [600] ∧
      fixMergeApi.method_get_name 600 = some "Run" ∧
      fixMergeApi.class_get_interfaces 300 = [310] ∧
      fixMergeApi.class_get_methods 310 = [610] ∧
      ((Get (Init fixFullHost fixMergeApi initialState 1 Mode.Il2Cpp).1 "Fixture").bind
          (fun a => a.Get "Foo")).map (fun c => c.GetMethod "Run") =
        some (Except.ok (some fixRunInterface)) ∧
      ((Get (Init fixFullHost fixMergeApi initialState 1 Mode.Il2Cpp).1 "Fixture").bind
          (fun a => a.Get "Foo")).map
          (fun c => (c.GetField "Bar").map (fun f => f.address)) = some (some 400) := by
  decide

/-- C23, amended: at a healthy host that exports the walk of the requested mode,
for every class of every assembly `Init` appends and every name `n`:
`Get<Field>(n)` finds the field of the first handle named `n` among the fields
of the class handle followed by those of its interfaces, so it is non-null for
every declared name and it is the own field when the class declares one;
`Get<Method>(n)` is non-null for every declared method name and returns a
method of that name; it returns the first method named `n` without parameters
when the merged list has one (own or not), and otherwise the method of the
first handle named `n`, own methods first. -/
theorem Init_lookup_through_interfaces (host : Host) (api : Api) (s : State) (hmodule : Nat)
    (mode : Mode) (hexp : exportsWalk host mode) (hh : Healthy api) :
    ∃ added, (Init host api s hmodule mode).1.assembly = s.assembly ++ added ∧
      ∀ a ∈ added, ∀ c ∈ a.classes, ∀ n : String,
        (c.GetField n).map (fun f => f.address) =
            (api.class_get_fields c.address ++
              (api.class_get_interfaces c.address).flatMap api.class_get_fields).find?
              (fun field => decide (api.field_get_name field = some n)) ∧
          ((∃ field ∈ api.class_get_fields c.address ++
                (api.class_get_interfaces c.address).flatMap api.class_get_fields,
              api.field_get_name field = some n) → c.GetField n ≠ none) ∧
          ((∃ field ∈ api.class_get_fields c.address, api.field_get_name field = some n) →
            (c.GetField n).map (fun f => f.address) =
              (api.class_get_fields c.address).find?
                (fun field => decide (api.field_get_name field = some n))) ∧
          ((∃ method ∈ api.class_get_methods c.address ++
                (api.class_get_interfaces c.address).flatMap api.class_get_methods,
              api.method_get_name method = some n) →
            ∃ m, c.GetMethod n = Except.ok (some m) ∧ m.name = n) ∧
          (∀ m, c.methods.find? (fun m => decide (m.name = n ∧ m.args = [])) = some m →
            c.GetMethod n = Except.ok (some m)) ∧
          ((∀ m ∈ c.methods, m.name = n → m.args ≠ []) →
            ∃ r, c.GetMethod n = Except.ok r ∧
              r.map (fun m => m.address) =
                (api.class_get_methods c.address ++
                  (api.class_get_interfaces c.address).flatMap api.class_get_methods).find?
                  (fun method => decide (api.method_get_name method = some n)) ∧
              ((∃ method ∈ api.class_get_methods c.address,
                  api.method_get_name method = some n) →
                r.map (fun m => m.address) =
                  (api.class_get_methods c.address).find?
                    (fun method => decide (api.method_get_name method = some n)))) := by
  obtain ⟨added, h1, _, _, h4⟩ := Init_healthy host api s hmodule mode hexp hh
  refine ⟨added, h1, ?_⟩
  intro a ha c hc n
  have hm : Merged api c := (h4 a ha).2.2 c hc
  have hfind := hm.fields_find n
  have hmfind := hm.methods_find n
  have own_first : ∀ (own rest : List Nat) (g : Nat → Option String),
      (∃ h ∈ own, g h = some n) →
      (own ++ rest).find? (fun h => decide (g h = some n)) =
        own.find? (fun h => decide (g h = some n)) := by
    intro own rest g ⟨h, hmem, hg⟩
    rw [List.find?_append]
    cases hf : own.find? (fun h => decide (g h = some n)) with
    | some x => rfl
    | none =>
      rw [List.find?_eq_none] at hf
      exact absurd (by simpa using hg) (hf h hmem)
  have found : ∀ (l : List Nat) (g : Nat → Option String), (∃ h ∈ l, g h = some n) →
      l.find? (fun h => decide (g h = some n)) ≠ none := by
    intro l g ⟨h, hmem, hg⟩ hf
    rw [List.find?_eq_none] at hf
    exact absurd (by simpa using hg) (hf h hmem)
  refine ⟨hfind, ?_, ?_, ?_, ?_, ?_⟩
  · intro hex hnone
    rw [hnone] at hfind
    exact found _ _ hex hfind.symm
  · intro hex
    rw [hfind, own_first _ _ _ hex]
  · intro hex
    have hne := found _ _ hex
    rw [← hmfind] at hne
    rw [GetMethod_name_only]
    cases hB : c.methods.find? (fun m => decide (m.name = n)) with
    | none => rw [hB] at hne; exact absurd rfl hne
    | some mB =>
      cases hA : c.methods.find? (fun m => decide (m.name = n ∧ m.args = [])) with
      | none => exact ⟨mB, rfl, by simpa using List.find?_some hB⟩
      | some mA =>
        refine ⟨mA, rfl, ?_⟩
        have := List.find?_some hA
        simp only [decide_eq_true_eq] at this
        exact this.1
  · intro m hA
    rw [GetMethod_name_only, hA]
    rfl
  · intro hall
    have hA : c.methods.find? (fun m => decide (m.name = n ∧ m.args = [])) = none := by
      rw [List.find?_eq_none]
      intro m hmem
      simp only [decide_eq_true_eq, not_and]
      exact fun hname => hall m hmem hname
    refine ⟨_, by rw [GetMethod_name_only, hA]; rfl, hmfind, ?_⟩
    intro hex
    rw [hmfind, own_first _ _ _ hex]

/-- The amended C23 in Il2Cpp mode at the host of `fixMergeApi`. -/
theorem Init_lookup_through_interfaces_witness :
    exportsWalk fixFullHost Mode.Il2Cpp ∧ Healthy fixMergeApi ∧
      ∃ added, (Init fixFullHost fixMergeApi initialState 1 Mode.Il2Cpp).1.assembly =
          initialState.assembly ++ added ∧
        ∀ a ∈ added, ∀ c ∈ a.classes, ∀ n : String,
          (c.GetField n).map (fun f => f.address) =
              (fixMergeApi.class_get_fields c.address ++
                (fixMergeApi.class_get_interfaces c.address).flatMap
                  fixMergeApi.class_get_fields).find?
                (fun field => decide (fixMergeApi.field_get_name field = some n)) ∧
            ((∃ field ∈ fixMergeApi.class_get_fields c.address ++
                  (fixMergeApi.class_get_interfaces c.address).flatMap
                    fixMergeApi.class_get_fields,
                fixMergeApi.field_get_name field = some n) → c.GetField n ≠ none) ∧
            ((∃ field ∈ fixMergeApi.class_get_fields c.address,
                fixMergeApi.field_get_name field = some n) →
              (c.GetField n).map (fun f => f.address) =
                (fixMergeApi.class_get_fields c.address).find?
                  (fun field => decide (fixMergeApi.field_get_name field = some n))) ∧
            ((∃ method ∈ fixMergeApi.class_get_methods c.address ++
                  (fixMergeApi.class_get_interfaces c.address).flatMap
                    fixMergeApi.class_get_methods,
                fixMergeApi.method_get_name method = some n) →
              ∃ m, c.GetMethod n = Except.ok (some m) ∧ m.name = n) ∧
            (∀ m, c.methods.find? (fun m => decide (m.name = n ∧ m.args = [])) = some m →
              c.GetMethod n = Except.ok (some m)) ∧
            ((∀ m ∈ c.methods, m.name = n → m.args ≠ []) →
              ∃ r, c.GetMethod n = Except.ok r ∧
                r.map (fun m => m.address) =
                  (fixMergeApi.class_get_methods c.address ++
                    (fixMergeApi.class_get_interfaces c.address).flatMap
                      fixMergeApi.class_get_methods).find?
                    (fun method => decide (fixMergeApi.method_get_name method = some n)) ∧
                ((∃ method ∈ fixMergeApi.class_get_methods c.address,
                    fixMergeApi.method_get_name method = some n) →
                  r.map (fun m => m.address) =
                    (fixMergeApi.class_get_methods c.address).find?
                      (fun method => decide (fixMergeApi.method_get_name method = some n)))) :=
  ⟨fixFullHost_exportsWalk Mode.Il2Cpp, fixMergeApi_healthy,
    Init_lookup_through_interfaces fixFullHost fixMergeApi initialState 1 Mode.Il2Cpp
      (fixFullHost_exportsWalk Mode.Il2Cpp) fixMergeApi_healthy⟩

/-! ## Faults during the walk -/

/-- C24, evaluated where it fails, in Mono mode at a host that exports every
name.  The class 300 has the fields 400 and 401, and the name of 400 is null.
Making the field 400 raises an exception, the handler of line 950 catches it
and `ForeachFields` returns: no fault leaves it, the host is not asked for the
next field, and the field 401, which is cataloged when 400 has a name, is not
in the list.  The same holds inside `Init`: the class is cataloged without
fields. -/
theorem Mono_fault_abandons_later_siblings :
    fixNullFieldApi.class_get_fields 300 = [400, 401] ∧
      fixNullFieldApi.field_get_name 400 = none ∧
      fixNullFieldApi.field_get_name 401 = some "Bar" ∧
      (ForeachFields fixFullHost fixNullFieldApi fixMonoState 1 {} 300).2.2 = none ∧
      (ForeachFields fixFullHost fixNullFieldApi fixMonoState 1 {} 300).2.1.trace =
        [Event.lookup 0 "mono_class_get_fields", Event.call 4096 [300],
          Event.lookup 0 "mono_field_get_name", Event.call 4096 [400]] ∧
      (ForeachFields fixFullHost fixNullFieldApi fixMonoState 1 {} 300).1.fields.map
        (fun f => f.address) = [] ∧
      (ForeachFields fixFullHost fixSiblingsApi fixMonoState 1 {} 300).1.fields.map
        (fun f => f.address) = [400, 401] ∧
      (Init fixFullHost fixNullFieldApi initialState 1 Mode.Mono).2 = none ∧
      (Init fixFullHost fixNullFieldApi initialState 1 Mode.Mono).1.assembly.flatMap
          (fun a => a.classes.map (fun c => (c.address, c.fields.map (fun f => f.address)))) =
        [(300, []), (310, [])] ∧
      (Init fixFullHost fixSiblingsApi initialState 1 Mode.Mono).1.assembly.flatMap
          (fun a => a.classes.map (fun c => (c.address, c.fields.map (fun f => f.address)))) =
        [(300, [400, 401]), (310, [])] := by
  decide

/-! ## The index-counted walk -/

/-- The host `fixIndexHost` exports every name. -/
theorem fixIndexHost_exportsWalk (mode : Mode) : exportsWalk fixIndexHost mode := by
  intro name _ trace hmodule
  show (if name = "il2cpp_image_get_class" then 5000 else 4096) ≠ 0
  split <;> decide

/-- The calls through an address in a history made of two parts. -/
theorem callsThrough_append (address : Nat) (l1 l2 : List Event) :
    callsThrough address (l1 ++ l2) = callsThrough address l1 ++ callsThrough address l2 := by
  induction l1 with
  | nil => rfl
  | cons e rest ih =>
    cases e with
    | lookup hmodule name => simpa [callsThrough] using ih
    | call target args =>
      by_cases ht : target = address
      · simp [callsThrough, ht, ih]
      · simp [callsThrough, ht, ih]

/-- A request for another entry point makes no call through the address of
`il2cpp_image_get_class`. -/
theorem InvokeAs_requests {R : Type} {T : List (List Nat)} {address : Nat} (dflt : R)
    (host : Host) (s : State) (funcName : String) (args : List Nat) (answer : Option R)
    (hhost : ClassEntry host address)
    (hne : funcName ≠ "il2cpp_image_get_class") (h : Requests address T s) :
    Requests address T (InvokeAs dflt host s funcName args answer).2 := by
  obtain ⟨hcache, htrace⟩ := h
  have hw : ∀ trace hmodule, host.GetProcAddress trace hmodule funcName ≠ address :=
    fun trace hmodule hw => hne ((hhost trace hmodule funcName).1 hw)
  unfold InvokeAs resolve
  by_cases hc : s.address_ funcName = none ∨ s.address_ funcName = some 0
  · simp only [if_pos hc]
    have hidx : mapIndex (mapAssign s.address_ funcName
        (host.GetProcAddress s.trace s.hmodule_ funcName)) funcName =
        (host.GetProcAddress s.trace s.hmodule_ funcName,
          mapAssign s.address_ funcName (host.GetProcAddress s.trace s.hmodule_ funcName)) := by
      simp [mapIndex, mapAssign]
    simp only [hidx]
    have hinv : ∀ name value, mapAssign s.address_ funcName
        (host.GetProcAddress s.trace s.hmodule_ funcName) name = some value → value ≠ 0 →
        (value = address ↔ name = "il2cpp_image_get_class") := by
      intro name value hv h0
      unfold mapAssign at hv
      by_cases hk : name = funcName
      · rw [if_pos hk] at hv
        injection hv with hv
        subst hv
        subst hk
        exact ⟨fun e => absurd e (hw _ _), fun e => absurd e hne⟩
      · rw [if_neg hk] at hv
        exact hcache name value hv h0
    split
    · split
      · refine ⟨hinv, ?_⟩
        simp only [callsThrough_append, htrace, callsThrough, hw, if_false, List.append_nil]
      · refine ⟨hinv, ?_⟩
        simp only [callsThrough_append, htrace, callsThrough, hw, if_false, List.append_nil]
    · refine ⟨hinv, ?_⟩
      simp only [callsThrough_append, htrace, callsThrough, List.append_nil]
  · simp only [if_neg hc]
    cases hv : s.address_ funcName with
    | none => exact absurd (Or.inl hv) hc
    | some v =>
      have hv0 : v ≠ 0 := fun h0 => hc (Or.inr (by rw [hv, h0]))
      have hva : v ≠ address := fun e => hne ((hcache funcName v hv hv0).1 e)
      have hidx : mapIndex s.address_ funcName = (v, s.address_) := by
        simp [mapIndex, hv]
      simp only [hidx, ne_eq, hv0, not_false_eq_true, if_true]
      split
      · refine ⟨hcache, ?_⟩
        simp only [callsThrough_append, htrace, callsThrough, hva, if_false, List.append_nil]
      · refine ⟨hcache, ?_⟩
        simp only [callsThrough_append, htrace, callsThrough, hva, if_false, List.append_nil]

/-- A request for `il2cpp_image_get_class` is one call through its address, with
the arguments of the request. -/
theorem InvokeAs_requests_class {R : Type} {T : List (List Nat)} {address : Nat} (dflt : R)
    (host : Host) (s : State) (args : List Nat) (answer : Option R)
    (hhost : ClassEntry host address)
    (h0 : address ≠ 0) (h : Requests address T s) :
    Requests address (T ++ [args])
      (InvokeAs dflt host s "il2cpp_image_get_class" args answer).2 := by
  obtain ⟨hcache, htrace⟩ := h
  have hw : ∀ trace hmodule, host.GetProcAddress trace hmodule "il2cpp_image_get_class" = address :=
    fun trace hmodule => (hhost trace hmodule _).2 rfl
  unfold InvokeAs resolve
  by_cases hc : s.address_ "il2cpp_image_get_class" = none ∨
      s.address_ "il2cpp_image_get_class" = some 0
  · simp only [if_pos hc, hw]
    have hidx : mapIndex (mapAssign s.address_ "il2cpp_image_get_class" address)
        "il2cpp_image_get_class" =
        (address, mapAssign s.address_ "il2cpp_image_get_class" address) := by
      simp [mapIndex, mapAssign]
    simp only [hidx, ne_eq, h0, not_false_eq_true, if_true]
    have hinv : ∀ name value, mapAssign s.address_ "il2cpp_image_get_class" address name =
        some value → value ≠ 0 → (value = address ↔ name = "il2cpp_image_get_class") := by
      intro name value hv hv0
      unfold mapAssign at hv
      by_cases hk : name = "il2cpp_image_get_class"
      · rw [if_pos hk] at hv
        injection hv with hv
        exact ⟨fun _ => hk, fun _ => hv.symm⟩
      · rw [if_neg hk] at hv
        exact hcache name value hv hv0
    split
    · refine ⟨hinv, ?_⟩
      simp [callsThrough_append, htrace, callsThrough]
    · refine ⟨hinv, ?_⟩
      simp [callsThrough_append, htrace, callsThrough]
  · simp only [if_neg hc]
    cases hv : s.address_ "il2cpp_image_get_class" with
    | none => exact absurd (Or.inl hv) hc
    | some v =>
      have hv0 : v ≠ 0 := fun h0 => hc (Or.inr (by rw [hv, h0]))
      have hva : v = address := (hcache _ v hv hv0).2 rfl
      subst hva
      have hidx : mapIndex s.address_ "il2cpp_image_get_class" = (v, s.address_) := by
        simp [mapIndex, hv]
      simp only [hidx, ne_eq, hv0, not_false_eq_true, if_true]
      split
      · refine ⟨hcache, ?_⟩
        simp [callsThrough_append, htrace, callsThrough]
      · refine ⟨hcache, ?_⟩
        simp [callsThrough_append, htrace, callsThrough]

theorem allocated_requests {T : List (List Nat)} {address : Nat} (s : State)
    (h : Requests address T s) : Requests address T { s with allocated := s.allocated + 1 } := h

theorem newFieldIl2Cpp_requests {T : List (List Nat)} {address : Nat} (host : Host) (api : Api)
    (hhost : ClassEntry host address) (s : State)
    (klass field : Nat) (h : Requests address T s) :
    Requests address T (ForeachFields.newFieldIl2Cpp host api s klass field).2.1 := by
  unfold ForeachFields.newFieldIl2Cpp
  simp only
  split
  · repeat' (first | with_reducible exact h
                   | with_reducible refine InvokeAs_requests _ _ _ _ _ _ hhost ?_ ?_)
    all_goals decide
  · split
    · repeat' (first | with_reducible exact h
                     | with_reducible refine InvokeAs_requests _ _ _ _ _ _ hhost ?_ ?_)
      all_goals decide
    · repeat' (first | with_reducible exact h
                     | with_reducible refine InvokeAs_requests _ _ _ _ _ _ hhost ?_ ?_)
      all_goals decide

theorem newFieldMono_requests {T : List (List Nat)} {address : Nat} (host : Host) (api : Api)
    (hhost : ClassEntry host address) (s : State)
    (klass field : Nat) (h : Requests address T s) :
    Requests address T (ForeachFields.newFieldMono host api s klass field).2.1 := by
  unfold ForeachFields.newFieldMono
  simp only
  split
  · repeat' (first | with_reducible exact h
                   | with_reducible refine InvokeAs_requests _ _ _ _ _ _ hhost ?_ ?_)
    all_goals decide
  · split
    · repeat' (first | with_reducible exact h
                     | with_reducible refine InvokeAs_requests _ _ _ _ _ _ hhost ?_ ?_)
      all_goals decide
    · repeat' (first | with_reducible exact h
                     | with_reducible refine InvokeAs_requests _ _ _ _ _ _ hhost ?_ ?_)
      all_goals decide

theorem fieldLoopIl2Cpp_requests {T : List (List Nat)} {address : Nat} (host : Host) (api : Api)
    (hhost : ClassEntry host address) (klass pKlass : Nat) :
    ∀ (answers : List Nat) (c : Class) (s : State), Requests address T s →
      Requests address T (ForeachFields.loopIl2Cpp host api klass pKlass answers c s).2.1 := by
  intro answers
  induction answers with
  | nil => intro c s h; exact InvokeAs_requests _ _ _ _ _ _ hhost (by decide) h
  | cons answer rest ih =>
    intro c s h
    have hf := InvokeAs_requests 0 host s "il2cpp_class_get_fields" [pKlass] (some answer) hhost (by decide) h
    unfold ForeachFields.loopIl2Cpp
    simp only
    split
    · exact hf
    · have hnew := newFieldIl2Cpp_requests host api hhost _ klass
        (InvokeAs 0 host s "il2cpp_class_get_fields" [pKlass] (some answer)).1 hf
      split
      · next s1 heq => rw [heq] at hnew; exact ih _ _ hnew
      · next s1 e heq => rw [heq] at hnew; exact hnew
      · next pField s1 heq => rw [heq] at hnew; exact ih _ _ hnew
      · next pField s1 e heq => rw [heq] at hnew; exact hnew

theorem fieldLoopMono_requests {T : List (List Nat)} {address : Nat} (host : Host) (api : Api)
    (hhost : ClassEntry host address) (klass pKlass : Nat) :
    ∀ (answers : List Nat) (c : Class) (s : State), Requests address T s →
      Requests address T (ForeachFields.loopMono host api klass pKlass answers c s).2.1 := by
  intro answers
  induction answers with
  | nil => intro c s h; exact InvokeAs_requests _ _ _ _ _ _ hhost (by decide) h
  | cons answer rest ih =>
    intro c s h
    have hf := InvokeAs_requests 0 host s "mono_class_get_fields" [pKlass] (some answer) hhost (by decide) h
    unfold ForeachFields.loopMono
    simp only
    split
    · exact hf
    · have hnew := newFieldMono_requests host api hhost _ klass
        (InvokeAs 0 host s "mono_class_get_fields" [pKlass] (some answer)).1 hf
      split
      · next s1 heq => rw [heq] at hnew; exact ih _ _ hnew
      · next s1 e heq => rw [heq] at hnew; exact hnew
      · next pField s1 heq => rw [heq] at hnew; exact ih _ _ hnew
      · next pField s1 e heq => rw [heq] at hnew; exact hnew

theorem ForeachFields_requests {T : List (List Nat)} {address : Nat} (host : Host) (api : Api)
    (hhost : ClassEntry host address) (s : State) (klass : Nat)
    (c : Class) (pKlass : Nat) (h : Requests address T s) :
    Requests address T (ForeachFields host api s klass c pKlass).2.1 := by
  unfold ForeachFields
  split
  · exact fieldLoopIl2Cpp_requests host api hhost klass pKlass _ c s h
  · exact fieldLoopMono_requests host api hhost klass pKlass _ c s h

theorem argsIl2Cpp_requests {T : List (List Nat)} {address : Nat} (host : Host) (api : Api)
    (hhost : ClassEntry host address) (method : Nat) :
    ∀ (indices : List Nat) (args : List Method.Arg) (s : State), Requests address T s →
      Requests address T (ForeachMethod.argsIl2Cpp host api method indices args s).2.1 := by
  intro indices
  induction indices with
  | nil => intro args s h; exact h
  | cons index rest ih =>
    intro args s h
    rw [argsIl2Cpp_cons]
    simp only
    split
    · repeat' (first | with_reducible exact h
                     | with_reducible refine InvokeAs_requests _ _ _ _ _ _ hhost ?_ ?_)
      all_goals decide
    · split
      · repeat' (first | with_reducible exact h
                       | with_reducible refine InvokeAs_requests _ _ _ _ _ _ hhost ?_ ?_)
        all_goals decide
      · apply ih
        repeat' (first | with_reducible exact h
                       | with_reducible refine InvokeAs_requests _ _ _ _ _ _ hhost ?_ ?_)
        all_goals decide

theorem newMethodIl2Cpp_requests {T : List (List Nat)} {address : Nat} (host : Host) (api : Api)
    (hhost : ClassEntry host address) (s : State)
    (klass method : Nat) (h : Requests address T s) :
    Requests address T (ForeachMethod.newMethodIl2Cpp host api s klass method).2.1 := by
  unfold ForeachMethod.newMethodIl2Cpp
  simp only
  split
  · repeat' (first | with_reducible exact h
                   | with_reducible refine InvokeAs_requests _ _ _ _ _ _ hhost ?_ ?_)
    all_goals decide
  · split
    · repeat' (first | with_reducible exact h
                     | with_reducible refine InvokeAs_requests _ _ _ _ _ _ hhost ?_ ?_)
      all_goals decide
    · apply argsIl2Cpp_requests _ _ hhost
      repeat' (first | with_reducible exact h
                     | with_reducible refine InvokeAs_requests _ _ _ _ _ _ hhost ?_ ?_)
      all_goals decide

theorem methodLoopIl2Cpp_requests {T : List (List Nat)} {address : Nat} (host : Host) (api : Api)
    (hhost : ClassEntry host address) (klass pKlass : Nat) :
    ∀ (answers : List Nat) (c : Class) (s : State), Requests address T s →
      Requests address T (ForeachMethod.loopIl2Cpp host api klass pKlass answers c s).2.1 := by
  intro answers
  induction answers with
  | nil => intro c s h; exact InvokeAs_requests _ _ _ _ _ _ hhost (by decide) h
  | cons answer rest ih =>
    intro c s h
    have hf := InvokeAs_requests 0 host s "il2cpp_class_get_methods" [pKlass] (some answer) hhost (by decide) h
    unfold ForeachMethod.loopIl2Cpp
    simp only
    split
    · exact hf
    · have hnew := newMethodIl2Cpp_requests host api hhost _ klass
        (InvokeAs 0 host s "il2cpp_class_get_methods" [pKlass] (some answer)).1 hf
      split
      · next s1 heq => rw [heq] at hnew; exact ih _ _ hnew
      · next s1 e heq => rw [heq] at hnew; exact hnew
      · next pMethod s1 heq => rw [heq] at hnew; exact ih _ _ hnew
      · next pMethod s1 e heq => rw [heq] at hnew; exact hnew

theorem paramsMono_requests {T : List (List Nat)} {address : Nat} (host : Host) (api : Api)
    (hhost : ClassEntry host address) (signature : Nat)
    (names : List (Option String)) :
    ∀ (answers : List Nat) (iname : Nat) (args : List Method.Arg) (s : State), Requests address T s →
      Requests address T (ForeachMethod.paramsMono host api signature names answers iname args s).2 := by
  intro answers
  induction answers with
  | nil =>
    intro iname args s h
    rw [paramsMono_nil]
    exact InvokeAs_requests _ _ _ _ _ _ hhost (by decide) h
  | cons answer rest ih =>
    intro iname args s h
    rw [paramsMono_cons]
    simp only
    split
    · repeat' (first | with_reducible exact h
                     | with_reducible refine InvokeAs_requests _ _ _ _ _ _ hhost ?_ ?_)
      all_goals decide
    · split
      · apply ih
        repeat' (first | with_reducible exact h
                       | with_reducible refine InvokeAs_requests _ _ _ _ _ _ hhost ?_ ?_)
        all_goals decide
      · split
        · apply ih
          repeat' (first | with_reducible exact h
                         | with_reducible refine InvokeAs_requests _ _ _ _ _ _ hhost ?_ ?_)
          all_goals decide
        · apply ih
          repeat' (first | with_reducible exact h
                         | with_reducible refine InvokeAs_requests _ _ _ _ _ _ hhost ?_ ?_)
          all_goals decide

theorem newMethodMono_requests {T : List (List Nat)} {address : Nat} (host : Host) (api : Api)
    (hhost : ClassEntry host address) (s : State)
    (klass method : Nat) (h : Requests address T s) :
    Requests address T (ForeachMethod.newMethodMono host api s klass method).2.1 := by
  unfold ForeachMethod.newMethodMono
  simp only
  split
  · repeat' (first | with_reducible exact h
                   | with_reducible refine InvokeAs_requests _ _ _ _ _ _ hhost ?_ ?_)
    all_goals decide
  · split
    · repeat' (first | with_reducible exact h
                     | with_reducible refine InvokeAs_requests _ _ _ _ _ _ hhost ?_ ?_)
      all_goals decide
    · split
      · repeat' (first | with_reducible exact h
                       | with_reducible refine InvokeAs_requests _ _ _ _ _ _ hhost ?_ ?_)
        all_goals decide
      · split
        · repeat' (first | with_reducible exact h
                         | with_reducible refine InvokeAs_requests _ _ _ _ _ _ hhost ?_ ?_)
          all_goals decide
        · apply paramsMono_requests _ _ hhost
          repeat' (first | with_reducible exact h
                         | with_reducible refine InvokeAs_requests _ _ _ _ _ _ hhost ?_ ?_)
          all_goals decide

theorem methodLoopMono_requests {T : List (List Nat)} {address : Nat} (host : Host) (api : Api)
    (hhost : ClassEntry host address) (klass pKlass : Nat) :
    ∀ (answers : List Nat) (c : Class) (s : State), Requests address T s →
      Requests address T (ForeachMethod.loopMono host api klass pKlass answers c s).2.1 := by
  intro answers
  induction answers with
  | nil => intro c s h; exact InvokeAs_requests _ _ _ _ _ _ hhost (by decide) h
  | cons answer rest ih =>
    intro c s h
    have hf := InvokeAs_requests 0 host s "mono_class_get_methods" [pKlass] (some answer) hhost (by decide) h
    unfold ForeachMethod.loopMono
    simp only
    split
    · exact hf
    · have hnew := newMethodMono_requests host api hhost _ klass
        (InvokeAs 0 host s "mono_class_get_methods" [pKlass] (some answer)).1 hf
      split
      · next s1 heq => rw [heq] at hnew; exact ih _ _ hnew
      · next s1 e heq => rw [heq] at hnew; exact hnew
      · next pMethod s1 heq => rw [heq] at hnew; exact ih _ _ hnew
      · next pMethod s1 e heq => rw [heq] at hnew; exact hnew

theorem ForeachMethod_requests {T : List (List Nat)} {address : Nat} (host : Host) (api : Api)
    (hhost : ClassEntry host address) (s : State) (klass : Nat)
    (c : Class) (pKlass : Nat) (h : Requests address T s) :
    Requests address T (ForeachMethod host api s klass c pKlass).2.1 := by
  unfold ForeachMethod
  split
  · exact methodLoopIl2Cpp_requests host api hhost klass pKlass _ c s h
  · exact methodLoopMono_requests host api hhost klass pKlass _ c s h

theorem interfacesIl2Cpp_requests {T : List (List Nat)} {address : Nat} (host : Host) (api : Api)
    (hhost : ClassEntry host address) (klass pClass : Nat) :
    ∀ (answers : List Nat) (c : Class) (s : State), Requests address T s →
      Requests address T (ForeachClass.interfacesIl2Cpp host api klass pClass answers c s).2.1 := by
  intro answers
  induction answers with
  | nil =>
    intro c s h
    rw [interfacesIl2Cpp_nil]
    exact InvokeAs_requests _ _ _ _ _ _ hhost (by decide) h
  | cons answer rest ih =>
    intro c s h
    have hi := InvokeAs_requests 0 host s "il2cpp_class_get_interfaces" [pClass] (some answer) hhost (by decide) h
    unfold ForeachClass.interfacesIl2Cpp
    simp only
    split
    · exact hi
    · have hf := ForeachFields_requests host api hhost _ klass c
        (InvokeAs 0 host s "il2cpp_class_get_interfaces" [pClass] (some answer)).1 hi
      split
      · next c1 s1 e heq => rw [heq] at hf; exact hf
      · next c1 s1 heq =>
        rw [heq] at hf
        have hm := ForeachMethod_requests host api hhost s1 klass c1
          (InvokeAs 0 host s "il2cpp_class_get_interfaces" [pClass] (some answer)).1 hf
        split
        · next c2 s2 e heq2 => rw [heq2] at hm; exact hm
        · next c2 s2 heq2 => rw [heq2] at hm; exact ih _ _ hm

theorem ForeachFields_requests_eq {T : List (List Nat)} {address : Nat} (host : Host) (api : Api)
    (hhost : ClassEntry host address) {s : State} {klass : Nat}
    {c : Class} {pKlass : Nat} {c1 : Class} {s1 : State} {e : Option Fault}
    (heq : ForeachFields host api s klass c pKlass = (c1, s1, e)) (h : Requests address T s) :
    Requests address T s1 := by
  have hf := ForeachFields_requests host api hhost s klass c pKlass h
  rw [heq] at hf
  exact hf

theorem ForeachMethod_requests_eq {T : List (List Nat)} {address : Nat} (host : Host) (api : Api)
    (hhost : ClassEntry host address) {s : State} {klass : Nat}
    {c : Class} {pKlass : Nat} {c1 : Class} {s1 : State} {e : Option Fault}
    (heq : ForeachMethod host api s klass c pKlass = (c1, s1, e)) (h : Requests address T s) :
    Requests address T s1 := by
  have hf := ForeachMethod_requests host api hhost s klass c pKlass h
  rw [heq] at hf
  exact hf

theorem newClassIl2Cpp_requests {T : List (List Nat)} {address : Nat} (host : Host) (api : Api)
    (hhost : ClassEntry host address) (s : State)
    (pClass : Nat) (h : Requests address T s) :
    Requests address T (ForeachClass.newClassIl2Cpp host api s pClass).2.1 := by
  unfold ForeachClass.newClassIl2Cpp
  simp only
  split
  · repeat' (first | with_reducible exact h
                   | with_reducible refine InvokeAs_requests _ _ _ _ _ _ hhost ?_ ?_ | split)
    all_goals first | decide | exact allocated_requests s h
  · split
    · repeat' (first | with_reducible exact h
                     | with_reducible refine InvokeAs_requests _ _ _ _ _ _ hhost ?_ ?_ | split)
      all_goals first | decide | exact allocated_requests s h
    · split
      · repeat' (first | with_reducible exact h
                       | with_reducible refine InvokeAs_requests _ _ _ _ _ _ hhost ?_ ?_ | split)
        all_goals first | decide | exact allocated_requests s h
      · split
        · next heq =>
          refine ForeachFields_requests_eq host api hhost heq ?_
          repeat' (first | with_reducible exact h
                         | with_reducible refine InvokeAs_requests _ _ _ _ _ _ hhost ?_ ?_ | split)
          all_goals first | decide | exact allocated_requests s h
        · next heq =>
          have hf : Requests address T _ := ForeachFields_requests_eq host api hhost heq (by
            repeat' (first | with_reducible exact h
                           | with_reducible refine InvokeAs_requests _ _ _ _ _ _ hhost ?_ ?_ | split)
            all_goals first | decide | exact allocated_requests s h)
          split
          · next heq2 => exact ForeachMethod_requests_eq host api hhost heq2 hf
          · next heq2 =>
            exact interfacesIl2Cpp_requests host api hhost _ _ _ _ _
              (ForeachMethod_requests_eq host api hhost heq2 hf)

/-- At a healthy host that exports the walk, the class loop of the Il2Cpp branch
calls `il2cpp_image_get_class` once per index, in the order of the indices. -/
theorem classLoopIl2Cpp_requests {address : Nat} (host : Host) (api : Api)
    (hhost : ClassEntry host address) (h0 : address ≠ 0) (image : Nat)
    (hexp : exportsWalk host Mode.Il2Cpp) (hh : Healthy api) :
    ∀ (indices : List Nat) (a : Assembly) (s : State) (T : List (List Nat)),
      s.mode_ = Mode.Il2Cpp → Requests address T s →
      Requests address (T ++ indices.map (fun i => [image, i]))
        (ForeachClass.loopIl2Cpp host api image indices a s).2.1 := by
  intro indices
  induction indices with
  | nil =>
    intro a s T _ h
    simpa [ForeachClass.loopIl2Cpp] using h
  | cons i rest ih =>
    intro a s T hmode h
    have hc := InvokeAs_requests_class 0 host s [image, i] (some (api.image_get_class image i))
      hhost h0 h
    have hmode1 : (InvokeAs 0 host s "il2cpp_image_get_class" [image, i]
        (some (api.image_get_class image i))).2.mode_ = Mode.Il2Cpp := by
      rw [InvokeAs_mode]; exact hmode
    unfold ForeachClass.loopIl2Cpp
    simp only
    split
    · have hrest := ih a _ _ hmode1 hc
      simpa [List.append_assoc] using hrest
    · obtain ⟨c, hcs, hfault, _⟩ := newClassIl2Cpp_healthy host api
        (InvokeAs 0 host s "il2cpp_image_get_class" [image, i]
          (some (api.image_get_class image i))).2
        (InvokeAs 0 host s "il2cpp_image_get_class" [image, i]
          (some (api.image_get_class image i))).1 hexp hh hmode1
      have hnew := newClassIl2Cpp_requests host api hhost _
        (InvokeAs 0 host s "il2cpp_image_get_class" [image, i]
          (some (api.image_get_class image i))).1 hc
      have hk := newClassIl2Cpp_keeps host api
        (InvokeAs 0 host s "il2cpp_image_get_class" [image, i]
          (some (api.image_get_class image i))).2
        (InvokeAs 0 host s "il2cpp_image_get_class" [image, i]
          (some (api.image_get_class image i))).1 (Keeps.keeps_refl _)
      rcases hN : ForeachClass.newClassIl2Cpp host api
        (InvokeAs 0 host s "il2cpp_image_get_class" [image, i]
          (some (api.image_get_class image i))).2
        (InvokeAs 0 host s "il2cpp_image_get_class" [image, i]
          (some (api.image_get_class image i))).1 with ⟨o, s1, e⟩
      rw [hN] at hcs hfault hnew hk
      simp only at hcs hfault hnew hk
      subst hcs hfault
      simp only
      have hrest := ih { a with classes := a.classes ++ [c] } s1 _
        (by rw [hk.mode_]; exact hmode1) hnew
      simpa [List.append_assoc] using hrest

theorem ForeachClass_requests {T : List (List Nat)} {address : Nat} (host : Host) (api : Api)
    (hhost : ClassEntry host address) (h0 : address ≠ 0)
    (hexp : exportsWalk host Mode.Il2Cpp) (hh : Healthy api) (s : State) (a : Assembly)
    (image : Nat) (hmode : s.mode_ = Mode.Il2Cpp) (h : Requests address T s) :
    Requests address
      (T ++ (List.range (api.image_get_class_count image).toNat).map (fun i => [image, i]))
      (ForeachClass host api s a image).2.1 := by
  unfold ForeachClass
  rw [if_pos hmode]
  simp only [InvokeAs_walk _ host Mode.Il2Cpp _ _ _ _ hexp, walkNames, List.mem_cons,
    List.mem_singleton, String.reduceEq, or_true, true_or, or_false, false_or]
  exact classLoopIl2Cpp_requests host api hhost h0 image hexp hh _ a _ T
    (by rw [InvokeAs_mode]; exact hmode) (InvokeAs_requests _ _ _ _ _ _ hhost (by decide) h)

theorem newAssemblyIl2Cpp_requests {T : List (List Nat)} {address : Nat} (host : Host)
    (api : Api) (hhost : ClassEntry host address) (h0 : address ≠ 0)
    (hexp : exportsWalk host Mode.Il2Cpp) (hh : Healthy api) (s : State) (ptr : Nat)
    (hmode : s.mode_ = Mode.Il2Cpp) (h : Requests address T s) :
    Requests address
      (T ++ (List.range (api.image_get_class_count (api.assembly_get_image ptr)).toNat).map
        (fun i => [api.assembly_get_image ptr, i]))
      (ForeachAssembly.newAssemblyIl2Cpp host api s ptr).1 := by
  obtain ⟨fn, hfn⟩ := Option.ne_none_iff_exists'.1
    (hh.image_file (api.assembly_get_image ptr))
  obtain ⟨n, hn⟩ := Option.ne_none_iff_exists'.1 (hh.image_name (api.assembly_get_image ptr))
  unfold ForeachAssembly.newAssemblyIl2Cpp
  simp only [InvokeAs_walk _ host Mode.Il2Cpp _ _ _ _ hexp, walkNames, List.mem_cons,
    List.mem_singleton, String.reduceEq, or_true, true_or, or_false, false_or, hfn, hn]
  generalize hS : (InvokeAs none host _ "il2cpp_image_get_name" _ _).2 = S
  have hSm : S.mode_ = Mode.Il2Cpp := by rw [← hS]; simp only [InvokeAs_mode]; exact hmode
  have hSr : Requests address T S := by
    rw [← hS]
    exact InvokeAs_requests _ _ _ _ _ _ hhost (by decide)
      (InvokeAs_requests _ _ _ _ _ _ hhost (by decide)
        (InvokeAs_requests _ _ _ _ _ _ hhost (by decide) h))
  have hc := ForeachClass_requests host api hhost h0 hexp hh S
    { address := ptr, name := n, file := fn } (api.assembly_get_image ptr) hSm hSr
  rcases hFC : ForeachClass host api S
    { address := ptr, name := n, file := fn } (api.assembly_get_image ptr) with ⟨a1, s1, e⟩
  rw [hFC] at hc
  exact hc

theorem assemblyLoopIl2Cpp_requests {address : Nat} (host : Host) (api : Api)
    (hhost : ClassEntry host address) (h0 : address ≠ 0)
    (hexp : exportsWalk host Mode.Il2Cpp) (hh : Healthy api) :
    ∀ (ptrs : List Nat) (s : State) (T : List (List Nat)), s.mode_ = Mode.Il2Cpp →
      Requests address T s →
      Requests address
        (T ++ (ptrs.filter (fun p => decide (p ≠ 0))).flatMap (fun p =>
          (List.range (api.image_get_class_count (api.assembly_get_image p)).toNat).map
            (fun i => [api.assembly_get_image p, i])))
        (ForeachAssembly.loopIl2Cpp host api ptrs s).1 := by
  intro ptrs
  induction ptrs with
  | nil =>
    intro s T _ h
    simpa [ForeachAssembly.loopIl2Cpp] using h
  | cons ptr rest ih =>
    intro s T hmode h
    unfold ForeachAssembly.loopIl2Cpp
    by_cases hp : ptr = 0
    · rw [if_pos hp]
      have hrest := ih s T hmode h
      simpa [hp] using hrest
    · rw [if_neg hp]
      obtain ⟨a, _, hfault, hm, _⟩ := newAssemblyIl2Cpp_healthy host api s ptr hexp hh hmode
      have hnew := newAssemblyIl2Cpp_requests host api hhost h0 hexp hh s ptr hmode h
      rcases hN : ForeachAssembly.newAssemblyIl2Cpp host api s ptr with ⟨s1, e⟩
      rw [hN] at hfault hm hnew
      simp only at hfault hm hnew
      subst hfault
      simp only
      have hrest := ih s1 _ hm hnew
      rw [List.filter_cons_of_pos (by simpa using hp), List.flatMap_cons, ← List.append_assoc]
      exact hrest

/-- At a healthy host that exports the walk, with `il2cpp_image_get_class` at an
address of its own, `Init` in Il2Cpp mode calls that entry point once per class
index of each image, in ascending order, image by image in the order of the
non-null assemblies, and makes no other call through that address. -/
theorem Init_Il2Cpp_requests {T : List (List Nat)} {address : Nat} (host : Host) (api : Api)
    (hhost : ClassEntry host address) (hexp : exportsWalk host Mode.Il2Cpp) (hh : Healthy api)
    (s : State) (hmodule : Nat) (h : Requests address T s) :
    callsThrough address (Init host api s hmodule Mode.Il2Cpp).1.trace =
      T ++ (api.assemblies.filter (fun p => decide (p ≠ 0))).flatMap (fun p =>
        (List.range (api.image_get_class_count (api.assembly_get_image p)).toNat).map
          (fun i => [api.assembly_get_image p, i])) := by
  have h0 : address ≠ 0 := by
    intro hz
    have hx := (hhost [] 0 "il2cpp_image_get_class").2 rfl
    rw [hz] at hx
    exact hexp "il2cpp_image_get_class" (by simp [walkNames]) [] 0 hx
  have hstart : Requests address T { s with mode_ := Mode.Il2Cpp, hmodule_ := hmodule } := h
  have hd : ∀ (S : State) (v : Nat), Requests address T S →
      Requests address T { S with pDomain := v } := fun _ _ hS => hS
  unfold Init
  simp only [if_true]
  generalize hS : (InvokeAs 0 host _ "il2cpp_thread_attach" _ _).2 = S
  have hSm : S.mode_ = Mode.Il2Cpp := by rw [← hS]; simp only [InvokeAs_mode]
  have hSr : Requests address T S := by
    rw [← hS]
    exact InvokeAs_requests _ _ _ _ _ _ hhost (by decide)
      (hd _ _ (InvokeAs_requests _ _ _ _ _ _ hhost (by decide) hstart))
  unfold ForeachAssembly
  rw [if_pos hSm]
  simp only [InvokeAs_walk _ host Mode.Il2Cpp _ _ _ _ hexp, walkNames, List.mem_cons,
    List.mem_singleton, String.reduceEq, or_true, true_or, or_false, false_or]
  exact (assemblyLoopIl2Cpp_requests host api hhost h0 hexp hh api.assemblies _ T
    (by rw [InvokeAs_mode]; exact hSm)
    (InvokeAs_requests _ _ _ _ _ _ hhost (by decide) hSr)).2

/-- The host `fixIndexHost` has `il2cpp_image_get_class` at 5000 and every other
name elsewhere. -/
theorem fixIndexHost_entry : ClassEntry fixIndexHost 5000 := by
  intro trace hmodule name
  show (if name = "il2cpp_image_get_class" then 5000 else 4096) = 5000 ↔ _
  by_cases h : name = "il2cpp_image_get_class"
  · simp [h]
  · simp [h]

/-- The name-to-address map of the initial state holds no entry. -/
theorem initialState_cache (address : Nat) (name : String) (value : Nat)
    (h : initialState.address_ name = some value) (_ : value ≠ 0) :
    value = address ↔ name = "il2cpp_image_get_class" := by
  cases h

set_option maxRecDepth 8192 in
/-- C25 as stated fails: in Il2Cpp mode no handler surrounds the walk, so a fault
ends it.  At a host that exports every name and reports the assemblies 100,
null, 101 and, for image 200, the classes 300, null, 310, where the name of the
first field of class 300 is null, the exception leaves `Init` during the first
class: only the class index 0 is requested, and the catalog holds the assembly
100 with the class 300 alone. -/
theorem Init_Il2Cpp_fault_truncates_walk :
    fixNullFieldApi.assemblies = [100, 0, 101] ∧
      fixNullFieldApi.assembly_get_image 100 = 200 ∧
      fixNullFieldApi.image_get_class_count 200 = 3 ∧
      (List.range 3).map (fixNullFieldApi.image_get_class 200) = [300, 0, 310] ∧
      fixNullFieldApi.class_get_fields 300 = [400, 401] ∧
      fixNullFieldApi.field_get_name 400 = none ∧
      (Init fixIndexHost fixNullFieldApi initialState 1 Mode.Il2Cpp).2 = some Fault.thrown ∧
      callsThrough 5000 (Init fixIndexHost fixNullFieldApi initialState 1 Mode.Il2Cpp).1.trace =
        [[200, 0]] ∧
      (Init fixIndexHost fixNullFieldApi initialState 1 Mode.Il2Cpp).1.assembly.map
          (fun a => (a.address, a.classes.map (fun c => c.address))) = [(100, [300])] := by
  decide

/-- C25, amended: in Il2Cpp mode, at a healthy host that exports the walk and has
`il2cpp_image_get_class` at an address of its own, from a state whose
name-to-address map agrees with that, `Init` raises no fault and appends to the
catalog the non-null entries of the assembly array in index order; the class
list of each appended assembly holds the non-null classes of its image for the
indices `0` to `count - 1` in ascending order, so a null entry is skipped
without any effect on the later indices; and the calls `Init` makes through the
address of `il2cpp_image_get_class` are, assembly by assembly in that order, one
call per index `0` to `count - 1` of the image, in ascending order. -/
theorem Init_Il2Cpp_index_counted (host : Host) (api : Api) (s : State)
    (hmodule address : Nat) (hexp : exportsWalk host Mode.Il2Cpp) (hh : Healthy api)
    (hentry : ClassEntry host address)
    (hcache : ∀ name value, s.address_ name = some value → value ≠ 0 →
      (value = address ↔ name = "il2cpp_image_get_class")) :
    ∃ added, (Init host api s hmodule Mode.Il2Cpp).1.assembly = s.assembly ++ added ∧
      (Init host api s hmodule Mode.Il2Cpp).2 = none ∧
      added.map (fun a => a.address) = api.assemblies.filter (fun p => decide (p ≠ 0)) ∧
      (∀ a ∈ added, a.classes.map (fun c => c.address) =
        ((List.range (api.image_get_class_count (api.assembly_get_image a.address)).toNat).map
          (fun i => api.image_get_class (api.assembly_get_image a.address) i)).filter
          (fun p => decide (p ≠ 0))) ∧
      callsThrough address (Init host api s hmodule Mode.Il2Cpp).1.trace =
        callsThrough address s.trace ++
          (api.assemblies.filter (fun p => decide (p ≠ 0))).flatMap (fun p =>
            (List.range (api.image_get_class_count (api.assembly_get_image p)).toNat).map
              (fun i => [api.assembly_get_image p, i])) := by
  obtain ⟨added, h1, h2, h3, h4⟩ := Init_healthy host api s hmodule Mode.Il2Cpp hexp hh
  exact ⟨added, h1, h2, h3, fun a ha => (h4 a ha).2.1,
    Init_Il2Cpp_requests host api hentry hexp hh s hmodule ⟨hcache, rfl⟩⟩

set_option maxRecDepth 8192 in
/-- The amended C25 at the host of `fixMergeApi`, whose assembly array is
`[100, 0, 101]` and whose image 200 has the classes 300, null, 310 at the
indices 0, 1, 2: the class entry point is called once per index, in ascending
order, and the catalog holds the assemblies 100 and 101 and, in the first, the
classes 300 and 310. -/
theorem Init_Il2Cpp_index_counted_witness :
    exportsWalk fixIndexHost Mode.Il2Cpp ∧ Healthy fixMergeApi ∧
      ClassEntry fixIndexHost 5000 ∧
      (∀ name value, initialState.address_ name = some value → value ≠ 0 →
        (value = 5000 ↔ name = "il2cpp_image_get_class")) ∧
      (∃ added, (Init fixIndexHost fixMergeApi initialState 1 Mode.Il2Cpp).1.assembly =
          initialState.assembly ++ added ∧
        (Init fixIndexHost fixMergeApi initialState 1 Mode.Il2Cpp).2 = none ∧
        added.map (fun a => a.address) =
          fixMergeApi.assemblies.filter (fun p => decide (p ≠ 0)) ∧
        (∀ a ∈ added, a.classes.map (fun c => c.address) =
          ((List.range (fixMergeApi.image_get_class_count
              (fixMergeApi.assembly_get_image a.address)).toNat).map
            (fun i => fixMergeApi.image_get_class
              (fixMergeApi.assembly_get_image a.address) i)).filter
            (fun p => decide (p ≠ 0))) ∧
        callsThrough 5000 (Init fixIndexHost fixMergeApi initialState 1 Mode.Il2Cpp).1.trace =
          callsThrough 5000 initialState.trace ++
            (fixMergeApi.assemblies.filter (fun p => decide (p ≠ 0))).flatMap (fun p =>
              (List.range (fixMergeApi.image_get_class_count
                (fixMergeApi.assembly_get_image p)).toNat).map
                (fun i => [fixMergeApi.assembly_get_image p, i]))) ∧
      callsThrough 5000 (Init fixIndexHost fixMergeApi initialState 1 Mode.Il2Cpp).1.trace =
        [[200, 0], [200, 1], [200, 2]] ∧
      (Init fixIndexHost fixMergeApi initialState 1 Mode.Il2Cpp).1.assembly.map
          (fun a => (a.address, a.classes.map (fun c => c.address))) =
        [(100, [300, 310]), (101, [])] :=
  ⟨fixIndexHost_exportsWalk Mode.Il2Cpp, fixMergeApi_healthy, fixIndexHost_entry,
    initialState_cache 5000,
    Init_Il2Cpp_index_counted fixIndexHost fixMergeApi initialState 1 5000
      (fixIndexHost_exportsWalk Mode.Il2Cpp) fixMergeApi_healthy fixIndexHost_entry
      (initialState_cache 5000),
    by decide, by decide⟩

/-! ## Method flags -/

/-- Every method in the list after the Il2Cpp loop was there before or was made
by `newMethodIl2Cpp` for this class. -/
theorem loopIl2Cpp_methods (host : Host) (api : Api) (klass pKlass : Nat) :
    ∀ (answers : List Nat) (c : Class) (s : State) (m : Method),
      m ∈ (ForeachMethod.loopIl2Cpp host api klass pKlass answers c s).1.methods →
      m ∈ c.methods ∨
        ∃ s0 method, (ForeachMethod.newMethodIl2Cpp host api s0 klass method).1 = some m := by
  intro answers
  induction answers with
  | nil => intro c s m h; exact Or.inl h
  | cons answer rest ih =>
    intro c s m h
    unfold ForeachMethod.loopIl2Cpp at h
    simp only at h
    split at h
    · exact Or.inl h
    · split at h
      · exact ih _ _ m h
      · exact Or.inl h
      · next pMethod s1 hnew =>
        rcases ih _ _ m h with hmem | hex
        · simp only [List.mem_append, List.mem_singleton] at hmem
          rcases hmem with hmem | hmem
          · exact Or.inl hmem
          · exact Or.inr ⟨_, _, by rw [hnew, hmem]⟩
        · exact Or.inr hex
      · next pMethod s1 e hnew =>
        simp only [List.mem_append, List.mem_singleton] at h
        rcases h with hmem | hmem
        · exact Or.inl hmem
        · exact Or.inr ⟨_, _, by rw [hnew, hmem]⟩

/-- Every method in the list after the Mono loop was there before or was made
by `newMethodMono` for this class. -/
theorem loopMono_methods (host : Host) (api : Api) (klass pKlass : Nat) :
    ∀ (answers : List Nat) (c : Class) (s : State) (m : Method),
      m ∈ (ForeachMethod.loopMono host api klass pKlass answers c s).1.methods →
      m ∈ c.methods ∨
        ∃ s0 method, (ForeachMethod.newMethodMono host api s0 klass method).1 = some m := by
  intro answers
  induction answers with
  | nil => intro c s m h; exact Or.inl h
  | cons answer rest ih =>
    intro c s m h
    unfold ForeachMethod.loopMono at h
    simp only at h
    split at h
    · exact Or.inl h
    · split at h
      · exact ih _ _ m h
      · exact Or.inl h
      · next pMethod s1 hnew =>
        rcases ih _ _ m h with hmem | hex
        · simp only [List.mem_append, List.mem_singleton] at hmem
          rcases hmem with hmem | hmem
          · exact Or.inl hmem
          · exact Or.inr ⟨_, _, by rw [hnew, hmem]⟩
        · exact Or.inr hex
      · next pMethod s1 e hnew =>
        simp only [List.mem_append, List.mem_singleton] at h
        rcases h with hmem | hmem
        · exact Or.inl hmem
        · exact Or.inr ⟨_, _, by rw [hnew, hmem]⟩

/-- C26: a method `ForeachMethod` appends, under either backend, has
`static_function` true exactly when bit `0x10` of its stored flags is set, and
at a host that exports the flags entry point of the mode its stored flags are
the flags the host answers for the method handle. -/
theorem ForeachMethod_flags (host : Host) (api : Api) (s : State) (klass : Nat) (c : Class)
    (pKlass : Nat) (m : Method)
    (hm : m ∈ (ForeachMethod host api s klass c pKlass).1.methods) (hnew : m ∉ c.methods) :
    (m.static_function = true ↔ Int.land m.flags 0x10 ≠ 0) ∧
      (s.mode_ = Mode.Il2Cpp →
        (∀ trace hmodule, host.GetProcAddress trace hmodule "il2cpp_method_get_flags" ≠ 0) →
        m.flags = api.method_get_flags m.address) ∧
      (s.mode_ = Mode.Mono →
        (∀ trace hmodule, host.GetProcAddress trace hmodule "mono_method_get_flags" ≠ 0) →
        m.flags = api.method_get_flags m.address) := by
  unfold ForeachMethod at hm
  cases hmode : s.mode_ with
  | Il2Cpp =>
    rw [hmode] at hm
    simp only [if_true] at hm
    rcases loopIl2Cpp_methods host api klass pKlass _ c s m hm with hold | ⟨s0, method, hmade⟩
    · exact absurd hold hnew
    · obtain ⟨ha, _, hs, hf⟩ := newMethodIl2Cpp_some host api s0 klass method m hmade
      refine ⟨(by rw [hs]; simp), (fun _ hexp => by rw [ha]; exact hf hexp), (fun h => by cases h)⟩
  | Mono =>
    rw [hmode] at hm
    simp only [reduceCtorEq, if_false] at hm
    rcases loopMono_methods host api klass pKlass _ c s m hm with hold | ⟨s0, method, hmade⟩
    · exact absurd hold hnew
    · obtain ⟨ha, _, hs, hf⟩ := newMethodMono_some host api s0 klass method m hmade
      refine ⟨(by rw [hs]; simp), (fun h => by cases h), (fun _ hexp => by rw [ha]; exact hf hexp)⟩

/-- C26 in Mono mode at the host of `fixMergeApi`: the method `Run` of `Foo`,
whose flags are `0x16`, walked into an empty class. -/
theorem ForeachMethod_flags_witness :
    fixRunMono ∈ (ForeachMethod fixFullHost fixMergeApi fixMonoState 1 {} 300).1.methods ∧
      fixRunMono ∉ ({} : Class).methods ∧
      ((fixRunMono.static_function = true ↔ Int.land fixRunMono.flags 0x10 ≠ 0) ∧
        (fixMonoState.mode_ = Mode.Il2Cpp →
          (∀ trace hmodule,
            fixFullHost.GetProcAddress trace hmodule "il2cpp_method_get_flags" ≠ 0) →
          fixRunMono.flags = fixMergeApi.method_get_flags fixRunMono.address) ∧
        (fixMonoState.mode_ = Mode.Mono →
          (∀ trace hmodule,
            fixFullHost.GetProcAddress trace hmodule "mono_method_get_flags" ≠ 0) →
          fixRunMono.flags = fixMergeApi.method_get_flags fixRunMono.address)) :=
  ⟨by decide, by decide,
    ForeachMethod_flags fixFullHost fixMergeApi fixMonoState 1 {} 300 fixRunMono (by decide)
      (by decide)⟩

/-! ## The addresses of the class objects -/

theorem InvokeAs_allocated {R : Type} (dflt : R) (host : Host) (s : State) (funcName : String)
    (args : List Nat) (answer : Option R) :
    (InvokeAs dflt host s funcName args answer).2.allocated = s.allocated :=
  (InvokeAs_frame dflt host s funcName args answer).2.2.1


/-- The state after one class of the Il2Cpp branch counts the class object that
was allocated for it. -/
theorem newClassIl2Cpp_bumps (host : Host) (api : Api) (s : State) (pClass : Nat) :
    Keeps { s with allocated := s.allocated + 1 }
      (ForeachClass.newClassIl2Cpp host api s pClass).2.1 := by
  have h : Keeps { s with allocated := s.allocated + 1 }
      { s with allocated := s.allocated + 1 } := Keeps.keeps_refl _
  unfold ForeachClass.newClassIl2Cpp
  simp only
  split
  · repeat' (first | with_reducible exact h | with_reducible apply InvokeAs_keeps)
  · split
    · repeat' (first | with_reducible exact h | with_reducible apply InvokeAs_keeps | split)
    · split
      · repeat' (first | with_reducible exact h | with_reducible apply InvokeAs_keeps | split)
      · split
        · next heq =>
          refine ForeachFields_keeps_eq host api heq ?_
          repeat' (first | with_reducible exact h | with_reducible apply InvokeAs_keeps | split)
        · next heq =>
          have hf : Keeps { s with allocated := s.allocated + 1 } _ :=
            ForeachFields_keeps_eq host api heq (by
              repeat' (first | with_reducible exact h | with_reducible apply InvokeAs_keeps | split))
          split
          · next heq2 => exact ForeachMethod_keeps_eq host api heq2 hf
          · next heq2 =>
            exact interfacesIl2Cpp_keeps host api _ _ _ _ _
              (ForeachMethod_keeps_eq host api heq2 hf)

/-- The state after one class of the Mono branch counts the class object that
was allocated for it. -/
theorem newClassMono_bumps (host : Host) (api : Api) (s : State) (pClass : Nat) :
    Keeps { s with allocated := s.allocated + 1 }
      (ForeachClass.newClassMono host api s pClass).2.1 := by
  have h : Keeps { s with allocated := s.allocated + 1 }
      { s with allocated := s.allocated + 1 } := Keeps.keeps_refl _
  unfold ForeachClass.newClassMono
  simp only
  split
  · repeat' (first | with_reducible exact h | with_reducible apply InvokeAs_keeps)
  · split
    · repeat' (first | with_reducible exact h | with_reducible apply InvokeAs_keeps | split)
    · split
      · repeat' (first | with_reducible exact h | with_reducible apply InvokeAs_keeps | split)
      · split
        · next heq =>
          refine ForeachFields_keeps_eq host api heq ?_
          repeat' (first | with_reducible exact h | with_reducible apply InvokeAs_keeps | split)
        · next heq =>
          have hf : Keeps { s with allocated := s.allocated + 1 } _ :=
            ForeachFields_keeps_eq host api heq (by
              repeat' (first | with_reducible exact h | with_reducible apply InvokeAs_keeps | split))
          split
          · next heq2 => exact ForeachMethod_keeps_eq host api heq2 hf
          · next heq2 =>
            exact interfacesMono_keeps host api _ _ _ _ _
              (ForeachMethod_keeps_eq host api heq2 hf)

/-- The classes the class loop of the Il2Cpp branch appends have the addresses
of their catalog objects in strictly increasing order, all above the count of
objects allocated before the loop and at most the count after it. -/
theorem classLoopIl2Cpp_selves (host : Host) (api : Api) (image : Nat) :
    ∀ (indices : List Nat) (a : Assembly) (s : State),
      ∃ added, (ForeachClass.loopIl2Cpp host api image indices a s).1 =
          { a with classes := a.classes ++ added } ∧
        added.Pairwise (fun c1 c2 => c1.self < c2.self) ∧
        ∀ c ∈ added, s.allocated < c.self ∧
          c.self ≤ (ForeachClass.loopIl2Cpp host api image indices a s).2.1.allocated := by
  intro indices
  induction indices with
  | nil =>
    intro a s
    exact ⟨[], (by unfold ForeachClass.loopIl2Cpp; exact (Assembly.classes_append_nil a).symm),
      List.Pairwise.nil, fun _ h => nomatch h⟩
  | cons i rest ih =>
    intro a s
    have hS : (InvokeAs 0 host s "il2cpp_image_get_class" [image, i] (some (api.image_get_class image i))).2.allocated =
        s.allocated := (InvokeAs_frame _ _ _ _ _ _).2.2.1
    unfold ForeachClass.loopIl2Cpp
    simp only
    split
    · obtain ⟨added, h1, h2, h3⟩ := ih a
        (InvokeAs 0 host s "il2cpp_image_get_class" [image, i] (some (api.image_get_class image i))).2
      exact ⟨added, h1, h2, fun c hc => ⟨by rw [← hS]; exact (h3 c hc).1, (h3 c hc).2⟩⟩
    · have hk := newClassIl2Cpp_bumps host api
        (InvokeAs 0 host s "il2cpp_image_get_class" [image, i] (some (api.image_get_class image i))).2
        (InvokeAs 0 host s "il2cpp_image_get_class" [image, i] (some (api.image_get_class image i))).1
      have hb := hk.allocated
      simp only [hS] at hb
      split
      · next s1 heq =>
        rw [heq] at hb
        simp only at hb
        obtain ⟨added, h1, h2, h3⟩ := ih a s1
        exact ⟨added, h1, h2, fun c hc => ⟨by have := (h3 c hc).1; omega, (h3 c hc).2⟩⟩
      · exact ⟨[], (Assembly.classes_append_nil a).symm, List.Pairwise.nil,
          fun _ h => nomatch h⟩
      · next pAClass s1 heq =>
        have hself := (newClassIl2Cpp_made host api _ _ pAClass (by rw [heq])).1
        rw [hS] at hself
        rw [heq] at hb
        simp only at hb
        obtain ⟨added, h1, h2, h3⟩ := ih { a with classes := a.classes ++ [pAClass] } s1
        have hmono := (classLoopIl2Cpp_keeps host api image rest
          { a with classes := a.classes ++ [pAClass] } s1 (Keeps.keeps_refl s1)).allocated
        refine ⟨pAClass :: added, ?_, ?_, ?_⟩
        · rw [h1]
          simp
        · refine List.Pairwise.cons ?_ h2
          intro c hc
          have := (h3 c hc).1
          omega
        · intro c hc
          rcases List.mem_cons.1 hc with hc | hc
          · subst hc
            exact ⟨by omega, by omega⟩
          · exact ⟨by have := (h3 c hc).1; omega, (h3 c hc).2⟩
      · next pAClass s1 e heq =>
        have hself := (newClassIl2Cpp_made host api _ _ pAClass (by rw [heq])).1
        rw [hS] at hself
        rw [heq] at hb
        simp only at hb
        refine ⟨[pAClass], rfl, List.pairwise_singleton _ _, ?_⟩
        intro c hc
        rw [List.mem_singleton] at hc
        subst hc
        exact ⟨by omega, by simp only; omega⟩

/-- The classes the class loop of the Mono branch appends have the addresses
of their catalog objects in strictly increasing order, all above the count of
objects allocated before the loop and at most the count after it. -/
theorem classLoopMono_selves (host : Host) (api : Api) (image : Nat) :
    ∀ (indices : List Nat) (a : Assembly) (s : State),
      ∃ added, (ForeachClass.loopMono host api image indices a s).1 =
          { a with classes := a.classes ++ added } ∧
        added.Pairwise (fun c1 c2 => c1.self < c2.self) ∧
        ∀ c ∈ added, s.allocated < c.self ∧
          c.self ≤ (ForeachClass.loopMono host api image indices a s).2.1.allocated := by
  intro indices
  induction indices with
  | nil =>
    intro a s
    exact ⟨[], (by unfold ForeachClass.loopMono; exact (Assembly.classes_append_nil a).symm),
      List.Pairwise.nil, fun _ h => nomatch h⟩
  | cons i rest ih =>
    intro a s
    have hS : (InvokeAs 0 host s "mono_class_get" [image, 0x02000000 ||| (i + 1)] (some (api.class_get image (0x02000000 ||| (i + 1))))).2.allocated =
        s.allocated := (InvokeAs_frame _ _ _ _ _ _).2.2.1
    unfold ForeachClass.loopMono
    simp only
    split
    · obtain ⟨added, h1, h2, h3⟩ := ih a
        (InvokeAs 0 host s "mono_class_get" [image, 0x02000000 ||| (i + 1)] (some (api.class_get image (0x02000000 ||| (i + 1))))).2
      exact ⟨added, h1, h2, fun c hc => ⟨by rw [← hS]; exact (h3 c hc).1, (h3 c hc).2⟩⟩
    · have hk := newClassMono_bumps host api
        (InvokeAs 0 host s "mono_class_get" [image, 0x02000000 ||| (i + 1)] (some (api.class_get image (0x02000000 ||| (i + 1))))).2
        (InvokeAs 0 host s "mono_class_get" [image, 0x02000000 ||| (i + 1)] (some (api.class_get image (0x02000000 ||| (i + 1))))).1
      have hb := hk.allocated
      simp only [hS] at hb
      split
      · next s1 heq =>
        rw [heq] at hb
        simp only at hb
        obtain ⟨added, h1, h2, h3⟩ := ih a s1
        exact ⟨added, h1, h2, fun c hc => ⟨by have := (h3 c hc).1; omega, (h3 c hc).2⟩⟩
      · exact ⟨[], (Assembly.classes_append_nil a).symm, List.Pairwise.nil,
          fun _ h => nomatch h⟩
      · next pAClass s1 heq =>
        have hself := (newClassMono_made host api _ _ pAClass (by rw [heq])).1
        rw [hS] at hself
        rw [heq] at hb
        simp only at hb
        obtain ⟨added, h1, h2, h3⟩ := ih { a with classes := a.classes ++ [pAClass] } s1
        have hmono := (classLoopMono_keeps host api image rest
          { a with classes := a.classes ++ [pAClass] } s1 (Keeps.keeps_refl s1)).allocated
        refine ⟨pAClass :: added, ?_, ?_, ?_⟩
        · rw [h1]
          simp
        · refine List.Pairwise.cons ?_ h2
          intro c hc
          have := (h3 c hc).1
          omega
        · intro c hc
          rcases List.mem_cons.1 hc with hc | hc
          · subst hc
            exact ⟨by omega, by omega⟩
          · exact ⟨by have := (h3 c hc).1; omega, (h3 c hc).2⟩
      · next pAClass s1 e heq =>
        have hself := (newClassMono_made host api _ _ pAClass (by rw [heq])).1
        rw [hS] at hself
        rw [heq] at hb
        simp only at hb
        refine ⟨[pAClass], rfl, List.pairwise_singleton _ _, ?_⟩
        intro c hc
        rw [List.mem_singleton] at hc
        subst hc
        exact ⟨by omega, by simp only; omega⟩

theorem ForeachClass_selves (host : Host) (api : Api) (s : State) (a : Assembly) (image : Nat) :
    ∃ added, (ForeachClass host api s a image).1 = { a with classes := a.classes ++ added } ∧
      added.Pairwise (fun c1 c2 => c1.self < c2.self) ∧
      ∀ c ∈ added, s.allocated < c.self ∧
        c.self ≤ (ForeachClass host api s a image).2.1.allocated := by
  unfold ForeachClass
  split
  · obtain ⟨added, h1, h2, h3⟩ := classLoopIl2Cpp_selves host api image
      (List.range (InvokeAs (0 : Int) host s "il2cpp_image_get_class_count" [image]
        (some (api.image_get_class_count image))).1.toNat) a
      (InvokeAs (0 : Int) host s "il2cpp_image_get_class_count" [image]
        (some (api.image_get_class_count image))).2
    have hS : (InvokeAs (0 : Int) host s "il2cpp_image_get_class_count" [image]
        (some (api.image_get_class_count image))).2.allocated = s.allocated :=
      (InvokeAs_frame _ _ _ _ _ _).2.2.1
    exact ⟨added, h1, h2, fun c hc => ⟨by rw [← hS]; exact (h3 c hc).1, (h3 c hc).2⟩⟩
  · simp only
    generalize hS : (InvokeAs (0 : Int) host _ "mono_table_info_get_rows" _ _).2 = S
    generalize (InvokeAs (0 : Int) host _ "mono_table_info_get_rows" _ _).1 = count
    have hSa : S.allocated = s.allocated := by
      rw [← hS]
      simp only [(InvokeAs_frame _ _ _ _ _ _).2.2.1]
    obtain ⟨added, h1, h2, h3⟩ := classLoopMono_selves host api image
      (List.range count.toNat) a S
    exact ⟨added, h1, h2, fun c hc => ⟨by rw [← hSa]; exact (h3 c hc).1, (h3 c hc).2⟩⟩


/-- The classes of the assembly one step of the Il2Cpp branch appends have the
addresses of their catalog objects in strictly increasing order, above the
count of objects allocated before and at most the count after. -/
theorem newAssemblyIl2Cpp_selves (host : Host) (api : Api) (s : State) (ptr : Nat) :
    ∃ added, (ForeachAssembly.newAssemblyIl2Cpp host api s ptr).1.assembly =
        s.assembly ++ added ∧
      (added.flatMap (fun a => a.classes)).Pairwise (fun c1 c2 => c1.self < c2.self) ∧
      ∀ c ∈ added.flatMap (fun a => a.classes), s.allocated < c.self ∧
        c.self ≤ (ForeachAssembly.newAssemblyIl2Cpp host api s ptr).1.allocated := by
  unfold ForeachAssembly.newAssemblyIl2Cpp
  simp only
  split
  · exact ⟨[], (by simp only [InvokeAs_assembly, List.append_nil]), List.Pairwise.nil,
      fun _ h => nomatch h⟩
  · next fileName hfile =>
    split
    · exact ⟨[], (by simp only [InvokeAs_assembly, List.append_nil]), List.Pairwise.nil,
        fun _ h => nomatch h⟩
    · next imageName hname =>
      generalize hS : (InvokeAs none host _ "il2cpp_image_get_name" _ _).2 = S
      have hSk : Keeps s S := by
        rw [← hS]
        exact InvokeAs_keeps _ _ _ _ _ _
          (InvokeAs_keeps _ _ _ _ _ _ (InvokeAs_keeps _ _ _ _ _ _ (Keeps.keeps_refl s)))
      have hSa : S.allocated = s.allocated := by
        rw [← hS]
        simp only [InvokeAs_allocated]
      obtain ⟨classes, h1, h2, h3⟩ := ForeachClass_selves host api S
        { address := ptr, name := imageName, file := fileName }
        (InvokeAs 0 host s "il2cpp_assembly_get_image" [ptr]
          (some (api.assembly_get_image ptr))).1
      have hk := ForeachClass_keeps host api S
        { address := ptr, name := imageName, file := fileName }
        (InvokeAs 0 host s "il2cpp_assembly_get_image" [ptr]
          (some (api.assembly_get_image ptr))).1 hSk
      rcases hFC : ForeachClass host api S
        { address := ptr, name := imageName, file := fileName }
        (InvokeAs 0 host s "il2cpp_assembly_get_image" [ptr]
          (some (api.assembly_get_image ptr))).1 with ⟨a1, s1, e⟩
      rw [hFC] at h1 h3 hk
      simp only at h1 h3 hk
      subst h1
      have hgoal : ∀ a0 : Assembly, a0.classes = [] ++ classes →
          [a0].flatMap (fun a => a.classes) = classes := by
        intro a0 h0
        simp [h0]
      refine ⟨[_], (by rw [hk.assembly]), (by rw [hgoal _ rfl]; exact h2), ?_⟩
      intro c hc
      rw [hgoal _ rfl] at hc
      exact ⟨by rw [← hSa]; exact (h3 c hc).1, (h3 c hc).2⟩

/-- The classes of the assembly one step of the Mono branch appends have the
addresses of their catalog objects in strictly increasing order, above the
count of objects allocated before and at most the count after. -/
theorem newAssemblyMono_selves (host : Host) (api : Api) (s : State) (ptr : Nat) :
    ∃ added, (ForeachAssembly.newAssemblyMono host api s ptr).1.assembly =
        s.assembly ++ added ∧
      (added.flatMap (fun a => a.classes)).Pairwise (fun c1 c2 => c1.self < c2.self) ∧
      ∀ c ∈ added.flatMap (fun a => a.classes), s.allocated < c.self ∧
        c.self ≤ (ForeachAssembly.newAssemblyMono host api s ptr).1.allocated := by
  unfold ForeachAssembly.newAssemblyMono
  simp only
  split
  · exact ⟨[], (by simp only [InvokeAs_assembly, List.append_nil]), List.Pairwise.nil,
      fun _ h => nomatch h⟩
  · next fileName hfile =>
    split
    · exact ⟨[], (by simp only [InvokeAs_assembly, List.append_nil]), List.Pairwise.nil,
        fun _ h => nomatch h⟩
    · next imageName hname =>
      generalize hS : (InvokeAs none host _ "mono_image_get_name" _ _).2 = S
      have hSk : Keeps s S := by
        rw [← hS]
        exact InvokeAs_keeps _ _ _ _ _ _
          (InvokeAs_keeps _ _ _ _ _ _ (InvokeAs_keeps _ _ _ _ _ _ (Keeps.keeps_refl s)))
      have hSa : S.allocated = s.allocated := by
        rw [← hS]
        simp only [InvokeAs_allocated]
      obtain ⟨classes, h1, h2, h3⟩ := ForeachClass_selves host api S
        { address := ptr, name := imageName ++ ".dll", file := fileName }
        (InvokeAs 0 host s "mono_assembly_get_image" [ptr]
          (some (api.assembly_get_image ptr))).1
      have hk := ForeachClass_keeps host api S
        { address := ptr, name := imageName ++ ".dll", file := fileName }
        (InvokeAs 0 host s "mono_assembly_get_image" [ptr]
          (some (api.assembly_get_image ptr))).1 hSk
      rcases hFC : ForeachClass host api S
        { address := ptr, name := imageName ++ ".dll", file := fileName }
        (InvokeAs 0 host s "mono_assembly_get_image" [ptr]
          (some (api.assembly_get_image ptr))).1 with ⟨a1, s1, e⟩
      rw [hFC] at h1 h3 hk
      simp only at h1 h3 hk
      subst h1
      have hgoal : ∀ a0 : Assembly, a0.classes = [] ++ classes →
          [a0].flatMap (fun a => a.classes) = classes := by
        intro a0 h0
        simp [h0]
      refine ⟨[_], (by rw [hk.assembly]), (by rw [hgoal _ rfl]; exact h2), ?_⟩
      intro c hc
      rw [hgoal _ rfl] at hc
      exact ⟨by rw [← hSa]; exact (h3 c hc).1, (h3 c hc).2⟩

theorem assemblyLoopIl2Cpp_selves (host : Host) (api : Api) :
    ∀ (ptrs : List Nat) (s : State),
      ∃ added, (ForeachAssembly.loopIl2Cpp host api ptrs s).1.assembly = s.assembly ++ added ∧
        (added.flatMap (fun a => a.classes)).Pairwise (fun c1 c2 => c1.self < c2.self) ∧
        ∀ c ∈ added.flatMap (fun a => a.classes), s.allocated < c.self ∧
          c.self ≤ (ForeachAssembly.loopIl2Cpp host api ptrs s).1.allocated := by
  intro ptrs
  induction ptrs with
  | nil =>
    intro s
    exact ⟨[], (by simp [ForeachAssembly.loopIl2Cpp]), List.Pairwise.nil, fun _ h => nomatch h⟩
  | cons ptr rest ih =>
    intro s
    unfold ForeachAssembly.loopIl2Cpp
    split
    · exact ih s
    · obtain ⟨added, h1, h2, h3⟩ := newAssemblyIl2Cpp_selves host api s ptr
      have hg := (newAssemblyIl2Cpp_grows host api s ptr).allocated
      split
      · next s1 e heq =>
        rw [heq] at h1 h3
        exact ⟨added, h1, h2, h3⟩
      · next s1 heq =>
        rw [heq] at h1 h3 hg
        simp only at h1 h3 hg
        obtain ⟨added1, h4, h5, h6⟩ := ih s1
        have hmono := (assemblyLoopIl2Cpp_grows host api rest s1 (Grows.grows_refl s1)).allocated
        refine ⟨added ++ added1, (by rw [h4, h1, List.append_assoc]), ?_, ?_⟩
        · rw [List.flatMap_append, List.pairwise_append]
          refine ⟨h2, h5, ?_⟩
          intro c1 hc1 c2 hc2
          have := (h3 c1 hc1).2
          have := (h6 c2 hc2).1
          omega
        · intro c hc
          rw [List.flatMap_append, List.mem_append] at hc
          rcases hc with hc | hc
          · exact ⟨(h3 c hc).1, le_trans (h3 c hc).2 hmono⟩
          · exact ⟨by have := (h6 c hc).1; omega, (h6 c hc).2⟩

theorem callbackMono_selves (host : Host) (api : Api) :
    ∀ (ptrs : List Nat) (s : State),
      ∃ added, (ForeachAssembly.callbackMono host api ptrs s).1.assembly = s.assembly ++ added ∧
        (added.flatMap (fun a => a.classes)).Pairwise (fun c1 c2 => c1.self < c2.self) ∧
        ∀ c ∈ added.flatMap (fun a => a.classes), s.allocated < c.self ∧
          c.self ≤ (ForeachAssembly.callbackMono host api ptrs s).1.allocated := by
  intro ptrs
  induction ptrs with
  | nil =>
    intro s
    exact ⟨[], (by simp [ForeachAssembly.callbackMono]), List.Pairwise.nil, fun _ h => nomatch h⟩
  | cons ptr rest ih =>
    intro s
    unfold ForeachAssembly.callbackMono
    split
    · exact ih s
    · obtain ⟨added, h1, h2, h3⟩ := newAssemblyMono_selves host api s ptr
      have hg := (newAssemblyMono_grows host api s ptr).allocated
      split
      · next s1 e heq =>
        rw [heq] at h1 h3
        exact ⟨added, h1, h2, h3⟩
      · next s1 heq =>
        rw [heq] at h1 h3 hg
        simp only at h1 h3 hg
        obtain ⟨added1, h4, h5, h6⟩ := ih s1
        have hmono := (callbackMono_grows host api rest s1 (Grows.grows_refl s1)).allocated
        refine ⟨added ++ added1, (by rw [h4, h1, List.append_assoc]), ?_, ?_⟩
        · rw [List.flatMap_append, List.pairwise_append]
          refine ⟨h2, h5, ?_⟩
          intro c1 hc1 c2 hc2
          have := (h3 c1 hc1).2
          have := (h6 c2 hc2).1
          omega
        · intro c hc
          rw [List.flatMap_append, List.mem_append] at hc
          rcases hc with hc | hc
          · exact ⟨(h3 c hc).1, le_trans (h3 c hc).2 hmono⟩
          · exact ⟨by have := (h6 c hc).1; omega, (h6 c hc).2⟩

theorem ForeachAssembly_selves (host : Host) (api : Api) (s : State) :
    ∃ added, (ForeachAssembly host api s).1.assembly = s.assembly ++ added ∧
      (added.flatMap (fun a => a.classes)).Pairwise (fun c1 c2 => c1.self < c2.self) ∧
      ∀ c ∈ added.flatMap (fun a => a.classes), s.allocated < c.self := by
  unfold ForeachAssembly
  split
  · obtain ⟨added, h1, h2, h3⟩ := assemblyLoopIl2Cpp_selves host api
      (InvokeAs [] host s "il2cpp_domain_get_assemblies" [s.pDomain] (some api.assemblies)).1
      (InvokeAs [] host s "il2cpp_domain_get_assemblies" [s.pDomain] (some api.assemblies)).2
    rw [InvokeAs_assembly] at h1
    simp only [InvokeAs_allocated] at h3
    exact ⟨added, h1, h2, fun c hc => (h3 c hc).1⟩
  · simp only
    split
    · obtain ⟨added, h1, h2, h3⟩ := callbackMono_selves host api api.assemblies
        (InvokeAs false host s "mono_assembly_foreach" [] (some true)).2
      rw [InvokeAs_assembly] at h1
      simp only [InvokeAs_allocated] at h3
      exact ⟨added, h1, h2, fun c hc => (h3 c hc).1⟩
    · exact ⟨[], (by simp only [InvokeAs_assembly, List.append_nil]), List.Pairwise.nil,
        fun _ h => nomatch h⟩

/-- Whatever the host does, the classes of the assemblies `Init` appends have
pairwise different catalog objects: their addresses increase strictly in the
order of the catalog and lie above the count of objects allocated before. -/
theorem Init_selves (host : Host) (api : Api) (s : State) (hmodule : Nat) (mode : Mode) :
    ∃ added, (Init host api s hmodule mode).1.assembly = s.assembly ++ added ∧
      (added.flatMap (fun a => a.classes)).Pairwise (fun c1 c2 => c1.self < c2.self) ∧
      ∀ c ∈ added.flatMap (fun a => a.classes), s.allocated < c.self := by
  unfold Init
  cases mode with
  | Il2Cpp =>
    simp only [if_true]
    generalize hS : (InvokeAs 0 host _ "il2cpp_thread_attach" _ _).2 = S
    have hSa : S.assembly = s.assembly := by rw [← hS]; simp only [InvokeAs_assembly]
    have hSn : S.allocated = s.allocated := by rw [← hS]; simp only [InvokeAs_allocated]
    obtain ⟨added, h1, h2, h3⟩ := ForeachAssembly_selves host api S
    rw [hSa] at h1
    rw [hSn] at h3
    exact ⟨added, h1, h2, h3⟩
  | Mono =>
    simp only [reduceCtorEq, if_false]
    generalize hS : (InvokeAs 0 host _ "mono_jit_thread_attach" _ _).2 = S
    have hSa : S.assembly = s.assembly := by rw [← hS]; simp only [InvokeAs_assembly]
    have hSn : S.allocated = s.allocated := by rw [← hS]; simp only [InvokeAs_allocated]
    obtain ⟨added, h1, h2, h3⟩ := ForeachAssembly_selves host api S
    rw [hSa] at h1
    rw [hSn] at h3
    exact ⟨added, h1, h2, h3⟩

/-! ## Assembly names and back-pointers -/

/-- Appending `.dll` changes a name. -/
theorem append_dll_ne (n : String) : n ++ ".dll" ≠ n := by
  intro h
  have hl := congrArg String.length h
  rw [String.length_append] at hl
  have h4 : (".dll" : String).length = 4 := by decide
  omega

/-- C28: whatever the host does, every assembly `Init` appends carries the name
the host reports for an image, unchanged in Il2Cpp mode and with `.dll`
appended in Mono mode; the image is the one of the assembly handle when the
host exports the entry point that gives it.  In Mono mode the name therefore
differs from the image name, and `Get` of the bare image name, when it finds
something, finds another assembly, one that carries that exact name. -/
theorem Init_assembly_names (host : Host) (api : Api) (s : State) (hmodule : Nat)
    (mode : Mode) :
    ∃ added, (Init host api s hmodule mode).1.assembly = s.assembly ++ added ∧
      ∀ a ∈ added, ∃ image imageName, api.image_get_name image = some imageName ∧
        ((∀ trace hmodule, host.GetProcAddress trace hmodule (imageEntry mode) ≠ 0) →
          image = api.assembly_get_image a.address) ∧
        (mode = Mode.Il2Cpp → a.name = imageName) ∧
        (mode = Mode.Mono → a.name = imageName ++ ".dll" ∧ a.name ≠ imageName ∧
          ∀ b, Get (Init host api s hmodule mode).1 imageName = some b →
            b.name = imageName ∧ b ≠ a) := by
  obtain ⟨added, h1, h2⟩ := Init_made host api s hmodule mode
  refine ⟨added, h1, ?_⟩
  intro a ha
  obtain ⟨_, image, imageName, hname, hn, himage⟩ := h2 a ha
  refine ⟨image, imageName, hname, himage, ?_, ?_⟩
  · intro hm
    rw [hn, hm]
    rfl
  · intro hm
    have hdll : a.name = imageName ++ ".dll" := by rw [hn, hm]; rfl
    refine ⟨hdll, by rw [hdll]; exact append_dll_ne imageName, ?_⟩
    intro b hb
    unfold Get at hb
    rw [assemblyLoop_eq_find] at hb
    have hbn : b.name = imageName := by simpa using List.find?_some hb
    refine ⟨hbn, ?_⟩
    intro hab
    rw [hab, hdll] at hbn
    exact append_dll_ne imageName hbn

/-- C28 at the host of `fixMergeApi`: the images are named `Fixture` and
`Other`; the Il2Cpp walk catalogs these names, the Mono walk catalogs
`Fixture.dll` and `Other.dll`, and after it `Get("Fixture")` finds nothing. -/
theorem Init_assembly_names_witness :
    (∃ added, (Init fixFullHost fixMergeApi initialState 1 Mode.Mono).1.assembly =
        initialState.assembly ++ added ∧
      ∀ a ∈ added, ∃ image imageName, fixMergeApi.image_get_name image = some imageName ∧
        ((∀ trace hmodule,
            fixFullHost.GetProcAddress trace hmodule (imageEntry Mode.Mono) ≠ 0) →
          image = fixMergeApi.assembly_get_image a.address) ∧
        (Mode.Mono = Mode.Il2Cpp → a.name = imageName) ∧
        (Mode.Mono = Mode.Mono → a.name = imageName ++ ".dll" ∧ a.name ≠ imageName ∧
          ∀ b, Get (Init fixFullHost fixMergeApi initialState 1 Mode.Mono).1 imageName = some b →
            b.name = imageName ∧ b ≠ a)) ∧
      (Init fixFullHost fixMergeApi initialState 1 Mode.Il2Cpp).1.assembly.map
          (fun a => a.name) = ["Fixture", "Other"] ∧
      (Init fixFullHost fixMergeApi initialState 1 Mode.Mono).1.assembly.map
          (fun a => a.name) = ["Fixture.dll", "Other.dll"] ∧
      Get (Init fixFullHost fixMergeApi initialState 1 Mode.Mono).1 "Fixture" = none :=
  ⟨Init_assembly_names fixFullHost fixMergeApi initialState 1 Mode.Mono, by decide, by decide,
    by decide⟩

/-- C29: whatever the host does, in every class of every assembly `Init`
appends, each field and each method has its `klass` back-pointer equal to the
address of the catalog object of that class; this includes the members made
from the handle of an interface, which are appended to the implementing class
with its address.  The catalog objects of the appended classes are pairwise
different (their addresses increase strictly in catalog order, above every
object allocated before), so a member points at its own class and at no
other. -/
theorem Init_back_references (host : Host) (api : Api) (s : State) (hmodule : Nat)
    (mode : Mode) :
    ∃ added, (Init host api s hmodule mode).1.assembly = s.assembly ++ added ∧
      (∀ a ∈ added, ∀ c ∈ a.classes,
        (∀ f ∈ c.fields, f.klass = c.self) ∧ ∀ m ∈ c.methods, m.klass = c.self) ∧
      (added.flatMap (fun a => a.classes)).Pairwise (fun c1 c2 => c1.self < c2.self) ∧
      ∀ c ∈ added.flatMap (fun a => a.classes), s.allocated < c.self := by
  obtain ⟨added, h1, h2⟩ := Init_made host api s hmodule mode
  obtain ⟨added1, h3, h4, h5⟩ := Init_selves host api s hmodule mode
  have hsame : added1 = added := List.append_cancel_left (h3.symm.trans h1)
  subst hsame
  refine ⟨added1, h1, ?_, h4, h5⟩
  intro a ha c hc
  have hmade := (h2 a ha).1 c hc
  exact ⟨fun f hf => (hmade.1 f hf).field_klass_eq, fun m hm => (hmade.2 m hm).method_klass_eq⟩

/-- C29 at the host of `fixMergeApi` in Il2Cpp mode: the class objects of `Foo`
and `IFoo` are at 1 and 2, and the members of `Foo`, those made from the
interface handle included, all point at 1. -/
theorem Init_back_references_witness :
    (Init fixFullHost fixMergeApi initialState 1 Mode.Il2Cpp).1.assembly.flatMap
        (fun a => a.classes.map (fun c =>
          (c.name, c.self, c.fields.map (fun f => (f.address, f.klass)),
            c.methods.map (fun m => (m.address, m.klass))))) =
      [("Foo", 1, [(400, 1), (410, 1)], [(600, 1), (610, 1)]),
        ("IFoo", 2, [(410, 2)], [(610, 2)])] ∧
      ∃ added, (Init fixFullHost fixMergeApi initialState 1 Mode.Il2Cpp).1.assembly =
          initialState.assembly ++ added ∧
        (∀ a ∈ added, ∀ c ∈ a.classes,
          (∀ f ∈ c.fields, f.klass = c.self) ∧ ∀ m ∈ c.methods, m.klass = c.self) ∧
        (added.flatMap (fun a => a.classes)).Pairwise (fun c1 c2 => c1.self < c2.self) ∧
        ∀ c ∈ added.flatMap (fun a => a.classes), initialState.allocated < c.self :=
  ⟨by decide, Init_back_references fixFullHost fixMergeApi initialState 1 Mode.Il2Cpp⟩

/-! ## `Init` on a catalog that is not empty -/

/-- What `Init` appends at a healthy host, by handle and name, is determined by
the host alone. -/
theorem Init_healthy_keys (host : Host) (api : Api) (s : State) (hmodule : Nat) (mode : Mode)
    (hexp : exportsWalk host mode) (hh : Healthy api) :
    ∃ added, (Init host api s hmodule mode).1.assembly = s.assembly ++ added ∧
      added.map (fun a => a.address) = api.assemblies.filter (fun p => decide (p ≠ 0)) ∧
      added.map (fun a => (a.address, some a.name)) =
        (api.assemblies.filter (fun p => decide (p ≠ 0))).map
          (fun p => (p, (api.image_get_name (api.assembly_get_image p)).map
            (assemblyName mode))) := by
  obtain ⟨added, h1, _, h3, h4⟩ := Init_healthy host api s hmodule mode hexp hh
  refine ⟨added, h1, h3, ?_⟩
  rw [← h3, List.map_map]
  apply List.map_congr_left
  intro a ha
  simp only [Function.comp_apply, (h4 a ha).1]

/-- C30 as stated fails in its last part.  The host `fixLateHost` answers null
for `mono_assembly_foreach` during the first `Init` and exports it afterwards:
the first `Init` in Mono mode appends nothing, the second appends the
assemblies 100 and 101, and after the two calls each assembly is in the catalog
once. -/
theorem Init_twice_after_late_export :
    (Init fixLateHost fixMergeApi initialState 1 Mode.Mono).2 = none ∧
      (Init fixLateHost fixMergeApi initialState 1 Mode.Mono).1.assembly = [] ∧
      (Init fixLateHost fixMergeApi
          (Init fixLateHost fixMergeApi initialState 1 Mode.Mono).1 1 Mode.Mono).2 = none ∧
      (Init fixLateHost fixMergeApi
          (Init fixLateHost fixMergeApi initialState 1 Mode.Mono).1 1 Mode.Mono).1.assembly.map
          (fun a => (a.address, a.name)) = [(100, "Fixture.dll"), (101, "Other.dll")] := by
  decide

/-- C30, amended: whatever the module handle, the mode and the host, the
catalog before `Init` is a prefix of the catalog `Init` leaves, every key of
the name-to-address map is still a key and every non-null entry keeps its
value, and every `Get(name)` that found an assembly before finds the same
assembly after.  At a healthy host that exports the walk, a second `Init`
appends the same assemblies, by handle and name, a second time. -/
theorem Init_only_appends (host : Host) (api : Api) (s : State) (hmodule : Nat) (mode : Mode) :
    (∃ added, (Init host api s hmodule mode).1.assembly = s.assembly ++ added) ∧
      (∀ key, s.address_ key ≠ none → (Init host api s hmodule mode).1.address_ key ≠ none) ∧
      (∀ key address, s.address_ key = some address → address ≠ 0 →
        (Init host api s hmodule mode).1.address_ key = some address) ∧
      (∀ name a, Get s name = some a → Get (Init host api s hmodule mode).1 name = some a) ∧
      (exportsWalk host mode → Healthy api →
        ∃ first second,
          (Init host api (Init host api s hmodule mode).1 hmodule mode).1.assembly =
            s.assembly ++ first ++ second ∧
          first.map (fun a => a.address) = api.assemblies.filter (fun p => decide (p ≠ 0)) ∧
          second.map (fun a => (a.address, a.name)) =
            first.map (fun a => (a.address, a.name))) := by
  have hg := Init_grows host api s hmodule mode
  refine ⟨hg.assembly, hg.present, hg.resolved, ?_, ?_⟩
  · intro name a hget
    obtain ⟨added, h1⟩ := hg.assembly
    unfold Get at hget ⊢
    rw [assemblyLoop_eq_find] at hget ⊢
    rw [h1, List.find?_append, hget]
    rfl
  · intro hexp hh
    obtain ⟨first, h1, ha1, hk1⟩ := Init_healthy_keys host api s hmodule mode hexp hh
    obtain ⟨second, h2, _, hk2⟩ := Init_healthy_keys host api (Init host api s hmodule mode).1
      hmodule mode hexp hh
    refine ⟨first, second, by rw [h2, h1], ha1, ?_⟩
    · have hboth : second.map (fun a => (a.address, some a.name)) =
          first.map (fun a => (a.address, some a.name)) := by rw [hk1, hk2]
      have := congrArg (List.map (fun p : Nat × Option String => (p.1, p.2.getD ""))) hboth
      simpa [List.map_map, Function.comp] using this

set_option maxRecDepth 8192 in
/-- The amended C30 in Mono mode at the host of `fixMergeApi`, from a state that
already holds an assembly `Fixture` and a resolved entry: after one `Init` the
catalog starts with that assembly, and after two it holds the assemblies 100
and 101 twice. -/
theorem Init_only_appends_witness :
    ((∃ added, (Init fixFullHost fixMergeApi fixWarmState 1 Mode.Mono).1.assembly =
          fixWarmState.assembly ++ added) ∧
        (∀ key, fixWarmState.address_ key ≠ none →
          (Init fixFullHost fixMergeApi fixWarmState 1 Mode.Mono).1.address_ key ≠ none) ∧
        (∀ key address, fixWarmState.address_ key = some address → address ≠ 0 →
          (Init fixFullHost fixMergeApi fixWarmState 1 Mode.Mono).1.address_ key =
            some address) ∧
        (∀ name a, Get fixWarmState name = some a →
          Get (Init fixFullHost fixMergeApi fixWarmState 1 Mode.Mono).1 name = some a) ∧
        (exportsWalk fixFullHost Mode.Mono → Healthy fixMergeApi →
          ∃ first second,
            (Init fixFullHost fixMergeApi
                (Init fixFullHost fixMergeApi fixWarmState 1 Mode.Mono).1 1
                Mode.Mono).1.assembly = fixWarmState.assembly ++ first ++ second ∧
            first.map (fun a => a.address) =
              fixMergeApi.assemblies.filter (fun p => decide (p ≠ 0)) ∧
            second.map (fun a => (a.address, a.name)) =
              first.map (fun a => (a.address, a.name)))) ∧
      (Init fixFullHost fixMergeApi
          (Init fixFullHost fixMergeApi fixWarmState 1 Mode.Mono).1 1 Mode.Mono).1.assembly.map
          (fun a => (a.address, a.name)) =
        [(7, "Fixture"), (100, "Fixture.dll"), (101, "Other.dll"), (100, "Fixture.dll"),
          (101, "Other.dll")] ∧
      (Init fixFullHost fixMergeApi fixWarmState 1 Mode.Mono).1.address_ "il2cpp_domain_get" =
        some 4096 :=
  ⟨Init_only_appends fixFullHost fixMergeApi fixWarmState 1 Mode.Mono, by decide, by decide⟩

end UnityResolve
